import Mathlib

/-! # muzuka-c: ring buffers, task queues and locks

A shallow embedding of `src/ring_buffer.h` (`SPSCRingBuffer`),
`src/ring_buffer/dynamic_ring_buffer.h` (`DynamicRingBuffer`),
`src/simple_serial_task_queue.h` (`SimpleSerialTaskQueue`), `src/task_queue.h`
(`TaskQueue`, `SerialTaskQueue`), `src/spinlock_mutex.h` (`SpinlockMutex`) and
`src/mutex/data_mutex.h` (`DataMutex`).

* `size_t` values are natural numbers; every arithmetic operation of the source
  is written with `size_add`, `size_sub`, `size_mul`, which wrap modulo
  `SIZE_MAX + 1`.
* A failed `assert`, a division by zero and a `memcpy` outside an array make the
  function return `none`.
* A `std::vector` that the constructor `std::vector<T>(n)` or `reserve(n)` asks for more
  than `max_size()` elements throws `std::length_error`. The functions that reach such
  a call (the two constructors, `Batch::set_capacity` and `write` of the dynamic
  buffer) return an `Exit`: `returned`, or `length_error`. Nothing in the repository
  catches the exception, so it ends the run. Below that limit the allocation succeeds.
  `Sized` gives the `sizeof` of the element type of a ring buffer.
* `memcpy` copies the value of an element: the element type is bitwise-relocatable, as
  the spec requires of it.
* The two atomic indices of a ring buffer are plain fields: a call runs as one step.
* The task queues and the locks are step relations on a state that holds the fields
  of the class and the place of each thread in its code. A critical section of a
  mutex and an atomic operation are one step; an execution is a list of steps, and a
  step that is not enabled has no result.
* `elementwise_write` and `elementwise_read` are the element-wise modular copies that
  the spec describes; the two-segment copies of the source are compared with them.
-/

set_option maxHeartbeats 1000000

namespace Muzuka

/-! ## Machine integers and assertions -/

/-- The value of `std::numeric_limits<size_t>::max()` on a 64-bit target. -/
def SIZE_MAX : Nat := 18446744073709551615

/-- Addition of two `size_t` values. -/
def size_add (a b : Nat) : Nat := (a + b) % (SIZE_MAX + 1)

/-- Subtraction of two `size_t` values (wraps below zero). -/
def size_sub (a b : Nat) : Nat := (a + (SIZE_MAX + 1) - b % (SIZE_MAX + 1)) % (SIZE_MAX + 1)

/-- Multiplication of two `size_t` values. -/
def size_mul (a b : Nat) : Nat := (a * b) % (SIZE_MAX + 1)

/-- The C `assert(c)`: the program aborts (`none`) when `c` is false. -/
def assert (c : Prop) [Decidable c] : Option Unit := if c then some () else none

/-- The value of `PTRDIFF_MAX` on a 64-bit target. -/
def PTRDIFF_MAX : Nat := 9223372036854775807

/-- How a call ends when no assertion fails: it returns, or a `std::vector` that is
asked for more than `max_size()` elements throws `std::length_error`. -/
inductive Exit (σ : Type) where
  | returned (value : σ)
  | length_error
  deriving DecidableEq, Repr

/-- An element type with its `sizeof(T)`, in bytes. -/
class Sized (α : Type) where
  sizeof : Nat
  pos : 0 < sizeof

/-- The limit `std::vector<T>::max_size()` of the standard library (libstdc++):
`PTRDIFF_MAX / sizeof(T)`. -/
def max_size (α : Type) [Sized α] : Nat := PTRDIFF_MAX / Sized.sizeof α

/-- The natural numbers stand for `unsigned long` elements, of 8 bytes. -/
instance : Sized Nat := ⟨8, by decide⟩

/-! ## `SPSCRingBuffer` (src/ring_buffer.h) -/

/-- The fields of `SPSCRingBuffer<T>`: the array of `capacity + 1` slots and the
two cursors. -/
structure SPSCRingBuffer (α : Type) where
  buffer : List α
  write_index : Nat
  read_index : Nat
  deriving DecidableEq, Repr

namespace SPSCRingBuffer

variable {α : Type}

/-- The constructor `SPSCRingBuffer(size_t capacity)`: the two assertions, then
`buffer = std::vector<T>(capacity + 1)`, which throws `std::length_error` when
`capacity + 1` is above `max_size()`. -/
def new [Inhabited α] [Sized α] (capacity : Nat) : Option (Exit (SPSCRingBuffer α)) := do
  assert (capacity > 0)
  assert (capacity < SIZE_MAX / 2)
  if size_add capacity 1 > max_size α then pure .length_error
  else pure (.returned { buffer := List.replicate (size_add capacity 1) default,
                         write_index := 0, read_index := 0 })

/-- The static `copy(dst, src, elem)`, a `memcpy` of `elem` elements from
`src + src_off` to `dst + dst_off`. The two arrays are distinct objects, so the
overlap assertion of the source holds; a copy that leaves either array is
undefined behaviour and gives `none`. The bytes of an element are its value (a
bitwise-relocatable element type), so the copied elements are equal to the originals. -/
def copy (dst : List α) (dst_off : Nat) (src : List α) (src_off : Nat) (elem : Nat) :
    Option (List α) :=
  if dst_off + elem ≤ dst.length ∧ src_off + elem ≤ src.length then
    some (dst.take dst_off ++ (src.drop src_off).take elem ++ dst.drop (dst_off + elem))
  else none

/-- The method `capacity()`. -/
def capacity (b : SPSCRingBuffer α) : Option Nat := do
  assert (b.buffer.length > 0)
  pure (size_sub b.buffer.length 1)

/-- The method `is_empty(rd_idx, wr_idx)`. -/
def is_empty (_b : SPSCRingBuffer α) (rd_idx wr_idx : Nat) : Bool :=
  wr_idx == rd_idx

/-- The method `is_full(rd_idx, wr_idx)`; the remainder by an empty array's size
is undefined. -/
def is_full (b : SPSCRingBuffer α) (rd_idx wr_idx : Nat) : Option Bool :=
  if b.buffer.length = 0 then none
  else some (size_add wr_idx 1 % b.buffer.length == rd_idx)

/-- The method `readable(rd_idx, wr_idx)`. -/
def readable (b : SPSCRingBuffer α) (rd_idx wr_idx : Nat) : Option Nat := do
  assert (rd_idx < b.buffer.length)
  assert (wr_idx < b.buffer.length)
  if wr_idx ≥ rd_idx then pure (size_sub wr_idx rd_idx)
  else do
    let cap ← b.capacity
    pure (size_sub cap (size_sub (size_sub rd_idx wr_idx) 1))

/-- The method `writable(rd_idx, wr_idx)`. -/
def writable (b : SPSCRingBuffer α) (rd_idx wr_idx : Nat) : Option Nat := do
  let cap ← b.capacity
  let r ← b.readable rd_idx wr_idx
  pure (size_sub cap r)

/-- The method `advance_index(idx, advancement)`. -/
def advance_index (b : SPSCRingBuffer α) (idx advancement : Nat) : Option Nat := do
  assert (idx < b.buffer.length)
  let cap ← b.capacity
  assert (advancement ≤ cap)
  pure (size_add idx advancement % b.buffer.length)

/-- The private `write(const T* data, size_t count)`: `data` is the array the
pointer addresses. Returns the count written and the buffer afterwards. -/
def write_n (b : SPSCRingBuffer α) (data : List α) (count : Nat) :
    Option (Nat × SPSCRingBuffer α) := do
  let rd_idx := b.read_index
  let wr_idx := b.write_index
  let full ← b.is_full rd_idx wr_idx
  if full || count == 0 then pure (0, b)
  else do
    let availables ← b.writable rd_idx wr_idx
    let cap ← b.capacity
    assert (availables > 0 ∧ availables ≤ cap)
    let num := min count availables
    let first_part := min (size_sub b.buffer.length wr_idx) num
    let buf1 ← copy b.buffer wr_idx data 0 first_part
    let second_part := size_sub num first_part
    let buf2 ← copy buf1 0 data first_part second_part
    let b1 : SPSCRingBuffer α := { b with buffer := buf2 }
    let wr ← b1.advance_index wr_idx num
    pure (num, { b1 with write_index := wr })

/-- The private `read(size_t count)`. Returns the values read and the buffer
afterwards. -/
def read_n [Inhabited α] (b : SPSCRingBuffer α) (count : Nat) :
    Option (List α × SPSCRingBuffer α) := do
  let wr_idx := b.write_index
  let rd_idx := b.read_index
  if b.is_empty rd_idx wr_idx || count == 0 then pure ([], b)
  else do
    let availables ← b.readable rd_idx wr_idx
    let cap ← b.capacity
    assert (availables > 0 ∧ availables ≤ cap)
    let num := min count availables
    let values : List α := List.replicate num default
    let first_part := min (size_sub b.buffer.length rd_idx) num
    let values1 ← copy values 0 b.buffer rd_idx first_part
    let second_part := size_sub num first_part
    let values2 ← copy values1 first_part b.buffer 0 second_part
    let rd ← b.advance_index rd_idx num
    pure (values2, { b with read_index := rd })

/-- The public `write(const T& data)`. -/
def write (b : SPSCRingBuffer α) (data : α) : Option (Nat × SPSCRingBuffer α) :=
  b.write_n [data] 1

/-- The public `write_all(const std::vector<T>& data)`. -/
def write_all (b : SPSCRingBuffer α) (data : List α) : Option (Nat × SPSCRingBuffer α) :=
  b.write_n data data.length

/-- The public `read()`: the outer option is the assertion result, the inner one
is the returned `std::optional<T>`. -/
def read [Inhabited α] (b : SPSCRingBuffer α) : Option (Option α × SPSCRingBuffer α) := do
  let (data, b1) ← b.read_n 1
  match data with
  | [] => pure (none, b1)
  | x :: _ => pure (some x, b1)

/-- The public `read_all()`. -/
def read_all [Inhabited α] (b : SPSCRingBuffer α) : Option (List α × SPSCRingBuffer α) := do
  let cap ← b.capacity
  b.read_n cap

/-- The unread sequence: the slots of the readable range `[read_index, write_index)`
modulo the array length, oldest first. -/
def unread (b : SPSCRingBuffer α) : List α :=
  if b.read_index ≤ b.write_index then
    (b.buffer.drop b.read_index).take (b.write_index - b.read_index)
  else b.buffer.drop b.read_index ++ b.buffer.take b.write_index

/-- The states of a `SPSCRingBuffer(N)` that the public calls can reach from the
constructor. -/
inductive Reachable [Inhabited α] [Sized α] (N : Nat) : SPSCRingBuffer α → Prop
  | init {b : SPSCRingBuffer α} : new N = some (.returned b) → Reachable N b
  | write {b b1 : SPSCRingBuffer α} {x : α} {n : Nat} :
      Reachable N b → b.write x = some (n, b1) → Reachable N b1
  | write_all {b b1 : SPSCRingBuffer α} {xs : List α} {n : Nat} :
      Reachable N b → b.write_all xs = some (n, b1) → Reachable N b1
  | read {b b1 : SPSCRingBuffer α} {r : Option α} :
      Reachable N b → b.read = some (r, b1) → Reachable N b1
  | read_all {b b1 : SPSCRingBuffer α} {r : List α} :
      Reachable N b → b.read_all = some (r, b1) → Reachable N b1

/-- One public call, made by the producer (`write`, `write_all`) or by the
consumer (`read`, `read_all`). -/
inductive Call (α : Type) where
  | write (x : α)
  | write_all (xs : List α)
  | read
  | read_all

/-- A buffer together with the record of a run: the elements the producer calls
accepted (for each call the first `returned count` elements of its argument) and
everything the consumer calls returned. -/
structure Session (α : Type) where
  buf : SPSCRingBuffer α
  accepted : List α
  returned : List α
  deriving DecidableEq, Repr

/-- Performs one call and records its outcome. -/
def Session.call [Inhabited α] (s : Session α) : Call α → Option (Session α)
  | .write x => do
      let (n, b) ← s.buf.write x
      pure { buf := b, accepted := s.accepted ++ [x].take n, returned := s.returned }
  | .write_all xs => do
      let (n, b) ← s.buf.write_all xs
      pure { buf := b, accepted := s.accepted ++ xs.take n, returned := s.returned }
  | .read => do
      let (r, b) ← s.buf.read
      pure { buf := b, accepted := s.accepted, returned := s.returned ++ r.toList }
  | .read_all => do
      let (r, b) ← s.buf.read_all
      pure { buf := b, accepted := s.accepted, returned := s.returned ++ r }

/-- Performs an interleaving of producer and consumer calls, in the given order. -/
def Session.run [Inhabited α] (s : Session α) : List (Call α) → Option (Session α)
  | [] => some s
  | c :: cs => (s.call c).bind fun s1 => s1.run cs

/-- The representation invariant of a ring buffer of capacity `N`. -/
structure WF (N : Nat) (b : SPSCRingBuffer α) : Prop where
  len : b.buffer.length = N + 1
  pos : 1 ≤ N
  small : N < SIZE_MAX / 2
  rd : b.read_index ≤ N
  wr : b.write_index ≤ N

/-- The element-wise modular copy that the spec names for `write`: for `i` below the
count, element `i` of `data` goes to slot `(idx + i) mod size` of `buffer`. -/
def elementwise_write (buffer : List α) (idx : Nat) (data : List α) : Nat → List α
  | 0 => buffer
  | i + 1 =>
    match data[i]? with
    | some x => (elementwise_write buffer idx data i).set ((idx + i) % buffer.length) x
    | none => elementwise_write buffer idx data i

/-- The element-wise modular copy that the spec names for `read`: for `i` below the
count, element `i` of the result is the content of slot `(idx + i) mod size`. -/
def elementwise_read (buffer : List α) (idx : Nat) : Nat → List α
  | 0 => []
  | i + 1 => elementwise_read buffer idx i ++ (buffer[(idx + i) % buffer.length]?).toList

end SPSCRingBuffer

/-! ## `DynamicRingBuffer` (src/ring_buffer/dynamic_ring_buffer.h) -/

namespace SPSCRingBuffer

variable {α : Type}

/-- Modelled from the spec: the public method `writable_capacity()` of the
inner ring buffer, which `DynamicRingBuffer` calls and `src/ring_buffer.h` does not
declare. The spec names it "the writable capacity of the inner buffer", "the
number of elements a producer may write": `writable` at the current cursors. The
dynamic buffer also calls `capacity()`, which is private in `src/ring_buffer.h`. -/
def writable_capacity (b : SPSCRingBuffer α) : Option Nat :=
  b.writable b.read_index b.write_index

end SPSCRingBuffer

/-- The class `DynamicRingBuffer::Batch`: a capacity and the elements appended so
far. -/
structure Batch (α : Type) where
  capacity : Nat
  buf : List α
  deriving DecidableEq, Repr

/-- A slot of the inner buffer is a pointer `Batch*`, of 8 bytes. -/
instance (α : Type) : Sized (Option (Batch α)) := ⟨8, by decide⟩

namespace Batch

variable {α : Type}

/-- The value-initialised `Batch()` that `std::make_unique<Batch>()` creates. -/
def empty : Batch α := { capacity := 0, buf := [] }

/-- The method `Batch::set_capacity(cap)`: the assertion, the assignment, then
`buf.reserve(capacity)`, which throws `std::length_error` when `capacity` is above
`max_size()` and changes no contents otherwise. `max_size()` is
`PTRDIFF_MAX / sizeof(T)`, at most `PTRDIFF_MAX`: here `reserve` throws above
`PTRDIFF_MAX`, where it throws whatever the element type `T` is, and succeeds below
(the limit of one-byte elements), so every call that returns in the code returns here
with the same result. -/
def set_capacity (b : Batch α) (cap : Nat) : Option (Exit (Batch α)) := do
  assert (cap ≠ 0)
  let b1 : Batch α := { b with capacity := cap }
  if b1.capacity > PTRDIFF_MAX then pure .length_error else pure (.returned b1)

/-- The method `Batch::is_full()`. -/
def is_full (b : Batch α) : Bool := decide (b.buf.length ≥ b.capacity)

/-- The method `Batch::clear()`. -/
def clear (b : Batch α) : Batch α := { b with buf := [] }

/-- The method `Batch::write(data)`. -/
def write (b : Batch α) (data : α) : Batch α := { b with buf := b.buf ++ [data] }

/-- The method `Batch::data()`. -/
def data (b : Batch α) : List α := b.buf

end Batch

/-- The fields of `DynamicRingBuffer<T>`. A slot of the inner buffer is a `Batch*`:
`none` is the null pointer, `some batch` an owned batch. -/
structure DynamicRingBuffer (α : Type) where
  batch_size_base : Nat
  batch_size : Nat
  onhold : Option (Batch α)
  threshold_base : Nat
  threshold : Nat
  buffer : SPSCRingBuffer (Option (Batch α))
  deriving DecidableEq, Repr

namespace DynamicRingBuffer

variable {α : Type}

/-- The constructor `DynamicRingBuffer(size_t capacity)`: the member initialisers
(among them the constructor of the inner `SPSCRingBuffer<Batch*>`, whose exception
leaves this constructor too), then the assertions of the body. -/
def new (capacity : Nat) : Option (Exit (DynamicRingBuffer α)) := do
  match ← (SPSCRingBuffer.new capacity : Option (Exit (SPSCRingBuffer (Option (Batch α))))) with
  | .length_error => pure .length_error
  | .returned buffer =>
    let threshold_base := capacity / 2
    assert (capacity ≠ 0)
    assert (capacity &&& size_sub capacity 1 = 0)
    assert (threshold_base ≤ capacity ∧ threshold_base > 0)
    pure (.returned { batch_size_base := 1, batch_size := 0, onhold := none,
                      threshold_base := threshold_base, threshold := 0, buffer := buffer })

/-- The private `submit_onhold_data()`: `onhold.release()` hands the batch to the
inner buffer and leaves `onhold` null. -/
def submit_onhold_data (d : DynamicRingBuffer α) : Option (DynamicRingBuffer α) := do
  let d1 ← match d.onhold with
    | some batch => do
        let (written, buffer) ← d.buffer.write (some batch)
        assert (written > 0)
        pure { d with onhold := none, buffer := buffer }
    | none => pure d
  assert (d1.onhold.isNone)
  pure d1

/-- The method `write(T&& data)`. An exception of `set_capacity` leaves the call
before the element is stored. -/
def write (d : DynamicRingBuffer α) (data : α) : Option (Exit (DynamicRingBuffer α)) := do
  let writables ← d.buffer.writable_capacity
  let cap ← d.buffer.capacity
  let d1 ← if writables == cap then do
      let d0 ← d.submit_onhold_data
      pure { d0 with threshold := d0.threshold_base, batch_size := d0.batch_size_base }
    else pure d
  let made ← match d1.onhold with
    | some _ => pure (Exit.returned d1)
    | none => do
        match ← Batch.empty.set_capacity d1.batch_size with
        | .length_error => pure Exit.length_error
        | .returned batch => pure (Exit.returned { d1 with onhold := some batch })
  match made with
  | .length_error => pure .length_error
  | .returned d2 =>
    match d2.onhold with
    | none => none
    | some batch =>
      if writables == 0 then
        pure (.returned { d2 with onhold := some (batch.write data) })
      else do
        let d3 : DynamicRingBuffer α := { d2 with onhold := some (batch.write data) }
        if (batch.write data).is_full then do
          let d4 ← d3.submit_onhold_data
          if size_sub writables 1 ≤ d4.threshold then do
            assert (d4.onhold.isNone)
            pure (.returned { d4 with threshold := d4.threshold / 2,
                                      batch_size := size_mul d4.batch_size 2 })
          else pure (.returned d4)
        else pure (.returned d3)

/-- The method `drain_writes()`. -/
def drain_writes (d : DynamicRingBuffer α) : Option (Bool × DynamicRingBuffer α) :=
  match d.onhold with
  | none => pure (true, d)
  | some _ => do
      let writables ← d.buffer.writable_capacity
      if writables == 0 then pure (false, d)
      else do
        let d1 ← d.submit_onhold_data
        pure (true, d1)

/-- The loop of `read_all()`: appends the contents of each batch to `flatten`;
dereferencing a null slot is undefined. -/
def flatten_batches : List (Option (Batch α)) → List α → Option (List α)
  | [], flatten => some flatten
  | none :: _, _ => none
  | some batch :: batches, flatten => flatten_batches batches (flatten ++ batch.data)

/-- The method `read_all()`. -/
def read_all (d : DynamicRingBuffer α) : Option (List α × DynamicRingBuffer α) := do
  let (batches, buffer) ← d.buffer.read_all
  let flatten ← flatten_batches batches []
  pure (flatten, { d with buffer := buffer })

/-- The contents of a slot of the inner buffer. -/
def slot_data : Option (Batch α) → List α
  | some batch => batch.buf
  | none => []

/-- The contents of the batches still in the inner buffer, oldest first. -/
def inner_data (d : DynamicRingBuffer α) : List α :=
  ((SPSCRingBuffer.unread d.buffer).map slot_data).flatten

/-- The contents of `onhold`. -/
def onhold_data (d : DynamicRingBuffer α) : List α := slot_data d.onhold

/-- The writable capacity of the inner buffer, as a number: its capacity less the
number of unread batches. -/
def room (d : DynamicRingBuffer α) : Nat :=
  d.buffer.buffer.length - 1 - (SPSCRingBuffer.unread d.buffer).length

/-- The states of a `DynamicRingBuffer(C)` that `write`, `drain_writes` and
`read_all` can reach from the constructor. -/
inductive Reachable (C : Nat) : DynamicRingBuffer α → Prop
  | init {d : DynamicRingBuffer α} : new C = some (.returned d) → Reachable C d
  | write {d d1 : DynamicRingBuffer α} {x : α} :
      Reachable C d → d.write x = some (.returned d1) → Reachable C d1
  | drain_writes {d d1 : DynamicRingBuffer α} {r : Bool} :
      Reachable C d → d.drain_writes = some (r, d1) → Reachable C d1
  | read_all {d d1 : DynamicRingBuffer α} {r : List α} :
      Reachable C d → d.read_all = some (r, d1) → Reachable C d1

/-- One call of the producer (`write`, `drain_writes`) or of the consumer
(`read_all`). -/
inductive Call (α : Type) where
  | write (x : α)
  | drain_writes
  | read_all

/-- A dynamic ring buffer together with the record of a run: the elements written
so far, in order, and the concatenation of all `read_all` results so far. -/
structure Session (α : Type) where
  d : DynamicRingBuffer α
  sent : List α
  received : List α
  deriving DecidableEq, Repr

/-- Performs one call that returns, and records its outcome; there is no result when
the call fails an assertion or throws. -/
def Session.call (s : Session α) : Call α → Option (Session α)
  | .write x => do
      match ← s.d.write x with
      | .returned d1 => pure { d := d1, sent := s.sent ++ [x], received := s.received }
      | .length_error => none
  | .drain_writes => do
      let (_, d1) ← s.d.drain_writes
      pure { d := d1, sent := s.sent, received := s.received }
  | .read_all => do
      let (r, d1) ← s.d.read_all
      pure { d := d1, sent := s.sent, received := s.received ++ r }

/-- Performs an interleaving of calls that all return, in the given order. -/
def Session.run (s : Session α) : List (Call α) → Option (Session α)
  | [] => some s
  | c :: cs => (s.call c).bind fun s1 => s1.run cs

/-- Consecutive `write` calls that return, with no other call in between. -/
def writes (d : DynamicRingBuffer α) : List α → Option (DynamicRingBuffer α)
  | [] => some d
  | x :: xs =>
    match d.write x with
    | some (.returned d1) => d1.writes xs
    | _ => none

/-- The observable part of the state: the unread slots of the inner buffer,
`onhold`, `threshold` and `batch_size`. -/
structure View (α : Type) where
  inner : List (Option (Batch α))
  onhold : Option (Batch α)
  threshold : Nat
  batch_size : Nat

/-- The observable part of a dynamic ring buffer. -/
def view (d : DynamicRingBuffer α) : View α :=
  { inner := SPSCRingBuffer.unread d.buffer, onhold := d.onhold, threshold := d.threshold,
    batch_size := d.batch_size }

/-- The cycle reset of `write` on the observable state, for inner capacity `C`. -/
def View.reset (C : Nat) (v : View α) : View α :=
  if C - v.inner.length = C then
    { inner := v.inner ++ v.onhold.toList.map some, onhold := none, threshold := C / 2,
      batch_size := 1 }
  else v

/-- What `write` does to the observable state, for inner capacity `C`. -/
def View.write (C : Nat) (v : View α) (x : α) : View α :=
  let v1 := v.reset C
  let batch := (v1.onhold.getD { capacity := v1.batch_size, buf := [] }).write x
  if C - v.inner.length = 0 then { v1 with onhold := some batch }
  else if batch.is_full then
    if C - v.inner.length - 1 ≤ v1.threshold then
      { inner := v1.inner ++ [some batch], onhold := none, threshold := v1.threshold / 2,
        batch_size := size_mul v1.batch_size 2 }
    else { v1 with inner := v1.inner ++ [some batch], onhold := none }
  else { v1 with onhold := some batch }

/-- No unread slot is null, and an `onhold` batch is non-empty and has the current
`batch_size` as its capacity. -/
structure View.Good (v : View α) : Prop where
  slots : ∀ p ∈ v.inner, p ≠ none
  hold : ∀ b, v.onhold = some b → b.capacity = v.batch_size ∧ b.capacity ≠ 0 ∧ b.buf ≠ []

/-- The representation invariant of a dynamic ring buffer of inner capacity `C`. -/
structure WF (C : Nat) (d : DynamicRingBuffer α) : Prop where
  inner : SPSCRingBuffer.WF C d.buffer
  two : 2 ≤ C
  bsb : d.batch_size_base = 1
  thb : d.threshold_base = C / 2
  good : (view d).Good

/-- Whether a call is a `write`. -/
def Call.is_write : Call α → Bool
  | .write _ => true
  | _ => false

/-- The elements that the `write` calls of an interleaving pass, in order. -/
def Call.written : List (Call α) → List α
  | [] => []
  | .write x :: cs => x :: Call.written cs
  | _ :: cs => Call.written cs

/-- The elements held by an observable state: those of the batches in the inner
buffer, oldest first, then those of `onhold`. -/
def View.data (v : View α) : List α :=
  (v.inner.map slot_data).flatten ++ slot_data v.onhold

/-- What holds of a recorded run after every call: the buffer is well formed and
nothing is lost, duplicated or reordered. -/
structure Session.Inv (C : Nat) (s : Session α) : Prop where
  wf : WF C s.d
  data : s.received ++ (view s.d).data = s.sent

/-- Whether `write` resets the cycle: `writables == buffer.capacity()`. -/
def resets (d : DynamicRingBuffer α) : Bool := d.room == d.buffer.buffer.length - 1

/-- The threshold in force during a `write`: `threshold_base` if the call resets
the cycle. -/
def threshold_in_force (d : DynamicRingBuffer α) : Nat :=
  if d.resets then d.threshold_base else d.threshold

/-- The batch size in force during a `write`: `batch_size_base` if the call resets
the cycle. -/
def batch_size_in_force (d : DynamicRingBuffer α) : Nat :=
  if d.resets then d.batch_size_base else d.batch_size

/-- Consecutive `write` calls; for every call that leaves `batch_size` different
from the batch size in force, the threshold and the batch size in force in that call
and the new batch size. -/
def adaptations (d : DynamicRingBuffer α) : List α → Option (List (Nat × Nat × Nat))
  | [] => some []
  | x :: xs =>
    match d.write x with
    | some (.returned d1) =>
      (adaptations d1 xs).bind fun rest =>
        if d1.batch_size == d.batch_size_in_force then some rest
        else some ((d.threshold_in_force, d.batch_size_in_force, d1.batch_size) :: rest)
    | _ => none

/-- The progress of consecutive writes into a buffer of inner capacity `2 ^ k` that
nobody reads: `j` adaptations were made so far and `todo` more elements fit before
the inner buffer is full. The four cases are the fresh buffer, a threshold
`2 ^ r ≥ 1` with `2 ^ r + q` free slots, threshold 0 with one free slot, and the full
buffer. -/
def Stage (k : Nat) (v : View α) (todo j : Nat) : Prop :=
  v.Good ∧
  ((v.inner = [] ∧ v.onhold = none ∧ j = 0 ∧ todo = k * 2 ^ (k - 1) + 2 ^ k) ∨
   (∃ r q, r + j + 1 = k ∧ v.threshold = 2 ^ r ∧ v.batch_size = 2 ^ j ∧ 1 ≤ q ∧ q ≤ 2 ^ r ∧
      v.inner.length + 2 ^ r + q = 2 ^ k ∧ (slot_data v.onhold).length < 2 ^ j ∧
      todo + (slot_data v.onhold).length = q * 2 ^ j + r * 2 ^ (k - 1) + 2 ^ k) ∨
   (j = k ∧ v.threshold = 0 ∧ v.batch_size = 2 ^ k ∧ v.inner.length + 1 = 2 ^ k ∧
      (slot_data v.onhold).length < 2 ^ k ∧ todo + (slot_data v.onhold).length = 2 ^ k) ∨
   (j = k + 1 ∧ v.threshold = 0 ∧ v.batch_size = 2 ^ (k + 1) ∧ v.inner.length = 2 ^ k ∧
      v.onhold = none ∧ todo = 0))

/-- What a step reports about the adaptation: either `batch_size` keeps the value in
force, or it doubles from `2 ^ j` under the threshold `2 ^ k / 2 ^ (j + 1)`. -/
def Adapted (k : Nat) (v w : View α) (j i : Nat) : Prop :=
  (i = j ∧ w.batch_size = (v.reset (2 ^ k)).batch_size) ∨
  (i = j + 1 ∧ (v.reset (2 ^ k)).threshold = 2 ^ k / 2 ^ (j + 1) ∧
    (v.reset (2 ^ k)).batch_size = 2 ^ j ∧ w.batch_size = 2 ^ (j + 1))

/-- The adaptive state for inner capacity `C`: `batch_size` is `2 ^ j` and `threshold`
is `C / 2` halved `j` times, for a `j ≤ 63`; while a batch is on hold, `reserve` has
accepted `batch_size` as its capacity, so `j ≤ 62`. -/
def Tuned (C : Nat) (v : View α) : Prop :=
  ∃ j, j ≤ 63 ∧ v.batch_size = 2 ^ j ∧ v.threshold = C / 2 / 2 ^ j ∧
    (v.onhold ≠ none → j ≤ 62)

/-- The state of `DynamicRingBuffer(4)` after `write 1, write 2, write 3`: two
submitted batches, and the batch holding `3`, of capacity 2, on hold. -/
def held : DynamicRingBuffer Nat :=
  ⟨1, 2, some ⟨2, [3]⟩, 2, 1, ⟨[some ⟨1, [1]⟩, some ⟨1, [2]⟩, none, none, none], 2, 0⟩⟩

end DynamicRingBuffer

/-! ## `SimpleSerialTaskQueue` (src/simple_serial_task_queue.h) -/

/-- The fields of `SimpleSerialTaskQueue` that its mutex protects. A task is a value
of `τ`; an entry of `queue` is `some f`, a stored task, or `none`, an entry whose task
was moved out. -/
structure SimpleSerialTaskQueue (τ : Type) where
  queue : List (Option τ)
  destroyed : Bool
  waiting : Bool
  deriving DecidableEq, Repr

namespace SimpleSerialTaskQueue

variable {τ σ : Type}

/-- The constructor: `destroyed(false), waiting(false)` and an empty queue. -/
def new : SimpleSerialTaskQueue τ := { queue := [], destroyed := false, waiting := false }

/-- The critical section of the destructor. -/
def destroy (q : SimpleSerialTaskQueue τ) : Option (SimpleSerialTaskQueue τ) := do
  assert (q.destroyed = false)
  pure { q with destroyed := true }

/-- The critical section of `dispatch(function)`. -/
def dispatch (q : SimpleSerialTaskQueue τ) (function : τ) :
    Option (SimpleSerialTaskQueue τ) := do
  assert (q.destroyed = false)
  assert (q.waiting = false)
  pure { q with queue := q.queue ++ [some function] }

/-- The method `wait()` up to `cv.wait`: `waiting = true`. -/
def wait_begin (q : SimpleSerialTaskQueue τ) : SimpleSerialTaskQueue τ :=
  { q with waiting := true }

/-- The predicate of `cv.wait` in `wait()`: `queue.empty()`. -/
def wait_pred (q : SimpleSerialTaskQueue τ) : Bool := q.queue.isEmpty

/-- The method `wait()` after `cv.wait`: `waiting = false`. -/
def wait_end (q : SimpleSerialTaskQueue τ) : SimpleSerialTaskQueue τ :=
  { q with waiting := false }

/-- The predicate of `cv.wait` in `work()`: `queue.size() || destroyed`. -/
def work_pred (q : SimpleSerialTaskQueue τ) : Bool := q.queue.length != 0 || q.destroyed

/-- The statement `Task task = std::move(queue.front())` of `work()`: the task leaves
its entry, which stays in the queue; `front()` of an empty queue is undefined. -/
def work_take (q : SimpleSerialTaskQueue τ) : Option (Option τ × SimpleSerialTaskQueue τ) :=
  match q.queue with
  | [] => none
  | task :: rest => some (task, { q with queue := none :: rest })

/-- The second critical section of `work()`: `queue.pop()`, then
`wakeup_wait = waiting && queue.empty()`; `pop()` of an empty queue is undefined. -/
def work_pop (q : SimpleSerialTaskQueue τ) : Option (Bool × SimpleSerialTaskQueue τ) :=
  match q.queue with
  | [] => none
  | _ :: rest => some (q.waiting && rest.isEmpty, { q with queue := rest })

/-- The call `task()`: runs the stored callable on the memory it captures; calling a
`std::function` whose task was moved out throws. -/
def call (exec : τ → σ → σ) : Option τ → σ → Option σ
  | some f, w => some (exec f w)
  | none, _ => none

/-- Where the owner thread, which calls the constructor, `dispatch`, `wait` and the
destructor, is. -/
inductive Owner where
  /-- Between two calls. -/
  | ready
  /-- Blocked in `cv.wait` of `wait()`. -/
  | in_wait
  /-- In the destructor, at `worker.join()`. -/
  | joining
  /-- The destructor has returned. -/
  | gone
  deriving DecidableEq, Repr

/-- Where the worker thread is in `work()`. -/
inductive Worker (τ : Type) where
  /-- At `cv.wait`, the mutex not held. -/
  | idle
  /-- Holds `task`, the mutex released, before `task()`. -/
  | running (task : Option τ)
  /-- After `task()`, before `lock.lock()`. -/
  | ran
  /-- After the second critical section, before `if (wakeup_wait)`. -/
  | notifying (wakeup_wait : Bool)
  /-- Left the loop by `break`. -/
  | exited
  deriving DecidableEq, Repr

/-- A queue with its two threads, the memory `world` that the tasks act on, and the
record of the run: the tasks dispatched, those the worker started and those whose
call returned, each in order. -/
structure System (τ σ : Type) where
  q : SimpleSerialTaskQueue τ
  owner : Owner
  worker : Worker τ
  world : σ
  dispatched : List τ
  started : List τ
  finished : List τ
  deriving DecidableEq, Repr

/-- The atomic steps of the two threads. Every access to the fields of the queue is
inside a critical section of its mutex, so a critical section is one step. -/
inductive Step (τ : Type) where
  /-- Owner: `dispatch(f)`. -/
  | dispatch (f : τ)
  /-- Owner: `wait()` up to the first evaluation of the predicate. -/
  | wait
  /-- Owner: `cv.wait` of `wait()` finds its predicate true. -/
  | wait_wake
  /-- Owner: the critical section of the destructor. -/
  | destroy
  /-- Owner: `worker.join()` returns. -/
  | join
  /-- Worker: `cv.wait` of `work()` finds its predicate true; `break`, or the task is
  moved out of the front entry. -/
  | wake
  /-- Worker: `task()`. -/
  | run
  /-- Worker: the second critical section of `work()`. -/
  | pop
  /-- Worker: `if (wakeup_wait) cv.notify_one()`, and back to the top of the loop. -/
  | notify
  deriving DecidableEq, Repr

/-- The state after the constructor: the worker thread is started. -/
def System.init (world : σ) : System τ σ :=
  { q := new, owner := .ready, worker := .idle, world := world, dispatched := [],
    started := [], finished := [] }

/-- One step. The result is `none` when the thread is not at that step, when it is
blocked (`cv.wait` with a false predicate, `join` of a running thread), and when an
assertion fails or the behaviour is undefined. A thread blocked in `cv.wait` may
evaluate its predicate at any time. -/
def System.step (exec : τ → σ → σ) (s : System τ σ) : Step τ → Option (System τ σ)
  | .dispatch f =>
    match s.owner with
    | .ready => do
        let q ← s.q.dispatch f
        pure { s with q := q, dispatched := s.dispatched ++ [f] }
    | _ => none
  | .wait =>
    match s.owner with
    | .ready =>
        if s.q.wait_begin.wait_pred then pure { s with q := s.q.wait_begin.wait_end }
        else pure { s with q := s.q.wait_begin, owner := .in_wait }
    | _ => none
  | .wait_wake =>
    match s.owner with
    | .in_wait =>
        if s.q.wait_pred then pure { s with q := s.q.wait_end, owner := .ready } else none
    | _ => none
  | .destroy =>
    match s.owner with
    | .ready => do
        let q ← s.q.destroy
        pure { s with q := q, owner := .joining }
    | _ => none
  | .join =>
    match s.owner, s.worker with
    | .joining, .exited => pure { s with owner := .gone }
    | _, _ => none
  | .wake =>
    match s.worker with
    | .idle =>
        if s.q.work_pred then
          if s.q.destroyed then pure { s with worker := .exited }
          else do
            let (task, q) ← s.q.work_take
            pure { s with q := q, worker := .running task,
                          started := s.started ++ task.toList }
        else none
    | _ => none
  | .run =>
    match s.worker with
    | .running task => do
        let world ← call exec task s.world
        pure { s with world := world, worker := .ran,
                      finished := s.finished ++ task.toList }
    | _ => none
  | .pop =>
    match s.worker with
    | .ran => do
        let (wakeup_wait, q) ← s.q.work_pop
        pure { s with q := q, worker := .notifying wakeup_wait }
    | _ => none
  | .notify =>
    match s.worker with
    | .notifying _ => pure { s with worker := .idle }
    | _ => none

/-- An execution: the steps of the two threads in the order in which they happen. -/
def System.run (exec : τ → σ → σ) (s : System τ σ) : List (Step τ) → Option (System τ σ)
  | [] => some s
  | a :: as => (s.step exec a).bind fun s1 => s1.run exec as

/-- The front entry whose task the worker has moved out and not yet popped. -/
def Worker.husk : Worker τ → List (Option τ)
  | .running _ => [none]
  | .ran => [none]
  | _ => []

/-- The task that the worker holds and has not yet called. -/
def Worker.hand : Worker τ → List τ
  | .running task => task.toList
  | _ => []

/-- Whether the worker is between moving a task out of the queue and popping its
entry: the task is running, or has run and is not popped yet. -/
def Worker.busy : Worker τ → Bool
  | .running _ => true
  | .ran => true
  | _ => false

/-- The tasks stored in the queue, in order: those not yet taken by the worker. -/
def pending (q : SimpleSerialTaskQueue τ) : List τ := q.queue.filterMap id

/-- What holds in every state of an execution that starts with `world = w0`. -/
structure System.Inv (exec : τ → σ → σ) (w0 : σ) (s : System τ σ) : Prop where
  queue : s.q.queue = s.worker.husk ++ (pending s.q).map some
  held : s.worker ≠ .running none
  dispatched : s.dispatched = s.started ++ pending s.q
  started : s.started = s.finished ++ s.worker.hand
  world : s.world = s.finished.foldl (fun w f => exec f w) w0
  ready : s.owner = .ready → s.q.destroyed = false ∧ s.q.waiting = false
  in_wait : s.owner = .in_wait → s.q.destroyed = false ∧ s.q.waiting = true
  joining : s.owner = .joining → s.q.destroyed = true
  gone : s.owner = .gone → s.q.destroyed = true ∧ s.worker = .exited
  exited : s.worker = .exited → s.q.destroyed = true

end SimpleSerialTaskQueue

/-! ## `TaskQueue` (src/task_queue.h) -/

/-- The fields of `TaskQueue` that its mutex protects. An entry of `queue` is a
`std::packaged_task`: the task, with the index of the future that `dispatch` returned
for it. -/
structure TaskQueue (τ : Type) where
  queue : List (Nat × τ)
  destroyed : Bool
  deriving DecidableEq, Repr

namespace TaskQueue

variable {τ σ : Type}

/-- The constructor's `destroyed(false)` and an empty queue. -/
def new : TaskQueue τ := { queue := [], destroyed := false }

/-- The critical section of the destructor. -/
def destroy (q : TaskQueue τ) : Option (TaskQueue τ) := do
  assert (q.destroyed = false)
  pure { q with destroyed := true }

/-- The critical section of `dispatch(function)`: `queue.emplace(std::move(task))`. -/
def dispatch (q : TaskQueue τ) (task : Nat × τ) : TaskQueue τ :=
  { q with queue := q.queue ++ [task] }

/-- The predicate of `cv.wait` in `work()`: `queue.size() || destroyed`. -/
def work_pred (q : TaskQueue τ) : Bool := q.queue.length != 0 || q.destroyed

/-- The statements `MoveOnlyTask task = std::move(queue.front()); queue.pop();` of
`work()`; `front()` of an empty queue is undefined. -/
def work_take (q : TaskQueue τ) : Option ((Nat × τ) × TaskQueue τ) :=
  match q.queue with
  | [] => none
  | task :: rest => some (task, { q with queue := rest })

/-- Where the owner thread, which calls the constructor, `dispatch` and the
destructor and awaits the futures, is. -/
inductive Owner where
  /-- Between two calls. -/
  | ready
  /-- In the destructor, joining the workers. -/
  | joining
  /-- The destructor has returned. -/
  | gone
  deriving DecidableEq, Repr

/-- Where a worker thread is in `work()`. -/
inductive Worker (τ : Type) where
  /-- At `cv.wait`, the mutex not held. -/
  | idle
  /-- Holds `task`, the mutex released, before `task()`. -/
  | running (task : Nat × τ)
  /-- Left the loop by `break`. -/
  | exited
  deriving DecidableEq, Repr

/-- Whether a worker thread has left `work()`, so that `join()` on it returns. -/
def Worker.is_exited : Worker τ → Bool
  | .exited => true
  | _ => false

/-- A queue with its threads, the memory `world` that the tasks act on, the shared
states of the futures that `dispatch` returned (`true` once a result is stored), and
the record of the run: the tasks dispatched in order, the futures on which the owner's
`get()` has returned, and the packaged tasks whose call returned, in the order of
their completion. -/
structure System (τ σ : Type) where
  q : TaskQueue τ
  owner : Owner
  workers : List (Worker τ)
  world : σ
  futures : List Bool
  dispatched : List τ
  awaited : List Nat
  executed : List (Nat × τ)
  deriving DecidableEq, Repr

/-- The atomic steps of the threads. Every access to the fields of the queue is
inside a critical section of its mutex, so a critical section is one step; a task
acts on `world` in one step. -/
inductive Step (τ : Type) where
  /-- Owner: `dispatch(f)`. -/
  | dispatch (f : τ)
  /-- Owner: `get()` on the future of index `id` returns. -/
  | await (id : Nat)
  /-- Owner: the critical section of the destructor. -/
  | destroy
  /-- Owner: the `join()` calls of the destructor have returned. -/
  | join
  /-- Worker `i`: `cv.wait` of `work()` finds its predicate true; `break`, or a task
  is taken off the queue. -/
  | wake (i : Nat)
  /-- Worker `i`: `task()`. -/
  | run (i : Nat)
  deriving DecidableEq, Repr

/-- The state after the constructor `TaskQueue(threads)`. -/
def System.init (threads : Nat) (world : σ) : System τ σ :=
  { q := new, owner := .ready, workers := List.replicate threads .idle, world := world,
    futures := [], dispatched := [], awaited := [], executed := [] }

/-- One step. The result is `none` when the thread is not at that step, when it is
blocked (`cv.wait` with a false predicate, `get()` on a future without a result,
`join` of a running thread), and when an assertion fails or the behaviour is
undefined. A thread blocked in `cv.wait` may evaluate its predicate at any time. -/
def System.step (exec : τ → σ → σ) (s : System τ σ) : Step τ → Option (System τ σ)
  | .dispatch f =>
    match s.owner with
    | .ready =>
        pure { s with q := s.q.dispatch (s.futures.length, f),
                      futures := s.futures ++ [false],
                      dispatched := s.dispatched ++ [f] }
    | _ => none
  | .await id =>
    match s.owner with
    | .ready => if s.futures[id]? = some true then pure { s with awaited := s.awaited ++ [id] }
        else none
    | _ => none
  | .destroy =>
    match s.owner with
    | .ready => do
        let q ← s.q.destroy
        pure { s with q := q, owner := .joining }
    | _ => none
  | .join =>
    match s.owner with
    | .joining => if s.workers.all Worker.is_exited then pure { s with owner := .gone } else none
    | _ => none
  | .wake i =>
    match s.workers[i]? with
    | some .idle =>
        if s.q.work_pred then
          if s.q.destroyed then pure { s with workers := s.workers.set i .exited }
          else do
            let (task, q) ← s.q.work_take
            pure { s with q := q, workers := s.workers.set i (.running task) }
        else none
    | _ => none
  | .run i =>
    match s.workers[i]? with
    | some (.running task) =>
        pure { s with world := exec task.2 s.world,
                      futures := s.futures.set task.1 true,
                      workers := s.workers.set i .idle,
                      executed := s.executed ++ [task] }
    | _ => none

/-- An execution: the steps of the threads in the order in which they happen. -/
def System.run (exec : τ → σ → σ) (s : System τ σ) : List (Step τ) → Option (System τ σ)
  | [] => some s
  | a :: as => (s.step exec a).bind fun s1 => s1.run exec as

/-- The task that a worker holds. -/
def Worker.hand : Worker τ → List (Nat × τ)
  | .running task => [task]
  | _ => []

/-- The tasks that the workers hold, by worker. -/
def System.inhand (s : System τ σ) : List (Nat × τ) := s.workers.flatMap Worker.hand

/-- What holds in every state of an execution that starts with `world = w0`: every
dispatched task, with the index of its future, is in exactly one place (executed,
held by a worker, or in the queue). -/
structure System.Inv (exec : τ → σ → σ) (w0 : σ) (s : System τ σ) : Prop where
  perm : (s.executed ++ s.inhand ++ s.q.queue).Perm s.dispatched.enum
  futures_length : s.futures.length = s.dispatched.length
  futures : ∀ id : Nat, s.futures[id]? = some true ↔ id ∈ s.executed.map Prod.fst
  world : s.world = s.executed.foldl (fun w task => exec task.2 w) w0
  awaited : ∀ id ∈ s.awaited, id ∈ s.executed.map Prod.fst
  ready : s.owner = .ready ↔ s.q.destroyed = false
  gone : s.owner = .gone → ∀ w ∈ s.workers, w = .exited

/-- The task that a step takes off the queue: the task that worker `i` holds right
after its `wake` step, if any. -/
def System.pulled (exec : τ → σ → σ) (s : System τ σ) (a : Step τ) : List (Nat × τ) :=
  match a, s.step exec a with
  | .wake i, some t => (t.workers[i]?).toList.flatMap Worker.hand
  | _, _ => []

/-- The tasks taken off the queue in the course of an execution, in the order in which
they were taken. -/
def System.taken (exec : τ → σ → σ) (s : System τ σ) : List (Step τ) → List (Nat × τ)
  | [] => []
  | a :: as =>
    match s.step exec a with
    | some t => s.pulled exec a ++ t.taken exec as
    | none => []

/-- The task with the given `id` of `test_serial_queue_example`,
`number += id % 2 ? -1 : 1; return number;`: the new value of `number` and the value
returned. -/
def serial_task (id : Nat) (number : Int) : Int × Int :=
  let number := number + (if id % 2 ≠ 0 then -1 else 1)
  (number, number)

end TaskQueue

/-! ### `SerialTaskQueue` (src/task_queue.h): the `TaskQueue` with one worker -/

namespace SerialTaskQueue

variable {τ σ : Type}

/-- The constructor `SerialTaskQueue()`: `TaskQueue(1)`. -/
def new (world : σ) : TaskQueue.System τ σ := TaskQueue.System.init 1 world

end SerialTaskQueue

/-! ## `int` arithmetic of the test programs -/

/-- The value of `INT_MAX` for a 32-bit `int`. -/
def INT_MAX : Int := 2147483647

/-- The value of `INT_MIN` for a 32-bit `int`. -/
def INT_MIN : Int := -2147483648

/-- The sum `a + b` of two `int` values; signed overflow is undefined. -/
def int_add (a b : Int) : Option Int :=
  if INT_MIN ≤ a + b ∧ a + b ≤ INT_MAX then some (a + b) else none

/-! ## `SpinlockMutex` (src/spinlock_mutex.h) -/

/-- The field of `SpinlockMutex`: the `std::atomic_flag`, `true` when set. -/
structure SpinlockMutex where
  flag : Bool
  deriving DecidableEq, Repr

namespace SpinlockMutex

/-- The constructor: `flag(ATOMIC_FLAG_INIT)`, the clear state. -/
def new : SpinlockMutex := { flag := false }

/-- The atomic `flag.test_and_set(...)`: sets the flag and returns the value it had. -/
def test_and_set (m : SpinlockMutex) : Bool × SpinlockMutex := (m.flag, { flag := true })

/-- The method `unlock()`: `flag.clear(...)`. -/
def unlock (_m : SpinlockMutex) : SpinlockMutex := { flag := false }

/-- Where a thread of the test is: `task_1` and `task_2` call `lock()`, then
`dummy_task`, which runs `data += offset` `DUMMY_COUNT` times, then `unlock()`. -/
inductive Thread where
  /-- In the loop of `lock()`, before a `test_and_set`. -/
  | locking
  /-- `lock()` has returned; at the test `i < DUMMY_COUNT` of the loop. -/
  | loop (i : Nat)
  /-- Inside `data += offset`: `data` was read as `value`, the store is to come. -/
  | store (i : Nat) (value : Int)
  /-- `unlock()` has returned. -/
  | done
  deriving DecidableEq, Repr

/-- Whether the thread is between a returned `lock()` and its `unlock()`. -/
def Thread.holds : Thread → Bool
  | .loop _ => true
  | .store _ _ => true
  | _ => false

/-- One atomic step of a thread with the given `offset`, on the mutex and the shared
integer: one `test_and_set` of `lock()`, the read or the write of `data += offset`,
or `unlock()`. A thread that is done has no step. -/
def Thread.step (count : Nat) (offset : Int) (mutex : SpinlockMutex) (data : Int) :
    Thread → Option (SpinlockMutex × Int × Thread)
  | .locking =>
    if mutex.test_and_set.1 then some (mutex.test_and_set.2, data, .locking)
    else some (mutex.test_and_set.2, data, .loop 0)
  | .loop i =>
    if i < count then some (mutex, data, .store i data)
    else some (mutex.unlock, data, .done)
  | .store i value => do
    let sum ← int_add value offset
    pure (mutex, sum, .loop (i + 1))
  | .done => none

/-- The two threads of the test. -/
inductive Tid where
  | one
  | two
  deriving DecidableEq, Repr

/-- The global `MUTEX`, the global `SHARED_DATA` and the two threads. -/
structure System where
  MUTEX : SpinlockMutex
  SHARED_DATA : Int
  t1 : Thread
  t2 : Thread
  deriving DecidableEq, Repr

/-- The state when the two threads start. -/
def System.init (data : Int) : System :=
  { MUTEX := new, SHARED_DATA := data, t1 := .locking, t2 := .locking }

/-- A step of one of the threads; thread one adds `a`, thread two adds `b`. -/
def System.step (count : Nat) (a b : Int) (s : System) : Tid → Option System
  | .one => do
    let (mutex, data, t) ← s.t1.step count a s.MUTEX s.SHARED_DATA
    pure { s with MUTEX := mutex, SHARED_DATA := data, t1 := t }
  | .two => do
    let (mutex, data, t) ← s.t2.step count b s.MUTEX s.SHARED_DATA
    pure { s with MUTEX := mutex, SHARED_DATA := data, t2 := t }

/-- An interleaving: the steps of the two threads in the order in which they happen. -/
def System.run (count : Nat) (a b : Int) (s : System) : List Tid → Option System
  | [] => some s
  | i :: is => (s.step count a b i).bind fun s1 => s1.run count a b is

/-- The number of times a thread has added its offset. -/
def Thread.added (count : Nat) : Thread → Nat
  | .locking => 0
  | .loop i => i
  | .store i _ => i
  | .done => count

/-- What holds of a thread in every state: the loop counter is in range, and a value
read inside `data += offset` is still the value of `data`. -/
def Thread.ok (count : Nat) (data : Int) : Thread → Prop
  | .loop i => i ≤ count
  | .store i value => i < count ∧ value = data
  | _ => True

/-- What holds in every state of an interleaving that starts with `SHARED_DATA = d0`. -/
structure System.Inv (count : Nat) (a b d0 : Int) (s : System) : Prop where
  exclusive : ¬ (s.t1.holds = true ∧ s.t2.holds = true)
  flag : s.MUTEX.flag = (s.t1.holds || s.t2.holds)
  ok1 : s.t1.ok count s.SHARED_DATA
  ok2 : s.t2.ok count s.SHARED_DATA
  data : s.SHARED_DATA = d0 + a * (s.t1.added count) + b * (s.t2.added count)

end SpinlockMutex

/-! ## `DataMutex` (src/mutex/data_mutex.h) -/

/-- The fields of `DataMutex<T>`: `mutex`, a `std::mutex` (`true` when locked), and
`data`. -/
structure DataMutex (T : Type) where
  mutex : Bool
  data : T
  deriving DecidableEq, Repr

namespace DataMutex

variable {T : Type}

/-- The field of `DataMutex<T>::MutexGuard`: `owner`, which is null (`false`) or
points to the `DataMutex` (`true`). -/
structure MutexGuard where
  owner : Bool
  deriving DecidableEq, Repr

/-- The constructor `DataMutex(T&& d)`. -/
def new (d : T) : DataMutex T := { mutex := false, data := d }

/-- The constructor `MutexGuard(DataMutex<T>* o)` on this object: `assert(owner)`,
then `owner->mutex.lock()`, which returns once the mutex is free and takes it; there is
no result while the mutex is locked. -/
def guard (m : DataMutex T) : Option (MutexGuard × DataMutex T) := do
  let g : MutexGuard := { owner := true }
  assert (g.owner = true)
  if m.mutex then none else pure (g, { m with mutex := true })

/-- The move constructor `MutexGuard(MutexGuard&& other)`: the new guard and what is
left of `other`. -/
def MutexGuard.move (other : MutexGuard) : MutexGuard × MutexGuard :=
  ({ owner := other.owner }, { owner := false })

/-- The destructor `~MutexGuard()`: `if (owner) owner->mutex.unlock()`. -/
def MutexGuard.drop (g : MutexGuard) (m : DataMutex T) : DataMutex T :=
  if g.owner then { m with mutex := false } else m

/-- The method `MutexGuard::data()`: `owner->data`; undefined when `owner` is null. -/
def MutexGuard.data (g : MutexGuard) (m : DataMutex T) : Option T :=
  if g.owner then some m.data else none

/-- The method `lock()`: `return MutexGuard(this)`. The guard is constructed, moved
into the result, and the moved-from temporary is destroyed. -/
def lock (m : DataMutex T) : Option (MutexGuard × DataMutex T) := do
  let (temporary, m1) ← m.guard
  let (result, other) := MutexGuard.move temporary
  pure (result, MutexGuard.drop other m1)

/-- Where a thread of the test is: `task_1` and `task_2` take a guard, call
`dummy_task`, which runs `data += offset` on `guard.data()` `DUMMY_COUNT` times, and
leave the scope of the guard. -/
inductive Thread where
  /-- Before `shared_data.lock()` has returned. -/
  | acquiring
  /-- Holds `guard`; at the test `i < DUMMY_COUNT` of the loop. -/
  | loop (guard : MutexGuard) (i : Nat)
  /-- Inside `data += offset`: `data` was read as `value`, the store is to come. -/
  | store (guard : MutexGuard) (i : Nat) (value : Int)
  /-- The guard is destroyed. -/
  | done
  deriving DecidableEq, Repr

/-- Whether the thread holds a live token: a guard whose `owner` is not null. -/
def Thread.live : Thread → Bool
  | .loop guard _ => guard.owner
  | .store guard _ _ => guard.owner
  | _ => false

/-- One atomic step of a thread with the given `offset` on the guarded cell: the
return of `lock()`, the read or the write of `data += offset` through `guard.data()`,
or the destructor of the guard. A thread that is done has no step, and neither has a
thread whose `lock()` is blocked. -/
def Thread.step (count : Nat) (offset : Int) (m : DataMutex Int) :
    Thread → Option (DataMutex Int × Thread)
  | .acquiring => do
    let (guard, m1) ← m.lock
    pure (m1, .loop guard 0)
  | .loop guard i =>
    if i < count then do
      let value ← MutexGuard.data guard m
      pure (m, .store guard i value)
    else pure (MutexGuard.drop guard m, .done)
  | .store guard i value => do
    let _ ← MutexGuard.data guard m
    let sum ← int_add value offset
    pure ({ m with data := sum }, .loop guard (i + 1))
  | .done => none

/-- The two threads of the test. -/
inductive Tid where
  | one
  | two
  deriving DecidableEq, Repr

/-- The global `shared_data` and the two threads. -/
structure System where
  shared_data : DataMutex Int
  t1 : Thread
  t2 : Thread
  deriving DecidableEq, Repr

/-- The state when the two threads start. -/
def System.init (data : Int) : System :=
  { shared_data := new data, t1 := .acquiring, t2 := .acquiring }

/-- A step of one of the threads; thread one adds `a`, thread two adds `b`. -/
def System.step (count : Nat) (a b : Int) (s : System) : Tid → Option System
  | .one => do
    let (m, t) ← s.t1.step count a s.shared_data
    pure { s with shared_data := m, t1 := t }
  | .two => do
    let (m, t) ← s.t2.step count b s.shared_data
    pure { s with shared_data := m, t2 := t }

/-- An interleaving: the steps of the two threads in the order in which they happen. -/
def System.run (count : Nat) (a b : Int) (s : System) : List Tid → Option System
  | [] => some s
  | i :: is => (s.step count a b i).bind fun s1 => s1.run count a b is

/-- The number of times a thread has added its offset. -/
def Thread.added (count : Nat) : Thread → Nat
  | .acquiring => 0
  | .loop _ i => i
  | .store _ i _ => i
  | .done => count

/-- What holds of a thread in every state: its guard is live, the loop counter is in
range, and a value read inside `data += offset` is still the value of `data`. -/
def Thread.ok (count : Nat) (data : Int) : Thread → Prop
  | .loop guard i => guard.owner = true ∧ i ≤ count
  | .store guard i value => guard.owner = true ∧ i < count ∧ value = data
  | _ => True

/-- What holds in every state of an interleaving that starts with `data = d0`. -/
structure System.Inv (count : Nat) (a b d0 : Int) (s : System) : Prop where
  exclusive : ¬ (s.t1.live = true ∧ s.t2.live = true)
  mutex : s.shared_data.mutex = (s.t1.live || s.t2.live)
  ok1 : s.t1.ok count s.shared_data.data
  ok2 : s.t2.ok count s.shared_data.data
  data : s.shared_data.data = d0 + a * (s.t1.added count) + b * (s.t2.added count)

/-- The number of `owner->mutex.unlock()` calls that the destructor `~MutexGuard()`
makes: one if `owner` is not null. -/
def MutexGuard.unlocks (g : MutexGuard) : Nat := if g.owner then 1 else 0

/-- A `DataMutex`, the tokens that exist, and the number of `unlock()` calls made on
its mutex so far. -/
structure Scope (T : Type) where
  cell : DataMutex T
  guards : List MutexGuard
  unlocks : Nat
  deriving DecidableEq, Repr

/-- What the holder of tokens does with them. -/
inductive Op where
  /-- Move-constructs a new token from token `i`; the moved-from token stays until it
  is destroyed. -/
  | move (i : Nat)
  /-- Destroys token `i`. -/
  | drop (i : Nat)
  deriving DecidableEq, Repr

/-- One operation on the tokens; there is no result when token `i` does not exist. -/
def Scope.step (s : Scope T) : Op → Option (Scope T)
  | .move i =>
    match s.guards[i]? with
    | some other =>
        let (guard, left) := MutexGuard.move other
        some { s with guards := s.guards.set i left ++ [guard] }
    | none => none
  | .drop i =>
    match s.guards[i]? with
    | some guard =>
        some { cell := MutexGuard.drop guard s.cell, guards := s.guards.eraseIdx i,
               unlocks := s.unlocks + guard.unlocks }
    | none => none

/-- A sequence of operations on the tokens. -/
def Scope.run (s : Scope T) : List Op → Option (Scope T)
  | [] => some s
  | a :: as => (s.step a).bind fun s1 => s1.run as

/-- The method `lock()`, with the tokens it handles: `MutexGuard(this)` is constructed,
moved into the result, and the moved-from temporary is destroyed. -/
def Scope.lock (m : DataMutex T) : Option (Scope T) := do
  let (temporary, m1) ← m.guard
  Scope.run { cell := m1, guards := [temporary], unlocks := 0 } [.move 0, .drop 0]

/-- The `unlock()` calls made and those that the destructors of the existing tokens
will make are one in all, and the mutex is locked until the call is made. -/
structure Scope.Inv (d : T) (s : Scope T) : Prop where
  once : s.unlocks + (s.guards.map MutexGuard.unlocks).sum = 1
  mutex : s.cell.mutex = decide (s.unlocks = 0)
  data : s.cell.data = d

end DataMutex

/-! ## Lemmas on machine arithmetic -/

theorem size_add_eq {a b : Nat} (h : a + b ≤ SIZE_MAX) : size_add a b = a + b := by
  simp only [size_add, SIZE_MAX] at *; omega

theorem size_sub_eq {a b : Nat} (h : b ≤ a) (ha : a ≤ SIZE_MAX) : size_sub a b = a - b := by
  simp only [size_sub, SIZE_MAX] at *; omega

theorem mod_of_lt_two_mul {a m : Nat} (h : a < 2 * m) :
    a % m = if a < m then a else a - m := by
  split
  · exact Nat.mod_eq_of_lt ‹_›
  · rw [Nat.mod_eq_sub_mod (by omega), Nat.mod_eq_of_lt (by omega)]

namespace SPSCRingBuffer

variable {α : Type}

/-! ## Lemmas on the ring buffer methods -/

theorem copy_length {dst src r : List α} {d s n : Nat} (h : copy dst d src s n = some r) :
    r.length = dst.length := by
  unfold copy at h
  split at h
  · cases h
    simp only [List.length_append, List.length_take, List.length_drop]
    omega
  · cases h

theorem copy_getElem? {dst src r : List α} {d s n : Nat} (h : copy dst d src s n = some r)
    (i : Nat) : r[i]? = if d ≤ i ∧ i < d + n then src[s + (i - d)]? else dst[i]? := by
  unfold copy at h
  split at h
  · cases h
    rename_i hb
    simp only [List.getElem?_append, List.getElem?_take, List.getElem?_drop, List.length_append,
      List.length_take, List.length_drop]
    have h1 : min d dst.length = d := by omega
    have h2 : min n (src.length - s) = n := by omega
    rw [h1, h2]
    split_ifs <;> first | rfl | (exfalso; omega) | (congr 1; omega)
  · cases h

theorem unread_length {N : Nat} {b : SPSCRingBuffer α} (h : WF N b) :
    (unread b).length =
      if b.read_index ≤ b.write_index then b.write_index - b.read_index
      else N + 1 - b.read_index + b.write_index := by
  have := h.len; have := h.rd; have := h.wr
  unfold unread
  split
  · simp only [List.length_take, List.length_drop]; omega
  · simp only [List.length_append, List.length_take, List.length_drop]; omega

theorem unread_length_le {N : Nat} {b : SPSCRingBuffer α} (h : WF N b) :
    (unread b).length ≤ N := by
  have := h.rd; have := h.wr
  rw [unread_length h]; split <;> omega

theorem unread_getElem? {N : Nat} {b : SPSCRingBuffer α} (h : WF N b) (i : Nat) :
    (unread b)[i]? =
      if i < (unread b).length then b.buffer[(b.read_index + i) % (N + 1)]? else none := by
  have hl := h.len; have := h.rd; have := h.wr
  rw [unread_length h]
  by_cases hi : i < N + 1
  swap
  · rw [if_neg (by split <;> omega)]
    exact List.getElem?_eq_none (by have := unread_length_le h; omega)
  rw [mod_of_lt_two_mul (a := b.read_index + i) (m := N + 1) (by omega)]
  unfold unread
  split
  · simp only [List.getElem?_take, List.getElem?_drop]
    split
    · rw [if_pos (by omega)]
    · rfl
  · simp only [List.getElem?_append, List.getElem?_take, List.getElem?_drop, List.length_drop]
    by_cases c1 : i < N + 1 - b.read_index
    · rw [if_pos (by omega), if_pos (by omega), if_pos (by omega)]
    · rw [if_neg (by omega)]
      by_cases c2 : i < N + 1 - b.read_index + b.write_index
      · rw [if_pos (by omega), if_pos c2, if_neg (by omega)]
        congr 1; omega
      · rw [if_neg (by omega), if_neg c2]

theorem copy_some (dst src : List α) {d s n : Nat} (h1 : d + n ≤ dst.length)
    (h2 : s + n ≤ src.length) : ∃ r, copy dst d src s n = some r := by
  unfold copy
  rw [if_pos ⟨h1, h2⟩]
  exact ⟨_, rfl⟩

theorem capacity_eq {N : Nat} {b : SPSCRingBuffer α} (h : WF N b) : b.capacity = some N := by
  have := h.len; have := h.small
  have e : size_sub (N + 1) 1 = N := by
    rw [size_sub_eq (by omega) (by simp only [SIZE_MAX] at *; omega)]; rfl
  simp [capacity, assert, h.len, e]

theorem is_full_eq {N : Nat} {b : SPSCRingBuffer α} (h : WF N b) :
    b.is_full b.read_index b.write_index = some (decide ((unread b).length = N)) := by
  have := h.len; have := h.small; have := h.rd; have := h.wr; have := h.pos
  have e : size_add b.write_index 1 = b.write_index + 1 :=
    size_add_eq (by simp only [SIZE_MAX] at *; omega)
  unfold is_full
  rw [if_neg (by omega), e, h.len, unread_length h,
    mod_of_lt_two_mul (a := b.write_index + 1) (m := N + 1) (by omega)]
  congr 1
  rw [Bool.eq_iff_iff]
  simp only [beq_iff_eq, decide_eq_true_eq]
  split_ifs <;> omega

theorem readable_eq {N : Nat} {b : SPSCRingBuffer α} (h : WF N b) :
    b.readable b.read_index b.write_index = some (unread b).length := by
  have := h.len; have hs := h.small; have := h.rd; have := h.wr; have := h.pos
  simp only [SIZE_MAX] at hs
  unfold readable
  simp only [assert, capacity_eq h, h.len]
  rw [if_pos (by omega), if_pos (by omega), unread_length h]
  by_cases c : b.read_index ≤ b.write_index
  · have e : size_sub b.write_index b.read_index = b.write_index - b.read_index :=
      size_sub_eq c (by simp only [SIZE_MAX]; omega)
    simp [c, e]
  · have e1 : size_sub b.read_index b.write_index = b.read_index - b.write_index :=
      size_sub_eq (by omega) (by simp only [SIZE_MAX]; omega)
    have e2 : size_sub (b.read_index - b.write_index) 1 = b.read_index - b.write_index - 1 :=
      size_sub_eq (by omega) (by simp only [SIZE_MAX]; omega)
    have e3 : size_sub N (b.read_index - b.write_index - 1)
        = N - (b.read_index - b.write_index - 1) :=
      size_sub_eq (by omega) (by simp only [SIZE_MAX]; omega)
    simp [c, e1, e2, e3]
    omega

theorem writable_eq {N : Nat} {b : SPSCRingBuffer α} (h : WF N b) :
    b.writable b.read_index b.write_index = some (N - (unread b).length) := by
  have hs := h.small; have := unread_length_le h
  simp only [SIZE_MAX] at hs
  have e : size_sub N (unread b).length = N - (unread b).length :=
    size_sub_eq (by omega) (by simp only [SIZE_MAX]; omega)
  simp [writable, capacity_eq h, readable_eq h, e]

theorem advance_index_eq {N : Nat} {b : SPSCRingBuffer α} (h : WF N b) {idx adv : Nat}
    (hi : idx ≤ N) (ha : adv ≤ N) :
    b.advance_index idx adv = some ((idx + adv) % (N + 1)) := by
  have hs := h.small
  simp only [SIZE_MAX] at hs
  have e : size_add idx adv = idx + adv := size_add_eq (by simp only [SIZE_MAX]; omega)
  unfold advance_index
  simp only [assert, capacity_eq h, h.len, e]
  rw [if_pos (by omega)]
  simp [ha]

theorem min_cases (a b : Nat) : (min a b = a ∧ a ≤ b) ∨ (min a b = b ∧ b ≤ a) := by
  rcases Nat.le_total a b with h | h
  · exact Or.inl ⟨Nat.min_eq_left h, h⟩
  · exact Or.inr ⟨Nat.min_eq_right h, h⟩

theorem mod_succ_cases {a N : Nat} (h : a < 2 * (N + 1)) :
    (a < N + 1 ∧ a % (N + 1) = a) ∨ (N + 1 ≤ a ∧ a % (N + 1) = a - (N + 1)) := by
  have := mod_of_lt_two_mul h
  split at this
  · exact Or.inl ⟨‹_›, this⟩
  · exact Or.inr ⟨by omega, this⟩

theorem unread_length_cases {N : Nat} {b : SPSCRingBuffer α} (h : WF N b) :
    (b.read_index ≤ b.write_index ∧ (unread b).length = b.write_index - b.read_index) ∨
    (b.write_index < b.read_index ∧
      (unread b).length = N + 1 - b.read_index + b.write_index) := by
  have := unread_length h
  split at this
  · exact Or.inl ⟨‹_›, this⟩
  · exact Or.inr ⟨by omega, this⟩

theorem write_pointwise {buf buf1 buf2 data : List α} {N rd wr num first u i : Nat}
    (hrd : rd ≤ N) (hwr : wr ≤ N)
    (hu : (rd ≤ wr ∧ u = wr - rd) ∨ (wr < rd ∧ u = N + 1 - rd + wr))
    (hnum : num ≤ N - u)
    (hfirst : (first = N + 1 - wr ∧ N + 1 - wr ≤ num) ∨ (first = num ∧ num ≤ N + 1 - wr))
    (hb1 : copy buf wr data 0 first = some buf1)
    (hb2 : copy buf1 0 data first (num - first) = some buf2) :
    (if i < u + num then buf2[(rd + i) % (N + 1)]? else none) =
      if i < u then (if i < u then buf[(rd + i) % (N + 1)]? else none)
      else (if i - u < num then data[i - u]? else none) := by
  rw [copy_getElem? hb2, copy_getElem? hb1]
  by_cases hi : i < N + 1
  swap
  · rw [if_neg (by omega), if_neg (by omega), if_neg (by omega)]
  have hm2 := mod_succ_cases (a := rd + i) (N := N) (by omega)
  generalize (rd + i) % (N + 1) = p at hm2 ⊢
  rcases Nat.lt_or_ge i u with c1 | c1
  · rw [if_pos (show i < u + num by omega),
      if_neg (show ¬ (0 ≤ p ∧ p < 0 + (num - first)) by omega),
      if_neg (show ¬ (wr ≤ p ∧ p < wr + first) by omega), if_pos c1, if_pos c1]
  · rw [if_neg (show ¬ i < u by omega)]
    rcases Nat.lt_or_ge i (u + num) with c2 | c2
    · rw [if_pos c2, if_pos (show i - u < num by omega)]
      by_cases c3 : 0 ≤ p ∧ p < 0 + (num - first)
      · rw [if_pos c3]; congr 1; omega
      · rw [if_neg c3, if_pos (show wr ≤ p ∧ p < wr + first by omega)]; congr 1; omega
    · rw [if_neg (show ¬ i < u + num by omega), if_neg (show ¬ i - u < num by omega)]

theorem read_pointwise [Inhabited α] {buf v1 v2 : List α} {N rd wr num first u count i : Nat}
    (hrd : rd ≤ N) (hwr : wr ≤ N)
    (hu : (rd ≤ wr ∧ u = wr - rd) ∨ (wr < rd ∧ u = N + 1 - rd + wr))
    (hnum : (num = count ∧ count ≤ u) ∨ (num = u ∧ u ≤ count))
    (hfirst : (first = N + 1 - rd ∧ N + 1 - rd ≤ num) ∨ (first = num ∧ num ≤ N + 1 - rd))
    (hv1 : copy (List.replicate num (default : α)) 0 buf rd first = some v1)
    (hv2 : copy v1 first buf 0 (num - first) = some v2) :
    v2[i]? = if i < count then (if i < u then buf[(rd + i) % (N + 1)]? else none)
      else none := by
  rw [copy_getElem? hv2, copy_getElem? hv1, List.getElem?_replicate]
  by_cases hi : i < N + 1
  swap
  · rw [if_neg (by omega), if_neg (by omega), if_neg (by omega)]
    split <;> first | rfl | (split <;> first | rfl | (exfalso; omega))
  have hm2 := mod_succ_cases (a := rd + i) (N := N) (by omega)
  generalize (rd + i) % (N + 1) = p at hm2 ⊢
  rcases Nat.lt_or_ge i num with c1 | c1
  · rw [if_pos (show i < count by omega), if_pos (show i < u by omega)]
    by_cases c3 : first ≤ i ∧ i < first + (num - first)
    · rw [if_pos c3]; congr 1; omega
    · rw [if_neg c3, if_pos (show 0 ≤ i ∧ i < 0 + first by omega)]; congr 1; omega
  · rw [if_neg (show ¬ (first ≤ i ∧ i < first + (num - first)) by omega),
      if_neg (show ¬ (0 ≤ i ∧ i < 0 + first) by omega), if_neg (show ¬ i < num by omega)]
    by_cases c4 : i < count
    · rw [if_pos c4, if_neg (show ¬ i < u by omega)]
    · rw [if_neg c4]

/-- Advancing the write cursor by `num` free slots lengthens the unread sequence by `num`. -/
theorem wf_advance_write {N : Nat} {b : SPSCRingBuffer α} (h : WF N b) (buf2 : List α)
    {num : Nat} (hl : buf2.length = N + 1) (hnum : num ≤ N - (unread b).length) :
    WF N (⟨buf2, (b.write_index + num) % (N + 1), b.read_index⟩ : SPSCRingBuffer α) ∧
    (unread (⟨buf2, (b.write_index + num) % (N + 1), b.read_index⟩ :
      SPSCRingBuffer α)).length = (unread b).length + num := by
  have hrd := h.rd; have hwr := h.wr
  have hule := unread_length_le h
  have hulen := unread_length_cases h
  have hmod := mod_succ_cases (a := b.write_index + num) (N := N) (by omega)
  have wf2 : WF N (⟨buf2, (b.write_index + num) % (N + 1), b.read_index⟩ :
      SPSCRingBuffer α) := ⟨hl, h.pos, h.small, hrd, by simp only; omega⟩
  refine ⟨wf2, ?_⟩
  have hlen2 := unread_length_cases wf2
  simp only at hlen2
  omega

/-- Advancing the read cursor by `num` unread slots shortens the unread sequence by `num`. -/
theorem wf_advance_read {N : Nat} {b : SPSCRingBuffer α} (h : WF N b)
    (num : Nat) (hnum : num ≤ (unread b).length) :
    WF N (⟨b.buffer, b.write_index, (b.read_index + num) % (N + 1)⟩ : SPSCRingBuffer α) ∧
    (unread (⟨b.buffer, b.write_index, (b.read_index + num) % (N + 1)⟩ :
      SPSCRingBuffer α)).length = (unread b).length - num := by
  have hrd := h.rd; have hwr := h.wr
  have hule := unread_length_le h
  have hulen := unread_length_cases h
  have hmod := mod_succ_cases (a := b.read_index + num) (N := N) (by omega)
  have wf2 : WF N (⟨b.buffer, b.write_index, (b.read_index + num) % (N + 1)⟩ :
      SPSCRingBuffer α) := ⟨h.len, h.pos, h.small, by simp only; omega, hwr⟩
  refine ⟨wf2, ?_⟩
  have hlen2 := unread_length_cases wf2
  simp only at hlen2
  omega

theorem unread_write {N : Nat} {b : SPSCRingBuffer α} (h : WF N b)
    {data buf1 buf2 : List α} {num first : Nat} (hnum : num ≤ N - (unread b).length)
    (hfirst : (first = N + 1 - b.write_index ∧ N + 1 - b.write_index ≤ num) ∨
      (first = num ∧ num ≤ N + 1 - b.write_index))
    (hb1 : copy b.buffer b.write_index data 0 first = some buf1)
    (hb2 : copy buf1 0 data first (num - first) = some buf2) :
    unread (⟨buf2, (b.write_index + num) % (N + 1), b.read_index⟩ : SPSCRingBuffer α)
      = unread b ++ data.take num := by
  have hl2 : buf2.length = N + 1 := by rw [copy_length hb2, copy_length hb1, h.len]
  obtain ⟨wf2, hlen⟩ := wf_advance_write h buf2 hl2 hnum
  apply List.ext_getElem?
  intro i
  rw [unread_getElem? wf2, List.getElem?_append, unread_getElem? h, List.getElem?_take, hlen]
  exact write_pointwise h.rd h.wr (unread_length_cases h) hnum hfirst hb1 hb2

theorem unread_read {N : Nat} {b : SPSCRingBuffer α} (h : WF N b) {num count : Nat}
    (hnum : (num = count ∧ count ≤ (unread b).length) ∨
      (num = (unread b).length ∧ (unread b).length ≤ count)) :
    unread (⟨b.buffer, b.write_index, (b.read_index + num) % (N + 1)⟩ : SPSCRingBuffer α)
      = (unread b).drop count := by
  obtain ⟨wf2, hlen⟩ := wf_advance_read h num (by omega)
  apply List.ext_getElem?
  intro i
  rw [unread_getElem? wf2, List.getElem?_drop, unread_getElem? h, hlen]
  simp only
  rw [Nat.mod_add_mod]
  by_cases c3 : count + i < (unread b).length
  · have : num = count := by omega
    subst this
    rw [if_pos (by omega), if_pos c3, Nat.add_assoc]
  · rw [if_neg (by omega), if_neg c3]

theorem write_n_spec {N : Nat} {b : SPSCRingBuffer α} (h : WF N b) (data : List α)
    (count : Nat) (hc : count ≤ data.length) :
    ∃ b1, b.write_n data count = some (min count (N - (unread b).length), b1) ∧ WF N b1 ∧
      b1.read_index = b.read_index ∧
      b1.write_index = (b.write_index + min count (N - (unread b).length)) % (N + 1) ∧
      unread b1 = unread b ++ data.take (min count (N - (unread b).length)) ∧
      (min count (N - (unread b).length) = 0 → b1 = b) := by
  have hl := h.len; have hs := h.small; have hrd := h.rd; have hwr := h.wr; have hp := h.pos
  have hule := unread_length_le h
  simp only [SIZE_MAX] at hs
  unfold write_n
  simp only [is_full_eq h, Option.bind_eq_bind, Option.some_bind]
  by_cases c : (unread b).length = N ∨ count = 0
  · have e : min count (N - (unread b).length) = 0 := by omega
    have c2 : (decide ((unread b).length = N) || count == 0) = true := by
      simpa using c
    rw [if_pos c2, e]
    refine ⟨b, rfl, h, rfl, ?_, ?_, fun _ => rfl⟩
    · simp [Nat.mod_eq_of_lt (show b.write_index < N + 1 by omega)]
    · simp
  · have c2 : ¬ (decide ((unread b).length = N) || count == 0) = true := by
      simpa using c
    rw [if_neg c2]
    simp only [writable_eq h, capacity_eq h, Option.some_bind, assert]
    rw [if_pos (by omega)]
    simp only [Option.some_bind, hl]
    have e1 : size_sub (N + 1) b.write_index = N + 1 - b.write_index :=
      size_sub_eq (by omega) (by simp only [SIZE_MAX]; omega)
    rw [e1]
    have hnum := min_cases count (N - (unread b).length)
    generalize min count (N - (unread b).length) = num at hnum ⊢
    have hfirst := min_cases (N + 1 - b.write_index) num
    generalize min (N + 1 - b.write_index) num = first at hfirst ⊢
    have e2 : size_sub num first = num - first :=
      size_sub_eq (by omega) (by simp only [SIZE_MAX]; omega)
    rw [e2]
    obtain ⟨buf1, hb1⟩ := copy_some b.buffer data (d := b.write_index) (s := 0) (n := first)
      (by omega) (by omega)
    have hl1 := copy_length hb1
    obtain ⟨buf2, hb2⟩ := copy_some buf1 data (d := 0) (s := first) (n := num - first)
      (by omega) (by omega)
    have hl2 := copy_length hb2
    rw [hb1]
    simp only [Option.some_bind]
    rw [hb2]
    simp only [Option.some_bind]
    have wf1 : WF N ({ b with buffer := buf2 } : SPSCRingBuffer α) :=
      ⟨by simp only; omega, hp, h.small, hrd, hwr⟩
    rw [advance_index_eq wf1 hwr (by omega)]
    simp only [Option.some_bind]
    have hnum1 : num ≤ N - (unread b).length := by omega
    obtain ⟨wf2, -⟩ := wf_advance_write h buf2 (by omega) hnum1
    exact ⟨_, rfl, wf2, rfl, rfl, unread_write h hnum1 hfirst hb1 hb2, fun h0 => by omega⟩

theorem read_n_spec [Inhabited α] {N : Nat} {b : SPSCRingBuffer α} (h : WF N b)
    (count : Nat) :
    ∃ b1, b.read_n count = some ((unread b).take count, b1) ∧ WF N b1 ∧
      b1.write_index = b.write_index ∧ b1.buffer = b.buffer ∧
      b1.read_index = (b.read_index + min count (unread b).length) % (N + 1) ∧
      unread b1 = (unread b).drop count ∧
      (min count (unread b).length = 0 → b1 = b) := by
  have hl := h.len; have hs := h.small; have hrd := h.rd; have hwr := h.wr; have hp := h.pos
  have hule := unread_length_le h
  have hulen := unread_length_cases h
  simp only [SIZE_MAX] at hs
  unfold read_n
  by_cases c : (unread b).length = 0 ∨ count = 0
  · have e : min count (unread b).length = 0 := by omega
    have c2 : (b.is_empty b.read_index b.write_index || count == 0) = true := by
      simp only [is_empty, Bool.or_eq_true, beq_iff_eq]
      omega
    rw [if_pos c2, e]
    have e2 : (unread b).take count = [] := by
      rcases c with c | c
      · rw [List.length_eq_zero.mp c]; simp
      · rw [c]; simp
    refine ⟨b, by rw [e2]; rfl, h, rfl, rfl, ?_, ?_, fun _ => rfl⟩
    · simp [Nat.mod_eq_of_lt (show b.read_index < N + 1 by omega)]
    · rcases c with c | c
      · rw [List.length_eq_zero.mp c]; simp
      · rw [c]; simp
  · have c2 : ¬ (b.is_empty b.read_index b.write_index || count == 0) = true := by
      simp only [is_empty, Bool.or_eq_true, beq_iff_eq]
      omega
    rw [if_neg c2]
    simp only [readable_eq h, capacity_eq h, Option.bind_eq_bind, Option.some_bind, assert]
    rw [if_pos (by omega)]
    simp only [Option.some_bind, hl]
    have e1 : size_sub (N + 1) b.read_index = N + 1 - b.read_index :=
      size_sub_eq (by omega) (by simp only [SIZE_MAX]; omega)
    rw [e1]
    have hnum := min_cases count (unread b).length
    generalize min count (unread b).length = num at hnum ⊢
    have hfirst := min_cases (N + 1 - b.read_index) num
    generalize min (N + 1 - b.read_index) num = first at hfirst ⊢
    have e2 : size_sub num first = num - first :=
      size_sub_eq (by omega) (by simp only [SIZE_MAX]; omega)
    rw [e2]
    obtain ⟨v1, hv1⟩ := copy_some (List.replicate num (default : α)) b.buffer (d := 0)
      (s := b.read_index) (n := first) (by simp only [List.length_replicate]; omega) (by omega)
    have hl1 := copy_length hv1
    obtain ⟨v2, hv2⟩ := copy_some v1 b.buffer (d := first) (s := 0) (n := num - first)
      (by simp only [hl1, List.length_replicate]; omega) (by omega)
    rw [hv1]
    simp only [Option.some_bind]
    rw [hv2]
    simp only [Option.some_bind]
    rw [advance_index_eq h hrd (by omega)]
    simp only [Option.some_bind]
    obtain ⟨wf2, -⟩ := wf_advance_read h num (by omega)
    have hv : v2 = (unread b).take count := by
      apply List.ext_getElem?
      intro i
      rw [List.getElem?_take, unread_getElem? h]
      exact read_pointwise hrd hwr hulen hnum hfirst hv1 hv2
    exact ⟨_, by rw [hv]; rfl, wf2, rfl, rfl, rfl, unread_read h hnum, fun h0 => by omega⟩

/-- The three ways the constructor ends. -/
theorem new_eq [Inhabited α] [Sized α] (N : Nat) :
    (new N : Option (Exit (SPSCRingBuffer α))) =
      if 1 ≤ N ∧ N < SIZE_MAX / 2 then
        if N + 1 ≤ max_size α then some (.returned ⟨List.replicate (N + 1) default, 0, 0⟩)
        else some .length_error
      else none := by
  unfold new
  simp only [assert, Option.bind_eq_bind, Option.pure_def]
  by_cases c1 : N > 0
  · by_cases c2 : N < SIZE_MAX / 2
    · have e : size_add N 1 = N + 1 := size_add_eq (by simp only [SIZE_MAX] at *; omega)
      by_cases c3 : N + 1 ≤ max_size α
      · have c4 : ¬ N + 1 > max_size α := by omega
        simp [c1, c2, c3, c4, e]
        omega
      · have c4 : N + 1 > max_size α := by omega
        simp [c1, c2, c3, c4, e]
        omega
    · have c0 : ¬ (1 ≤ N ∧ N < SIZE_MAX / 2) := fun h => c2 h.2
      simp [c1, c2, c0]
  · have c0 : ¬ (1 ≤ N ∧ N < SIZE_MAX / 2) := fun h => c1 h.1
    simp [c1, c0]

theorem new_spec [Inhabited α] [Sized α] {N : Nat} {b : SPSCRingBuffer α}
    (h : new N = some (.returned b)) :
    WF N b ∧ b = ⟨List.replicate (N + 1) default, 0, 0⟩ ∧ N + 1 ≤ max_size α := by
  rw [new_eq] at h
  split_ifs at h with c1 c2
  · cases h
    exact ⟨⟨by simp, c1.1, c1.2, Nat.zero_le _, Nat.zero_le _⟩, rfl, c2⟩
  · cases h

theorem new_some [Inhabited α] [Sized α] {N : Nat} (h1 : 1 ≤ N) (h2 : N < SIZE_MAX / 2)
    (h3 : N + 1 ≤ max_size α) :
    (new N : Option (Exit (SPSCRingBuffer α))) =
      some (.returned ⟨List.replicate (N + 1) default, 0, 0⟩) := by
  rw [new_eq, if_pos ⟨h1, h2⟩, if_pos h3]

theorem write_spec {N : Nat} {b : SPSCRingBuffer α} (h : WF N b) (x : α) :
    ∃ b1, b.write x = some (min 1 (N - (unread b).length), b1) ∧ WF N b1 ∧
      b1.read_index = b.read_index ∧
      unread b1 = unread b ++ [x].take (min 1 (N - (unread b).length)) ∧
      (min 1 (N - (unread b).length) = 0 → b1 = b) := by
  obtain ⟨b1, h1, h2, h3, -, h5, h6⟩ := write_n_spec h [x] 1 (by simp)
  exact ⟨b1, h1, h2, h3, h5, h6⟩

theorem write_all_spec {N : Nat} {b : SPSCRingBuffer α} (h : WF N b) (xs : List α) :
    ∃ b1, b.write_all xs = some (min xs.length (N - (unread b).length), b1) ∧ WF N b1 ∧
      b1.read_index = b.read_index ∧
      unread b1 = unread b ++ xs.take (min xs.length (N - (unread b).length)) ∧
      (min xs.length (N - (unread b).length) = 0 → b1 = b) := by
  obtain ⟨b1, h1, h2, h3, -, h5, h6⟩ := write_n_spec h xs xs.length (Nat.le_refl _)
  exact ⟨b1, h1, h2, h3, h5, h6⟩

theorem read_spec [Inhabited α] [Sized α] {N : Nat} {b : SPSCRingBuffer α} (h : WF N b) :
    ∃ b1, b.read = some ((unread b).head?, b1) ∧ WF N b1 ∧
      b1 = { b with read_index := (b.read_index + min 1 (unread b).length) % (N + 1) } ∧
      unread b1 = (unread b).tail ∧ (unread b = [] → b1 = b) := by
  obtain ⟨b1, h1, h2, h3, h4, h5, h6, h7⟩ := read_n_spec h 1
  refine ⟨b1, ?_, h2, ?_, ?_, ?_⟩
  · unfold read
    rw [h1]
    cases hu : unread b with
    | nil => rfl
    | cons y ys => rfl
  · cases b1; simp only at h3 h4 h5; subst h3 h4 h5; rfl
  · rw [h6]; simp
  · intro hu; apply h7; rw [hu]; rfl

theorem cursor_wraps {N : Nat} {b : SPSCRingBuffer α} (h : WF N b) :
    (b.read_index + (unread b).length) % (N + 1) = b.write_index := by
  have := h.rd; have := h.wr
  have hu := unread_length_cases h
  have hule := unread_length_le h
  have hm := mod_succ_cases (a := b.read_index + (unread b).length) (N := N) (by omega)
  omega

theorem empty_iff {N : Nat} {b : SPSCRingBuffer α} (h : WF N b) :
    unread b = [] ↔ b.read_index = b.write_index := by
  have := h.rd; have := h.wr
  have hu := unread_length_cases h
  rw [← List.length_eq_zero]
  omega

theorem full_iff {N : Nat} {b : SPSCRingBuffer α} (h : WF N b) :
    (unread b).length = N ↔ (b.write_index + 1) % (N + 1) = b.read_index := by
  have := h.rd; have := h.wr; have := h.pos
  have hu := unread_length_cases h
  have hm := mod_succ_cases (a := b.write_index + 1) (N := N) (by omega)
  omega

theorem read_all_spec [Inhabited α] [Sized α] {N : Nat} {b : SPSCRingBuffer α} (h : WF N b) :
    ∃ b1, b.read_all = some (unread b, b1) ∧ WF N b1 ∧
      b1 = { b with read_index := b.write_index } ∧ unread b1 = [] ∧
      (unread b = [] → b1 = b) := by
  have hule := unread_length_le h
  obtain ⟨b1, h1, h2, h3, h4, h5, h6, h7⟩ := read_n_spec h N
  have e : min N (unread b).length = (unread b).length := by omega
  rw [e, cursor_wraps h] at h5
  refine ⟨b1, ?_, h2, ?_, ?_, ?_⟩
  · unfold read_all
    rw [capacity_eq h]
    simp only [Option.bind_eq_bind, Option.some_bind]
    rw [h1, List.take_of_length_le hule]
  · cases b1; simp only at h3 h4 h5; subst h3 h4 h5; rfl
  · rw [h6, List.drop_of_length_le hule]
  · intro hu; apply h7; rw [hu]; simp

theorem Reachable.wf [Inhabited α] [Sized α] {N : Nat} {b : SPSCRingBuffer α} (hr : Reachable N b) :
    WF N b := by
  induction hr with
  | init h => exact (new_spec h).1
  | write _ h ih =>
    obtain ⟨b2, h1, h2, -⟩ := write_spec ih _
    rw [h1] at h; cases h; exact h2
  | write_all _ h ih =>
    obtain ⟨b2, h1, h2, -⟩ := write_all_spec ih _
    rw [h1] at h; cases h; exact h2
  | read _ h ih =>
    obtain ⟨b2, h1, h2, -⟩ := read_spec ih
    rw [h1] at h; cases h; exact h2
  | read_all _ h ih =>
    obtain ⟨b2, h1, h2, -⟩ := read_all_spec ih
    rw [h1] at h; cases h; exact h2

/-! ### Runs -/

/-- The invariant of a recorded run, for elements that `memcpy` copies by value: what
was accepted is what was returned followed by what is still unread. -/
theorem Session.call_spec [Inhabited α] [Sized α] {N : Nat} {s : Session α} (hwf : WF N s.buf)
    (hinv : s.accepted = s.returned ++ unread s.buf) (c : Call α) :
    ∃ s1, s.call c = some s1 ∧ WF N s1.buf ∧
      s1.accepted = s1.returned ++ unread s1.buf := by
  cases c with
  | write x =>
    obtain ⟨b1, h1, h2, -, h4, -⟩ := write_spec hwf x
    refine ⟨_, by simp only [Session.call, h1, Option.bind_eq_bind, Option.some_bind]; rfl,
      h2, ?_⟩
    simp only [h4, hinv, List.append_assoc]
  | write_all xs =>
    obtain ⟨b1, h1, h2, -, h4, -⟩ := write_all_spec hwf xs
    refine ⟨_, by simp only [Session.call, h1, Option.bind_eq_bind, Option.some_bind]; rfl,
      h2, ?_⟩
    simp only [h4, hinv, List.append_assoc]
  | read =>
    obtain ⟨b1, h1, h2, -, h4, -⟩ := read_spec hwf
    refine ⟨_, by simp only [Session.call, h1, Option.bind_eq_bind, Option.some_bind]; rfl,
      h2, ?_⟩
    simp only [h4, hinv, List.append_assoc]
    cases unread s.buf <;> simp
  | read_all =>
    obtain ⟨b1, h1, h2, -, h4, -⟩ := read_all_spec hwf
    refine ⟨_, by simp only [Session.call, h1, Option.bind_eq_bind, Option.some_bind]; rfl,
      h2, ?_⟩
    simp only [h4, hinv, List.append_nil]

theorem Session.run_inv [Inhabited α] [Sized α] {N : Nat} (cs : List (Call α)) :
    ∀ {s : Session α}, WF N s.buf → s.accepted = s.returned ++ unread s.buf →
      ∃ s1, s.run cs = some s1 ∧ WF N s1.buf ∧
        s1.accepted = s1.returned ++ unread s1.buf := by
  induction cs with
  | nil => intro s hwf hinv; exact ⟨s, rfl, hwf, hinv⟩
  | cons c cs ih =>
    intro s hwf hinv
    obtain ⟨s1, h1, h2, h3⟩ := Session.call_spec hwf hinv c
    obtain ⟨s2, h4, h5, h6⟩ := ih h2 h3
    exact ⟨s2, by simp only [Session.run, h1, Option.some_bind, h4], h5, h6⟩

theorem Reachable.of_run [Inhabited α] [Sized α] {N : Nat} (cs : List (Call α)) :
    ∀ {s t : Session α}, Reachable N s.buf → s.run cs = some t → Reachable N t.buf := by
  induction cs with
  | nil => intro s t hr h; cases h; exact hr
  | cons c cs ih =>
    intro s t hr h
    simp only [Session.run] at h
    cases hc : s.call c with
    | none => rw [hc] at h; cases h
    | some s2 =>
      rw [hc] at h
      refine ih ?_ h
      cases c with
      | write x =>
        simp only [Session.call, Option.bind_eq_bind] at hc
        cases hw : s.buf.write x with
        | none => rw [hw] at hc; cases hc
        | some p => rw [hw] at hc; cases hc; exact Reachable.write hr hw
      | write_all xs =>
        simp only [Session.call, Option.bind_eq_bind] at hc
        cases hw : s.buf.write_all xs with
        | none => rw [hw] at hc; cases hc
        | some p => rw [hw] at hc; cases hc; exact Reachable.write_all hr hw
      | read =>
        simp only [Session.call, Option.bind_eq_bind] at hc
        cases hw : s.buf.read with
        | none => rw [hw] at hc; cases hc
        | some p => rw [hw] at hc; cases hc; exact Reachable.read hr hw
      | read_all =>
        simp only [Session.call, Option.bind_eq_bind] at hc
        cases hw : s.buf.read_all with
        | none => rw [hw] at hc; cases hc
        | some p => rw [hw] at hc; cases hc; exact Reachable.read_all hr hw

/-! ## The claims on `SPSCRingBuffer` -/

/-- C3. `write_all` on a buffer that is not full: in a reachable state whose
writable count is `w ≥ 1`, `write_all xs` with `xs` non-empty returns
`n = min (len xs) w`, leaves `read_index` alone, and the unread sequence afterwards
is the old one followed by exactly the first `n` elements of `xs`, in order. -/
theorem write_all_enqueues_first_n [Inhabited α] [Sized α] {N : Nat} {b : SPSCRingBuffer α}
    (hr : Reachable N b) (w : Nat) (hw : b.writable b.read_index b.write_index = some w)
    (hw1 : 1 ≤ w) (xs : List α) (hxs : xs ≠ []) :
    ∃ b1, b.write_all xs = some (min xs.length w, b1) ∧ 1 ≤ min xs.length w ∧
      b1.read_index = b.read_index ∧
      unread b1 = unread b ++ xs.take (min xs.length w) ∧
      (unread b1).length = (unread b).length + min xs.length w := by
  have hwf := hr.wf
  rw [writable_eq hwf] at hw
  cases hw
  obtain ⟨b1, h1, -, h3, h4, -⟩ := write_all_spec hwf xs
  have hl : 1 ≤ xs.length := List.length_pos.mpr hxs
  refine ⟨b1, h1, by omega, h3, h4, ?_⟩
  rw [h4, List.length_append, List.length_take]
  omega

/-- C3, evaluated: capacity 3, cursors at `read_index = 2`, `write_index = 3`, so
the two accepted elements go to slots 3 and 0 and the third is rejected. -/
theorem write_all_enqueues_first_n_witness :
    ∃ b1, write_all (⟨[1, 2, 3, 0], 3, 2⟩ : SPSCRingBuffer Nat) [6, 7, 8]
        = some (min [6, 7, 8].length 2, b1) ∧ 1 ≤ min [6, 7, 8].length 2 ∧
      b1.read_index = 2 ∧
      unread b1 = unread (⟨[1, 2, 3, 0], 3, 2⟩ : SPSCRingBuffer Nat)
        ++ [6, 7, 8].take (min [6, 7, 8].length 2) ∧
      (unread b1).length = (unread (⟨[1, 2, 3, 0], 3, 2⟩ : SPSCRingBuffer Nat)).length
        + min [6, 7, 8].length 2 :=
  write_all_enqueues_first_n (N := 3)
    (Reachable.of_run [.write_all [1, 2, 3, 4, 5], .read, .read]
      (s := ⟨⟨[0, 0, 0, 0], 0, 0⟩, [], []⟩) (t := ⟨⟨[1, 2, 3, 0], 3, 2⟩, [1, 2, 3], [1, 2]⟩)
      (Reachable.init (by rfl)) (by rfl))
    2 (by rfl) (by decide) [6, 7, 8] (by decide)

/-- C4. `write` reports a full buffer by its return value: in a reachable state
`is_full` holds exactly when `(write_index + 1) mod (N + 1) = read_index`; when the
buffer is not full, `write x` returns 1 and `x` becomes the newest unread element;
when it is full, `write x` returns 0 and the buffer (slots and both cursors) is
unchanged; `write_all` returns 0 and changes nothing when the buffer is full or its
argument is empty. -/
theorem write_reports_full [Inhabited α] [Sized α] {N : Nat} {b : SPSCRingBuffer α}
    (hr : Reachable N b) (x : α) (xs : List α) :
    b.is_full b.read_index b.write_index
      = some (decide ((b.write_index + 1) % (N + 1) = b.read_index)) ∧
    ((b.write_index + 1) % (N + 1) ≠ b.read_index →
      ∃ b1, b.write x = some (1, b1) ∧ unread b1 = unread b ++ [x] ∧
        b1.read_index = b.read_index) ∧
    ((b.write_index + 1) % (N + 1) = b.read_index → b.write x = some (0, b)) ∧
    ((b.write_index + 1) % (N + 1) = b.read_index ∨ xs = [] →
      b.write_all xs = some (0, b)) := by
  have hwf := hr.wf
  have hule := unread_length_le hwf
  have hfull := full_iff hwf
  refine ⟨?_, fun hnf => ?_, fun hf => ?_, fun hf => ?_⟩
  · rw [is_full_eq hwf]
    congr 1
    exact decide_eq_decide.mpr hfull
  · obtain ⟨b1, h1, -, h3, h4, -⟩ := write_spec hwf x
    have e : min 1 (N - (unread b).length) = 1 := by
      have : (unread b).length ≠ N := fun h => hnf (hfull.mp h)
      omega
    rw [e] at h1 h4
    exact ⟨b1, h1, h4, h3⟩
  · obtain ⟨b1, h1, -, -, -, h5⟩ := write_spec hwf x
    have e : min 1 (N - (unread b).length) = 0 := by
      have := hfull.mpr hf
      omega
    rw [e] at h1
    rw [h1, h5 e]
  · obtain ⟨b1, h1, -, -, -, h5⟩ := write_all_spec hwf xs
    have e : min xs.length (N - (unread b).length) = 0 := by
      rcases hf with hf | hf
      · have := hfull.mpr hf
        omega
      · rw [hf]; simp
    rw [e] at h1
    rw [h1, h5 e]

/-- C4, evaluated on a full buffer of capacity 2 (`read_index = 1`, `write_index = 0`). -/
theorem write_reports_full_witness :
    is_full (⟨[1, 2, 3], 0, 1⟩ : SPSCRingBuffer Nat) 1 0
      = some (decide ((0 + 1) % (2 + 1) = 1)) ∧
    ((0 + 1) % (2 + 1) ≠ 1 →
      ∃ b1, write (⟨[1, 2, 3], 0, 1⟩ : SPSCRingBuffer Nat) 9 = some (1, b1) ∧
        unread b1 = unread (⟨[1, 2, 3], 0, 1⟩ : SPSCRingBuffer Nat) ++ [9] ∧
        b1.read_index = 1) ∧
    ((0 + 1) % (2 + 1) = 1 →
      write (⟨[1, 2, 3], 0, 1⟩ : SPSCRingBuffer Nat) 9 = some (0, ⟨[1, 2, 3], 0, 1⟩)) ∧
    ((0 + 1) % (2 + 1) = 1 ∨ [4, 5] = [] →
      write_all (⟨[1, 2, 3], 0, 1⟩ : SPSCRingBuffer Nat) [4, 5]
        = some (0, ⟨[1, 2, 3], 0, 1⟩)) :=
  write_reports_full (N := 2)
    (Reachable.of_run [.write_all [1, 2], .read, .write 3, .write 2]
      (s := ⟨⟨[0, 0, 0], 0, 0⟩, [], []⟩) (t := ⟨⟨[1, 2, 3], 0, 1⟩, [1, 2, 3], [1]⟩)
      (Reachable.init (by rfl)) (by rfl))
    9 [4, 5]

/-- C5. `read` dequeues one element or reports empty: in a reachable state `read`
returns the empty optional exactly when `read_index = write_index`, and then the
buffer is unchanged; otherwise it returns the oldest unread element, `read_index`
advances by 1 modulo `N + 1`, nothing else changes, and the unread sequence
afterwards is the old one without its first element. -/
theorem read_dequeues_one [Inhabited α] [Sized α] {N : Nat} {b : SPSCRingBuffer α}
    (hr : Reachable N b) :
    ((∃ b1, b.read = some (none, b1)) ↔ b.read_index = b.write_index) ∧
    (b.read_index = b.write_index → b.read = some (none, b)) ∧
    (b.read_index ≠ b.write_index →
      ∃ x rest, unread b = x :: rest ∧
        b.read = some (some x, { b with read_index := (b.read_index + 1) % (N + 1) }) ∧
        unread { b with read_index := (b.read_index + 1) % (N + 1) } = rest) := by
  have hwf := hr.wf
  obtain ⟨b1, h1, -, h3, h4, h5⟩ := read_spec hwf
  have hemp := empty_iff hwf
  have hne : b.read_index ≠ b.write_index →
      ∃ x rest, unread b = x :: rest ∧
        b.read = some (some x, { b with read_index := (b.read_index + 1) % (N + 1) }) ∧
        unread { b with read_index := (b.read_index + 1) % (N + 1) } = rest := by
    intro hne
    cases hu : unread b with
    | nil => exact absurd (hemp.mp hu) hne
    | cons x rest =>
      rw [hu] at h1 h3 h4
      have e : min 1 (x :: rest).length = 1 := by simp
      rw [e] at h3
      subst h3
      exact ⟨x, rest, rfl, h1, h4⟩
  refine ⟨⟨fun ⟨b2, h2⟩ => ?_, fun he => ?_⟩, fun he => ?_, hne⟩
  · by_contra hc
    obtain ⟨x, rest, -, h6, -⟩ := hne hc
    rw [h6] at h2
    cases h2
  · have hu := hemp.mpr he
    rw [hu] at h1
    exact ⟨b1, h1⟩
  · have hu := hemp.mpr he
    rw [h5 hu] at h1
    rw [hu] at h1
    exact h1

/-- C5, evaluated on a wrapped buffer of capacity 2 holding `3, 4`. -/
theorem read_dequeues_one_witness :
    ((∃ b1, read (⟨[4, 2, 3], 1, 2⟩ : SPSCRingBuffer Nat) = some (none, b1)) ↔ 2 = 1) ∧
    (2 = 1 → read (⟨[4, 2, 3], 1, 2⟩ : SPSCRingBuffer Nat) = some (none, ⟨[4, 2, 3], 1, 2⟩)) ∧
    (2 ≠ 1 →
      ∃ x rest, unread (⟨[4, 2, 3], 1, 2⟩ : SPSCRingBuffer Nat) = x :: rest ∧
        read (⟨[4, 2, 3], 1, 2⟩ : SPSCRingBuffer Nat)
          = some (some x, ⟨[4, 2, 3], 1, (2 + 1) % (2 + 1)⟩) ∧
        unread (⟨[4, 2, 3], 1, (2 + 1) % (2 + 1)⟩ : SPSCRingBuffer Nat) = rest) :=
  read_dequeues_one (N := 2)
    (Reachable.of_run [.write_all [1, 2], .read, .read, .write 3, .write 4]
      (s := ⟨⟨[0, 0, 0], 0, 0⟩, [], []⟩) (t := ⟨⟨[4, 2, 3], 1, 2⟩, [1, 2, 3, 4], [1, 2]⟩)
      (Reachable.init (by rfl)) (by rfl))

/-- C6. `read_all` dequeues everything: in a reachable state `read_all` returns
the whole unread sequence, whose length is `readable(read_index, write_index)`, in
FIFO order; afterwards `read_index = write_index` (the buffer is empty) and the
slots and `write_index` are as before; on an empty buffer it returns the empty
list and changes nothing. -/
theorem read_all_dequeues_everything [Inhabited α] [Sized α] {N : Nat} {b : SPSCRingBuffer α}
    (hr : Reachable N b) :
    ∃ b1, b.read_all = some (unread b, b1) ∧
      b.readable b.read_index b.write_index = some (unread b).length ∧
      b1.read_index = b1.write_index ∧ unread b1 = [] ∧
      b1.write_index = b.write_index ∧ b1.buffer = b.buffer ∧
      (b.read_index = b.write_index → unread b = [] ∧ b1 = b) := by
  have hwf := hr.wf
  obtain ⟨b1, h1, -, h3, h4, h5⟩ := read_all_spec hwf
  refine ⟨b1, h1, readable_eq hwf, by rw [h3], h4, by rw [h3], by rw [h3], fun he => ?_⟩
  have hu := (empty_iff hwf).mpr he
  exact ⟨hu, h5 hu⟩

/-- C6, evaluated on a wrapped buffer of capacity 3 holding `3, 6, 7`. -/
theorem read_all_dequeues_everything_witness :
    ∃ b1, read_all (⟨[7, 2, 3, 6], 1, 2⟩ : SPSCRingBuffer Nat)
        = some (unread (⟨[7, 2, 3, 6], 1, 2⟩ : SPSCRingBuffer Nat), b1) ∧
      readable (⟨[7, 2, 3, 6], 1, 2⟩ : SPSCRingBuffer Nat) 2 1
        = some (unread (⟨[7, 2, 3, 6], 1, 2⟩ : SPSCRingBuffer Nat)).length ∧
      b1.read_index = b1.write_index ∧ unread b1 = [] ∧
      b1.write_index = 1 ∧ b1.buffer = [7, 2, 3, 6] ∧
      (2 = 1 → unread (⟨[7, 2, 3, 6], 1, 2⟩ : SPSCRingBuffer Nat) = [] ∧
        b1 = ⟨[7, 2, 3, 6], 1, 2⟩) :=
  read_all_dequeues_everything (N := 3)
    (Reachable.of_run [.write_all [1, 2, 3, 4, 5], .read, .read, .write_all [6, 7, 8]]
      (s := ⟨⟨[0, 0, 0, 0], 0, 0⟩, [], []⟩)
      (t := ⟨⟨[7, 2, 3, 6], 1, 2⟩, [1, 2, 3, 6, 7], [1, 2]⟩)
      (Reachable.init (by rfl)) (by rfl))

/-- C7. Capacity bound: in every state reachable from `SPSCRingBuffer(N)` by
`write`, `write_all`, `read` and `read_all` calls (with arguments of any length),
`readable(read_index, write_index)` is the number of unread elements and is at
most `N`. -/
theorem unread_at_most_capacity [Inhabited α] [Sized α] {N : Nat} {b : SPSCRingBuffer α}
    (hr : Reachable N b) :
    b.readable b.read_index b.write_index = some (unread b).length ∧
      (unread b).length ≤ N :=
  ⟨readable_eq hr.wf, unread_length_le hr.wf⟩

/-- C7, evaluated: capacity 2 after the producer offered five elements and then
two more. -/
theorem unread_at_most_capacity_witness :
    readable (⟨[1, 2, 0], 2, 0⟩ : SPSCRingBuffer Nat) 0 2
        = some (unread (⟨[1, 2, 0], 2, 0⟩ : SPSCRingBuffer Nat)).length ∧
      (unread (⟨[1, 2, 0], 2, 0⟩ : SPSCRingBuffer Nat)).length ≤ 2 :=
  unread_at_most_capacity (N := 2)
    (Reachable.of_run [.write_all [1, 2, 3, 4, 5], .write_all [6, 7], .write 8]
      (s := ⟨⟨[0, 0, 0], 0, 0⟩, [], []⟩) (t := ⟨⟨[1, 2, 0], 2, 0⟩, [1, 2], []⟩)
      (Reachable.init (by rfl)) (by rfl))

end SPSCRingBuffer

namespace DynamicRingBuffer

variable {α : Type}

open SPSCRingBuffer (unread)

/-! ## Lemmas on the dynamic ring buffer -/

theorem View.write_good (C : Nat) {v : View α} (x : α) (hg : v.Good)
    (hbs : C - v.inner.length = C ∨ v.onhold ≠ none ∨ v.batch_size ≠ 0) :
    (v.write C x).Good := by
  obtain ⟨hsl, hho⟩ := hg
  have hr : (v.reset C).Good ∧ ((v.reset C).onhold ≠ none ∨ (v.reset C).batch_size ≠ 0) := by
    unfold View.reset
    split
    · refine ⟨⟨?_, by simp⟩, Or.inr (by simp)⟩
      intro p hp
      simp only [List.mem_append, List.mem_map, Option.mem_toList, Option.mem_def] at hp
      rcases hp with hp | ⟨b, -, rfl⟩
      · exact hsl p hp
      · simp
    · rename_i hne
      refine ⟨⟨hsl, hho⟩, ?_⟩
      rcases hbs with h | h | h
      · exact absurd h hne
      · exact Or.inl h
      · exact Or.inr h
  obtain ⟨⟨hsl1, hho1⟩, hbs1⟩ := hr
  have hb : ∀ b, some ((Option.getD (v.reset C).onhold
      { capacity := (v.reset C).batch_size, buf := [] }).write x) = some b →
      b.capacity = (v.reset C).batch_size ∧ b.capacity ≠ 0 ∧ b.buf ≠ [] := by
    intro b hb
    cases hb
    cases ho : (v.reset C).onhold with
    | none =>
      rw [ho] at hbs1
      exact ⟨rfl, by simpa [Batch.write] using hbs1, by simp [Batch.write]⟩
    | some b0 =>
      obtain ⟨h1, h2, -⟩ := hho1 b0 ho
      exact ⟨h1, h2, by simp [Batch.write]⟩
  have hin : ∀ p ∈ (v.reset C).inner ++ [some ((Option.getD (v.reset C).onhold
      { capacity := (v.reset C).batch_size, buf := [] }).write x)], p ≠ none := by
    intro p hp
    simp only [List.mem_append, List.mem_singleton] at hp
    rcases hp with hp | rfl
    · exact hsl1 p hp
    · simp
  unfold View.write
  simp only
  split
  · exact ⟨hsl1, hb⟩
  · split
    · split
      · exact ⟨hin, by simp⟩
      · exact ⟨hin, by simp⟩
    · exact ⟨hsl1, hb⟩

theorem room_eq {C : Nat} {d : DynamicRingBuffer α} (h : SPSCRingBuffer.WF C d.buffer) :
    d.room = C - (unread d.buffer).length := by
  unfold room; rw [h.len]; rfl

theorem writable_capacity_eq {C : Nat} {d : DynamicRingBuffer α}
    (h : SPSCRingBuffer.WF C d.buffer) :
    d.buffer.writable_capacity = some (C - (unread d.buffer).length) := by
  unfold SPSCRingBuffer.writable_capacity
  exact SPSCRingBuffer.writable_eq h

theorem submit_spec {C : Nat} {d : DynamicRingBuffer α} (hwf : SPSCRingBuffer.WF C d.buffer)
    (h : d.onhold = none ∨ (unread d.buffer).length < C) :
    ∃ buffer, d.submit_onhold_data = some { d with onhold := none, buffer := buffer } ∧
      SPSCRingBuffer.WF C buffer ∧
      unread buffer = unread d.buffer ++ d.onhold.toList.map some := by
  unfold submit_onhold_data
  cases ho : d.onhold with
  | none =>
    refine ⟨d.buffer, ?_, hwf, by simp⟩
    simp only [Option.bind_eq_bind, Option.pure_def, Option.some_bind, assert, ho,
      Option.isNone_none, if_true]
    cases d; simp only at ho; subst ho; rfl
  | some b =>
    have hlt : (unread d.buffer).length < C := by
      rcases h with h | h
      · rw [ho] at h; cases h
      · exact h
    obtain ⟨b1, h1, h2, -, h4, -⟩ := SPSCRingBuffer.write_spec hwf (some b)
    have e : min 1 (C - (unread d.buffer).length) = 1 := by omega
    rw [e] at h1 h4
    refine ⟨b1, ?_, h2, by simpa using h4⟩
    simp only [Option.bind_eq_bind, Option.pure_def, Option.some_bind, assert, h1,
      Option.isNone_none, if_true, gt_iff_lt, Nat.lt_one_iff, Nat.zero_lt_one]

/-- The last part of `write`: append to `onhold`, then submit and adapt. -/
theorem write_tail {C : Nat} {d : DynamicRingBuffer α} (hin : SPSCRingBuffer.WF C d.buffer)
    (a : Batch α) (x : α) (W : Nat) (hW : W ≤ C)
    (hroom : W ≠ 0 → (unread d.buffer).length < C) :
    ∃ d1,
      (if (W == 0) = true then
          some (Exit.returned { d with onhold := some (a.write x) })
        else
          if (a.write x).is_full = true then
            ({ d with onhold := some (a.write x) } :
                DynamicRingBuffer α).submit_onhold_data.bind
              fun d4 =>
                if size_sub W 1 ≤ d4.threshold then
                  (assert (d4.onhold.isNone = true)).bind fun _ =>
                    some (Exit.returned { d4 with threshold := d4.threshold / 2,
                                                  batch_size := size_mul d4.batch_size 2 })
                else some (Exit.returned d4)
          else some (Exit.returned { d with onhold := some (a.write x) })) =
        some (Exit.returned d1) ∧
      SPSCRingBuffer.WF C d1.buffer ∧ d1.batch_size_base = d.batch_size_base ∧
      d1.threshold_base = d.threshold_base ∧
      view d1 =
        (if W = 0 then { view d with onhold := some (a.write x) }
         else if (a.write x).is_full then
           (if W - 1 ≤ d.threshold then
              { inner := unread d.buffer ++ [some (a.write x)], onhold := none,
                threshold := d.threshold / 2, batch_size := size_mul d.batch_size 2 }
            else { view d with inner := unread d.buffer ++ [some (a.write x)],
                                onhold := none })
         else { view d with onhold := some (a.write x) }) := by
  have hs := hin.small
  simp only [SIZE_MAX] at hs
  by_cases h0 : W = 0
  · have e0 : (W == 0) = true := by simpa using h0
    rw [if_pos e0, if_pos h0]
    exact ⟨_, rfl, hin, rfl, rfl, rfl⟩
  · have e0 : ¬ (W == 0) = true := by simpa using h0
    rw [if_neg e0, if_neg h0]
    by_cases hf : (a.write x).is_full = true
    · rw [if_pos hf, if_pos hf]
      obtain ⟨buf1, hs1, hw1, hu1⟩ := submit_spec
        (d := ({ d with onhold := some (a.write x) } : DynamicRingBuffer α)) hin
        (Or.inr (hroom h0))
      rw [hs1]
      have e1 : size_sub W 1 = W - 1 := size_sub_eq (by omega) (by simp only [SIZE_MAX]; omega)
      simp only [Option.some_bind, e1, assert, Option.isNone_none, if_true]
      simp only [Option.toList_some, List.map_cons, List.map_nil] at hu1
      by_cases ht : W - 1 ≤ d.threshold
      · rw [if_pos ht, if_pos ht]
        exact ⟨_, rfl, hw1, rfl, rfl, by simp [view, hu1]⟩
      · rw [if_neg ht, if_neg ht]
        exact ⟨_, rfl, hw1, rfl, rfl, by simp [view, hu1]⟩
    · rw [if_neg hf, if_neg hf]
      exact ⟨_, rfl, hin, rfl, rfl, by simp [view]⟩

theorem set_capacity_eq (cap : Nat) :
    (Batch.empty : Batch α).set_capacity cap =
      if cap = 0 then none
      else if PTRDIFF_MAX < cap then some .length_error
      else some (.returned { capacity := cap, buf := [] }) := by
  unfold Batch.set_capacity Batch.empty
  by_cases h0 : cap = 0
  · simp [assert, h0]
  · by_cases h1 : PTRDIFF_MAX < cap
    · simp [assert, h0, h1]
    · simp [assert, h0, h1]

theorem write_refines {C : Nat} {d : DynamicRingBuffer α} (hwf : WF C d) (x : α)
    (hbs : d.room = C ∨ d.onhold ≠ none ∨ (d.batch_size ≠ 0 ∧ d.batch_size ≤ PTRDIFF_MAX)) :
    ∃ d1, d.write x = some (.returned d1) ∧ WF C d1 ∧ view d1 = (view d).write C x := by
  have hin := hwf.inner
  have hC := hwf.two
  have hs := hin.small
  simp only [SIZE_MAX] at hs
  have hule := SPSCRingBuffer.unread_length_le hin
  rw [room_eq hin] at hbs
  unfold write
  simp only [writable_capacity_eq hin, SPSCRingBuffer.capacity_eq hin, Option.bind_eq_bind,
    Option.some_bind, Option.pure_def]
  by_cases hu : (unread d.buffer).length = 0
  · -- the inner buffer is empty: the cycle is reset
    have e1 : (C - (unread d.buffer).length == C) = true := by simp [hu]
    obtain ⟨buf1, hs1, hw1, hu1⟩ := submit_spec hin (Or.inr (by omega))
    simp only [e1, if_true, hs1, Option.some_bind, hwf.bsb, hwf.thb]
    have ea : (Batch.empty : Batch α).set_capacity 1
        = some (.returned { capacity := 1, buf := [] }) := by
      rw [set_capacity_eq, if_neg (by decide), if_neg (by decide)]
    rw [ea]
    simp only [Option.some_bind]
    have hu1len : (unread buf1).length < C := by
      rw [hu1, List.length_append, hu]
      cases d.onhold <;> simp <;> omega
    obtain ⟨d1, h1, h2, h3, h4, h5⟩ := write_tail
      (d := { batch_size_base := 1, batch_size := 1, onhold := none, threshold_base := C / 2,
               threshold := C / 2, buffer := buf1 })
      hw1 { capacity := 1, buf := [] } x (C - (unread d.buffer).length) (by omega)
      (fun _ => hu1len)
    have hv : view d1 = (view d).write C x := by
      rw [h5]
      simp only [View.write, View.reset, view, hu, Nat.sub_zero, if_true, Option.getD_none,
        hu1]
    exact ⟨d1, h1, ⟨h2, hC, h3, h4, hv ▸ View.write_good C x hwf.good (Or.inl (by simp [view, hu]))⟩,
      hv⟩
  · -- the inner buffer holds a batch: no reset
    have e1 : ¬ (C - (unread d.buffer).length == C) = true := by
      simp only [beq_iff_eq]; omega
    have hne : ¬ C - (unread d.buffer).length = C := by omega
    simp only [e1, if_false, Option.some_bind]
    cases ho : d.onhold with
    | some b =>
      simp only [Option.some_bind, ho]
      obtain ⟨d1, h1, h2, h3, h4, h5⟩ := write_tail (d := d) hin b x
        (C - (unread d.buffer).length) (by omega) (fun _ => by omega)
      have hv : view d1 = (view d).write C x := by
        rw [h5]
        simp only [View.write, View.reset, view, hne, if_false, ho, Option.getD_some]
      exact ⟨d1, h1, ⟨h2, hC, h3.trans hwf.bsb, h4.trans hwf.thb,
        hv ▸ View.write_good C x hwf.good (Or.inr (Or.inl (by simp [view, ho])))⟩, hv⟩
    | none =>
      have hb0 : d.batch_size ≠ 0 ∧ d.batch_size ≤ PTRDIFF_MAX := by
        rcases hbs with h | h | h
        · exact absurd h hne
        · exact absurd ho h
        · exact h
      have ea : (Batch.empty : Batch α).set_capacity d.batch_size
          = some (.returned { capacity := d.batch_size, buf := [] }) := by
        rw [set_capacity_eq, if_neg hb0.1, if_neg (by omega)]
      rw [ea]
      simp only [Option.some_bind]
      obtain ⟨d1, h1, h2, h3, h4, h5⟩ := write_tail (d := d) hin
        { capacity := d.batch_size, buf := [] } x
        (C - (unread d.buffer).length) (by omega) (fun _ => by omega)
      have hv : view d1 = (view d).write C x := by
        rw [h5]
        simp only [View.write, View.reset, view, hne, if_false, ho, Option.getD_none]
      exact ⟨d1, h1, ⟨h2, hC, h3.trans hwf.bsb, h4.trans hwf.thb,
        hv ▸ View.write_good C x hwf.good
          (Or.inr (Or.inr (by simpa [view] using hb0.1)))⟩, hv⟩

/-- How `write` ends when it has to create a batch and does not reset the cycle: on the
assertion of `Batch::set_capacity` when `batch_size` is 0, and by the exception of
`reserve` when `batch_size` is above `PTRDIFF_MAX`. -/
theorem write_creates {C : Nat} {d : DynamicRingBuffer α} (hwf : WF C d) (x : α)
    (h1 : d.room ≠ C) (h2 : d.onhold = none) :
    (d.batch_size = 0 → d.write x = none) ∧
    (PTRDIFF_MAX < d.batch_size → d.write x = some .length_error) := by
  have hin := hwf.inner
  rw [room_eq hin] at h1
  have e1 : ¬ (C - (unread d.buffer).length == C) = true := by
    simpa only [beq_iff_eq] using h1
  constructor
  · intro h3
    have ea : (Batch.empty : Batch α).set_capacity 0 = none := by
      rw [set_capacity_eq, if_pos rfl]
    unfold write
    simp only [writable_capacity_eq hin, SPSCRingBuffer.capacity_eq hin, Option.bind_eq_bind,
      Option.some_bind, Option.pure_def, e1, if_false, h2, h3, ea, Option.none_bind]
    simp
  · intro h3
    have ea : (Batch.empty : Batch α).set_capacity d.batch_size = some .length_error := by
      rw [set_capacity_eq, if_neg (by omega), if_pos h3]
    unfold write
    simp only [writable_capacity_eq hin, SPSCRingBuffer.capacity_eq hin, Option.bind_eq_bind,
      Option.some_bind, Option.pure_def, e1, if_false, h2, ea]
    simp

theorem write_some_cond {C : Nat} {d d1 : DynamicRingBuffer α} (hwf : WF C d) {x : α}
    (h : d.write x = some (.returned d1)) :
    d.room = C ∨ d.onhold ≠ none ∨ (d.batch_size ≠ 0 ∧ d.batch_size ≤ PTRDIFF_MAX) := by
  by_contra hbs
  have hr : d.room ≠ C := fun h => hbs (Or.inl h)
  have ho : d.onhold = none := by by_contra h; exact hbs (Or.inr (Or.inl h))
  obtain ⟨ha, ht⟩ := write_creates hwf x hr ho
  by_cases h0 : d.batch_size = 0
  · rw [ha h0] at h; cases h
  · by_cases h1 : PTRDIFF_MAX < d.batch_size
    · rw [ht h1] at h; cases h
    · exact hbs (Or.inr (Or.inr ⟨h0, by omega⟩))

theorem write_wf {C : Nat} {d d1 : DynamicRingBuffer α} (hwf : WF C d) {x : α}
    (h : d.write x = some (.returned d1)) : WF C d1 ∧ view d1 = (view d).write C x := by
  obtain ⟨d2, h1, h2, h3⟩ := write_refines hwf x (write_some_cond hwf h)
  rw [h1] at h; cases h
  exact ⟨h2, h3⟩

theorem drain_writes_spec {C : Nat} {d : DynamicRingBuffer α} (hwf : WF C d) :
    ∃ d1, d.drain_writes = some (d.onhold.isNone || decide (d.room ≠ 0), d1) ∧ WF C d1 ∧
      view d1 = (if d.onhold.isNone = true ∨ d.room = 0 then view d
        else { view d with inner := unread d.buffer ++ [d.onhold], onhold := none }) := by
  have hin := hwf.inner
  have hule := SPSCRingBuffer.unread_length_le hin
  rw [room_eq hin]
  unfold drain_writes
  cases ho : d.onhold with
  | none => exact ⟨d, by simp, hwf, by simp [ho]⟩
  | some b =>
    simp only [writable_capacity_eq hin, Option.bind_eq_bind, Option.some_bind,
      Option.pure_def]
    by_cases h0 : C - (unread d.buffer).length = 0
    · have e0 : (C - (unread d.buffer).length == 0) = true := by simpa using h0
      rw [if_pos e0]
      exact ⟨d, by simp [h0], hwf, by simp [h0]⟩
    · have e0 : ¬ (C - (unread d.buffer).length == 0) = true := by simpa using h0
      rw [if_neg e0]
      obtain ⟨buf1, hs1, hw1, hu1⟩ := submit_spec hin (Or.inr (by omega))
      rw [hs1]
      rw [ho] at hu1
      simp only [Option.toList_some, List.map_cons, List.map_nil] at hu1
      refine ⟨{ d with onhold := none, buffer := buf1 }, by simp [h0],
        ⟨hw1, hwf.two, hwf.bsb, hwf.thb, ?_⟩, by simp [h0, view, hu1]⟩
      refine ⟨?_, by simp [view]⟩
      intro p hp
      simp only [view, hu1, List.mem_append, List.mem_singleton] at hp
      rcases hp with hp | rfl
      · exact hwf.good.slots p hp
      · simp

theorem flatten_batches_eq (l : List (Option (Batch α))) (h : ∀ p ∈ l, p ≠ none) :
    ∀ acc : List α, flatten_batches l acc = some (acc ++ (l.map slot_data).flatten) := by
  induction l with
  | nil => intro acc; simp [flatten_batches]
  | cons p l ih =>
    intro acc
    cases p with
    | none => exact absurd rfl (h none (List.mem_cons_self _ _))
    | some b =>
      rw [flatten_batches, ih (fun q hq => h q (List.mem_cons_of_mem _ hq))]
      simp [slot_data, Batch.data]

theorem dyn_read_all_spec {C : Nat} {d : DynamicRingBuffer α} (hwf : WF C d) :
    ∃ d1, d.read_all = some (inner_data d, d1) ∧ WF C d1 ∧
      view d1 = { view d with inner := [] } := by
  have hin := hwf.inner
  obtain ⟨b1, h1, h2, -, h4, -⟩ := SPSCRingBuffer.read_all_spec hin
  refine ⟨{ d with buffer := b1 }, ?_, ⟨h2, hwf.two, hwf.bsb, hwf.thb, ?_⟩, by simp [view, h4]⟩
  · have hf := flatten_batches_eq (unread d.buffer) hwf.good.slots []
    unfold read_all
    simp only [h1, Option.bind_eq_bind, Option.some_bind, Option.pure_def, hf,
      List.nil_append]
    rfl
  · exact ⟨by simp [view, h4], hwf.good.hold⟩

/-- The limit `max_size()` of the inner buffer's `std::vector<Batch*>`: `2 ^ 60 - 1`. -/
theorem max_size_slot : max_size (Option (Batch α)) = 2 ^ 60 - 1 := by
  norm_num [max_size, Sized.sizeof, PTRDIFF_MAX]

/-- The ways the constructor ends: on an assertion of the inner buffer's constructor,
by the exception of the inner buffer's vector, on an assertion of the body, or with the
fresh object. -/
theorem dyn_new_eq (C : Nat) :
    (new C : Option (Exit (DynamicRingBuffer α))) =
      if 1 ≤ C ∧ C < SIZE_MAX / 2 then
        if C + 1 ≤ 2 ^ 60 - 1 then
          if C &&& (C - 1) = 0 ∧ 2 ≤ C then
            some (.returned ⟨1, 0, none, C / 2, 0, ⟨List.replicate (C + 1) none, 0, 0⟩⟩)
          else none
        else some .length_error
      else none := by
  unfold new
  rw [SPSCRingBuffer.new_eq, max_size_slot]
  by_cases c1 : 1 ≤ C ∧ C < SIZE_MAX / 2
  · have hs := c1.2
    simp only [SIZE_MAX] at hs
    have e : size_sub C 1 = C - 1 := size_sub_eq c1.1 (by simp only [SIZE_MAX]; omega)
    rw [if_pos c1, if_pos c1]
    by_cases c2 : C + 1 ≤ 2 ^ 60 - 1
    · rw [if_pos c2, if_pos c2]
      simp only [Option.bind_eq_bind, Option.some_bind, assert, Option.pure_def, e]
      have c0 : C ≠ 0 := by omega
      by_cases c3 : C &&& (C - 1) = 0
      · by_cases c4 : 2 ≤ C
        · have c5 : C / 2 ≤ C ∧ C / 2 > 0 := by omega
          have c6 : C &&& (C - 1) = 0 ∧ 2 ≤ C := ⟨c3, c4⟩
          simp only [if_pos c0, if_pos c3, if_pos c5, if_pos c6, Option.some_bind]
          rfl
        · have c5 : ¬ (C / 2 ≤ C ∧ C / 2 > 0) := by omega
          have c6 : ¬ (C &&& (C - 1) = 0 ∧ 2 ≤ C) := fun h => c4 h.2
          simp only [if_pos c0, if_pos c3, if_neg c5, if_neg c6, Option.some_bind,
            Option.none_bind]
      · have c6 : ¬ (C &&& (C - 1) = 0 ∧ 2 ≤ C) := fun h => c3 h.1
        simp only [if_pos c0, if_neg c3, if_neg c6, Option.some_bind, Option.none_bind]
    · rw [if_neg c2, if_neg c2]
      rfl
  · rw [if_neg c1, if_neg c1]
    rfl

theorem dyn_new_spec {C : Nat} {d : DynamicRingBuffer α} (h : new C = some (.returned d)) :
    WF C d ∧ view d = { inner := [], onhold := none, threshold := 0, batch_size := 0 } ∧
      d.room = C ∧ C &&& (C - 1) = 0 := by
  rw [dyn_new_eq] at h
  split_ifs at h with c1 c2 c3
  · cases h
    have hw : SPSCRingBuffer.WF C
        (⟨List.replicate (C + 1) none, 0, 0⟩ : SPSCRingBuffer (Option (Batch α))) :=
      ⟨by simp, c1.1, c1.2, Nat.zero_le _, Nat.zero_le _⟩
    have hu : unread (⟨List.replicate (C + 1) none, 0, 0⟩ :
        SPSCRingBuffer (Option (Batch α))) = [] := by
      rw [SPSCRingBuffer.empty_iff hw]
    refine ⟨⟨hw, c3.2, rfl, rfl, ⟨by simp [view, hu], by simp [view]⟩⟩,
      by simp [view, hu], ?_, c3.1⟩
    rw [room_eq hw, hu]; rfl
  · cases h

theorem Reachable.dyn_wf {C : Nat} {d : DynamicRingBuffer α} (hr : Reachable C d) : WF C d := by
  induction hr with
  | init h => exact (dyn_new_spec h).1
  | write _ h ih => exact (write_wf ih h).1
  | drain_writes _ h ih =>
    obtain ⟨d2, h1, h2, -⟩ := drain_writes_spec ih
    rw [h1] at h; cases h; exact h2
  | read_all _ h ih =>
    obtain ⟨d2, h1, h2, -⟩ := dyn_read_all_spec ih
    rw [h1] at h; cases h; exact h2

theorem view_data (d : DynamicRingBuffer α) :
    (view d).data = inner_data d ++ onhold_data d := rfl

theorem View.reset_data (C : Nat) (v : View α) : (v.reset C).data = v.data := by
  unfold View.reset
  split
  · cases ho : v.onhold <;> simp [View.data, slot_data, ho]
  · rfl

theorem View.write_data (C : Nat) (v : View α) (x : α) :
    (v.write C x).data = v.data ++ [x] := by
  have hr := View.reset_data C v
  have hb : slot_data (some ((Option.getD (v.reset C).onhold
      { capacity := (v.reset C).batch_size, buf := [] }).write x))
      = slot_data (v.reset C).onhold ++ [x] := by
    cases ho : (v.reset C).onhold <;> simp [slot_data, Batch.write]
  have hn : slot_data (none : Option (Batch α)) = [] := rfl
  rw [← hr]
  unfold View.write
  simp only
  split
  · simp only [View.data, hb, List.append_assoc]
  · split
    · split <;> simp only [View.data, hb, hn, List.map_append, List.flatten_append,
        List.map_cons, List.map_nil, List.flatten_cons, List.flatten_nil, List.append_nil,
        List.append_assoc]
    · simp only [View.data, hb, List.append_assoc]

theorem Session.call_write_eq {s : Session α} {x : α} {d1 : DynamicRingBuffer α}
    (h : s.d.write x = some (.returned d1)) :
    s.call (.write x) = some ⟨d1, s.sent ++ [x], s.received⟩ := by
  simp only [Session.call, h, Option.bind_eq_bind, Option.some_bind, Option.pure_def]

theorem Session.call_write_some {s t : Session α} {x : α} (h : s.call (.write x) = some t) :
    s.d.write x = some (.returned t.d) ∧ t = ⟨t.d, s.sent ++ [x], s.received⟩ := by
  simp only [Session.call, Option.bind_eq_bind, Option.pure_def] at h
  cases hw : s.d.write x with
  | none => rw [hw] at h; cases h
  | some e =>
    rw [hw] at h
    cases e with
    | length_error => cases h
    | returned d1 => cases h; exact ⟨rfl, rfl⟩

theorem Session.call_inv {C : Nat} {s t : Session α} (hi : Session.Inv C s) {c : Call α}
    (h : s.call c = some t) : Session.Inv C t ∧ t.sent = s.sent ++ Call.written [c] := by
  obtain ⟨hwf, hd⟩ := hi
  cases c with
  | write x =>
    obtain ⟨hw, ht⟩ := Session.call_write_some h
    obtain ⟨h1, h2⟩ := write_wf hwf hw
    rw [ht]
    exact ⟨⟨h1, by simp only [h2, View.write_data, ← List.append_assoc, hd]⟩, rfl⟩
  | drain_writes =>
    simp only [Session.call, Option.bind_eq_bind, Option.pure_def] at h
    obtain ⟨d1, h1, h2, h3⟩ := drain_writes_spec hwf
    rw [h1] at h; cases h
    refine ⟨⟨h2, ?_⟩, by simp [Call.written]⟩
    simp only [h3, ← hd]
    split
    · rfl
    · cases ho : s.d.onhold <;> simp [View.data, view, slot_data, ho]
  | read_all =>
    simp only [Session.call, Option.bind_eq_bind, Option.pure_def] at h
    obtain ⟨d1, h1, h2, h3⟩ := dyn_read_all_spec hwf
    rw [h1] at h; cases h
    refine ⟨⟨h2, ?_⟩, by simp [Call.written]⟩
    simp only [h3, ← hd, View.data, List.map_nil, List.flatten_nil, List.nil_append,
      List.append_assoc]
    rfl

theorem Call.written_cons (c : Call α) (cs : List (Call α)) :
    Call.written (c :: cs) = Call.written [c] ++ Call.written cs := by
  cases c <;> simp [Call.written]

theorem Session.run_keeps {C : Nat} (cs : List (Call α)) :
    ∀ {s t : Session α}, Session.Inv C s → s.run cs = some t →
      Session.Inv C t ∧ t.sent = s.sent ++ Call.written cs := by
  induction cs with
  | nil => intro s t hi h; cases h; exact ⟨hi, by simp [Call.written]⟩
  | cons c cs ih =>
    intro s t hi h
    simp only [Session.run] at h
    cases hc : s.call c with
    | none => rw [hc] at h; cases h
    | some u =>
      rw [hc] at h
      obtain ⟨h1, h2⟩ := Session.call_inv hi hc
      obtain ⟨h3, h4⟩ := ih h1 h
      exact ⟨h3, by rw [h4, h2, Call.written_cons c cs, List.append_assoc]⟩

/-- Calls other than `write`, made while `onhold` is absent, leave it absent and keep
the inner buffer empty once a `read_all` has emptied it. -/
theorem Session.run_drained {C : Nat} (cs : List (Call α)) :
    ∀ {s t : Session α}, Session.Inv C s → s.d.onhold = none →
      (∀ c ∈ cs, Call.is_write c = false) → s.run cs = some t →
      t.d.onhold = none ∧
        (unread s.d.buffer = [] ∨ Call.read_all ∈ cs → unread t.d.buffer = []) := by
  induction cs with
  | nil =>
    intro s t _ ho _ h
    cases h
    exact ⟨ho, fun h => h.elim id (fun h => absurd h (List.not_mem_nil _))⟩
  | cons c cs ih =>
    intro s t hi ho hnw h
    simp only [Session.run] at h
    cases hc : s.call c with
    | none => rw [hc] at h; cases h
    | some u =>
      rw [hc] at h
      obtain ⟨h1, -⟩ := Session.call_inv hi hc
      have hnw1 : ∀ c ∈ cs, Call.is_write c = false :=
        fun c hm => hnw c (List.mem_cons_of_mem _ hm)
      cases c with
      | write x => exact absurd (hnw _ (List.mem_cons_self _ _)) (by simp [Call.is_write])
      | drain_writes =>
        simp only [Session.call, Option.bind_eq_bind, Option.pure_def] at hc
        obtain ⟨d1, e1, -, e3⟩ := drain_writes_spec hi.wf
        rw [e1] at hc; cases hc
        rw [if_pos (Or.inl (by simp [ho]))] at e3
        have eo : d1.onhold = none := (congrArg View.onhold e3).trans ho
        have ei : unread d1.buffer = unread s.d.buffer := congrArg View.inner e3
        obtain ⟨h2, h3⟩ := ih h1 eo hnw1 h
        refine ⟨h2, fun hh => h3 ?_⟩
        rcases hh with hh | hh
        · exact Or.inl (ei.trans hh)
        · simp only [List.mem_cons] at hh
          rcases hh with hh | hh
          · cases hh
          · exact Or.inr hh
      | read_all =>
        simp only [Session.call, Option.bind_eq_bind, Option.pure_def] at hc
        obtain ⟨d1, e1, -, e3⟩ := dyn_read_all_spec hi.wf
        rw [e1] at hc; cases hc
        have eo : d1.onhold = none := (congrArg View.onhold e3).trans ho
        have ei : unread d1.buffer = [] := congrArg View.inner e3
        obtain ⟨h2, h3⟩ := ih h1 eo hnw1 h
        exact ⟨h2, fun _ => h3 (Or.inl ei)⟩

theorem slot_data_some (b : Batch α) : slot_data (some b) = b.buf := rfl

theorem slot_data_none : slot_data (none : Option (Batch α)) = [] := rfl

/-- The batch size and the fill of the batch on hold stay within the number of
elements written so far plus one, as long as doubling does not wrap. -/
theorem View.write_budget {C n : Nat} {v : View α} (x : α) (hg : v.Good)
    (hbs : C - v.inner.length = C ∨ v.onhold ≠ none ∨ v.batch_size ≠ 0)
    (hb : v.batch_size + (slot_data v.onhold).length ≤ n + 1)
    (hn : n + 2 ≤ SIZE_MAX ∨ 2 * (v.reset C).batch_size ≤ SIZE_MAX) :
    (v.write C x).batch_size ≠ 0 ∧
      (v.write C x).batch_size + (slot_data (v.write C x).onhold).length ≤ n + 2 := by
  have hr : (v.reset C).batch_size ≠ 0 ∧
      (∀ b, (v.reset C).onhold = some b → b.capacity = (v.reset C).batch_size) ∧
      (v.reset C).batch_size + (slot_data (v.reset C).onhold).length ≤ n + 1 := by
    unfold View.reset
    split
    · exact ⟨by simp, by simp, by simp [slot_data]⟩
    · rename_i hne
      refine ⟨?_, fun b hb => (hg.hold b hb).1, hb⟩
      rcases hbs with h | h | h
      · exact absurd h hne
      · cases ho : v.onhold with
        | none => exact absurd ho h
        | some b =>
          obtain ⟨h1, h2, -⟩ := hg.hold b ho
          rw [← h1]; exact h2
      · exact h
  obtain ⟨h1, h2, h3⟩ := hr
  have hlen : ((Option.getD (v.reset C).onhold
      { capacity := (v.reset C).batch_size, buf := [] }).write x).buf.length
      = (slot_data (v.reset C).onhold).length + 1 := by
    cases ho : (v.reset C).onhold <;> simp [Batch.write, slot_data]
  have hcap : ((Option.getD (v.reset C).onhold
      { capacity := (v.reset C).batch_size, buf := [] }).write x).capacity
      = (v.reset C).batch_size := by
    cases ho : (v.reset C).onhold with
    | none => rfl
    | some b => exact h2 b ho
  unfold View.write
  simp only
  split
  · refine ⟨h1, ?_⟩
    simp only [slot_data_some, hlen]
    omega
  · split
    · rename_i hfull
      simp only [Batch.is_full, decide_eq_true_eq, ge_iff_le, hlen, hcap] at hfull
      split
      · rcases hn with hn | hn
        · simp only [slot_data_none, List.length_nil, size_mul, SIZE_MAX] at *
          omega
        · simp only [slot_data_none, List.length_nil, size_mul, SIZE_MAX] at *
          omega
      · refine ⟨h1, ?_⟩
        simp only [slot_data_none, List.length_nil]
        omega
    · refine ⟨h1, ?_⟩
      simp only [slot_data_some, hlen]
      omega

theorem Session.call_safe {C : Nat} {s : Session α} (hi : Session.Inv C s)
    (hz : s.d.batch_size = 0 → s.d.room = C)
    (hb : s.d.batch_size + (onhold_data s.d).length ≤ s.sent.length + 1) (c : Call α)
    (hsz : 2 * (s.sent.length + (Call.written [c]).length) ≤ SIZE_MAX) :
    ∃ t, s.call c = some t ∧ (t.d.batch_size = 0 → t.d.room = C) ∧
      t.d.batch_size + (onhold_data t.d).length ≤ t.sent.length + 1 := by
  obtain ⟨hwf, hd⟩ := hi
  have hin := hwf.inner
  cases c with
  | write x =>
    simp only [Call.written, List.length_singleton, SIZE_MAX] at hsz
    have hbs : s.d.room = C ∨ s.d.onhold ≠ none ∨ s.d.batch_size ≠ 0 := by
      by_cases h0 : s.d.batch_size = 0
      · exact Or.inl (hz h0)
      · exact Or.inr (Or.inr h0)
    have hbs1 : s.d.room = C ∨ s.d.onhold ≠ none ∨
        (s.d.batch_size ≠ 0 ∧ s.d.batch_size ≤ PTRDIFF_MAX) := by
      rcases hbs with h | h | h
      · exact Or.inl h
      · exact Or.inr (Or.inl h)
      · exact Or.inr (Or.inr ⟨h, by simp only [PTRDIFF_MAX]; omega⟩)
    obtain ⟨d1, h1, h2, h3⟩ := write_refines hwf x hbs1
    have hw := View.write_budget (C := C) (n := s.sent.length) x hwf.good
      (by rw [room_eq hin] at hbs; exact hbs) hb
      (Or.inl (by simp only [SIZE_MAX]; omega))
    rw [← h3] at hw
    refine ⟨⟨d1, s.sent ++ [x], s.received⟩, Session.call_write_eq h1,
      fun h => absurd h hw.1, ?_⟩
    rw [List.length_append, List.length_singleton]
    exact hw.2
  | drain_writes =>
    obtain ⟨d1, h1, h2, h3⟩ := drain_writes_spec hwf
    have hbeq : d1.batch_size = s.d.batch_size := by
      have : (view d1).batch_size = (view s.d).batch_size := by
        rw [h3]; split <;> rfl
      exact this
    refine ⟨⟨d1, s.sent, s.received⟩, by simp [Session.call, h1], ?_, ?_⟩
    · intro h0
      have hb0 : s.d.batch_size = 0 := hbeq.symm.trans h0
      have ho : s.d.onhold = none := by
        cases ho : s.d.onhold with
        | none => rfl
        | some b =>
          obtain ⟨e1, e2, -⟩ := hwf.good.hold b ho
          exact absurd (e1 ▸ hb0) e2
      have hv : view d1 = view s.d := by rw [h3, if_pos (Or.inl (by simp [ho]))]
      have hr := hz hb0
      rw [room_eq hin] at hr
      rw [room_eq h2.inner]
      have : unread d1.buffer = unread s.d.buffer := congrArg View.inner hv
      rw [this]; exact hr
    · have hle : (onhold_data d1).length ≤ (onhold_data s.d).length := by
        have : (view d1).onhold = (view s.d).onhold ∨ (view d1).onhold = none := by
          rw [h3]; split
          · exact Or.inl rfl
          · exact Or.inr rfl
        rcases this with e | e
        · have e' : d1.onhold = s.d.onhold := e
          simp [onhold_data, e']
        · have e' : d1.onhold = none := e
          simp [onhold_data, e', slot_data]
      show d1.batch_size + (onhold_data d1).length ≤ s.sent.length + 1
      omega
  | read_all =>
    obtain ⟨d1, h1, h2, h3⟩ := dyn_read_all_spec hwf
    refine ⟨⟨d1, s.sent, s.received ++ inner_data s.d⟩, by simp [Session.call, h1], ?_, ?_⟩
    · intro _
      rw [room_eq h2.inner]
      have : unread d1.buffer = [] := congrArg View.inner h3
      rw [this]; rfl
    · have e1 : d1.batch_size = s.d.batch_size := congrArg View.batch_size h3
      have e2 : d1.onhold = s.d.onhold := congrArg View.onhold h3
      show d1.batch_size + (onhold_data d1).length ≤ s.sent.length + 1
      simp only [onhold_data, e1, e2]
      exact hb

theorem Session.run_safe {C : Nat} (cs : List (Call α)) :
    ∀ {s : Session α}, Session.Inv C s → (s.d.batch_size = 0 → s.d.room = C) →
      s.d.batch_size + (onhold_data s.d).length ≤ s.sent.length + 1 →
      2 * (s.sent.length + (Call.written cs).length) ≤ SIZE_MAX →
      ∃ t, s.run cs = some t ∧ Session.Inv C t ∧ (t.d.batch_size = 0 → t.d.room = C) ∧
        t.d.batch_size + (onhold_data t.d).length ≤ t.sent.length + 1 ∧
        t.sent = s.sent ++ Call.written cs := by
  induction cs with
  | nil => intro s hi hz hb _; exact ⟨s, rfl, hi, hz, hb, by simp [Call.written]⟩
  | cons c cs ih =>
    intro s hi hz hb hsz
    rw [Call.written_cons, List.length_append] at hsz
    obtain ⟨t1, h1, h2, h3⟩ := Session.call_safe hi hz hb c (by omega)
    obtain ⟨hi1, hs1⟩ := Session.call_inv hi h1
    obtain ⟨t, r, rest⟩ := ih hi1 h2 h3 (by rw [hs1, List.length_append]; omega)
    refine ⟨t, by simp [Session.run, h1, r], rest.1, rest.2.1, rest.2.2.1, ?_⟩
    rw [rest.2.2.2, hs1, List.append_assoc, ← Call.written_cons]

theorem Session.run_append (cs ds : List (Call α)) :
    ∀ s : Session α, s.run (cs ++ ds) = (s.run cs).bind fun t => t.run ds := by
  induction cs with
  | nil => intro s; rfl
  | cons c cs ih =>
    intro s
    simp only [List.cons_append, Session.run]
    cases s.call c with
    | none => rfl
    | some u => exact ih u

/-! ## The claims on `DynamicRingBuffer` -/

/-- C2. Lossless in-order delivery: on a fresh `DynamicRingBuffer(C)`, after any
interleaving of `write`, `drain_writes` and `read_all` calls that has run, the
concatenation of all `read_all` results, followed by the contents of the batches in
the inner buffer (oldest first), followed by the contents of `onhold`, is the
sequence of written elements `x_1 ... x_m`; every such interleaving with at most
`SIZE_MAX / 2` writes runs to its end (no assertion fails, nothing is thrown); and once
`drain_writes` has returned true and a later `read_all` has run with no `write` in
between, the consumer has received exactly `x_1 ... x_m`. -/
theorem dynamic_lossless_in_order (C : Nat) (d0 : DynamicRingBuffer α)
    (h0 : new C = some (.returned d0)) (calls : List (Call α)) :
    (∀ s, Session.run ⟨d0, [], []⟩ calls = some s →
      s.sent = Call.written calls ∧
      s.received ++ inner_data s.d ++ onhold_data s.d = s.sent) ∧
    (2 * (Call.written calls).length ≤ SIZE_MAX →
      ∃ s, Session.run ⟨d0, [], []⟩ calls = some s) ∧
    (∀ pre post s1 d2 s, calls = pre ++ Call.drain_writes :: post →
      Session.run ⟨d0, [], []⟩ pre = some s1 → s1.d.drain_writes = some (true, d2) →
      (∀ c ∈ post, Call.is_write c = false) → Call.read_all ∈ post →
      Session.run ⟨d0, [], []⟩ calls = some s →
      s.received = Call.written calls) := by
  obtain ⟨hwf, hv, hroom, -⟩ := dyn_new_spec h0
  have hi : Session.Inv C (⟨d0, [], []⟩ : Session α) :=
    ⟨hwf, by simp [hv, View.data, slot_data]⟩
  refine ⟨fun s hs => ?_, fun hsz => ?_, ?_⟩
  · obtain ⟨h1, h2⟩ := Session.run_keeps calls hi hs
    refine ⟨by simpa using h2, ?_⟩
    rw [List.append_assoc, ← view_data]
    exact h1.data
  · have hb0 : d0.batch_size = 0 := congrArg View.batch_size hv
    have ho0 : d0.onhold = none := congrArg View.onhold hv
    obtain ⟨t, ht, -⟩ := Session.run_safe calls hi (fun _ => hroom)
      (by show d0.batch_size + (onhold_data d0).length ≤ 0 + 1
          simp [hb0, onhold_data, ho0, slot_data])
      (by simpa using hsz)
    exact ⟨t, ht⟩
  · intro pre post s1 d2 s hsplit hpre hdrain hnw hread hs
    obtain ⟨h1, -⟩ := Session.run_keeps pre hi hpre
    obtain ⟨d3, e1, -, e3⟩ := drain_writes_spec h1.wf
    rw [e1] at hdrain
    simp only [Option.some.injEq, Prod.mk.injEq] at hdrain
    obtain ⟨hflag, rfl⟩ := hdrain
    have hcall : s1.call Call.drain_writes = some ⟨d3, s1.sent, s1.received⟩ := by
      simp [Session.call, e1]
    obtain ⟨h2, -⟩ := Session.call_inv h1 hcall
    have ho : d3.onhold = none := by
      have := congrArg View.onhold e3
      by_cases hc : s1.d.onhold.isNone = true ∨ s1.d.room = 0
      · rw [if_pos hc] at this
        rcases hc with hc | hc
        · exact this.trans (Option.isNone_iff_eq_none.mp hc)
        · cases hn : s1.d.onhold with
          | none => exact this.trans hn
          | some b => simp [hn, hc] at hflag
      · rw [if_neg hc] at this
        exact this
    have hrun : Session.run ⟨d3, s1.sent, s1.received⟩ post = some s := by
      rw [hsplit, Session.run_append, hpre] at hs
      simpa [Session.run, hcall] using hs
    obtain ⟨h3, h4⟩ := Session.run_drained post h2 ho hnw hrun
    obtain ⟨h5, h6⟩ := Session.run_keeps calls hi hs
    have hd := h5.data
    have hu := h4 (Or.inr hread)
    simp only [View.data, view, h3, hu, slot_data, List.map_nil, List.flatten_nil,
      List.append_nil] at hd
    rw [hd, h6]
    rfl

/-- C2, evaluated: capacity 4, a run in which `onhold` is drained and read. -/
theorem dynamic_lossless_in_order_witness :
    (∀ s, Session.run (⟨⟨1, 0, none, 2, 0, ⟨[none, none, none, none, none], 0, 0⟩⟩, [], []⟩ :
        Session Nat)
        [.write 1, .write 2, .write 3, .read_all, .write 4, .write 5, .drain_writes,
         .read_all] = some s →
      s.sent = Call.written [Call.write 1, .write 2, .write 3, .read_all, .write 4, .write 5,
        .drain_writes, .read_all] ∧
      s.received ++ inner_data s.d ++ onhold_data s.d = s.sent) ∧
    (2 * (Call.written [Call.write 1, .write 2, .write 3, .read_all, .write 4, .write 5,
        .drain_writes, .read_all]).length ≤ SIZE_MAX →
      ∃ s, Session.run (⟨⟨1, 0, none, 2, 0, ⟨[none, none, none, none, none], 0, 0⟩⟩, [], []⟩ :
        Session Nat)
        [.write 1, .write 2, .write 3, .read_all, .write 4, .write 5, .drain_writes,
         .read_all] = some s) ∧
    (∀ pre post s1 d2 s,
      [Call.write 1, .write 2, .write 3, .read_all, .write 4, .write 5, .drain_writes,
        .read_all] = pre ++ Call.drain_writes :: post →
      Session.run (⟨⟨1, 0, none, 2, 0, ⟨[none, none, none, none, none], 0, 0⟩⟩, [], []⟩ :
        Session Nat) pre = some s1 →
      s1.d.drain_writes = some (true, d2) →
      (∀ c ∈ post, Call.is_write c = false) → Call.read_all ∈ post →
      Session.run (⟨⟨1, 0, none, 2, 0, ⟨[none, none, none, none, none], 0, 0⟩⟩, [], []⟩ :
        Session Nat)
        [.write 1, .write 2, .write 3, .read_all, .write 4, .write 5, .drain_writes,
         .read_all] = some s →
      s.received = Call.written [Call.write 1, .write 2, .write 3, .read_all, .write 4,
        .write 5, .drain_writes, .read_all]) :=
  dynamic_lossless_in_order 4 ⟨1, 0, none, 2, 0, ⟨[none, none, none, none, none], 0, 0⟩⟩
    (by rfl) _

theorem View.ext_fields {v w : View α} (h1 : v.inner = w.inner) (h2 : v.onhold = w.onhold)
    (h3 : v.threshold = w.threshold) (h4 : v.batch_size = w.batch_size) : v = w := by
  cases v; cases w; simp only at h1 h2 h3 h4; subst h1 h2 h3 h4; rfl

theorem View.reset_of_ne {C : Nat} {v : View α} (h : C - v.inner.length ≠ C) :
    v.reset C = v := by
  unfold View.reset; rw [if_neg h]

theorem View.reset_of_fresh {C : Nat} {v : View α} (h1 : v.inner = []) (h2 : v.onhold = none) :
    v.reset C = { inner := [], onhold := none, threshold := C / 2, batch_size := 1 } := by
  unfold View.reset
  rw [if_pos (by simp [h1])]
  simp [h1, h2]

/-- `write` on an observable state that the cycle reset leaves alone, with `P + q`
free slots in the inner buffer and threshold `P`. -/
theorem View.write_eq {C P B q : Nat} {v : View α} (x : α) (hg : v.Good)
    (hthr : v.threshold = P) (hbs : v.batch_size = B) (hq : 1 ≤ q)
    (hlen : v.inner.length + P + q = C) (hf : (slot_data v.onhold).length < B)
    (hreset : v.reset C = v) :
    v.write C x =
      if (slot_data v.onhold).length + 1 < B then
        { v with onhold := some { capacity := B, buf := slot_data v.onhold ++ [x] } }
      else
        { inner := v.inner ++ [some { capacity := B, buf := slot_data v.onhold ++ [x] }],
          onhold := none, threshold := if q = 1 then P / 2 else P,
          batch_size := if q = 1 then size_mul B 2 else B } := by
  have hb : (Option.getD v.onhold { capacity := v.batch_size, buf := [] }).write x
      = { capacity := B, buf := slot_data v.onhold ++ [x] } := by
    cases ho : v.onhold with
    | none => simp [Batch.write, slot_data, hbs]
    | some b =>
      obtain ⟨h1, -, -⟩ := hg.hold b ho
      simp [Batch.write, slot_data, h1, hbs]
  unfold View.write
  simp only [hreset, hb]
  rw [if_neg (by omega)]
  by_cases c : (slot_data v.onhold).length + 1 < B
  · have hnf : ¬ (Batch.is_full { capacity := B, buf := slot_data v.onhold ++ [x] }) = true := by
      simp [Batch.is_full]; omega
    rw [if_neg hnf, if_pos c]
  · have hfull : (Batch.is_full { capacity := B, buf := slot_data v.onhold ++ [x] }) = true := by
      simp [Batch.is_full]; omega
    rw [if_pos hfull, if_neg c]
    by_cases c1 : q = 1
    · rw [if_pos (by omega), if_pos c1, if_pos c1, hthr, hbs]
    · rw [if_neg (by omega), if_neg c1, if_neg c1]
      exact View.ext_fields rfl rfl hthr hbs

theorem View.write_congr {C : Nat} {v w : View α} (x : α) (h1 : v.reset C = w.reset C)
    (h2 : v.inner.length = w.inner.length) : v.write C x = w.write C x := by
  unfold View.write
  rw [h1, h2]

theorem slot_data_length_pos {v : View α} (hg : v.Good) (h : v.onhold ≠ none) :
    1 ≤ (slot_data v.onhold).length := by
  cases ho : v.onhold with
  | none => exact absurd ho h
  | some b =>
    obtain ⟨-, -, h3⟩ := hg.hold b ho
    exact List.length_pos.mpr h3

theorem Stage.step_threshold {k : Nat} (hsmall : 2 ^ k < SIZE_MAX / 2) {v : View α}
    {m j r q : Nat} (x : α) (hg : v.Good) (hk : r + j + 1 = k)
    (hthr : v.threshold = 2 ^ r) (hbs : v.batch_size = 2 ^ j) (hq1 : 1 ≤ q)
    (hq2 : q ≤ 2 ^ r) (hlen : v.inner.length + 2 ^ r + q = 2 ^ k)
    (hf : (slot_data v.onhold).length < 2 ^ j)
    (htodo : m + (slot_data v.onhold).length = q * 2 ^ j + r * 2 ^ (k - 1) + 2 ^ k)
    (h1 : 1 ≤ m) :
    ∃ i, Stage k (v.write (2 ^ k) x) (m - 1) i ∧ Adapted k v (v.write (2 ^ k) x) j i := by
  have hP : 1 ≤ 2 ^ r := Nat.one_le_two_pow
  have hB : 1 ≤ 2 ^ j := Nat.one_le_two_pow
  have hH : 2 ^ (k - 1) = 2 ^ r * 2 ^ j := by rw [← pow_add]; congr 1; omega
  have hC : 2 ^ k = 2 * 2 ^ (k - 1) := by rw [← pow_succ']; congr 1; omega
  have hBH : 2 ^ j ≤ 2 ^ (k - 1) := by rw [hH]; exact Nat.le_mul_of_pos_left _ hP
  have hPH : 2 ^ r ≤ 2 ^ (k - 1) := by rw [hH]; exact Nat.le_mul_of_pos_right _ hB
  have hgood : (v.write (2 ^ k) x).Good :=
    View.write_good _ x hg (Or.inr (Or.inr (by rw [hbs]; omega)))
  -- the cycle reset leaves the state alone
  have hreset : v.reset (2 ^ k) = v := by
    by_cases h0 : v.inner.length = 0
    · have hj : 2 ^ j = 1 := by
        rcases Nat.lt_or_ge 1 (2 ^ j) with h | h
        · have : 2 ^ r * 2 ≤ 2 ^ r * 2 ^ j := Nat.mul_le_mul_left _ h
          omega
        · omega
      have hin : v.inner = [] := List.length_eq_zero.mp h0
      have ho : v.onhold = none := by
        by_contra hc
        have := slot_data_length_pos hg hc
        omega
      rw [View.reset_of_fresh hin ho]
      refine View.ext_fields hin.symm ho.symm ?_ (by rw [hbs, hj])
      show 2 ^ k / 2 = v.threshold
      rw [hthr, hC, Nat.mul_div_cancel_left _ (by decide : 0 < 2), hH, hj, Nat.mul_one]
    · exact View.reset_of_ne (by omega)
  have hw := View.write_eq x hg hthr hbs hq1 hlen hf hreset
  by_cases c : (slot_data v.onhold).length + 1 < 2 ^ j
  · -- the batch is not full yet
    rw [if_pos c] at hw
    refine ⟨j, ⟨hgood, Or.inr (Or.inl ⟨r, q, hk, ?_, ?_, hq1, hq2, ?_, ?_, ?_⟩)⟩,
      Or.inl ⟨rfl, ?_⟩⟩
    · rw [hw]; exact hthr
    · rw [hw]; exact hbs
    · rw [hw]; exact hlen
    · rw [hw]; simpa only [slot_data_some, List.length_append, List.length_singleton] using c
    · rw [hw]; simp only [slot_data_some, List.length_append, List.length_singleton]
      omega
    · rw [hw, hreset]
  · rw [if_neg c] at hw
    by_cases cq : q = 1
    · -- the last free slot above the threshold: adapt
      subst cq
      have hmul : size_mul (2 ^ j) 2 = 2 ^ (j + 1) := by
        rw [pow_succ]
        simp only [size_mul, SIZE_MAX] at *
        omega
      simp only [if_true, hmul] at hw
      have hdiv : 2 ^ k / 2 ^ (j + 1) = 2 ^ r := by
        have : 2 ^ k = 2 ^ r * 2 ^ (j + 1) := by rw [← pow_add]; congr 1; omega
        rw [this, Nat.mul_div_cancel _ (Nat.two_pow_pos _)]
      have hadapt : Adapted k v (v.write (2 ^ k) x) j (j + 1) :=
        Or.inr ⟨rfl, by rw [hreset, hthr, hdiv], by rw [hreset, hbs], by rw [hw]⟩
      refine ⟨j + 1, ⟨hgood, ?_⟩, hadapt⟩
      cases r with
      | zero =>
        -- threshold 1 becomes 0
        refine Or.inr (Or.inr (Or.inl ⟨by omega, by rw [hw]; rfl, ?_, ?_, ?_, ?_⟩))
        · rw [hw]; simp only; congr 1; omega
        · rw [hw]; simp only [List.length_append, List.length_singleton]
          simp only [pow_zero] at hlen; omega
        · rw [hw]; simp only [slot_data_none, List.length_nil]; exact Nat.two_pow_pos _
        · rw [hw]; simp only [slot_data_none, List.length_nil]
          simp only [pow_zero, Nat.zero_mul, Nat.one_mul] at htodo
          omega
      | succ r =>
        have hP2 : 2 ^ (r + 1) = 2 * 2 ^ r := pow_succ' 2 r
        have hP1 : 1 ≤ 2 ^ r := Nat.one_le_two_pow
        have hprod : 2 ^ r * 2 ^ (j + 1) = 2 ^ (k - 1) := by
          rw [← pow_add]; congr 1; omega
        refine Or.inr (Or.inl ⟨r, 2 ^ r, by omega, ?_, by rw [hw], hP1, Nat.le_refl _,
          ?_, ?_, ?_⟩)
        · rw [hw]; simp only; rw [hP2]; omega
        · rw [hw]; simp only [List.length_append, List.length_singleton]; omega
        · rw [hw]; simp only [slot_data_none, List.length_nil]; exact Nat.two_pow_pos _
        · rw [hw]; simp only [slot_data_none, List.length_nil, hprod]
          have : (r + 1) * 2 ^ (k - 1) = r * 2 ^ (k - 1) + 2 ^ (k - 1) := Nat.succ_mul _ _
          simp only [Nat.one_mul] at htodo
          omega
    · -- more free slots above the threshold: no adaptation
      simp only [if_neg cq] at hw
      obtain ⟨p, rfl⟩ : ∃ p, q = p + 1 := ⟨q - 1, by omega⟩
      have hmul : (p + 1) * 2 ^ j = p * 2 ^ j + 2 ^ j := Nat.succ_mul _ _
      refine ⟨j, ⟨hgood, Or.inr (Or.inl ⟨r, p, hk, ?_, ?_, by omega, by omega, ?_, ?_, ?_⟩)⟩,
        Or.inl ⟨rfl, ?_⟩⟩
      · rw [hw]
      · rw [hw]
      · rw [hw]; simp only [List.length_append, List.length_singleton]; omega
      · rw [hw]; simp only [slot_data_none, List.length_nil]; exact Nat.two_pow_pos _
      · rw [hw]; simp only [slot_data_none, List.length_nil]; omega
      · rw [hw, hreset, hbs]

theorem Stage.step_last {k : Nat} (hk : 1 ≤ k) (hsmall : 2 ^ k < SIZE_MAX / 2)
    {v : View α} {todo : Nat} (x : α) (hg : v.Good) (hthr : v.threshold = 0)
    (hbs : v.batch_size = 2 ^ k) (hlen : v.inner.length + 1 = 2 ^ k)
    (hf : (slot_data v.onhold).length < 2 ^ k)
    (htodo : todo + (slot_data v.onhold).length = 2 ^ k) :
    ∃ i, Stage k (v.write (2 ^ k) x) (todo - 1) i ∧ Adapted k v (v.write (2 ^ k) x) k i := by
  have hC : 2 ^ k = 2 * 2 ^ (k - 1) := by rw [← pow_succ']; congr 1; omega
  have hH : 1 ≤ 2 ^ (k - 1) := Nat.one_le_two_pow
  have hgood : (v.write (2 ^ k) x).Good :=
    View.write_good _ x hg (Or.inr (Or.inr (by rw [hbs]; omega)))
  have hreset : v.reset (2 ^ k) = v := View.reset_of_ne (by omega)
  have hw := View.write_eq (P := 0) (q := 1) x hg hthr hbs (Nat.le_refl 1)
    (by omega) hf hreset
  by_cases c : (slot_data v.onhold).length + 1 < 2 ^ k
  · rw [if_pos c] at hw
    refine ⟨k, ⟨hgood, Or.inr (Or.inr (Or.inl ⟨rfl, ?_, ?_, ?_, ?_, ?_⟩))⟩, Or.inl ⟨rfl, ?_⟩⟩
    · rw [hw]; exact hthr
    · rw [hw]; exact hbs
    · rw [hw]; exact hlen
    · rw [hw]; simpa only [slot_data_some, List.length_append, List.length_singleton] using c
    · rw [hw]; simp only [slot_data_some, List.length_append, List.length_singleton]
      omega
    · rw [hw, hreset]
  · rw [if_neg c] at hw
    have hmul : size_mul (2 ^ k) 2 = 2 ^ (k + 1) := by
      rw [pow_succ]
      simp only [size_mul, SIZE_MAX] at *
      omega
    simp only [if_true, hmul, Nat.zero_div] at hw
    refine ⟨k + 1, ⟨hgood, Or.inr (Or.inr (Or.inr ⟨rfl, ?_, ?_, ?_, ?_, ?_⟩))⟩,
      Or.inr ⟨rfl, ?_, ?_, ?_⟩⟩
    · rw [hw]
    · rw [hw]
    · rw [hw]; simp only [List.length_append, List.length_singleton]; omega
    · rw [hw]
    · omega
    · rw [hreset, hthr]
      exact (Nat.div_eq_of_lt (Nat.pow_lt_pow_right (by decide) (Nat.lt_succ_self k))).symm
    · rw [hreset, hbs]
    · rw [hw]

/-- One more `write` while the inner buffer is not full: one element less fits. -/
theorem Stage.step {k : Nat} (hk : 1 ≤ k) (hsmall : 2 ^ k < SIZE_MAX / 2) {v : View α}
    {todo j : Nat} (x : α) (hs : Stage k v todo j) (h1 : 1 ≤ todo) :
    ∃ i, Stage k (v.write (2 ^ k) x) (todo - 1) i ∧ Adapted k v (v.write (2 ^ k) x) j i := by
  obtain ⟨hg, hfresh | ⟨r, q, h⟩ | h | h⟩ := hs
  · -- the fresh buffer behaves like threshold `2 ^ (k - 1)`, batch size 1, all slots free
    obtain ⟨hin, ho, hj, htodo⟩ := hfresh
    subst hj
    have hC : 2 ^ k = 2 * 2 ^ (k - 1) := by rw [← pow_succ']; congr 1; omega
    have hv0 : (({ inner := [], onhold := none, threshold := 2 ^ (k - 1), batch_size := 1 } :
        View α).reset (2 ^ k)) = v.reset (2 ^ k) := by
      rw [View.reset_of_fresh hin ho, View.reset_of_fresh rfl rfl]
    have hwr := View.write_congr x hv0 (by rw [hin])
    obtain ⟨i, h2, h3⟩ := Stage.step_threshold (k := k) (m := todo) (j := 0) (r := k - 1)
      (q := 2 ^ (k - 1)) hsmall x
      (v := { inner := [], onhold := none, threshold := 2 ^ (k - 1), batch_size := 1 })
      ⟨by simp, by simp⟩ (by omega) rfl rfl Nat.one_le_two_pow (Nat.le_refl _)
      (by simp only [List.length_nil]; omega) (by simp [slot_data_none])
      (by simp only [slot_data_none, List.length_nil, pow_zero, Nat.mul_one]
          have : k * 2 ^ (k - 1) = (k - 1) * 2 ^ (k - 1) + 2 ^ (k - 1) := by
            obtain ⟨p, rfl⟩ : ∃ p, k = p + 1 := ⟨k - 1, by omega⟩
            exact Nat.succ_mul _ _
          omega) h1
    rw [hwr] at h2 h3
    refine ⟨i, h2, ?_⟩
    unfold Adapted at h3 ⊢
    rw [hv0] at h3
    exact h3
  · obtain ⟨hk1, hthr, hbs, hq1, hq2, hlen, hf, htodo⟩ := h
    exact Stage.step_threshold hsmall x hg hk1 hthr hbs hq1 hq2 hlen hf htodo h1
  · obtain ⟨hj, hthr, hbs, hlen, hf, htodo⟩ := h
    subst hj
    exact Stage.step_last hk hsmall x hg hthr hbs hlen hf htodo
  · omega

theorem Stage.facts {k : Nat} {v : View α} {todo j : Nat} (hs : Stage k v todo j) :
    j ≤ k + 1 ∧ (todo = 0 ↔ 2 ^ k - v.inner.length = 0) ∧
      (todo = 0 → v.onhold = none ∧ v.threshold = 0 ∧ v.batch_size = 2 ^ (k + 1)) ∧
      (2 ^ k - v.inner.length = 2 ^ k ∨ v.onhold ≠ none ∨ v.batch_size ≠ 0) := by
  have hC : 1 ≤ 2 ^ k := Nat.one_le_two_pow
  obtain ⟨-, h | ⟨r, q, h⟩ | h | h⟩ := hs
  · obtain ⟨hin, -, hj, htodo⟩ := h
    rw [hin]
    simp only [List.length_nil, Nat.sub_zero]
    exact ⟨by omega, by omega, by omega, Or.inl trivial⟩
  · obtain ⟨hk1, -, hbs, hq1, -, hlen, hf, htodo⟩ := h
    have hB : 1 ≤ 2 ^ j := Nat.one_le_two_pow
    have hP : 1 ≤ 2 ^ r := Nat.one_le_two_pow
    have hqB : 2 ^ j ≤ q * 2 ^ j := Nat.le_mul_of_pos_left _ (by omega)
    exact ⟨by omega, by omega, by omega, Or.inr (Or.inr (by omega))⟩
  · obtain ⟨hj, -, hbs, hlen, hf, htodo⟩ := h
    exact ⟨by omega, by omega, by omega, Or.inr (Or.inr (by omega))⟩
  · obtain ⟨hj, hthr, hbs, hlen, ho, htodo⟩ := h
    exact ⟨by omega, by omega, fun _ => ⟨ho, hthr, hbs⟩, Or.inr (Or.inr (by
      have : 1 ≤ 2 ^ (k + 1) := Nat.one_le_two_pow
      omega))⟩

/-- While elements still fit, the next `write` of a stage returns: a batch that it
creates has a capacity that is not 0 and that `reserve` accepts. -/
theorem Stage.writable {k : Nat} {v : View α} {todo j : Nat} (hs : Stage k v todo j)
    (hsmall : 2 ^ k < SIZE_MAX / 2) (htodo : 1 ≤ todo) :
    2 ^ k - v.inner.length = 2 ^ k ∨ v.onhold ≠ none ∨
      (v.batch_size ≠ 0 ∧ v.batch_size ≤ PTRDIFF_MAX) := by
  simp only [SIZE_MAX] at hsmall
  obtain ⟨-, h | ⟨r, q, h⟩ | h | h⟩ := hs
  · obtain ⟨hin, -, -, -⟩ := h
    rw [hin]
    exact Or.inl rfl
  · obtain ⟨hk1, -, hbs, -⟩ := h
    have hB : 1 ≤ 2 ^ j := Nat.one_le_two_pow
    have hle : 2 ^ j ≤ 2 ^ k := Nat.pow_le_pow_right (by decide) (by omega)
    exact Or.inr (Or.inr ⟨by omega, by simp only [PTRDIFF_MAX]; omega⟩)
  · obtain ⟨-, -, hbs, -⟩ := h
    have hB : 1 ≤ 2 ^ k := Nat.one_le_two_pow
    exact Or.inr (Or.inr ⟨by omega, by simp only [PTRDIFF_MAX]; omega⟩)
  · obtain ⟨-, -, -, -, -, htodo0⟩ := h
    omega

theorem in_force_eq {C : Nat} {d : DynamicRingBuffer α} (hwf : WF C d) :
    d.threshold_in_force = ((view d).reset C).threshold ∧
      d.batch_size_in_force = ((view d).reset C).batch_size := by
  have hin := hwf.inner
  have hr : d.resets = decide (C - (unread d.buffer).length = C) := by
    unfold resets
    rw [room_eq hin, hin.len]
    rfl
  unfold threshold_in_force batch_size_in_force View.reset
  rw [hr]
  by_cases c : C - (unread d.buffer).length = C
  · simp [c, view, hwf.thb, hwf.bsb]
  · simp [c, view]

/-- Consecutive writes from a stage: each takes one element off what still fits. -/
theorem writes_stage {k : Nat} (hk : 1 ≤ k) (hsmall : 2 ^ k < SIZE_MAX / 2) (xs : List α) :
    ∀ {d : DynamicRingBuffer α} {todo j : Nat}, WF (2 ^ k) d → Stage k (view d) todo j →
      xs.length ≤ todo →
      ∃ d1 i, d.writes xs = some d1 ∧ WF (2 ^ k) d1 ∧
        Stage k (view d1) (todo - xs.length) i ∧ (view d1).data = (view d).data ++ xs := by
  induction xs with
  | nil => intro d todo j hwf hs _; exact ⟨d, j, rfl, hwf, hs, by simp⟩
  | cons x xs ih =>
    intro d todo j hwf hs hlen
    simp only [List.length_cons] at hlen
    obtain ⟨d1, h1, h2, h3⟩ := write_refines hwf x
      (by rw [room_eq hwf.inner]; exact hs.writable hsmall (by omega))
    obtain ⟨i, h4, -⟩ := Stage.step hk hsmall x hs (by omega)
    rw [← h3] at h4
    obtain ⟨d2, i2, h5, h6, h7, h8⟩ := ih h2 h4 (by omega)
    refine ⟨d2, i2, by simp only [writes, h1, Option.some_bind, h5], h6, ?_, ?_⟩
    · have : todo - (xs.length + 1) = todo - 1 - xs.length := by omega
      simp only [List.length_cons, this]
      exact h7
    · rw [h8, h3, View.write_data]; simp

/-- The adaptations made by the writes that fill the buffer from a stage. -/
theorem adaptations_stage {k : Nat} (hk : 1 ≤ k) (hsmall : 2 ^ k < SIZE_MAX / 2)
    (xs : List α) :
    ∀ {d : DynamicRingBuffer α} {todo j : Nat}, WF (2 ^ k) d → Stage k (view d) todo j →
      xs.length = todo →
      d.adaptations xs = some ((List.range' j (k + 1 - j)).map
        fun i => (2 ^ k / 2 ^ (i + 1), 2 ^ i, 2 ^ (i + 1))) := by
  induction xs with
  | nil =>
    intro d todo j hwf hs hlen
    obtain ⟨-, h | ⟨r, q, h⟩ | h | h⟩ := hs
    · have : 1 ≤ 2 ^ k := Nat.one_le_two_pow
      simp only [List.length_nil] at hlen; omega
    · obtain ⟨-, -, -, hq1, -, -, hf, htodo⟩ := h
      have hqB : 2 ^ j ≤ q * 2 ^ j := Nat.le_mul_of_pos_left _ (by omega)
      have : 1 ≤ 2 ^ k := Nat.one_le_two_pow
      simp only [List.length_nil] at hlen; omega
    · obtain ⟨-, -, -, -, hf, htodo⟩ := h
      simp only [List.length_nil] at hlen; omega
    · obtain ⟨hj, -⟩ := h
      subst hj
      simp [adaptations]
  | cons x xs ih =>
    intro d todo j hwf hs hlen
    simp only [List.length_cons] at hlen
    obtain ⟨d1, h1, h2, h3⟩ := write_refines hwf x
      (by rw [room_eq hwf.inner]; exact hs.writable hsmall (by omega))
    obtain ⟨i, h4, h5⟩ := Stage.step hk hsmall x hs (by omega)
    rw [← h3] at h4 h5
    obtain ⟨hf1, hf2⟩ := in_force_eq hwf
    have hrest := ih h2 h4 (by omega)
    simp only [adaptations, h1, Option.some_bind, hrest, hf1, hf2]
    rcases h5 with ⟨hi, hb⟩ | ⟨hi, hthr, hb0, hb1⟩
    · subst hi
      have e : (d1.batch_size == ((view d).reset (2 ^ k)).batch_size) = true := by
        simpa using hb
      rw [if_pos e]
    · subst hi
      have hle := h4.facts.1
      have hne : (2 : Nat) ^ (j + 1) ≠ 2 ^ j := by
        rw [pow_succ]
        have : 1 ≤ 2 ^ j := Nat.one_le_two_pow
        omega
      have e : ¬ (d1.batch_size == ((view d).reset (2 ^ k)).batch_size) = true := by
        simp only [beq_iff_eq]
        rw [hb0]
        show (view d1).batch_size ≠ 2 ^ j
        rw [hb1]; exact hne
      rw [if_neg e, hthr, hb0]
      have hb1' : d1.batch_size = 2 ^ (j + 1) := hb1
      rw [hb1']
      have : k + 1 - j = (k + 1 - (j + 1)) + 1 := by omega
      rw [this, List.range'_succ, List.map_cons]

/-- C8. Total buffered capacity: for `k ≥ 1` and `C = 2 ^ k`, consecutive writes
into a fresh `DynamicRingBuffer(C)` that nobody reads make the inner buffer full
(writable capacity 0) after exactly `k * C / 2 + C = (k / 2 + 1) * C` elements, all of
them in submitted batches with `onhold` absent, and not earlier; on the way the
adaptation runs `k + 1` times, under the thresholds `C / 2, C / 4, ..., 1, 0`, and takes
`batch_size` from 1 through `2, 4, ...` to `2 ^ (k + 1)`. -/
theorem dynamic_total_capacity (k : Nat) (hk : 1 ≤ k) (d0 : DynamicRingBuffer α)
    (h0 : new (2 ^ k) = some (.returned d0)) (xs : List α)
    (hlen : xs.length = k * 2 ^ k / 2 + 2 ^ k) :
    2 * xs.length = (k + 2) * 2 ^ k ∧
    (∃ d, d0.writes xs = some d ∧ d.room = 0 ∧ d.onhold = none ∧ inner_data d = xs ∧
      d.threshold = 0 ∧ d.batch_size = 2 ^ (k + 1)) ∧
    (∀ n, n < xs.length → ∃ d, d0.writes (xs.take n) = some d ∧ d.room ≠ 0) ∧
    d0.adaptations xs = some ((List.range (k + 1)).map
      fun j => (2 ^ k / 2 ^ (j + 1), 2 ^ j, 2 ^ (j + 1))) := by
  obtain ⟨hwf, hv, -, -⟩ := dyn_new_spec h0
  have hsmall : 2 ^ k < SIZE_MAX / 2 := hwf.inner.small
  have hC : 2 ^ k = 2 * 2 ^ (k - 1) := by rw [← pow_succ']; congr 1; omega
  have hhalf : k * 2 ^ k / 2 = k * 2 ^ (k - 1) := by
    rw [hC, Nat.mul_left_comm, Nat.mul_div_cancel_left _ (by decide : 0 < 2)]
  rw [hhalf] at hlen
  have hstage : Stage k (view d0) (k * 2 ^ (k - 1) + 2 ^ k) 0 := by
    rw [hv]
    exact ⟨⟨by simp, by simp⟩, Or.inl ⟨rfl, rfl, rfl, rfl⟩⟩
  have hd0 : (view d0).data = [] := by rw [hv]; rfl
  refine ⟨?_, ?_, ?_, ?_⟩
  · have : (k + 2) * 2 ^ k = k * 2 ^ k + 2 * 2 ^ k := Nat.add_mul _ _ _
    have h2 : k * 2 ^ k = 2 * (k * 2 ^ (k - 1)) := by rw [hC]; exact Nat.mul_left_comm _ _ _
    omega
  · obtain ⟨d, i, h1, h2, h3, h4⟩ := writes_stage hk hsmall xs hwf hstage (by omega)
    have h5 : k * 2 ^ (k - 1) + 2 ^ k - xs.length = 0 := by omega
    rw [h5] at h3
    obtain ⟨-, hz, hfin, -⟩ := h3.facts
    obtain ⟨ho, hthr, hbs⟩ := hfin rfl
    refine ⟨d, h1, ?_, ho, ?_, hthr, hbs⟩
    · rw [room_eq h2.inner]; exact hz.mp rfl
    · rw [hd0, view_data, List.nil_append] at h4
      have ho' : onhold_data d = [] := by
        have : d.onhold = none := ho
        simp [onhold_data, this, slot_data_none]
      rw [ho', List.append_nil] at h4
      exact h4
  · intro n hn
    have hl : (xs.take n).length = n := by
      rw [List.length_take]; omega
    obtain ⟨d, i, h1, h2, h3, -⟩ := writes_stage hk hsmall (xs.take n) hwf hstage (by omega)
    refine ⟨d, h1, ?_⟩
    rw [room_eq h2.inner]
    intro hr
    have := h3.facts.2.1.mpr hr
    omega
  · have := adaptations_stage hk hsmall xs hwf hstage hlen
    rw [this, List.range_eq_range']
    rfl

/-- C8 at `k = 4`: capacity 16, 48 elements, thresholds 8, 4, 2, 1, 0, five changes. -/
theorem dynamic_total_capacity_witness :
    2 * (List.range 48).length = (4 + 2) * 2 ^ 4 ∧
    (∃ d, writes (⟨1, 0, none, 8, 0, ⟨List.replicate 17 none, 0, 0⟩⟩ : DynamicRingBuffer Nat)
        (List.range 48) = some d ∧ d.room = 0 ∧ d.onhold = none ∧
      inner_data d = List.range 48 ∧ d.threshold = 0 ∧ d.batch_size = 2 ^ (4 + 1)) ∧
    (∀ n, n < (List.range 48).length →
      ∃ d, writes (⟨1, 0, none, 8, 0, ⟨List.replicate 17 none, 0, 0⟩⟩ : DynamicRingBuffer Nat)
        ((List.range 48).take n) = some d ∧ d.room ≠ 0) ∧
    adaptations (⟨1, 0, none, 8, 0, ⟨List.replicate 17 none, 0, 0⟩⟩ : DynamicRingBuffer Nat)
        (List.range 48) = some ((List.range (4 + 1)).map
      fun j => (2 ^ 4 / 2 ^ (j + 1), 2 ^ j, 2 ^ (j + 1))) :=
  dynamic_total_capacity 4 (by decide) _ (by rfl) (List.range 48) (by rfl)

theorem Reachable.of_session {C : Nat} (cs : List (Call α)) :
    ∀ {s t : Session α}, Reachable C s.d → s.run cs = some t → Reachable C t.d := by
  induction cs with
  | nil => intro s t hr h; cases h; exact hr
  | cons c cs ih =>
    intro s t hr h
    simp only [Session.run] at h
    cases hc : s.call c with
    | none => rw [hc] at h; cases h
    | some u =>
      rw [hc] at h
      refine ih ?_ h
      cases c with
      | write x => exact Reachable.write hr (Session.call_write_some hc).1
      | drain_writes =>
        simp only [Session.call, Option.bind_eq_bind, Option.pure_def] at hc
        cases hw : s.d.drain_writes with
        | none => rw [hw] at hc; cases hc
        | some p => rw [hw] at hc; cases hc; exact Reachable.drain_writes hr hw
      | read_all =>
        simp only [Session.call, Option.bind_eq_bind, Option.pure_def] at hc
        cases hw : s.d.read_all with
        | none => rw [hw] at hc; cases hc
        | some p => rw [hw] at hc; cases hc; exact Reachable.read_all hr hw

/-- The outcome of a `write` that submitted the batch holding its element. -/
theorem View.write_submitted {C : Nat} {v : View α} (x : α)
    (h : (v.write C x).onhold = none) :
    C - v.inner.length ≠ 0 ∧
    (∃ batch, batch.is_full = true ∧ batch.buf.getLast? = some x ∧
      (v.write C x).inner = (v.reset C).inner ++ [some batch]) ∧
    (C - v.inner.length - 1 ≤ (v.reset C).threshold →
      (v.write C x).threshold = (v.reset C).threshold / 2 ∧
      (v.write C x).batch_size = size_mul (v.reset C).batch_size 2) ∧
    (¬ C - v.inner.length - 1 ≤ (v.reset C).threshold →
      (v.write C x).threshold = (v.reset C).threshold ∧
      (v.write C x).batch_size = (v.reset C).batch_size) := by
  unfold View.write at h ⊢
  simp only at h ⊢
  by_cases c0 : C - v.inner.length = 0
  · rw [if_pos c0] at h; cases h
  · rw [if_neg c0] at h ⊢
    by_cases cf : (Batch.is_full ((Option.getD (v.reset C).onhold
        { capacity := (v.reset C).batch_size, buf := [] }).write x)) = true
    · rw [if_pos cf] at h ⊢
      refine ⟨c0, ⟨_, cf, by simp [Batch.write], ?_⟩, ?_, ?_⟩
      · split <;> rfl
      · intro ht; rw [if_pos ht]; exact ⟨rfl, rfl⟩
      · intro ht; rw [if_neg ht]; exact ⟨rfl, rfl⟩
    · rw [if_neg cf] at h; cases h

theorem resets_eq {C : Nat} {d : DynamicRingBuffer α} (hwf : WF C d) :
    d.resets = decide (C - (unread d.buffer).length = C) := by
  unfold resets
  rw [room_eq hwf.inner, hwf.inner.len]
  rfl

theorem View.reset_batch_size {C : Nat} {v : View α} (hg : v.Good)
    (hbs : C - v.inner.length = C ∨ v.onhold ≠ none ∨ v.batch_size ≠ 0)
    (hsm : v.batch_size ≤ SIZE_MAX) :
    (v.reset C).batch_size ≠ 0 ∧ (v.reset C).batch_size ≤ SIZE_MAX := by
  unfold View.reset
  split
  · exact ⟨by simp, by simp [SIZE_MAX]⟩
  · rename_i hne
    refine ⟨?_, hsm⟩
    rcases hbs with h | h | h
    · exact absurd h hne
    · cases ho : v.onhold with
      | none => exact absurd ho h
      | some b =>
        obtain ⟨h1, h2, -⟩ := hg.hold b ho
        rw [← h1]; exact h2
    · exact h

theorem View.write_batch_size_le (C : Nat) {v : View α} (x : α)
    (hsm : v.batch_size ≤ SIZE_MAX) : (v.write C x).batch_size ≤ SIZE_MAX := by
  have hr : (v.reset C).batch_size ≤ SIZE_MAX := by
    unfold View.reset
    split
    · simp [SIZE_MAX]
    · exact hsm
  unfold View.write
  simp only
  split
  · exact hr
  · split
    · split
      · simp only [size_mul]
        exact Nat.le_of_lt_succ (Nat.mod_lt _ (Nat.succ_pos _))
      · exact hr
    · exact hr

theorem Reachable.batch_size_le {C : Nat} {d : DynamicRingBuffer α} (hr : Reachable C d) :
    d.batch_size ≤ SIZE_MAX := by
  induction hr with
  | @init d0 h =>
    obtain ⟨-, hv, -, -⟩ := dyn_new_spec h
    have : (view d0).batch_size = 0 := by rw [hv]
    exact (show d0.batch_size = 0 from this) ▸ Nat.zero_le _
  | @write d0 d1 x hr h ih =>
    obtain ⟨-, hv⟩ := write_wf hr.dyn_wf h
    have := View.write_batch_size_le C x (show (view d0).batch_size ≤ SIZE_MAX from ih)
    rw [← hv] at this
    exact this
  | @drain_writes d0 d1 r hr h ih =>
    obtain ⟨d2, h1, -, h3⟩ := drain_writes_spec hr.dyn_wf
    rw [h1] at h
    simp only [Option.some.injEq, Prod.mk.injEq] at h
    obtain ⟨-, rfl⟩ := h
    have : (view d2).batch_size = (view d0).batch_size := by rw [h3]; split <;> rfl
    exact (show d2.batch_size = d0.batch_size from this) ▸ ih
  | @read_all d0 d1 r hr h ih =>
    obtain ⟨d2, h1, -, h3⟩ := dyn_read_all_spec hr.dyn_wf
    rw [h1] at h
    simp only [Option.some.injEq, Prod.mk.injEq] at h
    obtain ⟨-, rfl⟩ := h
    have : (view d2).batch_size = (view d0).batch_size := by rw [h3]
    exact (show d2.batch_size = d0.batch_size from this) ▸ ih

/-- C9, as the code has it. When `write x` submits the batch that holds `x` (so
`onhold` is absent afterwards), the inner buffer was not full, the batch is full and
is the newest entry of the inner buffer, and with `W` the writable capacity read at
the start of the call: `threshold` is halved and `batch_size` is doubled (in
`size_t`) if and only if `W - 1` is at or below the threshold in force
(`threshold_base` if the call reset the cycle); otherwise both keep the values in
force. `W - 1` is the writable capacity after the submission unless the call reset
the cycle and first submitted a leftover `onhold` batch: then that capacity is
`W - 2`. -/
theorem backpressure_rule {C : Nat} {d d1 : DynamicRingBuffer α} (hr : Reachable C d)
    (x : α) (hw : d.write x = some (.returned d1)) (hsub : d1.onhold = none) :
    d.room ≠ 0 ∧
    (∃ batch rest, unread d1.buffer = rest ++ [some batch] ∧
      batch.buf.getLast? = some x ∧ batch.is_full = true) ∧
    (d.room - 1 ≤ d.threshold_in_force ↔
      d1.threshold = d.threshold_in_force / 2 ∧
      d1.batch_size = size_mul d.batch_size_in_force 2) ∧
    (2 * d.batch_size_in_force ≤ SIZE_MAX →
      size_mul d.batch_size_in_force 2 = 2 * d.batch_size_in_force) ∧
    (¬ d.room - 1 ≤ d.threshold_in_force →
      d1.threshold = d.threshold_in_force ∧ d1.batch_size = d.batch_size_in_force) ∧
    d1.room = (if d.resets = true ∧ d.onhold.isSome = true then d.room - 2
      else d.room - 1) := by
  have hwf := hr.dyn_wf
  obtain ⟨hwf1, hv⟩ := write_wf hwf hw
  have hsub' : ((view d).write C x).onhold = none := by rw [← hv]; exact hsub
  obtain ⟨h0, ⟨batch, hfull, hlast, hinner⟩, hyes, hno⟩ := View.write_submitted x hsub'
  obtain ⟨hf1, hf2⟩ := in_force_eq hwf
  have hule := SPSCRingBuffer.unread_length_le hwf.inner
  have hroom : d.room = C - (view d).inner.length := room_eq hwf.inner
  have hu1 : unread d1.buffer = ((view d).reset C).inner ++ [some batch] := by
    rw [← hinner, ← hv]; rfl
  have hcond : C - (view d).inner.length = C ∨ (view d).onhold ≠ none ∨
      (view d).batch_size ≠ 0 := by
    rw [← hroom]
    rcases write_some_cond hwf hw with h | h | h
    · exact Or.inl h
    · exact Or.inr (Or.inl h)
    · exact Or.inr (Or.inr h.1)
  obtain ⟨hb0, hb1⟩ := View.reset_batch_size (C := C) hwf.good hcond
    (show (view d).batch_size ≤ SIZE_MAX from hr.batch_size_le)
  rw [hroom, hf1, hf2]
  refine ⟨h0, ⟨batch, _, hu1, hlast, hfull⟩, ⟨fun ht => ?_, fun hd => ?_⟩, fun hsz => ?_,
    fun ht => ?_, ?_⟩
  · obtain ⟨e1, e2⟩ := hyes ht
    rw [← hv] at e1 e2
    exact ⟨e1, e2⟩
  · by_contra ht
    obtain ⟨-, e2⟩ := hno ht
    rw [← hv] at e2
    have e3 : d1.batch_size = ((view d).reset C).batch_size := e2
    have e4 := hd.2
    rw [e3] at e4
    simp only [size_mul, SIZE_MAX] at *
    omega
  · simp only [size_mul, SIZE_MAX] at *
    omega
  · obtain ⟨e1, e2⟩ := hno ht
    rw [← hv] at e1 e2
    exact ⟨e1, e2⟩
  · rw [room_eq hwf1.inner, hu1, resets_eq hwf, List.length_append, List.length_singleton]
    have hC := hwf.two
    have hl : (view d).inner.length = (unread d.buffer).length := rfl
    unfold View.reset
    by_cases c : C - (unread d.buffer).length = C
    · have hz : (unread d.buffer).length = 0 := by omega
      rw [if_pos (by rw [hl]; exact c)]
      cases ho : d.onhold with
      | none => simp [view, ho, c, hz]
      | some b => simp [view, ho, c, hz]
    · rw [if_neg (by rw [hl]; exact c)]
      simp only [c, decide_False, Bool.false_eq_true, false_and, if_false, hl]
      omega

/-- C9 as stated fails. Capacity 4: after `write 1, write 2, write 3, read_all` the
inner buffer is empty and `onhold` holds `3`. `write 4` resets the cycle, submits the
leftover batch and then the batch holding `4`: the writable capacity after that
submission is 2, at the threshold in force (2), yet `threshold` stays 2 and
`batch_size` stays 1. -/
theorem backpressure_rule_counterexample :
    ∃ s d1, Session.run (⟨⟨1, 0, none, 2, 0, ⟨[none, none, none, none, none], 0, 0⟩⟩, [], []⟩ :
        Session Nat) [.write 1, .write 2, .write 3, .read_all] = some s ∧
      s.d.write 4 = some (.returned d1) ∧ d1.onhold = none ∧
      unread d1.buffer = [some ⟨2, [3]⟩, some ⟨1, [4]⟩] ∧
      s.d.threshold_in_force = 2 ∧ s.d.batch_size_in_force = 1 ∧ d1.room = 2 ∧
      d1.room ≤ s.d.threshold_in_force ∧
      ¬ (d1.threshold = s.d.threshold_in_force / 2 ∧
        d1.batch_size = 2 * s.d.batch_size_in_force) :=
  ⟨_, _, rfl, rfl, rfl, rfl, rfl, rfl, rfl, by decide, by decide⟩

/-- C9 as amended, evaluated: capacity 4 after `write 1`; `write 2` submits its batch
with `W = 3`, and `W - 1 = 2` is at the threshold 2, so the threshold becomes 1 and the
batch size 2. -/
theorem backpressure_rule_witness :
    (⟨1, 1, none, 2, 2, ⟨[some ⟨1, [1]⟩, none, none, none, none], 1, 0⟩⟩ :
      DynamicRingBuffer Nat).room ≠ 0 ∧
    (∃ batch rest,
      unread (⟨1, 2, none, 2, 1, ⟨[some ⟨1, [1]⟩, some ⟨1, [2]⟩, none, none, none], 2, 0⟩⟩ :
        DynamicRingBuffer Nat).buffer = rest ++ [some batch] ∧
      batch.buf.getLast? = some 2 ∧ batch.is_full = true) ∧
    ((⟨1, 1, none, 2, 2, ⟨[some ⟨1, [1]⟩, none, none, none, none], 1, 0⟩⟩ :
        DynamicRingBuffer Nat).room - 1 ≤
        (⟨1, 1, none, 2, 2, ⟨[some ⟨1, [1]⟩, none, none, none, none], 1, 0⟩⟩ :
          DynamicRingBuffer Nat).threshold_in_force ↔
      (1 : Nat) = (⟨1, 1, none, 2, 2, ⟨[some ⟨1, [1]⟩, none, none, none, none], 1, 0⟩⟩ :
          DynamicRingBuffer Nat).threshold_in_force / 2 ∧
      (2 : Nat) = size_mul (⟨1, 1, none, 2, 2, ⟨[some ⟨1, [1]⟩, none, none, none, none], 1, 0⟩⟩ :
          DynamicRingBuffer Nat).batch_size_in_force 2) ∧
    (2 * (⟨1, 1, none, 2, 2, ⟨[some ⟨1, [1]⟩, none, none, none, none], 1, 0⟩⟩ :
        DynamicRingBuffer Nat).batch_size_in_force ≤ SIZE_MAX →
      size_mul (⟨1, 1, none, 2, 2, ⟨[some ⟨1, [1]⟩, none, none, none, none], 1, 0⟩⟩ :
          DynamicRingBuffer Nat).batch_size_in_force 2 =
        2 * (⟨1, 1, none, 2, 2, ⟨[some ⟨1, [1]⟩, none, none, none, none], 1, 0⟩⟩ :
          DynamicRingBuffer Nat).batch_size_in_force) ∧
    (¬ (⟨1, 1, none, 2, 2, ⟨[some ⟨1, [1]⟩, none, none, none, none], 1, 0⟩⟩ :
        DynamicRingBuffer Nat).room - 1 ≤
        (⟨1, 1, none, 2, 2, ⟨[some ⟨1, [1]⟩, none, none, none, none], 1, 0⟩⟩ :
          DynamicRingBuffer Nat).threshold_in_force →
      (1 : Nat) = (⟨1, 1, none, 2, 2, ⟨[some ⟨1, [1]⟩, none, none, none, none], 1, 0⟩⟩ :
          DynamicRingBuffer Nat).threshold_in_force ∧
      (2 : Nat) = (⟨1, 1, none, 2, 2, ⟨[some ⟨1, [1]⟩, none, none, none, none], 1, 0⟩⟩ :
          DynamicRingBuffer Nat).batch_size_in_force) ∧
    (⟨1, 2, none, 2, 1, ⟨[some ⟨1, [1]⟩, some ⟨1, [2]⟩, none, none, none], 2, 0⟩⟩ :
        DynamicRingBuffer Nat).room =
      (if (⟨1, 1, none, 2, 2, ⟨[some ⟨1, [1]⟩, none, none, none, none], 1, 0⟩⟩ :
          DynamicRingBuffer Nat).resets = true ∧
          (none : Option (Batch Nat)).isSome = true then
        (⟨1, 1, none, 2, 2, ⟨[some ⟨1, [1]⟩, none, none, none, none], 1, 0⟩⟩ :
          DynamicRingBuffer Nat).room - 2
       else (⟨1, 1, none, 2, 2, ⟨[some ⟨1, [1]⟩, none, none, none, none], 1, 0⟩⟩ :
          DynamicRingBuffer Nat).room - 1) :=
  backpressure_rule (C := 4)
    (Reachable.of_session [.write 1]
      (s := ⟨⟨1, 0, none, 2, 0, ⟨[none, none, none, none, none], 0, 0⟩⟩, [], []⟩)
      (t := ⟨⟨1, 1, none, 2, 2, ⟨[some ⟨1, [1]⟩, none, none, none, none], 1, 0⟩⟩, [1], []⟩)
      (Reachable.init (by rfl)) (by rfl))
    2 (by rfl) (by rfl)

/-- The batches that a `write` moves into the inner buffer. -/
theorem View.write_submissions (C : Nat) (v : View α) (x : α) :
    ∃ subs : List (Batch α),
      (v.write C x).inner = v.inner ++ subs.map some ∧
      ∀ b ∈ subs, b.is_full = true ∨ (C - v.inner.length = C ∧ v.onhold = some b) := by
  have hr : ∃ left : List (Batch α), (v.reset C).inner = v.inner ++ left.map some ∧
      ∀ b ∈ left, C - v.inner.length = C ∧ v.onhold = some b := by
    unfold View.reset
    split
    · rename_i hc
      refine ⟨v.onhold.toList, rfl, fun b hb => ⟨hc, ?_⟩⟩
      simpa using hb
    · exact ⟨[], by simp, by simp⟩
  obtain ⟨left, h1, h2⟩ := hr
  unfold View.write
  simp only
  split
  · exact ⟨left, h1, fun b hb => Or.inr (h2 b hb)⟩
  · split
    · rename_i hfull
      have h3 : ∀ b ∈ left ++ [(Option.getD (v.reset C).onhold
          { capacity := (v.reset C).batch_size, buf := [] }).write x],
          b.is_full = true ∨ (C - v.inner.length = C ∧ v.onhold = some b) := by
        intro b hb
        simp only [List.mem_append, List.mem_singleton] at hb
        rcases hb with hb | rfl
        · exact Or.inr (h2 b hb)
        · exact Or.inl hfull
      split
      · exact ⟨_, by simp only [h1, List.map_append, List.map_cons, List.map_nil,
          List.append_assoc], h3⟩
      · exact ⟨_, by simp only [h1, List.map_append, List.map_cons, List.map_nil,
          List.append_assoc], h3⟩
    · exact ⟨left, h1, fun b hb => Or.inr (h2 b hb)⟩

/-- C10, as the code has it. In every reachable state, the batches that `write x`
moves into the inner buffer are appended after the unread ones, and each of them
either holds at least as many elements as its capacity, or is the leftover `onhold`
batch that the call submits in its cycle reset (the inner buffer was empty at the
start of the call), whatever its fill. A `write` that does not reset the cycle
submits full batches only. -/
theorem write_submits_full_or_leftover {C : Nat} {d d1 : DynamicRingBuffer α}
    (hr : Reachable C d) (x : α) (hw : d.write x = some (.returned d1)) :
    ∃ subs : List (Batch α),
      unread d1.buffer = unread d.buffer ++ subs.map some ∧
      (∀ b ∈ subs, b.is_full = true ∨ (d.resets = true ∧ d.onhold = some b)) ∧
      (d.resets = false → ∀ b ∈ subs, b.is_full = true) := by
  have hwf := hr.dyn_wf
  obtain ⟨-, hv⟩ := write_wf hwf hw
  obtain ⟨subs, h1, h2⟩ := View.write_submissions C (view d) x
  rw [← hv] at h1
  have hres := resets_eq hwf
  have h3 : ∀ b ∈ subs, b.is_full = true ∨ (d.resets = true ∧ d.onhold = some b) := by
    intro b hb
    rcases h2 b hb with h | ⟨h, ho⟩
    · exact Or.inl h
    · exact Or.inr ⟨by rw [hres]; exact decide_eq_true h, ho⟩
  refine ⟨subs, h1, h3, fun hf b hb => ?_⟩
  rcases h3 b hb with h | ⟨h, -⟩
  · exact h
  · rw [hf] at h; cases h

/-- C10 as stated fails. Capacity 4, no `drain_writes`: `write 1` and `write 2` leave
`onhold` absent and two free slots; `write 3` creates a batch of capacity 2 holding
`3`; `read_all` empties the inner buffer; `write 4` then moves that batch, one element
below its capacity, into the inner buffer. -/
theorem write_submits_full_or_leftover_counterexample :
    ∃ s2 s d1, Session.run (⟨⟨1, 0, none, 2, 0, ⟨[none, none, none, none, none], 0, 0⟩⟩,
        [], []⟩ : Session Nat) [.write 1, .write 2] = some s2 ∧
      s2.d.onhold = none ∧ s2.d.room = 2 ∧
      Session.run s2 [.write 3, .read_all] = some s ∧
      s.d.onhold = some ⟨2, [3]⟩ ∧ unread s.d.buffer = [] ∧
      s.d.write 4 = some (.returned d1) ∧
      unread d1.buffer = [some ⟨2, [3]⟩, some ⟨1, [4]⟩] ∧
      (⟨2, [3]⟩ : Batch Nat).buf.length < (⟨2, [3]⟩ : Batch Nat).capacity ∧
      (⟨2, [3]⟩ : Batch Nat).is_full = false :=
  ⟨_, _, _, rfl, rfl, rfl, rfl, rfl, rfl, rfl, rfl, by decide, rfl⟩

/-- C10 as amended, evaluated on the state of the counterexample: the two batches that
`write 4` submits are the leftover one and a full one. -/
theorem write_submits_full_or_leftover_witness :
    ∃ subs : List (Batch Nat),
      unread (⟨1, 1, none, 2, 2, ⟨[some ⟨1, [1]⟩, some ⟨1, [2]⟩, some ⟨2, [3]⟩,
          some ⟨1, [4]⟩, none], 4, 2⟩⟩ : DynamicRingBuffer Nat).buffer =
        unread (⟨1, 2, some ⟨2, [3]⟩, 2, 1, ⟨[some ⟨1, [1]⟩, some ⟨1, [2]⟩, none, none,
          none], 2, 2⟩⟩ : DynamicRingBuffer Nat).buffer ++ subs.map some ∧
      (∀ b ∈ subs, b.is_full = true ∨
        ((⟨1, 2, some ⟨2, [3]⟩, 2, 1, ⟨[some ⟨1, [1]⟩, some ⟨1, [2]⟩, none, none, none],
          2, 2⟩⟩ : DynamicRingBuffer Nat).resets = true ∧
          some (⟨2, [3]⟩ : Batch Nat) = some b)) ∧
      ((⟨1, 2, some ⟨2, [3]⟩, 2, 1, ⟨[some ⟨1, [1]⟩, some ⟨1, [2]⟩, none, none, none],
          2, 2⟩⟩ : DynamicRingBuffer Nat).resets = false → ∀ b ∈ subs, b.is_full = true) :=
  write_submits_full_or_leftover (C := 4)
    (Reachable.of_session [.write 1, .write 2, .write 3, .read_all]
      (s := ⟨⟨1, 0, none, 2, 0, ⟨[none, none, none, none, none], 0, 0⟩⟩, [], []⟩)
      (t := ⟨⟨1, 2, some ⟨2, [3]⟩, 2, 1, ⟨[some ⟨1, [1]⟩, some ⟨1, [2]⟩, none, none, none],
        2, 2⟩⟩, [1, 2, 3], [1, 2]⟩)
      (Reachable.init (by rfl)) (by rfl))
    4 (by rfl)


/-! ## The claims on the assertions of `DynamicRingBuffer` -/

theorem two_pow_le_ptrdiff (j : Nat) : 2 ^ j ≤ PTRDIFF_MAX ↔ j ≤ 62 := by
  constructor
  · intro h
    by_contra hj
    have : 2 ^ 63 ≤ 2 ^ j := Nat.pow_le_pow_right (by decide) (by omega)
    simp only [PTRDIFF_MAX] at h
    omega
  · intro hj
    have : 2 ^ j ≤ 2 ^ 62 := Nat.pow_le_pow_right (by decide) hj
    simp only [PTRDIFF_MAX]
    omega

/-- The adaptive state in force in a `write` that returns, when the call resets the cycle
or the state was tuned: a batch is created only with a capacity that `reserve`
accepts, so `batch_size` is at most `2 ^ 62` there. -/
theorem View.reset_tuned {C : Nat} {v : View α}
    (h : C - v.inner.length = C ∨ Tuned C v)
    (hret : C - v.inner.length = C ∨ v.onhold ≠ none ∨
      (v.batch_size ≠ 0 ∧ v.batch_size ≤ PTRDIFF_MAX)) :
    ∃ j, j ≤ 62 ∧ (v.reset C).batch_size = 2 ^ j ∧ (v.reset C).threshold = C / 2 / 2 ^ j := by
  unfold View.reset
  split
  · exact ⟨0, by omega, by simp, by simp⟩
  · rename_i hne
    rcases h with h | ⟨j, -, h1, h2, h3⟩
    · exact absurd h hne
    · refine ⟨j, ?_, h1, h2⟩
      rcases hret with h | h | h
      · exact absurd h hne
      · exact h3 h
      · rw [h1] at h
        exact (two_pow_le_ptrdiff j).mp h.2

/-- A `write` that returns leaves the adaptive state tuned, when it resets the cycle or
the state was tuned: the doubling stops at `2 ^ 63` and does not wrap. -/
theorem View.write_tuned {C : Nat} {v : View α} (x : α)
    (h : C - v.inner.length = C ∨ Tuned C v)
    (hret : C - v.inner.length = C ∨ v.onhold ≠ none ∨
      (v.batch_size ≠ 0 ∧ v.batch_size ≤ PTRDIFF_MAX)) :
    Tuned C (v.write C x) := by
  obtain ⟨j, hj, h1, h2⟩ := View.reset_tuned h hret
  unfold View.write
  simp only
  split
  · exact ⟨j, by omega, h1, h2, fun _ => hj⟩
  · split
    · split
      · refine ⟨j + 1, by omega, ?_, ?_, fun h => absurd rfl h⟩
        · have hle : 2 ^ (j + 1) ≤ 2 ^ 63 := Nat.pow_le_pow_right (by decide) (by omega)
          simp only [h1, size_mul, ← pow_succ]
          exact Nat.mod_eq_of_lt (by simp only [SIZE_MAX]; omega)
        · simp only [h2, pow_succ, Nat.div_div_eq_div_mul, Nat.mul_assoc]
      · exact ⟨j, by omega, h1, h2, fun h => absurd rfl h⟩
    · exact ⟨j, by omega, h1, h2, fun _ => hj⟩

/-- The number of elements that count against the budget of a state: `batch_size` and
the fill of the batch on hold. A `write` that returns in a state in which nothing was
written yet or whose adaptive state is tuned adds at most one to it. -/
theorem write_keeps_tuned {C n : Nat} {d d1 : DynamicRingBuffer α} (hwf : WF C d) {x : α}
    (h : unread d.buffer = [] ∨ Tuned C (view d)) (hw : d.write x = some (.returned d1))
    (hb : d.batch_size + (onhold_data d).length ≤ n + 1) :
    Tuned C (view d1) ∧ d1.batch_size + (onhold_data d1).length ≤ n + 2 := by
  obtain ⟨-, hv⟩ := write_wf hwf hw
  have hcond := write_some_cond hwf hw
  rw [room_eq hwf.inner] at hcond
  have h' : C - (view d).inner.length = C ∨ Tuned C (view d) := by
    rcases h with h | h
    · left
      show C - (unread d.buffer).length = C
      rw [h]; rfl
    · exact Or.inr h
  have hbs : C - (view d).inner.length = C ∨ (view d).onhold ≠ none ∨
      (view d).batch_size ≠ 0 := by
    rcases hcond with h | h | h
    · exact Or.inl h
    · exact Or.inr (Or.inl h)
    · exact Or.inr (Or.inr h.1)
  obtain ⟨j, hj, h1, -⟩ := View.reset_tuned h' hcond
  have hle : 2 ^ j ≤ 2 ^ 62 := Nat.pow_le_pow_right (by decide) hj
  have hw2 := (View.write_budget (C := C) (n := n) x hwf.good hbs hb
    (Or.inr (by rw [h1]; simp only [SIZE_MAX]; omega))).2
  rw [← hv] at hw2
  rw [hv]
  exact ⟨View.write_tuned x h' hcond, hw2⟩

theorem drain_writes_tuned {C : Nat} {d d1 : DynamicRingBuffer α} {r : Bool} (hwf : WF C d)
    (h : d.drain_writes = some (r, d1)) :
    (unread d.buffer = [] ∧ d.onhold = none → unread d1.buffer = [] ∧ d1.onhold = none) ∧
    (Tuned C (view d) → Tuned C (view d1)) ∧
    d1.batch_size + (onhold_data d1).length ≤ d.batch_size + (onhold_data d).length := by
  obtain ⟨d2, h1, -, h3⟩ := drain_writes_spec hwf
  rw [h1] at h
  simp only [Option.some.injEq, Prod.mk.injEq] at h
  obtain ⟨-, rfl⟩ := h
  have eb : (view d2).batch_size = (view d).batch_size := by rw [h3]; split <;> rfl
  have et : (view d2).threshold = (view d).threshold := by rw [h3]; split <;> rfl
  have eo : (view d2).onhold = (view d).onhold ∨ (view d2).onhold = none := by
    rw [h3]
    split
    · exact Or.inl rfl
    · exact Or.inr rfl
  refine ⟨?_, ?_, ?_⟩
  · rintro ⟨hu, ho⟩
    rw [if_pos (Or.inl (by simp [ho]))] at h3
    exact ⟨(congrArg View.inner h3).trans hu, (congrArg View.onhold h3).trans ho⟩
  · rintro ⟨j, hj, e1, e2, e3⟩
    refine ⟨j, hj, eb.trans e1, et.trans e2, fun hn => e3 ?_⟩
    rcases eo with e | e
    · rw [← e]; exact hn
    · exact absurd e hn
  · have eb' : d2.batch_size = d.batch_size := eb
    have hle : (onhold_data d2).length ≤ (onhold_data d).length := by
      rcases eo with e | e
      · have e' : d2.onhold = d.onhold := e
        simp [onhold_data, e']
      · have e' : d2.onhold = none := e
        simp [onhold_data, e', slot_data]
    omega

theorem read_all_tuned {C : Nat} {d d1 : DynamicRingBuffer α} {r : List α} (hwf : WF C d)
    (h : d.read_all = some (r, d1)) :
    (d.onhold = none → unread d1.buffer = [] ∧ d1.onhold = none) ∧
    (Tuned C (view d) → Tuned C (view d1)) ∧
    d1.batch_size + (onhold_data d1).length = d.batch_size + (onhold_data d).length := by
  obtain ⟨d2, h1, -, h3⟩ := dyn_read_all_spec hwf
  rw [h1] at h
  simp only [Option.some.injEq, Prod.mk.injEq] at h
  obtain ⟨-, rfl⟩ := h
  refine ⟨?_, ?_, ?_⟩
  · intro ho
    exact ⟨congrArg View.inner h3, (congrArg View.onhold h3).trans ho⟩
  · rintro ⟨j, hj, e1, e2, e3⟩
    rw [h3]
    exact ⟨j, hj, e1, e2, e3⟩
  · have e1 : d2.batch_size = d.batch_size := congrArg View.batch_size h3
    have e2 : d2.onhold = d.onhold := congrArg View.onhold h3
    simp only [onhold_data, e1, e2]

/-- Along a run from a state in which nothing was written yet, the adaptive state is
tuned as soon as a `write` was made, and `batch_size` together with the fill of the
batch on hold stays within the number of elements written plus one. -/
theorem Session.run_tuned {C : Nat} (cs : List (Call α)) :
    ∀ {s t : Session α}, Session.Inv C s → s.run cs = some t →
      ((s.sent = [] ∧ unread s.d.buffer = [] ∧ s.d.onhold = none) ∨ Tuned C (view s.d)) →
      s.d.batch_size + (onhold_data s.d).length ≤ s.sent.length + 1 →
      ((t.sent = [] ∧ unread t.d.buffer = [] ∧ t.d.onhold = none) ∨ Tuned C (view t.d)) ∧
        t.d.batch_size + (onhold_data t.d).length ≤ t.sent.length + 1 := by
  induction cs with
  | nil => intro s t _ h ha hb; cases h; exact ⟨ha, hb⟩
  | cons c cs ih =>
    intro s t hi h ha hb
    simp only [Session.run] at h
    cases hc : s.call c with
    | none => rw [hc] at h; cases h
    | some u =>
      rw [hc] at h
      have hstep : ((u.sent = [] ∧ unread u.d.buffer = [] ∧ u.d.onhold = none) ∨
          Tuned C (view u.d)) ∧
          u.d.batch_size + (onhold_data u.d).length ≤ u.sent.length + 1 := by
        cases c with
        | write x =>
          obtain ⟨hw, hu⟩ := Session.call_write_some hc
          obtain ⟨e1, e2⟩ := write_keeps_tuned (n := s.sent.length) hi.wf (by
            rcases ha with ⟨-, hu, -⟩ | ha
            · exact Or.inl hu
            · exact Or.inr ha) hw hb
          refine ⟨Or.inr e1, ?_⟩
          rw [hu]
          simp only [List.length_append, List.length_singleton]
          exact e2
        | drain_writes =>
          simp only [Session.call, Option.bind_eq_bind, Option.pure_def] at hc
          cases hw : s.d.drain_writes with
          | none => rw [hw] at hc; cases hc
          | some p =>
            rw [hw] at hc; cases hc
            obtain ⟨e1, e2, e3⟩ := drain_writes_tuned hi.wf hw
            refine ⟨?_, by
              show p.2.batch_size + (onhold_data p.2).length ≤ s.sent.length + 1
              omega⟩
            rcases ha with ⟨hs, hu, ho⟩ | ha
            · exact Or.inl ⟨hs, e1 ⟨hu, ho⟩⟩
            · exact Or.inr (e2 ha)
        | read_all =>
          simp only [Session.call, Option.bind_eq_bind, Option.pure_def] at hc
          cases hw : s.d.read_all with
          | none => rw [hw] at hc; cases hc
          | some p =>
            rw [hw] at hc; cases hc
            obtain ⟨e1, e2, e3⟩ := read_all_tuned hi.wf hw
            refine ⟨?_, by
              show p.2.batch_size + (onhold_data p.2).length ≤ s.sent.length + 1
              omega⟩
            rcases ha with ⟨hs, -, ho⟩ | ha
            · exact Or.inl ⟨hs, e1 ho⟩
            · exact Or.inr (e2 ha)
      exact ih (Session.call_inv hi hc).1 h hstep.1 hstep.2

/-- What a run from the fresh object keeps. -/
theorem Session.run_fresh {C : Nat} {d0 : DynamicRingBuffer α}
    (h0 : new C = some (.returned d0)) {calls : List (Call α)} {s : Session α}
    (hrun : Session.run ⟨d0, [], []⟩ calls = some s) :
    WF C s.d ∧ s.sent = Call.written calls ∧
    ((unread s.d.buffer = [] ∧ s.d.onhold = none ∧ Call.written calls = []) ∨
      Tuned C (view s.d)) ∧
    s.d.batch_size + (onhold_data s.d).length ≤ (Call.written calls).length + 1 := by
  obtain ⟨hwf0, hv0, -, -⟩ := dyn_new_spec h0
  have hi0 : Session.Inv C (⟨d0, [], []⟩ : Session α) :=
    ⟨hwf0, by simp [hv0, View.data, slot_data]⟩
  have hb0 : d0.batch_size = 0 := congrArg View.batch_size hv0
  have ho0 : d0.onhold = none := congrArg View.onhold hv0
  have hu0 : unread d0.buffer = [] := congrArg View.inner hv0
  obtain ⟨hi, hsent⟩ := Session.run_keeps calls hi0 hrun
  have hsent' : s.sent = Call.written calls := by simpa using hsent
  obtain ⟨h1, h2⟩ := Session.run_tuned calls hi0 hrun (Or.inl ⟨rfl, hu0, ho0⟩)
    (by show d0.batch_size + (onhold_data d0).length ≤ 0 + 1
        simp [hb0, onhold_data, ho0, slot_data])
  refine ⟨hi.wf, hsent', ?_, by rw [← hsent']; exact h2⟩
  rcases h1 with ⟨a, b, c⟩ | h
  · exact Or.inl ⟨b, c, by rw [← hsent']; exact a⟩
  · exact Or.inr h

/-- In a state in which nothing was written yet or whose adaptive state is tuned,
`write` fails no assertion: it returns, or `onhold` is absent, the cycle is not reset
and `batch_size` is `2 ^ 63`, which `reserve` refuses. -/
theorem write_sound {C : Nat} {d : DynamicRingBuffer α} (hwf : WF C d)
    (h : (unread d.buffer = [] ∧ d.onhold = none) ∨ Tuned C (view d)) (x : α) :
    (∃ d1, d.write x = some (.returned d1)) ∨
    (d.write x = some .length_error ∧ d.room ≠ C ∧ d.onhold = none ∧
      d.batch_size = 2 ^ 63) := by
  by_cases hret : d.room = C ∨ d.onhold ≠ none ∨
      (d.batch_size ≠ 0 ∧ d.batch_size ≤ PTRDIFF_MAX)
  · obtain ⟨d1, h1, -⟩ := write_refines hwf x hret
    exact Or.inl ⟨d1, h1⟩
  · right
    have hr : d.room ≠ C := fun h => hret (Or.inl h)
    have ho : d.onhold = none := by by_contra h; exact hret (Or.inr (Or.inl h))
    have hb : ¬ (d.batch_size ≠ 0 ∧ d.batch_size ≤ PTRDIFF_MAX) :=
      fun h => hret (Or.inr (Or.inr h))
    rcases h with ⟨hu, -⟩ | ⟨j, hj, h1, -, -⟩
    · exfalso
      apply hr
      rw [room_eq hwf.inner, hu]; rfl
    · have h1' : d.batch_size = 2 ^ j := h1
      have hpos : 1 ≤ 2 ^ j := Nat.one_le_two_pow
      have hj63 : j = 63 := by
        by_contra hne
        exact hb ⟨by omega, by rw [h1']; exact (two_pow_le_ptrdiff j).mpr (by omega)⟩
      subst hj63
      refine ⟨(write_creates hwf x hr ho).2 ?_, hr, ho, h1'⟩
      rw [h1']
      simp only [PTRDIFF_MAX]
      omega

/-- C11. From a fresh `DynamicRingBuffer(C)`, after every run of `write`,
`drain_writes` and `read_all` calls (each call of a sequence is made in the state
that the calls before it, having returned, reached), no call violates an assertion:
`drain_writes` and `read_all` return; submitting the batch on hold while the inner
buffer has room makes the inner `write` return 1 and leaves `onhold` absent; the batch
size in force in the next `write`, which is the capacity of a batch that it creates, is
at least 1 (also in the first write, before which `batch_size` is 0); and the next
`write` fails no assertion of `write`, `submit_onhold_data` or `Batch::set_capacity`: it
returns, with every batch it submits appended to the inner buffer, no more of them
than there was room, or else it ends by the `std::length_error` of `reserve`, which
takes a `batch_size` of `2 ^ 63` and so a run of at least `2 ^ 63 - 1` writes. -/
theorem write_never_fails (C : Nat) (d0 : DynamicRingBuffer α)
    (h0 : new C = some (.returned d0)) (calls : List (Call α)) (s : Session α)
    (hrun : Session.run ⟨d0, [], []⟩ calls = some s) (x : α) :
    d0.batch_size = 0 ∧
    (∃ r d1, s.d.drain_writes = some (r, d1)) ∧
    (∃ r d1, s.d.read_all = some (r, d1)) ∧
    (∀ b, s.d.onhold = some b → s.d.room ≠ 0 →
      ∃ buffer, s.d.buffer.write (some b) = some (1, buffer) ∧
        s.d.submit_onhold_data = some { s.d with onhold := none, buffer := buffer }) ∧
    1 ≤ s.d.batch_size_in_force ∧
    s.d.write x ≠ none ∧
    (s.d.write x = some .length_error →
      s.d.batch_size_in_force = 2 ^ 63 ∧ 2 ^ 63 ≤ (Call.written calls).length + 1) ∧
    (∀ d1, s.d.write x = some (.returned d1) →
      ∃ subs : List (Batch α),
        unread d1.buffer = unread s.d.buffer ++ subs.map some ∧ subs.length ≤ s.d.room) := by
  have hb0 : d0.batch_size = 0 := congrArg View.batch_size (dyn_new_spec h0).2.1
  obtain ⟨hwf, -, hfresh, hbudget⟩ := Session.run_fresh h0 hrun
  have ht : (unread s.d.buffer = [] ∧ s.d.onhold = none) ∨ Tuned C (view s.d) := by
    rcases hfresh with ⟨h1, h2, -⟩ | h
    · exact Or.inl ⟨h1, h2⟩
    · exact Or.inr h
  obtain ⟨dr, hdr, -, -⟩ := drain_writes_spec hwf
  obtain ⟨da, hda, -, -⟩ := dyn_read_all_spec hwf
  have hforce : 1 ≤ s.d.batch_size_in_force ∧
      (s.d.room ≠ C → s.d.batch_size_in_force = s.d.batch_size) := by
    rw [(in_force_eq hwf).2]
    unfold View.reset
    split
    · rename_i hc
      refine ⟨by simp, fun hne => absurd ?_ hne⟩
      rw [room_eq hwf.inner]; exact hc
    · rename_i hc
      refine ⟨?_, fun _ => rfl⟩
      rcases ht with ⟨hu, -⟩ | ⟨j, -, h1, -, -⟩
      · exfalso
        apply hc
        show C - (unread s.d.buffer).length = C
        rw [hu]; rfl
      · rw [h1]
        exact Nat.one_le_two_pow
  refine ⟨hb0, ⟨_, _, hdr⟩, ⟨_, _, hda⟩, ?_, hforce.1, ?_, ?_, ?_⟩
  · intro b hob hroom
    have hlt : (unread s.d.buffer).length < C := by
      rw [room_eq hwf.inner] at hroom; omega
    obtain ⟨b1, w1, -, -, w4, -⟩ := SPSCRingBuffer.write_spec hwf.inner (some b)
    have hmin : min 1 (C - (unread s.d.buffer).length) = 1 := by omega
    rw [hmin] at w1
    refine ⟨b1, w1, ?_⟩
    unfold submit_onhold_data
    simp [hob, w1, assert]
  · rcases write_sound hwf ht x with ⟨d1, h1⟩ | ⟨h1, -⟩
    · rw [h1]; simp
    · rw [h1]; simp
  · intro hthrow
    rcases write_sound hwf ht x with ⟨d1, h1⟩ | ⟨-, hr, -, hb⟩
    · rw [h1] at hthrow; cases hthrow
    · refine ⟨by rw [hforce.2 hr]; exact hb, ?_⟩
      rw [← hb]
      omega
  · intro d1 hcall
    obtain ⟨hwf1, hv1⟩ := write_wf hwf hcall
    obtain ⟨subs, h1, -⟩ := View.write_submissions C (view s.d) x
    rw [← hv1] at h1
    have h1' : unread d1.buffer = unread s.d.buffer ++ subs.map some := h1
    refine ⟨subs, h1', ?_⟩
    have := SPSCRingBuffer.unread_length_le hwf1.inner
    rw [h1', List.length_append, List.length_map] at this
    rw [room_eq hwf.inner]
    omega

/-- C11, evaluated: capacity 4, after `write 1, write 2, write 3, read_all`, where a
batch holding `3` is on hold and the inner buffer is empty; the next call is
`write 4`. -/
theorem write_never_fails_witness :
    (⟨1, 0, none, 2, 0, ⟨[none, none, none, none, none], 0, 0⟩⟩ :
      DynamicRingBuffer Nat).batch_size = 0 ∧
    (∃ r d1, (⟨1, 2, some ⟨2, [3]⟩, 2, 1,
      ⟨[some ⟨1, [1]⟩, some ⟨1, [2]⟩, none, none, none], 2, 2⟩⟩ :
        DynamicRingBuffer Nat).drain_writes = some (r, d1)) ∧
    (∃ r d1, (⟨1, 2, some ⟨2, [3]⟩, 2, 1,
      ⟨[some ⟨1, [1]⟩, some ⟨1, [2]⟩, none, none, none], 2, 2⟩⟩ :
        DynamicRingBuffer Nat).read_all = some (r, d1)) ∧
    (∀ b, some (⟨2, [3]⟩ : Batch Nat) = some b →
      (⟨1, 2, some ⟨2, [3]⟩, 2, 1,
        ⟨[some ⟨1, [1]⟩, some ⟨1, [2]⟩, none, none, none], 2, 2⟩⟩ :
          DynamicRingBuffer Nat).room ≠ 0 →
      ∃ buffer,
        (⟨[some ⟨1, [1]⟩, some ⟨1, [2]⟩, none, none, none], 2, 2⟩ :
          SPSCRingBuffer (Option (Batch Nat))).write (some b) = some (1, buffer) ∧
        (⟨1, 2, some ⟨2, [3]⟩, 2, 1,
          ⟨[some ⟨1, [1]⟩, some ⟨1, [2]⟩, none, none, none], 2, 2⟩⟩ :
            DynamicRingBuffer Nat).submit_onhold_data =
          some ⟨1, 2, none, 2, 1, buffer⟩) ∧
    1 ≤ (⟨1, 2, some ⟨2, [3]⟩, 2, 1,
      ⟨[some ⟨1, [1]⟩, some ⟨1, [2]⟩, none, none, none], 2, 2⟩⟩ :
        DynamicRingBuffer Nat).batch_size_in_force ∧
    (⟨1, 2, some ⟨2, [3]⟩, 2, 1,
      ⟨[some ⟨1, [1]⟩, some ⟨1, [2]⟩, none, none, none], 2, 2⟩⟩ :
        DynamicRingBuffer Nat).write 4 ≠ none ∧
    ((⟨1, 2, some ⟨2, [3]⟩, 2, 1,
      ⟨[some ⟨1, [1]⟩, some ⟨1, [2]⟩, none, none, none], 2, 2⟩⟩ :
        DynamicRingBuffer Nat).write 4 = some .length_error →
      (⟨1, 2, some ⟨2, [3]⟩, 2, 1,
        ⟨[some ⟨1, [1]⟩, some ⟨1, [2]⟩, none, none, none], 2, 2⟩⟩ :
          DynamicRingBuffer Nat).batch_size_in_force = 2 ^ 63 ∧
      2 ^ 63 ≤ (Call.written [Call.write 1, .write 2, .write 3, .read_all]).length + 1) ∧
    (∀ d1, (⟨1, 2, some ⟨2, [3]⟩, 2, 1,
      ⟨[some ⟨1, [1]⟩, some ⟨1, [2]⟩, none, none, none], 2, 2⟩⟩ :
        DynamicRingBuffer Nat).write 4 = some (.returned d1) →
      ∃ subs : List (Batch Nat),
        unread d1.buffer =
          unread (⟨[some ⟨1, [1]⟩, some ⟨1, [2]⟩, none, none, none], 2, 2⟩ :
            SPSCRingBuffer (Option (Batch Nat))) ++ subs.map some ∧
        subs.length ≤ (⟨1, 2, some ⟨2, [3]⟩, 2, 1,
          ⟨[some ⟨1, [1]⟩, some ⟨1, [2]⟩, none, none, none], 2, 2⟩⟩ :
            DynamicRingBuffer Nat).room) :=
  write_never_fails 4 ⟨1, 0, none, 2, 0, ⟨[none, none, none, none, none], 0, 0⟩⟩ (by rfl)
    [.write 1, .write 2, .write 3, .read_all]
    ⟨⟨1, 2, some ⟨2, [3]⟩, 2, 1, ⟨[some ⟨1, [1]⟩, some ⟨1, [2]⟩, none, none, none], 2, 2⟩⟩,
      [1, 2, 3], [1, 2]⟩
    (by rfl) 4

theorem and_pred_eq_zero_iff (n : Nat) :
    n &&& (n - 1) = 0 ↔ n = 0 ∨ ∃ k, n = 2 ^ k := by
  induction n using Nat.strong_induction_on with
  | _ n ih =>
    rcases Nat.eq_zero_or_pos n with rfl | hpos
    · simp
    · have hsplit : n &&& (n - 1) = 0 ↔ n / 2 &&& (n - 1) / 2 = 0 := by
        have hm : (n &&& (n - 1)) % 2 ≠ 1 := by
          rw [Ne, Nat.and_mod_two_eq_one]
          omega
        have hd : (n &&& (n - 1)) / 2 = n / 2 &&& (n - 1) / 2 := Nat.and_div_two
        constructor
        · intro h
          rw [← hd, h]
        · intro h
          rw [← hd] at h
          omega
      rw [hsplit]
      rcases Nat.even_or_odd' n with ⟨m, rfl | rfl⟩
      · have e1 : 2 * m / 2 = m := by omega
        have e2 : (2 * m - 1) / 2 = m - 1 := by omega
        rw [e1, e2, ih m (by omega)]
        constructor
        · rintro (rfl | ⟨k, rfl⟩)
          · omega
          · exact Or.inr ⟨k + 1, by rw [pow_succ']⟩
        · rintro (h | ⟨k, hk⟩)
          · omega
          · cases k with
            | zero => omega
            | succ k =>
              rw [pow_succ'] at hk
              exact Or.inr ⟨k, by omega⟩
      · have e1 : (2 * m + 1) / 2 = m := by omega
        have e2 : (2 * m + 1 - 1) / 2 = m := by omega
        rw [e1, e2, Nat.and_self]
        constructor
        · rintro rfl
          exact Or.inr ⟨0, rfl⟩
        · rintro (h | ⟨k, hk⟩)
          · omega
          · cases k with
            | zero => simpa using hk
            | succ k =>
              rw [pow_succ'] at hk
              omega

theorem two_pow_slots (k : Nat) : 2 ^ k + 1 ≤ 2 ^ 60 - 1 ↔ k ≤ 59 := by
  constructor
  · intro h
    by_contra hk
    have : 2 ^ 60 ≤ 2 ^ k := Nat.pow_le_pow_right (by decide) (by omega)
    omega
  · intro hk
    have : 2 ^ k ≤ 2 ^ 59 := Nat.pow_le_pow_right (by decide) hk
    omega

/-- C12, as the code has it. `DynamicRingBuffer(C)` is constructed (no assertion fails
and nothing is thrown) exactly when `C = 2 ^ k` with `1 ≤ k ≤ 59`, and the object is
then the one with `batch_size_base = 1`, `threshold_base = C / 2`, `batch_size = 0`,
`threshold = 0`, no `onhold` and an empty inner buffer of `C + 1` slots. The inner
buffer's `std::vector<Batch*>(C + 1)` throws `std::length_error`, before the assertions
of the body run, exactly when `C < SIZE_MAX / 2` and `C + 1` is above `max_size()`.
Construction aborts on an assertion exactly when `C = 0`, `C = 1`, `C ≥ SIZE_MAX / 2`,
or `C` is not a power of two and `C + 1` is within `max_size()`. -/
theorem capacity_precondition (C : Nat) :
    ((∃ d : DynamicRingBuffer α, new C = some (.returned d)) ↔
      ∃ k, 1 ≤ k ∧ k ≤ 59 ∧ C = 2 ^ k) ∧
    (∀ d : DynamicRingBuffer α, new C = some (.returned d) →
      d = ⟨1, 0, none, C / 2, 0, ⟨List.replicate (C + 1) none, 0, 0⟩⟩) ∧
    ((new C : Option (Exit (DynamicRingBuffer α))) = some .length_error ↔
      C < SIZE_MAX / 2 ∧ max_size (Option (Batch α)) < C + 1) ∧
    ((new C : Option (Exit (DynamicRingBuffer α))) = none ↔
      C = 0 ∨ C = 1 ∨ SIZE_MAX / 2 ≤ C ∨
        (C + 1 ≤ max_size (Option (Batch α)) ∧ ¬ ∃ k, C = 2 ^ k)) := by
  have hpow : (C &&& (C - 1) = 0 ∧ 2 ≤ C) ↔ ∃ k, 1 ≤ k ∧ C = 2 ^ k := by
    constructor
    · rintro ⟨h1, h2⟩
      rcases (and_pred_eq_zero_iff C).mp h1 with h0 | ⟨k, rfl⟩
      · omega
      · refine ⟨k, ?_, rfl⟩
        by_contra hk
        have : k = 0 := by omega
        subst this
        simp at h2
    · rintro ⟨k, hk, rfl⟩
      refine ⟨(and_pred_eq_zero_iff _).mpr (Or.inr ⟨k, rfl⟩), ?_⟩
      calc 2 = 2 ^ 1 := rfl
        _ ≤ 2 ^ k := Nat.pow_le_pow_right (by decide) hk
  have hsz : SIZE_MAX / 2 = 2 ^ 63 - 1 := by norm_num [SIZE_MAX]
  rw [max_size_slot (α := α), dyn_new_eq, hsz]
  by_cases c1 : 1 ≤ C ∧ C < 2 ^ 63 - 1
  · rw [if_pos c1]
    by_cases c2 : C + 1 ≤ 2 ^ 60 - 1
    · rw [if_pos c2]
      by_cases c3 : C &&& (C - 1) = 0 ∧ 2 ≤ C
      · rw [if_pos c3]
        obtain ⟨k, hk, rfl⟩ := hpow.mp c3
        have hk59 : k ≤ 59 := (two_pow_slots k).mp c2
        refine ⟨⟨fun _ => ⟨k, hk, hk59, rfl⟩, fun _ => ⟨_, rfl⟩⟩, ?_, ?_, ?_⟩
        · intro d h; cases h; rfl
        · constructor
          · intro h; cases h
          · rintro ⟨-, h⟩; omega
        · constructor
          · intro h; cases h
          · rintro (h | h | h | ⟨-, h⟩)
            · omega
            · omega
            · omega
            · exact absurd ⟨k, rfl⟩ h
      · rw [if_neg c3]
        have hno : ¬ ∃ k, 1 ≤ k ∧ C = 2 ^ k := fun h => c3 (hpow.mpr h)
        refine ⟨⟨?_, ?_⟩, ?_, ?_, ?_⟩
        · rintro ⟨d, h⟩; cases h
        · rintro ⟨k, hk, -, h⟩; exact absurd ⟨k, hk, h⟩ hno
        · intro d h; cases h
        · constructor
          · intro h; cases h
          · rintro ⟨-, h⟩; omega
        · refine ⟨fun _ => ?_, fun _ => rfl⟩
          by_cases h1 : C = 1
          · exact Or.inr (Or.inl h1)
          · refine Or.inr (Or.inr (Or.inr ⟨c2, ?_⟩))
            rintro ⟨k, hk⟩
            apply hno
            refine ⟨k, ?_, hk⟩
            by_contra hk0
            have : k = 0 := by omega
            subst this
            simp at hk
            exact h1 hk
    · rw [if_neg c2]
      refine ⟨⟨?_, ?_⟩, ?_, ?_, ?_⟩
      · rintro ⟨d, h⟩; cases h
      · rintro ⟨k, -, hk, rfl⟩
        exact absurd ((two_pow_slots k).mpr hk) c2
      · intro d h; cases h
      · exact ⟨fun _ => ⟨c1.2, by omega⟩, fun _ => rfl⟩
      · constructor
        · intro h; cases h
        · rintro (h | h | h | ⟨h, -⟩) <;> omega
  · rw [if_neg c1]
    refine ⟨⟨?_, ?_⟩, ?_, ?_, ?_⟩
    · rintro ⟨d, h⟩; cases h
    · rintro ⟨k, hk, hk59, rfl⟩
      have h1 : 1 ≤ 2 ^ k := Nat.one_le_two_pow
      have h2 : 2 ^ k ≤ 2 ^ 59 := Nat.pow_le_pow_right (by decide) hk59
      exact absurd ⟨h1, by omega⟩ c1
    · intro d h; cases h
    · constructor
      · intro h; cases h
      · rintro ⟨h1, h2⟩
        exfalso
        apply c1
        constructor <;> omega
    · refine ⟨fun _ => ?_, fun _ => rfl⟩
      by_cases h0 : C = 0
      · exact Or.inl h0
      · exact Or.inr (Or.inr (Or.inl (by omega)))

/-- C12 as stated fails. `1 = 2 ^ 0` is a power of two and `DynamicRingBuffer(1)`
aborts, on `threshold_base > 0`; `DynamicRingBuffer(2 ^ 63)` aborts too, on the inner
buffer's `capacity < SIZE_MAX / 2`; `DynamicRingBuffer(2 ^ 60)` is not constructed
either: its `2 ^ 60 + 1` slots are above `max_size()` and the vector throws; and
`2 ^ 60 + 2` is no power of two, yet the construction ends by that exception, not on
an assertion. -/
theorem capacity_precondition_counterexample :
    (1 : Nat) = 2 ^ 0 ∧ (new 1 : Option (Exit (DynamicRingBuffer Nat))) = none ∧
    (new (2 ^ 63) : Option (Exit (DynamicRingBuffer Nat))) = none ∧
    (new (2 ^ 60) : Option (Exit (DynamicRingBuffer Nat))) = some .length_error ∧
    (¬ ∃ k, 2 ^ 60 + 2 = 2 ^ k) ∧
    (new (2 ^ 60 + 2) : Option (Exit (DynamicRingBuffer Nat))) = some .length_error := by
  refine ⟨rfl, rfl, rfl, ?_, ?_, ?_⟩
  · rw [dyn_new_eq]; rfl
  · rintro ⟨k, hk⟩
    rcases Nat.lt_or_ge k 61 with h | h
    · have : 2 ^ k ≤ 2 ^ 60 := Nat.pow_le_pow_right (by decide) (by omega)
      omega
    · have : 2 ^ 61 ≤ 2 ^ k := Nat.pow_le_pow_right (by decide) h
      omega
  · rw [dyn_new_eq]; rfl

/-- C12 as amended, at `C = 16`. -/
theorem capacity_precondition_witness :
    ((∃ d : DynamicRingBuffer Nat, new 16 = some (.returned d)) ↔
      ∃ k, 1 ≤ k ∧ k ≤ 59 ∧ 16 = 2 ^ k) ∧
    (∀ d : DynamicRingBuffer Nat, new 16 = some (.returned d) →
      d = ⟨1, 0, none, 16 / 2, 0, ⟨List.replicate (16 + 1) none, 0, 0⟩⟩) ∧
    ((new 16 : Option (Exit (DynamicRingBuffer Nat))) = some .length_error ↔
      16 < SIZE_MAX / 2 ∧ max_size (Option (Batch Nat)) < 16 + 1) ∧
    ((new 16 : Option (Exit (DynamicRingBuffer Nat))) = none ↔
      16 = 0 ∨ 16 = 1 ∨ SIZE_MAX / 2 ≤ 16 ∨
        (16 + 1 ≤ max_size (Option (Batch Nat)) ∧ ¬ ∃ k, 16 = 2 ^ k)) :=
  capacity_precondition 16

/-- C13. In every reachable state, with the inner buffer's writable capacity
`room`: `drain_writes` returns true and changes nothing when no batch is on hold;
returns false and changes nothing when a batch is on hold and the writable capacity
is 0; otherwise returns true, the batch on hold becomes the newest entry of the inner
buffer, `onhold` is absent and nothing else changes. So it returns true exactly when
no batch is on hold afterwards. -/
theorem drain_writes_contract {C : Nat} {d : DynamicRingBuffer α} (hr : Reachable C d) :
    d.buffer.writable_capacity = some d.room ∧
    (d.onhold = none → d.drain_writes = some (true, d)) ∧
    (∀ b, d.onhold = some b → d.room = 0 → d.drain_writes = some (false, d)) ∧
    (∀ b, d.onhold = some b → d.room ≠ 0 →
      ∃ buffer, d.drain_writes = some (true, { d with onhold := none, buffer := buffer }) ∧
        unread buffer = unread d.buffer ++ [some b]) ∧
    (∃ r d1, d.drain_writes = some (r, d1) ∧ (r = true ↔ d1.onhold = none)) := by
  have hwf := hr.dyn_wf
  have hcap : d.buffer.writable_capacity = some d.room := by
    rw [writable_capacity_eq hwf.inner, room_eq hwf.inner]
  have h1 : d.onhold = none → d.drain_writes = some (true, d) := by
    intro h
    simp [drain_writes, h]
  have h2 : ∀ b, d.onhold = some b → d.room = 0 → d.drain_writes = some (false, d) := by
    intro b h hz
    simp [drain_writes, h, hcap, hz]
  have h3 : ∀ b, d.onhold = some b → d.room ≠ 0 →
      ∃ buffer, d.drain_writes = some (true, { d with onhold := none, buffer := buffer }) ∧
        unread buffer = unread d.buffer ++ [some b] := by
    intro b h hz
    have hlt : (unread d.buffer).length < C := by
      rw [room_eq hwf.inner] at hz
      omega
    obtain ⟨buffer, e1, -, e3⟩ := submit_spec hwf.inner (Or.inr hlt)
    refine ⟨buffer, ?_, ?_⟩
    · simp [drain_writes, h, hcap, hz, e1]
    · rw [e3, h]; rfl
  refine ⟨hcap, h1, h2, h3, ?_⟩
  cases ho : d.onhold with
  | none => exact ⟨true, d, h1 ho, by simp [ho]⟩
  | some b =>
    by_cases hz : d.room = 0
    · exact ⟨false, d, h2 b ho hz, by simp [ho]⟩
    · obtain ⟨buffer, e, -⟩ := h3 b ho hz
      exact ⟨true, _, e, by simp⟩

theorem slots_eq_map_some (l : List (Option (Batch α))) (h : ∀ p ∈ l, p ≠ none) :
    ∃ batches : List (Batch α), l = batches.map some ∧
      (l.map slot_data).flatten = (batches.map Batch.data).flatten := by
  induction l with
  | nil => exact ⟨[], rfl, rfl⟩
  | cons p l ih =>
    obtain ⟨bs, h1, h2⟩ := ih fun q hq => h q (List.mem_cons_of_mem _ hq)
    cases p with
    | none => exact absurd rfl (h none (List.mem_cons_self _ _))
    | some b =>
      refine ⟨b :: bs, by rw [h1]; rfl, ?_⟩
      simp only [List.map_cons, List.flatten_cons, h2]
      rfl

/-- C13, evaluated at capacity 4 after `write 1, write 2, write 3`: a batch holding
`3` is on hold and two slots are free. -/
theorem drain_writes_contract_witness :
    held.buffer.writable_capacity = some held.room ∧
    (held.onhold = none → held.drain_writes = some (true, held)) ∧
    (∀ b, held.onhold = some b → held.room = 0 → held.drain_writes = some (false, held)) ∧
    (∀ b, held.onhold = some b → held.room ≠ 0 →
      ∃ buffer,
        held.drain_writes = some (true, { held with onhold := none, buffer := buffer }) ∧
        unread buffer = unread held.buffer ++ [some b]) ∧
    (∃ r d1, held.drain_writes = some (r, d1) ∧ (r = true ↔ d1.onhold = none)) :=
  drain_writes_contract (C := 4)
    (Reachable.of_session [.write 1, .write 2, .write 3]
      (s := ⟨⟨1, 0, none, 2, 0, ⟨[none, none, none, none, none], 0, 0⟩⟩, [], []⟩)
      (t := ⟨held, [1, 2, 3], []⟩) (Reachable.init (by rfl)) (by rfl))

/-- C14. In every reachable state the unread slots of the inner buffer are
batches, and `read_all` returns the concatenation of their contents, batches in
submission order and elements in append order; afterwards the inner buffer is empty
(`read_index = write_index`) and `onhold` (with its elements), `threshold`,
`batch_size`, the two bases and `write_index` are as before. -/
theorem read_all_flattens {C : Nat} {d : DynamicRingBuffer α} (hr : Reachable C d) :
    ∃ (batches : List (Batch α)) (d1 : DynamicRingBuffer α),
      unread d.buffer = batches.map some ∧
      d.read_all = some ((batches.map Batch.data).flatten, d1) ∧
      unread d1.buffer = [] ∧ d1.buffer.read_index = d1.buffer.write_index ∧
      d1.onhold = d.onhold ∧ d1.threshold = d.threshold ∧ d1.batch_size = d.batch_size ∧
      d1.threshold_base = d.threshold_base ∧ d1.batch_size_base = d.batch_size_base ∧
      d1.buffer.write_index = d.buffer.write_index := by
  have hwf := hr.dyn_wf
  obtain ⟨batches, hb1, hb2⟩ := slots_eq_map_some (unread d.buffer) hwf.good.slots
  obtain ⟨b1, h1, h2, h3, h4, -⟩ := SPSCRingBuffer.read_all_spec hwf.inner
  obtain ⟨d1, e1, -, -⟩ := dyn_read_all_spec hwf
  have hd1 : d.read_all = some (inner_data d, { d with buffer := b1 }) := by
    have hf := flatten_batches_eq (unread d.buffer) hwf.good.slots []
    unfold read_all
    simp only [h1, Option.bind_eq_bind, Option.some_bind, Option.pure_def, hf,
      List.nil_append]
    rfl
  refine ⟨batches, { d with buffer := b1 }, hb1, ?_, h4, ?_, rfl, rfl, rfl, rfl, rfl, ?_⟩
  · rw [hd1, ← hb2]; rfl
  · rw [h3]
  · rw [h3]

/-- C14, evaluated at capacity 4 after `write 1, write 2, write 3`: the two submitted
batches are read, the batch on hold stays. -/
theorem read_all_flattens_witness :
    ∃ (batches : List (Batch Nat)) (d1 : DynamicRingBuffer Nat),
      unread held.buffer = batches.map some ∧
      held.read_all = some ((batches.map Batch.data).flatten, d1) ∧
      unread d1.buffer = [] ∧ d1.buffer.read_index = d1.buffer.write_index ∧
      d1.onhold = held.onhold ∧ d1.threshold = held.threshold ∧
      d1.batch_size = held.batch_size ∧ d1.threshold_base = held.threshold_base ∧
      d1.batch_size_base = held.batch_size_base ∧
      d1.buffer.write_index = held.buffer.write_index :=
  read_all_flattens (C := 4)
    (Reachable.of_session [.write 1, .write 2, .write 3]
      (s := ⟨⟨1, 0, none, 2, 0, ⟨[none, none, none, none, none], 0, 0⟩⟩, [], []⟩)
      (t := ⟨held, [1, 2, 3], []⟩) (Reachable.init (by rfl)) (by rfl))

end DynamicRingBuffer

/-! ## Lemmas on `SimpleSerialTaskQueue` -/

namespace SimpleSerialTaskQueue

variable {τ σ : Type}

theorem filterMap_map_some (P : List τ) : List.filterMap id (P.map some) = P := by
  induction P with
  | nil => rfl
  | cons a P ih => simp [List.filterMap_cons, ih]

theorem pending_of_queue {q : SimpleSerialTaskQueue τ} (w : Worker τ) (P : List τ)
    (h : q.queue = w.husk ++ P.map some) : pending q = P := by
  unfold pending
  rw [h, List.filterMap_append, filterMap_map_some]
  cases w <;> simp [Worker.husk]

theorem System.init_inv (exec : τ → σ → σ) (w0 : σ) :
    System.Inv exec w0 (System.init w0 : System τ σ) := by
  constructor <;> simp [System.init, new, Worker.husk, Worker.hand, pending]

/-- The invariant, from a list `P` of the stored tasks. -/
theorem System.Inv.of_pending {exec : τ → σ → σ} {w0 : σ} {s : System τ σ} (P : List τ)
    (queue : s.q.queue = s.worker.husk ++ P.map some)
    (held : s.worker ≠ .running none)
    (dispatched : s.dispatched = s.started ++ P)
    (started : s.started = s.finished ++ s.worker.hand)
    (world : s.world = s.finished.foldl (fun w f => exec f w) w0)
    (ready : s.owner = .ready → s.q.destroyed = false ∧ s.q.waiting = false)
    (in_wait : s.owner = .in_wait → s.q.destroyed = false ∧ s.q.waiting = true)
    (joining : s.owner = .joining → s.q.destroyed = true)
    (gone : s.owner = .gone → s.q.destroyed = true ∧ s.worker = .exited)
    (exited : s.worker = .exited → s.q.destroyed = true) : System.Inv exec w0 s := by
  have hp := pending_of_queue s.worker P queue
  exact ⟨by rw [hp]; exact queue, held, by rw [hp]; exact dispatched, started, world, ready,
    in_wait, joining, gone, exited⟩

theorem System.step_inv {exec : τ → σ → σ} {w0 : σ} {s t : System τ σ} {a : Step τ}
    (hi : System.Inv exec w0 s) (h : s.step exec a = some t) : System.Inv exec w0 t := by
  obtain ⟨hq, hheld, hd, hs, hw, hready, hwait, hjoin, hgone, hexit⟩ := hi
  obtain ⟨⟨queue, destroyed, waiting⟩, owner, worker, world, dispatched, started, finished⟩ := s
  generalize hP : pending (⟨queue, destroyed, waiting⟩ : SimpleSerialTaskQueue τ) = P at hq hd
  simp only at hq hheld hd hs hw hready hwait hjoin hgone hexit
  cases a with
  | dispatch f =>
    cases owner <;> simp only [System.step] at h <;> try cases h
    obtain ⟨rfl, rfl⟩ := hready rfl
    simp only [dispatch, assert, if_true, Option.bind_eq_bind, Option.some_bind,
      Option.pure_def, Option.some.injEq] at h
    subst h
    exact .of_pending (P ++ [f]) (by simp [hq]) hheld (by simp [hd]) hs hw (by simp)
      (by simp) (by simp) (by simp) hexit
  | wait =>
    cases owner <;> simp only [System.step] at h <;> try cases h
    obtain ⟨rfl, rfl⟩ := hready rfl
    by_cases hp : (wait_begin (⟨queue, false, false⟩ : SimpleSerialTaskQueue τ)).wait_pred = true
    · rw [if_pos hp] at h
      cases h
      exact .of_pending P hq hheld hd hs hw (by simp [wait_end, wait_begin]) (by simp)
        (by simp) (by simp) hexit
    · rw [if_neg hp] at h
      cases h
      exact .of_pending P hq hheld hd hs hw (by simp) (by simp [wait_begin])
        (by simp) (by simp) hexit
  | wait_wake =>
    cases owner <;> simp only [System.step] at h <;> try cases h
    obtain ⟨rfl, rfl⟩ := hwait rfl
    by_cases hp : (⟨queue, false, true⟩ : SimpleSerialTaskQueue τ).wait_pred = true
    · rw [if_pos hp] at h
      cases h
      exact .of_pending P hq hheld hd hs hw (by simp [wait_end]) (by simp)
        (by simp) (by simp) hexit
    · rw [if_neg hp] at h
      cases h
  | destroy =>
    cases owner <;> simp only [System.step] at h <;> try cases h
    obtain ⟨rfl, rfl⟩ := hready rfl
    simp only [destroy, assert, if_true, Option.bind_eq_bind, Option.some_bind,
      Option.pure_def, Option.some.injEq] at h
    subst h
    exact .of_pending P hq hheld hd hs hw (by simp) (by simp) (by simp) (by simp)
      (by simp)
  | join =>
    cases owner <;> cases worker <;> simp only [System.step] at h <;> try cases h
    exact .of_pending P hq hheld hd hs hw (by simp) (by simp) (by simp)
      (by simpa using hjoin) hexit
  | wake =>
    cases worker <;> simp only [System.step] at h <;> try cases h
    by_cases hp : (⟨queue, destroyed, waiting⟩ : SimpleSerialTaskQueue τ).work_pred = true
    · rw [if_pos hp] at h
      cases destroyed with
      | true =>
        simp only [if_true, Option.pure_def, Option.some.injEq] at h
        subst h
        exact .of_pending P hq (by simp) hd (by simpa [Worker.hand] using hs) hw hready hwait
          hjoin (by simp) (by simp)
      | false =>
        simp only [Bool.false_eq_true, if_false, work_take, Option.bind_eq_bind,
          Option.pure_def] at h
        simp only [Worker.husk, List.nil_append] at hq
        simp only [Worker.hand, List.append_nil] at hs
        cases P with
        | nil =>
          subst hq
          simp [work_pred] at hp
        | cons f P =>
          subst hq
          simp only [List.map_cons, Option.some_bind, Option.some.injEq] at h
          subst h
          refine .of_pending P (by simp [Worker.husk]) (by simp) ?_ ?_ hw hready hwait
            hjoin ?_ (by simp)
          · simp [hd]
          · simp [Worker.hand, hs]
          · intro ho
            have := (hgone ho).2
            cases this
    · rw [if_neg hp] at h
      cases h
  | run =>
    cases worker <;> simp only [System.step] at h <;> try cases h
    rename_i task
    cases task with
    | none => exact absurd rfl hheld
    | some f =>
      simp only [call, Option.bind_eq_bind, Option.some_bind, Option.pure_def,
        Option.some.injEq] at h
      subst h
      refine .of_pending P (by simpa [Worker.husk] using hq) (by simp) ?_ ?_ ?_ hready hwait
        hjoin ?_ (by simp)
      · simp only [hd]
      · simpa [Worker.hand] using hs
      · simp [hw, List.foldl_append]
      · intro ho
        have := (hgone ho).2
        cases this
  | pop =>
    cases worker <;> simp only [System.step] at h <;> try cases h
    simp only [Worker.husk, List.singleton_append] at hq
    subst hq
    simp only [work_pop, Option.bind_eq_bind, Option.some_bind, Option.pure_def,
      Option.some.injEq] at h
    subst h
    refine .of_pending P (by simp [Worker.husk]) (by simp) hd (by simpa [Worker.hand] using hs)
      hw hready hwait hjoin ?_ (by simp)
    intro ho
    have := (hgone ho).2
    cases this
  | notify =>
    cases worker <;> simp only [System.step] at h <;> try cases h
    refine .of_pending P (by simpa [Worker.husk] using hq) (by simp) hd
      (by simpa [Worker.hand] using hs) hw hready hwait hjoin ?_ (by simp)
    intro ho
    have := (hgone ho).2
    cases this

theorem System.serial_run_inv {exec : τ → σ → σ} {w0 : σ} (as : List (Step τ)) :
    ∀ {s t : System τ σ}, System.Inv exec w0 s → s.run exec as = some t →
      System.Inv exec w0 t := by
  induction as with
  | nil => intro s t hi h; cases h; exact hi
  | cons a as ih =>
    intro s t hi h
    simp only [System.run] at h
    cases h1 : s.step exec a with
    | none => rw [h1] at h; cases h
    | some s1 =>
      rw [h1] at h
      exact ih (System.step_inv hi h1) h

theorem System.Inv.empty {exec : τ → σ → σ} {w0 : σ} {s : System τ σ}
    (hi : System.Inv exec w0 s) (h : s.q.queue = []) :
    pending s.q = [] ∧ s.worker.busy = false ∧ s.finished = s.dispatched := by
  have hq := hi.queue
  rw [h] at hq
  have hp : pending s.q = [] := by simp [pending, h]
  have hs := hi.started
  have hd := hi.dispatched
  rw [hp, List.append_nil] at hd
  cases hw : s.worker <;> rw [hw] at hq hs <;>
    simp [Worker.husk, Worker.hand, Worker.busy, hp] at hq hs ⊢ <;> rw [hd, hs]

/-- What one step does to the record of the run and to `destroyed`. -/
theorem System.step_record {exec : τ → σ → σ} {s t : System τ σ} {a : Step τ}
    (h : s.step exec a = some t) :
    (t.dispatched = s.dispatched ∨ ∃ f, a = .dispatch f ∧ t.dispatched = s.dispatched ++ [f]) ∧
    (t.started = s.started ∨
      ∃ f, a = .wake ∧ s.q.destroyed = false ∧ t.worker = .running (some f) ∧
        s.worker = .idle ∧ t.started = s.started ++ [f]) ∧
    (t.finished = s.finished ∨
      ∃ f, a = .run ∧ s.worker = .running (some f) ∧ t.finished = s.finished ++ [f]) ∧
    (s.q.destroyed = true → t.q.destroyed = true) := by
  obtain ⟨⟨queue, destroyed, waiting⟩, owner, worker, world, dispatched, started, finished⟩ := s
  cases a with
  | dispatch f =>
    cases owner <;> simp only [System.step] at h <;> try cases h
    simp only [dispatch, assert, Option.bind_eq_bind, Option.pure_def] at h
    split_ifs at h <;> simp at h
    subst h
    simp_all
  | wait =>
    cases owner <;> simp only [System.step] at h <;> try cases h
    split_ifs at h <;> cases h <;> simp [wait_begin, wait_end]
  | wait_wake =>
    cases owner <;> simp only [System.step] at h <;> try cases h
    split_ifs at h
    cases h
    simp [wait_end]
  | destroy =>
    cases owner <;> simp only [System.step] at h <;> try cases h
    simp only [destroy, assert, Option.bind_eq_bind, Option.pure_def] at h
    split_ifs at h <;> simp at h
    subst h
    simp
  | join =>
    cases owner <;> cases worker <;> simp only [System.step] at h <;> try cases h
    simp
  | wake =>
    cases worker <;> simp only [System.step] at h <;> try cases h
    split_ifs at h
    · cases h; simp
    · simp only [work_take, Option.bind_eq_bind, Option.pure_def] at h
      cases queue with
      | nil => simp at h
      | cons e rest =>
        simp only [Option.some_bind, Option.some.injEq] at h
        subst h
        cases e with
        | none => simp
        | some f => simp_all
  | run =>
    cases worker <;> simp only [System.step] at h <;> try cases h
    rename_i task
    cases task with
    | none => simp [call] at h
    | some f =>
      simp only [call, Option.bind_eq_bind, Option.some_bind, Option.pure_def,
        Option.some.injEq] at h
      subst h
      simp
  | pop =>
    cases worker <;> simp only [System.step] at h <;> try cases h
    simp only [work_pop, Option.bind_eq_bind, Option.pure_def] at h
    cases queue with
    | nil => simp at h
    | cons e rest =>
      simp only [Option.some_bind, Option.some.injEq] at h
      subst h
      simp
  | notify =>
    cases worker <;> simp only [System.step] at h <;> try cases h
    simp

theorem System.step_mono {exec : τ → σ → σ} {s t : System τ σ} {a : Step τ}
    (h : s.step exec a = some t) :
    s.finished <+: t.finished ∧ s.dispatched <+: t.dispatched ∧ s.started <+: t.started := by
  obtain ⟨h1, h2, h3, -⟩ := System.step_record h
  refine ⟨?_, ?_, ?_⟩
  · rcases h3 with e | ⟨f, -, -, e⟩ <;> rw [e]
    · exact List.prefix_append _ _
  · rcases h1 with e | ⟨f, -, e⟩ <;> rw [e]
    · exact List.prefix_append _ _
  · rcases h2 with e | ⟨f, -, -, -, -, e⟩ <;> rw [e]
    · exact List.prefix_append _ _

theorem System.run_mono {exec : τ → σ → σ} (as : List (Step τ)) :
    ∀ {s t : System τ σ}, s.run exec as = some t →
      s.finished <+: t.finished ∧ s.dispatched <+: t.dispatched ∧ s.started <+: t.started := by
  induction as with
  | nil => intro s t h; cases h; exact ⟨List.prefix_rfl, List.prefix_rfl, List.prefix_rfl⟩
  | cons a as ih =>
    intro s t h
    simp only [System.run] at h
    cases h1 : s.step exec a with
    | none => rw [h1] at h; cases h
    | some s1 =>
      rw [h1] at h
      obtain ⟨a1, a2, a3⟩ := System.step_mono h1
      obtain ⟨b1, b2, b3⟩ := ih h
      exact ⟨a1.trans b1, a2.trans b2, a3.trans b3⟩

theorem System.reach_inv {exec : τ → σ → σ} {w0 : σ} {steps : List (Step τ)}
    {s : System τ σ} (h : (System.init w0).run exec steps = some s) : System.Inv exec w0 s :=
  System.serial_run_inv steps (System.init_inv exec w0) h

/-- What the owner's `wait` step and a step taken while the owner is blocked in
`wait()` do. -/
theorem System.step_wait {exec : τ → σ → σ} {s t : System τ σ} {a : Step τ}
    (h : s.step exec a = some t) :
    (a = .wait → (t.owner = .ready ∧ s.q.queue = []) ∨ (t.owner = .in_wait ∧ s.q.queue ≠ [])) ∧
    (a = .wait_wake → s.q.queue = [] ∧ s.owner = .in_wait) ∧
    (s.owner = .in_wait → a ≠ .wait_wake → t.owner = .in_wait) ∧
    (s.owner = .in_wait → ∀ f, a ≠ .dispatch f) := by
  obtain ⟨⟨queue, destroyed, waiting⟩, owner, worker, world, dispatched, started, finished⟩ := s
  cases a with
  | dispatch f =>
    cases owner <;> simp only [System.step] at h <;> try cases h
    simp
  | wait =>
    cases owner <;> simp only [System.step] at h <;> try cases h
    split_ifs at h with hp <;> cases h <;>
      simpa [wait_begin, wait_pred, List.isEmpty_iff] using hp
  | wait_wake =>
    cases owner <;> simp only [System.step] at h <;> try cases h
    split_ifs at h with hp
    cases h
    simpa [wait_pred, List.isEmpty_iff] using hp
  | destroy =>
    cases owner <;> simp only [System.step] at h <;> try cases h
    simp
  | join =>
    cases owner <;> cases worker <;> simp only [System.step] at h <;> try cases h
    simp
  | wake =>
    cases worker <;> simp only [System.step] at h <;> try cases h
    split_ifs at h
    · cases h; simp
    · simp only [work_take, Option.bind_eq_bind, Option.pure_def] at h
      cases queue with
      | nil => simp at h
      | cons e rest =>
        simp only [Option.some_bind, Option.some.injEq] at h
        subst h
        simp
  | run =>
    cases worker <;> simp only [System.step] at h <;> try cases h
    rename_i task
    cases task with
    | none => simp [call] at h
    | some f =>
      simp only [call, Option.bind_eq_bind, Option.some_bind, Option.pure_def,
        Option.some.injEq] at h
      subst h
      simp
  | pop =>
    cases worker <;> simp only [System.step] at h <;> try cases h
    simp only [work_pop, Option.bind_eq_bind, Option.pure_def] at h
    cases queue with
    | nil => simp at h
    | cons e rest =>
      simp only [Option.some_bind, Option.some.injEq] at h
      subst h
      simp
  | notify =>
    cases worker <;> simp only [System.step] at h <;> try cases h
    simp

/-- Once the owner is no longer blocked in `wait()`, every task dispatched before is
finished. -/
theorem System.run_in_wait {exec : τ → σ → σ} {w0 : σ} (post : List (Step τ)) :
    ∀ {s t : System τ σ}, System.Inv exec w0 s → s.owner = .in_wait →
      s.run exec post = some t → t.owner ≠ .in_wait → s.dispatched <+: t.finished := by
  induction post with
  | nil => intro s t _ ho h hne; cases h; exact absurd ho hne
  | cons a as ih =>
    intro s t hi ho h hne
    simp only [System.run] at h
    cases h1 : s.step exec a with
    | none => rw [h1] at h; cases h
    | some s1 =>
      rw [h1] at h
      have hi1 := System.step_inv hi h1
      obtain ⟨-, w2, w3, -⟩ := System.step_wait h1
      by_cases ha : a = .wait_wake
      · obtain ⟨hq, -⟩ := w2 ha
        obtain ⟨-, -, hfin⟩ := hi.empty hq
        rw [← hfin]
        exact (System.step_mono h1).1.trans (System.run_mono as h).1
      · exact (System.step_mono h1).2.1.trans (ih hi1 (w3 ho ha) h hne)


/-- After `destroyed` is set no task is started or dispatched, and the stored tasks
stay in the queue. -/
theorem System.step_destroyed {exec : τ → σ → σ} {w0 : σ} {s t : System τ σ} {a : Step τ}
    (hi : System.Inv exec w0 s) (hd : s.q.destroyed = true) (h : s.step exec a = some t) :
    t.q.destroyed = true ∧ t.started = s.started ∧ t.dispatched = s.dispatched ∧
      pending t.q = pending s.q := by
  obtain ⟨h1, h2, -, h4⟩ := System.step_record h
  have hit := System.step_inv hi h
  have e2 : t.started = s.started := by
    rcases h2 with e | ⟨f, -, hf, -⟩
    · exact e
    · rw [hd] at hf; cases hf
  have e1 : t.dispatched = s.dispatched := by
    rcases h1 with e | ⟨f, rfl, -⟩
    · exact e
    · have ho : s.owner ≠ .ready := fun ho => by
        have := (hi.ready ho).1
        rw [hd] at this
        cases this
      cases hs : s.owner <;> simp only [System.step, hs] at h <;> first | cases h | exact absurd hs ho
  refine ⟨h4 hd, e2, e1, ?_⟩
  have := hit.dispatched
  rw [e1, e2, hi.dispatched] at this
  exact (List.append_cancel_left this).symm

theorem System.run_destroyed {exec : τ → σ → σ} {w0 : σ} (post : List (Step τ)) :
    ∀ {s t : System τ σ}, System.Inv exec w0 s → s.q.destroyed = true →
      s.run exec post = some t →
      t.q.destroyed = true ∧ t.started = s.started ∧ t.dispatched = s.dispatched ∧
        pending t.q = pending s.q := by
  induction post with
  | nil => intro s t _ hd h; cases h; exact ⟨hd, rfl, rfl, rfl⟩
  | cons a as ih =>
    intro s t hi hd h
    simp only [System.run] at h
    cases h1 : s.step exec a with
    | none => rw [h1] at h; cases h
    | some s1 =>
      rw [h1] at h
      obtain ⟨a1, a2, a3, a4⟩ := System.step_destroyed hi hd h1
      obtain ⟨b1, b2, b3, b4⟩ := ih (System.step_inv hi h1) a1 h
      exact ⟨b1, b2.trans a2, b3.trans a3, b4.trans a4⟩

/-! ## The claims on `SimpleSerialTaskQueue` -/

/-- C15. `SimpleSerialTaskQueue` runs tasks in dispatch order, one at a time. In every
state of every execution: the tasks the worker has started are an initial segment of
the tasks dispatched (the `i`-th started is the `i`-th dispatched); every started task
has finished, except possibly the last, which the worker is then running; a `wake`
step that starts a task happens only when every started task has finished, and it
starts the next dispatched task; `world` is the initial memory with the finished
tasks applied in that order; when the queue is empty these are all the dispatched
tasks. In the test, `number` starts at 0 and is 9 once the queue is empty after
`+1, +3, +5`. -/
theorem serial_dispatch_order (exec : τ → σ → σ) (w0 : σ) (steps : List (Step τ))
    (s : System τ σ) (h : (System.init w0).run exec steps = some s) :
    s.started <+: s.dispatched ∧
    (∀ (i : Nat) (f : τ), s.started[i]? = some f → s.dispatched[i]? = some f) ∧
    (s.started = s.finished ∨
      ∃ f, s.worker = .running (some f) ∧ s.started = s.finished ++ [f]) ∧
    (∀ t, s.step exec .wake = some t → t.started ≠ s.started →
      s.started = s.finished ∧
      ∃ f, s.dispatched[s.started.length]? = some f ∧ t.started = s.started ++ [f] ∧
        t.worker = .running (some f)) ∧
    s.world = s.finished.foldl (fun w f => exec f w) w0 ∧
    (s.q.queue = [] → s.world = s.dispatched.foldl (fun w f => exec f w) w0) ∧
    (∀ (as : List (Step Int)) (t : System Int Int),
      (System.init 0).run (fun f number => number + f) as = some t →
      t.dispatched = [1, 3, 5] → t.q.queue = [] → t.world = 9) := by
  have hi := System.reach_inv h
  have hpre : s.started <+: s.dispatched := by
    rw [hi.dispatched]; exact List.prefix_append _ _
  refine ⟨hpre, ?_, ?_, ?_, hi.world, ?_, ?_⟩
  · intro i f hf
    obtain ⟨r, hr⟩ := hpre
    rw [← hr]
    have hlt : i < s.started.length := by
      by_contra hge
      rw [List.getElem?_eq_none (by omega)] at hf
      cases hf
    rw [List.getElem?_append_left hlt]
    exact hf
  · have hs := hi.started
    cases hw : s.worker with
    | running task =>
      cases task with
      | none => exact absurd hw hi.held
      | some f => exact Or.inr ⟨f, rfl, by simpa [hw, Worker.hand] using hs⟩
    | idle => exact Or.inl (by simpa [hw, Worker.hand] using hs)
    | ran => exact Or.inl (by simpa [hw, Worker.hand] using hs)
    | notifying b => exact Or.inl (by simpa [hw, Worker.hand] using hs)
    | exited => exact Or.inl (by simpa [hw, Worker.hand] using hs)
  · intro t ht hne
    obtain ⟨h1, h2, -, -⟩ := System.step_record ht
    rcases h2 with e | ⟨f, -, -, hw, hidle, e⟩
    · exact absurd e hne
    · have hs := hi.started
      rw [hidle] at hs
      simp only [Worker.hand, List.append_nil] at hs
      refine ⟨hs, f, ?_, e, hw⟩
      have hd := (System.step_inv hi ht).dispatched
      have hsame : t.dispatched = s.dispatched := by
        rcases h1 with e1 | ⟨g, hg, -⟩
        · exact e1
        · cases hg
      rw [hsame, e, List.append_assoc] at hd
      rw [hd, List.getElem?_append_right (le_refl _)]
      simp
  · intro hq
    rw [hi.world, (hi.empty hq).2.2]
  · intro as t ht hd hq
    have hit := System.reach_inv ht
    rw [hit.world, (hit.empty hq).2.2, hd]
    rfl

/-- C16. `wait()` is a barrier. In every state of every execution: while the worker
runs a task, the front entry of the queue is the entry that the task was moved out
of, and the entries behind it hold the tasks dispatched after it; the queue is not
empty while the worker is between taking a task and popping its entry; the queue is
empty exactly when no task is pending and the worker is not between those two points
(a task counts as running until its entry is popped); when the queue is empty every
dispatched task has finished; `wait()` returns, at once or after blocking, only in a
state where the queue is empty; and in every later state in which the owner is not
blocked in that `wait()`, every task dispatched before the call has finished. In the
test, `number` is 25 once the queue is empty after `+1, +3, +5, +7, +9`. -/
theorem wait_barrier (exec : τ → σ → σ) (w0 : σ) (steps : List (Step τ))
    (s : System τ σ) (h : (System.init w0).run exec steps = some s) :
    (∀ f, s.worker = .running (some f) →
      ∃ rest, s.q.queue = none :: rest.map some ∧ s.dispatched = s.finished ++ f :: rest) ∧
    (s.worker.busy = true → s.q.queue ≠ []) ∧
    (s.q.queue = [] ↔ pending s.q = [] ∧ s.worker.busy = false) ∧
    (s.q.queue = [] → s.finished = s.dispatched) ∧
    (∀ t, s.step exec .wait_wake = some t → s.q.queue = [] ∧ t.finished = t.dispatched) ∧
    (∀ t, s.step exec .wait = some t →
      (t.owner = .ready ∧ s.q.queue = [] ∧ t.finished = t.dispatched) ∨
      (t.owner = .in_wait ∧ s.q.queue ≠ [])) ∧
    (∀ post t, s.run exec (.wait :: post) = some t → t.owner ≠ .in_wait →
      s.dispatched <+: t.finished) ∧
    (∀ (as : List (Step Int)) (t : System Int Int),
      (System.init 0).run (fun f number => number + f) as = some t →
      t.dispatched = [1, 3, 5, 7, 9] → t.q.queue = [] → t.world = 25) := by
  have hi := System.reach_inv h
  have hbusy : s.worker.busy = true → s.q.queue ≠ [] := by
    intro hb hq
    have := (hi.empty hq).2.1
    rw [hb] at this
    cases this
  have hwake : ∀ t, s.step exec .wait_wake = some t →
      s.q.queue = [] ∧ t.finished = t.dispatched := by
    intro t ht
    obtain ⟨-, w2, -, -⟩ := System.step_wait ht
    obtain ⟨hq, -⟩ := w2 rfl
    obtain ⟨h1, -, h3, -⟩ := System.step_record ht
    have e1 : t.dispatched = s.dispatched := by
      rcases h1 with e | ⟨f, hf, -⟩
      · exact e
      · cases hf
    have e3 : t.finished = s.finished := by
      rcases h3 with e | ⟨f, hf, -⟩
      · exact e
      · cases hf
    exact ⟨hq, by rw [e1, e3]; exact (hi.empty hq).2.2⟩
  have hwait : ∀ t, s.step exec .wait = some t →
      (t.owner = .ready ∧ s.q.queue = [] ∧ t.finished = t.dispatched) ∨
      (t.owner = .in_wait ∧ s.q.queue ≠ []) := by
    intro t ht
    obtain ⟨w1, -, -, -⟩ := System.step_wait ht
    obtain ⟨h1, -, h3, -⟩ := System.step_record ht
    have e1 : t.dispatched = s.dispatched := by
      rcases h1 with e | ⟨f, hf, -⟩
      · exact e
      · cases hf
    have e3 : t.finished = s.finished := by
      rcases h3 with e | ⟨f, hf, -⟩
      · exact e
      · cases hf
    rcases w1 rfl with ⟨a, b⟩ | c
    · exact Or.inl ⟨a, b, by rw [e1, e3]; exact (hi.empty b).2.2⟩
    · exact Or.inr c
  refine ⟨?_, hbusy, ⟨fun hq => ⟨(hi.empty hq).1, (hi.empty hq).2.1⟩, ?_⟩,
    fun hq => (hi.empty hq).2.2, hwake, hwait, ?_, ?_⟩
  · intro f hw
    refine ⟨pending s.q, by simpa [hw, Worker.husk] using hi.queue, ?_⟩
    have hs := hi.started
    rw [hw] at hs
    simp only [Worker.hand, Option.toList] at hs
    rw [hi.dispatched, hs, List.append_assoc]
    rfl
  · rintro ⟨hp, hb⟩
    have hq := hi.queue
    rw [hp] at hq
    cases hw : s.worker <;> rw [hw] at hq hb <;> simp [Worker.husk, Worker.busy] at hq hb ⊢ <;>
      exact hq
  · intro post t ht hne
    simp only [System.run] at ht
    cases h1 : s.step exec .wait with
    | none => rw [h1] at ht; cases ht
    | some s1 =>
      rw [h1] at ht
      have hi1 := System.step_inv hi h1
      rcases hwait s1 h1 with ⟨-, -, e⟩ | ⟨ho, -⟩
      · have hm := System.step_mono h1
        exact hm.2.1.trans (e ▸ (System.run_mono post ht).1)
      · exact (System.step_mono h1).2.1.trans (System.run_in_wait post hi1 ho ht hne)
  · intro as t ht hd hq
    have hit := System.reach_inv ht
    rw [hit.world, (hit.empty hq).2.2, hd]
    rfl

/-- C15, evaluated on an execution of the test: three dispatches and `wait()`, the
worker interleaved. -/
theorem serial_dispatch_order_witness :
    ∃ s : System Int Int,
      (System.init 0).run (fun f number => number + f)
        [.dispatch 1, .dispatch 3, .wake, .dispatch 5, .wait, .run, .pop, .notify, .wake,
         .run, .pop, .notify, .wake, .run, .pop, .notify, .wait_wake] = some s ∧
      s.started = [1, 3, 5] ∧ s.dispatched = [1, 3, 5] ∧ s.world = 9 ∧
      (s.started <+: s.dispatched ∧
      (∀ (i : Nat) (f : Int), s.started[i]? = some f → s.dispatched[i]? = some f) ∧
      (s.started = s.finished ∨
        ∃ f, s.worker = .running (some f) ∧ s.started = s.finished ++ [f]) ∧
      (∀ t, s.step (fun f number => number + f) .wake = some t → t.started ≠ s.started →
        s.started = s.finished ∧
        ∃ f, s.dispatched[s.started.length]? = some f ∧ t.started = s.started ++ [f] ∧
          t.worker = .running (some f)) ∧
      s.world = s.finished.foldl (fun w f => w + f) 0 ∧
      (s.q.queue = [] → s.world = s.dispatched.foldl (fun w f => w + f) 0) ∧
      (∀ (as : List (Step Int)) (t : System Int Int),
        (System.init 0).run (fun f number => number + f) as = some t →
        t.dispatched = [1, 3, 5] → t.q.queue = [] → t.world = 9)) :=
  ⟨⟨⟨[], false, false⟩, .ready, .idle, 9, [1, 3, 5], [1, 3, 5], [1, 3, 5]⟩, rfl, rfl, rfl, rfl,
    serial_dispatch_order (fun f number => number + f) 0
      [.dispatch 1, .dispatch 3, .wake, .dispatch 5, .wait, .run, .pop, .notify, .wake,
       .run, .pop, .notify, .wake, .run, .pop, .notify, .wait_wake] _ (by rfl)⟩

/-- C16, evaluated while the worker runs the first of two dispatched tasks. -/
theorem wait_barrier_witness :
    ∃ s : System Int Int,
      (System.init 0).run (fun f number => number + f) [.dispatch 1, .dispatch 3, .wake]
        = some s ∧
      s.worker = .running (some 1) ∧ s.q.queue = [none, some 3] ∧
      ((∀ f, s.worker = .running (some f) →
        ∃ rest, s.q.queue = none :: rest.map some ∧ s.dispatched = s.finished ++ f :: rest) ∧
      (s.worker.busy = true → s.q.queue ≠ []) ∧
      (s.q.queue = [] ↔ pending s.q = [] ∧ s.worker.busy = false) ∧
      (s.q.queue = [] → s.finished = s.dispatched) ∧
      (∀ t, s.step (fun f number => number + f) .wait_wake = some t →
        s.q.queue = [] ∧ t.finished = t.dispatched) ∧
      (∀ t, s.step (fun f number => number + f) .wait = some t →
        (t.owner = .ready ∧ s.q.queue = [] ∧ t.finished = t.dispatched) ∨
        (t.owner = .in_wait ∧ s.q.queue ≠ [])) ∧
      (∀ post t, s.run (fun f number => number + f) (.wait :: post) = some t →
        t.owner ≠ .in_wait → s.dispatched <+: t.finished) ∧
      (∀ (as : List (Step Int)) (t : System Int Int),
        (System.init 0).run (fun f number => number + f) as = some t →
        t.dispatched = [1, 3, 5, 7, 9] → t.q.queue = [] → t.world = 25)) :=
  ⟨⟨⟨[none, some 3], false, false⟩, .ready, .running (some 1), 0, [1, 3], [1], []⟩, rfl, rfl,
    rfl, wait_barrier (fun f number => number + f) 0 [.dispatch 1, .dispatch 3, .wake] _
      (by rfl)⟩

end SimpleSerialTaskQueue

/-! ## Lemmas on `TaskQueue` -/

namespace TaskQueue

variable {τ σ : Type}

/-- Replacing the state of worker `i`: the tasks held change by those of that worker. -/
theorem inhand_set (l : List (Worker τ)) :
    ∀ (i : Nat) (w w1 : Worker τ), l[i]? = some w →
      ((l.set i w1).flatMap Worker.hand ++ w.hand).Perm (l.flatMap Worker.hand ++ w1.hand) := by
  induction l with
  | nil => intro i w w1 h; simp at h
  | cons a l ih =>
    intro i w w1 h
    cases i with
    | zero =>
      simp only [List.getElem?_cons_zero, Option.some.injEq] at h
      subst h
      simp only [List.set_cons_zero, List.flatMap_cons]
      -- w1.hand ++ rest ++ a.hand ~ a.hand ++ rest ++ w1.hand
      exact (List.perm_append_comm).trans
        ((List.perm_append_comm.append_left a.hand).trans (by rw [List.append_assoc]))
    | succ i =>
      simp only [List.getElem?_cons_succ] at h
      simp only [List.set_cons_succ, List.flatMap_cons, List.append_assoc]
      exact (ih i w w1 h).append_left a.hand

theorem System.pool_init_inv (exec : τ → σ → σ) (threads : Nat) (w0 : σ) :
    System.Inv exec w0 (System.init threads w0 : System τ σ) := by
  have hin : (System.init threads w0 : System τ σ).inhand = [] := by
    simp only [System.inhand, System.init]
    induction threads with
    | zero => rfl
    | succ n ih => simp [List.replicate_succ, Worker.hand]
  constructor
  · rw [hin]; simp [System.init, new]
  · rfl
  · intro id; simp [System.init]
  · rfl
  · intro id h; simp [System.init] at h
  · simp [System.init, new]
  · intro h; simp [System.init] at h

theorem System.pool_step_inv {exec : τ → σ → σ} {w0 : σ} {s t : System τ σ} {a : Step τ}
    (hi : System.Inv exec w0 s) (h : s.step exec a = some t) : System.Inv exec w0 t := by
  obtain ⟨hperm, hlen, hfut, hworld, hawait, hready, hgone⟩ := hi
  obtain ⟨⟨queue, destroyed⟩, owner, workers, world, futures, dispatched, awaited, executed⟩ := s
  simp only [System.inhand] at hperm
  simp only at hperm hlen hfut hworld hawait hready hgone
  cases a with
  | dispatch f =>
    cases owner <;> simp only [System.step] at h <;> try cases h
    refine ⟨?_, ?_, ?_, hworld, hawait, hready, hgone⟩
    · simp only [System.inhand, dispatch, List.enum_append, List.enumFrom_singleton, hlen]
      rw [← List.append_assoc]
      exact hperm.append_right _
    · simp [hlen]
    · intro id
      simp only
      rw [← hfut id]
      by_cases hid : id < futures.length
      · rw [List.getElem?_append_left hid]
      · have e1 : futures[id]? = none := List.getElem?_eq_none (by omega)
        rw [List.getElem?_append_right (by omega), e1]
        generalize id - futures.length = k
        cases k <;> simp
  | await id =>
    cases owner <;> simp only [System.step] at h <;> try cases h
    split_ifs at h with hf
    cases h
    refine ⟨hperm, hlen, hfut, hworld, ?_, hready, hgone⟩
    intro j hj
    simp only [List.mem_append, List.mem_singleton] at hj
    rcases hj with hj | rfl
    · exact hawait j hj
    · exact (hfut j).mp hf
  | destroy =>
    cases owner <;> simp only [System.step] at h <;> try cases h
    simp only [destroy, assert, Option.bind_eq_bind, Option.pure_def] at h
    split_ifs at h <;> simp at h
    subst h
    exact ⟨hperm, hlen, hfut, hworld, hawait, by simp, by simp⟩
  | join =>
    cases owner <;> simp only [System.step] at h <;> try cases h
    split_ifs at h with hall
    cases h
    refine ⟨hperm, hlen, hfut, hworld, hawait, ?_, ?_⟩
    · have := hready
      simp only [reduceCtorEq, false_iff] at this ⊢
      exact this
    · intro _ w hw
      have := List.all_eq_true.mp hall w hw
      cases w <;> simp [Worker.is_exited] at this ⊢
  | wake i =>
    simp only [System.step] at h
    split at h
    · rename_i hw
      split_ifs at h with hp hd
      · cases h
        refine ⟨?_, hlen, hfut, hworld, hawait, hready, ?_⟩
        · have := inhand_set workers i .idle .exited hw
          simp only [Worker.hand, List.append_nil] at this
          simp only [System.inhand]
          exact ((this.append_left executed).append_right queue).trans hperm
        · intro ho
          have := hgone ho _ (List.mem_iff_getElem?.mpr ⟨i, hw⟩)
          cases this
      · simp only [work_take, Option.bind_eq_bind, Option.pure_def] at h
        cases queue with
        | nil => simp at h
        | cons task rest =>
          simp only [Option.some_bind, Option.some.injEq] at h
          subst h
          refine ⟨?_, hlen, hfut, hworld, hawait, hready, ?_⟩
          · have := inhand_set workers i .idle (.running task) hw
            simp only [Worker.hand, List.append_nil] at this
            simp only [System.inhand]
            refine List.Perm.trans ?_ hperm
            rw [List.append_assoc, List.append_assoc]
            refine List.Perm.append_left executed ?_
            exact (this.append_right rest).trans (by simp)
          · intro ho
            have := hgone ho _ (List.mem_iff_getElem?.mpr ⟨i, hw⟩)
            cases this
    · cases h
  | run i =>
    simp only [System.step] at h
    split at h
    · rename_i task hw
      cases h
      have hp := inhand_set workers i (.running task) .idle hw
      simp only [Worker.hand, List.append_nil] at hp
      have hmem : task ∈ dispatched.enum := by
        refine hperm.subset ?_
        simp only [List.mem_append]
        exact Or.inl (Or.inr (hp.subset (by simp)))
      have hlt : task.1 < futures.length := by
        rw [hlen]; exact List.fst_lt_of_mem_enum hmem
      refine ⟨?_, by simp [hlen], ?_, ?_, ?_, hready, ?_⟩
      · simp only [System.inhand]
        refine List.Perm.trans ?_ hperm
        rw [List.append_assoc, List.append_assoc, List.append_assoc]
        refine List.Perm.append_left executed ?_
        rw [← List.append_assoc]
        refine List.Perm.append_right queue ?_
        exact List.perm_append_comm.trans hp
      · intro id
        simp only [List.map_append, List.map_cons, List.map_nil, List.mem_append,
          List.mem_singleton]
        rw [← hfut id]
        by_cases hid : id = task.1
        · subst hid
          simp [List.getElem?_set_self, hlt]
        · rw [List.getElem?_set_ne (Ne.symm hid)]
          simp [hid]
      · simp [hworld, List.foldl_append]
      · intro id hid
        simp only [List.map_append, List.mem_append]
        exact Or.inl (hawait id hid)
      · intro ho
        have := hgone ho _ (List.mem_iff_getElem?.mpr ⟨i, hw⟩)
        cases this
    · cases h

theorem System.pool_run_inv {exec : τ → σ → σ} {w0 : σ} (as : List (Step τ)) :
    ∀ {s t : System τ σ}, System.Inv exec w0 s → s.run exec as = some t →
      System.Inv exec w0 t := by
  induction as with
  | nil => intro s t hi h; cases h; exact hi
  | cons a as ih =>
    intro s t hi h
    simp only [System.run] at h
    cases h1 : s.step exec a with
    | none => rw [h1] at h; cases h
    | some s1 =>
      rw [h1] at h
      exact ih (System.pool_step_inv hi h1) h

theorem System.pool_reach_inv {exec : τ → σ → σ} {w0 : σ} {threads : Nat} {steps : List (Step τ)}
    {s : System τ σ} (h : (System.init threads w0).run exec steps = some s) :
    System.Inv exec w0 s :=
  System.pool_run_inv steps (System.pool_init_inv exec threads w0) h

theorem System.Inv.nodup {exec : τ → σ → σ} {w0 : σ} {s : System τ σ}
    (hi : System.Inv exec w0 s) :
    ((s.executed ++ s.inhand ++ s.q.queue).map Prod.fst).Nodup := by
  rw [(hi.perm.map Prod.fst).nodup_iff, List.enum_map_fst]
  exact List.nodup_range _

/-- When every future has a result, every dispatched task has been executed and none
is held or queued. -/
theorem System.Inv.complete {exec : τ → σ → σ} {w0 : σ} {s : System τ σ}
    (hi : System.Inv exec w0 s)
    (h : ∀ id, id < s.dispatched.length → id ∈ s.executed.map Prod.fst) :
    s.executed.Perm s.dispatched.enum ∧ s.inhand = [] ∧ s.q.queue = [] := by
  have hnd := hi.nodup
  have hrest : s.inhand ++ s.q.queue = [] := by
    rw [List.eq_nil_iff_forall_not_mem]
    intro task hmem
    have hm : task ∈ s.dispatched.enum :=
      hi.perm.subset (by rw [List.append_assoc]; exact List.mem_append_right _ hmem)
    have hex := h task.1 (List.fst_lt_of_mem_enum hm)
    rw [List.append_assoc, List.map_append] at hnd
    exact (List.nodup_append.mp hnd).2.2 hex (List.mem_map_of_mem _ hmem)
  obtain ⟨h1, h2⟩ := List.append_eq_nil.mp hrest
  refine ⟨?_, h1, h2⟩
  have := hi.perm
  rw [List.append_assoc, hrest, List.append_nil] at this
  exact this

theorem foldl_add_eq (l : List (Nat × Int)) :
    ∀ w0 : Int, l.foldl (fun number task => number + task.2) w0 = w0 + (l.map Prod.snd).sum := by
  induction l with
  | nil => intro w0; simp
  | cons a l ih =>
    intro w0
    simp only [List.foldl_cons, ih, List.map_cons, List.sum_cons]
    omega


theorem System.pool_step_destroyed {exec : τ → σ → σ} {w0 : σ} {s t : System τ σ} {a : Step τ}
    (hi : System.Inv exec w0 s) (hd : s.q.destroyed = true) (h : s.step exec a = some t) :
    t.q.destroyed = true ∧ t.q.queue = s.q.queue ∧ t.dispatched = s.dispatched := by
  have ho : s.owner ≠ .ready := fun ho => by
    have := hi.ready.mp ho
    rw [hd] at this
    cases this
  obtain ⟨⟨queue, destroyed⟩, owner, workers, world, futures, dispatched, awaited, executed⟩ := s
  simp only at hd ho
  subst hd
  cases a with
  | dispatch f =>
    cases owner <;> simp only [System.step] at h <;> first | exact absurd rfl ho | cases h
  | await id =>
    cases owner <;> simp only [System.step] at h <;> first | exact absurd rfl ho | cases h
  | destroy =>
    cases owner <;> simp only [System.step] at h <;> first | exact absurd rfl ho | cases h
  | join =>
    cases owner <;> simp only [System.step] at h <;> try cases h
    split_ifs at h
    cases h
    exact ⟨rfl, rfl, rfl⟩
  | wake i =>
    simp only [System.step] at h
    split at h
    · split_ifs at h
      cases h
      exact ⟨rfl, rfl, rfl⟩
    · cases h
  | run i =>
    simp only [System.step] at h
    split at h
    · cases h
      exact ⟨rfl, rfl, rfl⟩
    · cases h

theorem System.pool_run_destroyed {exec : τ → σ → σ} {w0 : σ} (post : List (Step τ)) :
    ∀ {s t : System τ σ}, System.Inv exec w0 s → s.q.destroyed = true →
      s.run exec post = some t →
      t.q.destroyed = true ∧ t.q.queue = s.q.queue ∧ t.dispatched = s.dispatched := by
  induction post with
  | nil => intro s t _ hd h; cases h; exact ⟨hd, rfl, rfl⟩
  | cons a as ih =>
    intro s t hi hd h
    simp only [System.run] at h
    cases h1 : s.step exec a with
    | none => rw [h1] at h; cases h
    | some s1 =>
      rw [h1] at h
      obtain ⟨a1, a2, a3⟩ := System.pool_step_destroyed hi hd h1
      obtain ⟨b1, b2, b3⟩ := ih (System.pool_step_inv hi h1) a1 h
      exact ⟨b1, b2.trans a2, b3.trans a3⟩

theorem inhand_set_eq (l : List (Worker τ)) :
    ∀ (i : Nat) (w w1 : Worker τ), l[i]? = some w → w.hand = w1.hand →
      (l.set i w1).flatMap Worker.hand = l.flatMap Worker.hand := by
  induction l with
  | nil => intro i w w1 h; simp at h
  | cons a l ih =>
    intro i w w1 h he
    cases i with
    | zero =>
      simp only [List.getElem?_cons_zero, Option.some.injEq] at h
      subst h
      simp only [List.set_cons_zero, List.flatMap_cons, he]
    | succ i =>
      simp only [List.getElem?_cons_succ] at h
      simp only [List.set_cons_succ, List.flatMap_cons, ih i w w1 h he]

theorem inhand_exited (l : List (Worker τ)) (h : ∀ w ∈ l, w = .exited) :
    l.flatMap Worker.hand = [] := by
  induction l with
  | nil => rfl
  | cons a l ih =>
    rw [List.flatMap_cons, ih fun w hw => h w (List.mem_cons_of_mem _ hw),
      h a (List.mem_cons_self _ _)]
    rfl

/-! ## The claims on `TaskQueue` -/

/-- C17. In every state of every execution of a `TaskQueue` with any number of
workers: the executed tasks, the tasks held by workers and the queued tasks together
are a rearrangement of the dispatched tasks, each with the index of its future, and
no index occurs twice; so every dispatched task is in exactly one of these places: it
is taken off the queue by one worker and executed at most once. A future holds a
result exactly when its task is among the executed ones, and `get()` returns only on
such a future; hence when every future has been awaited, the executed tasks are the
dispatched ones, each once, and none is held or queued. In the test, the counter
starts at 0 and is 1 once the seven futures of `+1, -1, +1, -1, +1, -1, +1` are
awaited. -/
theorem task_queue_completeness (exec : τ → σ → σ) (w0 : σ) (threads : Nat)
    (steps : List (Step τ)) (s : System τ σ)
    (h : (System.init threads w0).run exec steps = some s) :
    (s.executed ++ s.inhand ++ s.q.queue).Perm s.dispatched.enum ∧
    ((s.executed ++ s.inhand ++ s.q.queue).map Prod.fst).Nodup ∧
    (∀ id : Nat, s.futures[id]? = some true ↔ id ∈ s.executed.map Prod.fst) ∧
    (∀ id ∈ s.awaited, id ∈ s.executed.map Prod.fst) ∧
    ((∀ id, id < s.dispatched.length → id ∈ s.awaited) →
      s.executed.Perm s.dispatched.enum ∧ s.inhand = [] ∧ s.q.queue = []) ∧
    s.world = s.executed.foldl (fun w task => exec task.2 w) w0 ∧
    (∀ (n : Nat) (as : List (Step Int)) (t : System Int Int),
      (System.init n 0).run (fun f number => number + f) as = some t →
      t.dispatched = [1, -1, 1, -1, 1, -1, 1] →
      (∀ id, id < 7 → id ∈ t.awaited) → t.world = 1) := by
  have hi := System.pool_reach_inv h
  refine ⟨hi.perm, hi.nodup, hi.futures, hi.awaited, ?_, hi.world, ?_⟩
  · intro hall
    exact hi.complete fun id hid => hi.awaited id (hall id hid)
  · intro n as t ht hd hall
    have hit := System.pool_reach_inv ht
    obtain ⟨hp, -, -⟩ := hit.complete fun id hid =>
      hit.awaited id (hall id (by rw [hd] at hid; exact hid))
    rw [hit.world, foldl_add_eq, (hp.map Prod.snd).sum_eq, hd]
    rfl


/-- C17, evaluated on an execution with three workers and three tasks, all awaited
before the destructor. -/
theorem task_queue_completeness_witness :
    ∃ s : System Int Int,
      (System.init 3 0).run (fun f number => number + f)
        [.dispatch 1, .dispatch (-1), .wake 2, .wake 0, .dispatch 1, .run 0, .run 2, .wake 1,
         .await 0, .run 1, .await 2, .await 1, .destroy, .wake 0, .wake 1, .wake 2, .join]
        = some s ∧
      s.executed = [(1, -1), (0, 1), (2, 1)] ∧ s.world = 1 ∧
      ((s.executed ++ s.inhand ++ s.q.queue).Perm s.dispatched.enum ∧
      ((s.executed ++ s.inhand ++ s.q.queue).map Prod.fst).Nodup ∧
      (∀ id : Nat, s.futures[id]? = some true ↔ id ∈ s.executed.map Prod.fst) ∧
      (∀ id ∈ s.awaited, id ∈ s.executed.map Prod.fst) ∧
      ((∀ id, id < s.dispatched.length → id ∈ s.awaited) →
        s.executed.Perm s.dispatched.enum ∧ s.inhand = [] ∧ s.q.queue = []) ∧
      s.world = s.executed.foldl (fun w task => w + task.2) 0 ∧
      (∀ (n : Nat) (as : List (Step Int)) (t : System Int Int),
        (System.init n 0).run (fun f number => number + f) as = some t →
        t.dispatched = [1, -1, 1, -1, 1, -1, 1] →
        (∀ id, id < 7 → id ∈ t.awaited) → t.world = 1)) :=
  ⟨⟨⟨[], true⟩, .gone, [.exited, .exited, .exited], 1, [true, true, true], [1, -1, 1],
      [0, 2, 1], [(1, -1), (0, 1), (2, 1)]⟩, rfl, rfl, rfl,
    task_queue_completeness (fun f number => number + f) 0 3
      [.dispatch 1, .dispatch (-1), .wake 2, .wake 0, .dispatch 1, .run 0, .run 2, .wake 1,
       .await 0, .run 1, .await 2, .await 1, .destroy, .wake 0, .wake 1, .wake 2, .join] _
      (by rfl)⟩

end TaskQueue

/-! ## The claim on both task queues -/

/-- C18. Destruction drops pending tasks. In a state of an execution in which
`destroyed` is set, for `SimpleSerialTaskQueue` and for `TaskQueue`: a worker that
passes its `cv.wait` leaves the loop and starts no task; a task that a worker has
taken is run by its next step; and in every later state `destroyed` is still set, no
further task has been started, the tasks that were in the queue are still there and
are not among the executed ones, the finished tasks are among those taken before, and
once the destructor has returned every task taken before has finished. -/
theorem destruction_drops_pending {τ σ : Type} (exec : τ → σ → σ) (w0 : σ)
    (steps : List (SimpleSerialTaskQueue.Step τ)) (s : SimpleSerialTaskQueue.System τ σ)
    (h : (SimpleSerialTaskQueue.System.init w0).run exec steps = some s)
    (hd : s.q.destroyed = true)
    (threads : Nat) (psteps : List (TaskQueue.Step τ)) (p : TaskQueue.System τ σ)
    (hp : (TaskQueue.System.init threads w0).run exec psteps = some p)
    (hpd : p.q.destroyed = true) :
    ((∀ t, s.step exec .wake = some t → t.worker = .exited ∧ t.started = s.started) ∧
     (∀ f, s.worker = .running (some f) →
        ∃ t, s.step exec .run = some t ∧ t.finished = s.finished ++ [f]) ∧
     (∀ post t, s.run exec post = some t →
        t.q.destroyed = true ∧ t.started = s.started ∧
        SimpleSerialTaskQueue.pending t.q = SimpleSerialTaskQueue.pending s.q ∧
        t.dispatched = s.started ++ SimpleSerialTaskQueue.pending s.q ∧
        t.finished <+: s.started ∧ (t.owner = .gone → t.finished = s.started))) ∧
    ((∀ i t, p.step exec (.wake i) = some t →
        t.workers[i]? = some .exited ∧ t.q.queue = p.q.queue ∧ t.inhand = p.inhand) ∧
     (∀ i task, p.workers[i]? = some (.running task) →
        ∃ t, p.step exec (.run i) = some t ∧ t.executed = p.executed ++ [task]) ∧
     (∀ post t, p.run exec post = some t →
        t.q.destroyed = true ∧ t.q.queue = p.q.queue ∧
        (∀ task ∈ p.q.queue, task ∉ t.executed) ∧
        (t.executed ++ t.inhand).Perm (p.executed ++ p.inhand) ∧
        (t.owner = .gone → t.executed.Perm (p.executed ++ p.inhand)))) := by
  have hi := SimpleSerialTaskQueue.System.reach_inv h
  have hpi := TaskQueue.System.pool_reach_inv hp
  refine ⟨⟨?_, ?_, ?_⟩, ⟨?_, ?_, ?_⟩⟩
  · intro t ht
    obtain ⟨-, e, -, -⟩ := SimpleSerialTaskQueue.System.step_destroyed hi hd ht
    refine ⟨?_, e⟩
    simp only [SimpleSerialTaskQueue.System.step] at ht
    split at ht
    · split_ifs at ht
      cases ht
      rfl
    · cases ht
  · intro f hw
    simp [SimpleSerialTaskQueue.System.step, hw, SimpleSerialTaskQueue.call]
  · intro post t ht
    obtain ⟨a1, a2, a3, a4⟩ := SimpleSerialTaskQueue.System.run_destroyed post hi hd ht
    have hit := SimpleSerialTaskQueue.System.serial_run_inv post hi ht
    have hfs : t.finished <+: s.started := by
      rw [← a2, hit.started]; exact List.prefix_append _ _
    refine ⟨a1, a2, a4, by rw [a3, hi.dispatched], hfs, ?_⟩
    intro ho
    have hw := (hit.gone ho).2
    have := hit.started
    rw [hw, a2] at this
    simpa [SimpleSerialTaskQueue.Worker.hand] using this.symm
  · intro i t ht
    obtain ⟨-, e, -⟩ := TaskQueue.System.pool_step_destroyed hpi hpd ht
    simp only [TaskQueue.System.step] at ht
    split at ht
    · rename_i hw
      split_ifs at ht
      cases ht
      have hlt : i < p.workers.length := by
        by_contra hge
        rw [List.getElem?_eq_none (by omega)] at hw
        cases hw
      refine ⟨by simp [List.getElem?_set_self hlt], rfl, ?_⟩
      exact TaskQueue.inhand_set_eq p.workers i .idle .exited hw rfl
    · cases ht
  · intro i task hw
    simp [TaskQueue.System.step, hw]
  · intro post t ht
    obtain ⟨a1, a2, a3⟩ := TaskQueue.System.pool_run_destroyed post hpi hpd ht
    have hit := TaskQueue.System.pool_run_inv post hpi ht
    have hperm : (t.executed ++ t.inhand).Perm (p.executed ++ p.inhand) := by
      have h1 := hit.perm
      rw [a2, a3] at h1
      exact (List.perm_append_right_iff _).mp (h1.trans hpi.perm.symm)
    refine ⟨a1, a2, ?_, hperm, ?_⟩
    · intro task hq hex
      have hnd := hit.nodup
      rw [a2, List.map_append, List.map_append] at hnd
      refine (List.nodup_append.mp hnd).2.2 ?_ (List.mem_map_of_mem _ hq)
      exact List.mem_append_left _ (List.mem_map_of_mem _ hex)
    · intro ho
      have : t.inhand = [] := TaskQueue.inhand_exited _ (hit.gone ho)
      rw [this, List.append_nil] at hperm
      exact hperm

/-- C18, evaluated: the destructor runs while the worker holds the first task and
others are queued, in either queue. -/
theorem destruction_drops_pending_witness :
    ∃ (s : SimpleSerialTaskQueue.System Int Int) (p : TaskQueue.System Int Int),
      (SimpleSerialTaskQueue.System.init 0).run (fun f number => number + f)
        [.dispatch 1, .dispatch 3, .wake, .destroy] = some s ∧
      (TaskQueue.System.init 2 0).run (fun f number => number + f)
        [.dispatch 1, .dispatch (-1), .dispatch 1, .wake 0, .destroy] = some p ∧
      s.q.destroyed = true ∧ p.q.destroyed = true ∧
      SimpleSerialTaskQueue.pending s.q = [3] ∧ p.q.queue = [(1, -1), (2, 1)] ∧
      ((∀ t, s.step (fun f number => number + f) .wake = some t →
          t.worker = .exited ∧ t.started = s.started) ∧
       (∀ f, s.worker = .running (some f) →
          ∃ t, s.step (fun f number => number + f) .run = some t ∧
            t.finished = s.finished ++ [f]) ∧
       (∀ post t, s.run (fun f number => number + f) post = some t →
          t.q.destroyed = true ∧ t.started = s.started ∧
          SimpleSerialTaskQueue.pending t.q = SimpleSerialTaskQueue.pending s.q ∧
          t.dispatched = s.started ++ SimpleSerialTaskQueue.pending s.q ∧
          t.finished <+: s.started ∧ (t.owner = .gone → t.finished = s.started))) ∧
      ((∀ i t, p.step (fun f number => number + f) (.wake i) = some t →
          t.workers[i]? = some .exited ∧ t.q.queue = p.q.queue ∧ t.inhand = p.inhand) ∧
       (∀ i task, p.workers[i]? = some (.running task) →
          ∃ t, p.step (fun f number => number + f) (.run i) = some t ∧
            t.executed = p.executed ++ [task]) ∧
       (∀ post t, p.run (fun f number => number + f) post = some t →
          t.q.destroyed = true ∧ t.q.queue = p.q.queue ∧
          (∀ task ∈ p.q.queue, task ∉ t.executed) ∧
          (t.executed ++ t.inhand).Perm (p.executed ++ p.inhand) ∧
          (t.owner = .gone → t.executed.Perm (p.executed ++ p.inhand)))) :=
  ⟨⟨⟨[none, some 3], true, false⟩, .joining, .running (some 1), 0, [1, 3], [1], []⟩,
    ⟨⟨[(1, -1), (2, 1)], true⟩, .joining, [.running (0, 1), .idle], 0, [false, false, false],
      [1, -1, 1], [], []⟩,
    rfl, rfl, rfl, rfl, rfl, rfl,
    destruction_drops_pending (fun f number => number + f) 0
      [.dispatch 1, .dispatch 3, .wake, .destroy] _ (by rfl) (by rfl) 2
      [.dispatch 1, .dispatch (-1), .dispatch 1, .wake 0, .destroy] _ (by rfl) (by rfl)⟩

/-! ## `SpinlockMutex`: lemmas and the claim -/

namespace SpinlockMutex

theorem System.spin_init_inv (count : Nat) (a b d0 : Int) :
    System.Inv count a b d0 (System.init d0) := by
  constructor <;> simp [System.init, new, Thread.holds, Thread.ok, Thread.added]

theorem System.spin_step_inv {count : Nat} {a b d0 : Int} {s t : System} {i : Tid}
    (hi : System.Inv count a b d0 s) (h : s.step count a b i = some t) :
    System.Inv count a b d0 t := by
  obtain ⟨hex, hflag, ok1, ok2, hdata⟩ := hi
  obtain ⟨⟨flag⟩, data, t1, t2⟩ := s
  simp only at hex hflag ok1 ok2 hdata
  cases i with
  | one =>
    cases t1 with
    | locking =>
      simp only [System.step, Thread.step, test_and_set, Option.bind_eq_bind] at h
      cases flag with
      | true =>
        simp only [if_true, Option.some_bind, Option.pure_def, Option.some.injEq] at h
        subst h
        exact ⟨hex, by simpa using hflag, ok1, ok2, hdata⟩
      | false =>
        simp only [Bool.false_eq_true, if_false, Option.some_bind, Option.pure_def,
          Option.some.injEq] at h
        subst h
        have h2 : t2.holds = false := by simpa [Thread.holds] using hflag.symm
        exact ⟨by simp [h2], by simp [Thread.holds], by simp [Thread.ok], ok2,
          by simpa [Thread.added] using hdata⟩
    | loop k =>
      simp only [System.step, Thread.step, Option.bind_eq_bind] at h
      have h2 : t2.holds = false := by simpa [Thread.holds] using hex
      by_cases hk : k < count
      · simp only [hk, if_true, Option.some_bind, Option.pure_def, Option.some.injEq] at h
        subst h
        exact ⟨by simp [h2], by simpa [Thread.holds] using hflag, by simp [Thread.ok, hk], ok2,
          by simpa [Thread.added] using hdata⟩
      · simp only [hk, if_false, Option.some_bind, Option.pure_def, Option.some.injEq] at h
        subst h
        have hk' : k = count := by simp only [Thread.ok] at ok1; omega
        exact ⟨by simp [Thread.holds], by rw [h2]; rfl, by simp [Thread.ok],
          ok2, by simpa [Thread.added, hk'] using hdata⟩
    | store k v =>
      simp only [System.step, Thread.step, int_add, Option.bind_eq_bind] at h
      have h2 : t2.holds = false := by simpa [Thread.holds] using hex
      obtain ⟨hk, rfl⟩ := ok1
      split_ifs at h
      · simp only [Option.some_bind, Option.pure_def, Option.some.injEq] at h
        subst h
        refine ⟨by simp [h2], by simpa [Thread.holds] using hflag, by simp [Thread.ok]; omega,
          ?_, ?_⟩
        · cases t2 <;> simp [Thread.holds, Thread.ok] at h2 ⊢
        · simp only [Thread.added] at hdata ⊢
          rw [hdata]
          push_cast
          ring
      · simp at h
    | done =>
      simp [System.step, Thread.step] at h
  | two =>
    cases t2 with
    | locking =>
      simp only [System.step, Thread.step, test_and_set, Option.bind_eq_bind] at h
      cases flag with
      | true =>
        simp only [if_true, Option.some_bind, Option.pure_def, Option.some.injEq] at h
        subst h
        exact ⟨hex, by simpa using hflag, ok1, ok2, hdata⟩
      | false =>
        simp only [Bool.false_eq_true, if_false, Option.some_bind, Option.pure_def,
          Option.some.injEq] at h
        subst h
        have h1 : t1.holds = false := by simpa [Thread.holds] using hflag.symm
        exact ⟨by simp [h1], by simp [Thread.holds], ok1, by simp [Thread.ok],
          by simpa [Thread.added] using hdata⟩
    | loop k =>
      simp only [System.step, Thread.step, Option.bind_eq_bind] at h
      have h1 : t1.holds = false := by simpa [Thread.holds] using hex
      by_cases hk : k < count
      · simp only [hk, if_true, Option.some_bind, Option.pure_def, Option.some.injEq] at h
        subst h
        exact ⟨by simp [h1], by simpa [Thread.holds] using hflag, ok1, by simp [Thread.ok, hk],
          by simpa [Thread.added] using hdata⟩
      · simp only [hk, if_false, Option.some_bind, Option.pure_def, Option.some.injEq] at h
        subst h
        have hk' : k = count := by simp only [Thread.ok] at ok2; omega
        exact ⟨by simp [Thread.holds], by rw [h1]; rfl, ok1,
          by simp [Thread.ok], by simpa [Thread.added, hk'] using hdata⟩
    | store k v =>
      simp only [System.step, Thread.step, int_add, Option.bind_eq_bind] at h
      have h1 : t1.holds = false := by simpa [Thread.holds] using hex
      obtain ⟨hk, rfl⟩ := ok2
      split_ifs at h
      · simp only [Option.some_bind, Option.pure_def, Option.some.injEq] at h
        subst h
        refine ⟨by simp [h1], by simpa [Thread.holds] using hflag, ?_,
          by simp [Thread.ok]; omega, ?_⟩
        · cases t1 <;> simp [Thread.holds, Thread.ok] at h1 ⊢
        · simp only [Thread.added] at hdata ⊢
          rw [hdata]
          push_cast
          ring
      · simp at h
    | done =>
      simp [System.step, Thread.step] at h

theorem System.spin_run_inv {count : Nat} {a b d0 : Int} (is : List Tid) :
    ∀ {s t : System}, System.Inv count a b d0 s → s.run count a b is = some t →
      System.Inv count a b d0 t := by
  induction is with
  | nil => intro s t hi h; cases h; exact hi
  | cons i is ih =>
    intro s t hi h
    simp only [System.run] at h
    cases h1 : s.step count a b i with
    | none => rw [h1] at h; cases h
    | some s1 =>
      rw [h1] at h
      exact ih (System.spin_step_inv hi h1) h

theorem System.spin_run_append (count : Nat) (a b : Int) (is js : List Tid) :
    ∀ s : System, s.run count a b (is ++ js) =
      (s.run count a b is).bind fun t => t.run count a b js := by
  induction is with
  | nil => intro s; rfl
  | cons i is ih =>
    intro s
    simp only [List.cons_append, System.run]
    cases s.step count a b i with
    | none => rfl
    | some s1 => exact ih s1

/-- Thread one alone inside the lock: `k` rounds of `data += a`. -/
theorem System.solo_one (count : Nat) (a b : Int) (t2 : Thread) :
    ∀ (k i : Nat) (d : Int), i + k = count →
      (∀ j : Nat, 1 ≤ j → j ≤ k → INT_MIN ≤ d + j * a ∧ d + j * a ≤ INT_MAX) →
      System.run count a b ⟨⟨true⟩, d, .loop i, t2⟩ (List.replicate (2 * k) .one) =
        some ⟨⟨true⟩, d + k * a, .loop count, t2⟩ := by
  intro k
  induction k with
  | zero =>
    intro i d hi _
    have : i = count := by omega
    subst this
    simp [System.run]
  | succ k ih =>
    intro i d hi hr
    have hlt : i < count := by omega
    have h1 := hr 1 (le_refl 1) (by omega)
    simp only [Nat.cast_one, one_mul] at h1
    rw [show 2 * (k + 1) = (2 * k + 1) + 1 by ring, List.replicate_succ, List.replicate_succ]
    have s1 : System.step count a b ⟨⟨true⟩, d, .loop i, t2⟩ .one
        = some ⟨⟨true⟩, d, .store i d, t2⟩ := by
      simp [System.step, Thread.step, hlt]
    have s2 : System.step count a b ⟨⟨true⟩, d, .store i d, t2⟩ .one
        = some ⟨⟨true⟩, d + a, .loop (i + 1), t2⟩ := by
      simp [System.step, Thread.step, int_add, h1]
    simp only [System.run, s1, s2, Option.some_bind]
    rw [ih (i + 1) (d + a) (by omega)]
    · congr 2
      push_cast
      ring
    · intro j hj1 hjk
      have := hr (j + 1) (by omega) (by omega)
      push_cast at this
      constructor <;> linarith [this.1, this.2]

/-- Thread two alone inside the lock: `k` rounds of `data += b`. -/
theorem System.solo_two (count : Nat) (a b : Int) (t1 : Thread) :
    ∀ (k i : Nat) (d : Int), i + k = count →
      (∀ j : Nat, 1 ≤ j → j ≤ k → INT_MIN ≤ d + j * b ∧ d + j * b ≤ INT_MAX) →
      System.run count a b ⟨⟨true⟩, d, t1, .loop i⟩ (List.replicate (2 * k) .two) =
        some ⟨⟨true⟩, d + k * b, t1, .loop count⟩ := by
  intro k
  induction k with
  | zero =>
    intro i d hi _
    have : i = count := by omega
    subst this
    simp [System.run]
  | succ k ih =>
    intro i d hi hr
    have hlt : i < count := by omega
    have h1 := hr 1 (le_refl 1) (by omega)
    simp only [Nat.cast_one, one_mul] at h1
    rw [show 2 * (k + 1) = (2 * k + 1) + 1 by ring, List.replicate_succ, List.replicate_succ]
    have s1 : System.step count a b ⟨⟨true⟩, d, t1, .loop i⟩ .two
        = some ⟨⟨true⟩, d, t1, .store i d⟩ := by
      simp [System.step, Thread.step, hlt]
    have s2 : System.step count a b ⟨⟨true⟩, d, t1, .store i d⟩ .two
        = some ⟨⟨true⟩, d + b, t1, .loop (i + 1)⟩ := by
      simp [System.step, Thread.step, int_add, h1]
    simp only [System.run, s1, s2, Option.some_bind]
    rw [ih (i + 1) (d + b) (by omega)]
    · congr 2
      push_cast
      ring
    · intro j hj1 hjk
      have := hr (j + 1) (by omega) (by omega)
      push_cast at this
      constructor <;> linarith [this.1, this.2]

/-- The interleaving in which thread one runs to its end and then thread two does. -/
theorem System.run_in_turn (count : Nat) (a b d0 : Int)
    (h1 : ∀ j : Nat, 1 ≤ j → j ≤ count → INT_MIN ≤ d0 + j * a ∧ d0 + j * a ≤ INT_MAX)
    (h2 : ∀ j : Nat, 1 ≤ j → j ≤ count →
      INT_MIN ≤ d0 + count * a + j * b ∧ d0 + count * a + j * b ≤ INT_MAX) :
    (System.init d0).run count a b
        ([.one] ++ List.replicate (2 * count) .one ++ [.one] ++ [.two] ++
          List.replicate (2 * count) .two ++ [.two]) =
      some ⟨⟨false⟩, d0 + count * a + count * b, .done, .done⟩ := by
  have e1 : (System.init d0).run count a b [.one] = some ⟨⟨true⟩, d0, .loop 0, .locking⟩ := by
    simp [System.run, System.init, System.step, Thread.step, test_and_set, new]
  have e2 : System.run count a b ⟨⟨true⟩, d0 + count * a, .loop count, .locking⟩ [.one]
      = some ⟨⟨false⟩, d0 + count * a, .done, .locking⟩ := by
    simp [System.run, System.step, Thread.step, unlock]
  have e3 : System.run count a b ⟨⟨false⟩, d0 + count * a, .done, .locking⟩ [.two]
      = some ⟨⟨true⟩, d0 + count * a, .done, .loop 0⟩ := by
    simp [System.run, System.step, Thread.step, test_and_set]
  have e4 : System.run count a b
      ⟨⟨true⟩, d0 + count * a + count * b, .done, .loop count⟩ [.two]
      = some ⟨⟨false⟩, d0 + count * a + count * b, .done, .done⟩ := by
    simp [System.run, System.step, Thread.step, unlock]
  simp only [System.spin_run_append]
  rw [e1, Option.some_bind, System.solo_one count a b .locking count 0 d0 (by omega) h1,
    Option.some_bind, e2, Option.some_bind, e3, Option.some_bind,
    System.solo_two count a b .done count 0 (d0 + count * a) (by omega) h2, Option.some_bind,
    e4]

theorem System.spin_reach_inv {count : Nat} {a b d0 : Int} {steps : List Tid} {s : System}
    (h : (System.init d0).run count a b steps = some s) : System.Inv count a b d0 s :=
  System.spin_run_inv steps (System.spin_init_inv count a b d0) h

/-- C19. Spin-lock mutual exclusion. In every state of every interleaving of the two
threads: at most one thread is between a returned `lock()` and its `unlock()`, and the
flag is set exactly when one is; a `test_and_set` of a thread in `lock()` leaves the
flag set, lets the thread leave `lock()` exactly when it found the flag clear, and
changes nothing when it found the flag set; `SHARED_DATA` is the initial value plus
each offset times the number of additions of its thread, so it is
`initial + K * (a + b)` when both threads are done. When no partial sum leaves the
range of `int`, an interleaving in which both threads get done exists. In the test
(60, offsets 3 and -3, `K = 10`) the value is 60. -/
theorem spinlock_mutual_exclusion (count : Nat) (a b d0 : Int) (steps : List Tid)
    (s : System) (h : (System.init d0).run count a b steps = some s) :
    ¬ (s.t1.holds = true ∧ s.t2.holds = true) ∧
    s.MUTEX.flag = (s.t1.holds || s.t2.holds) ∧
    (∀ t, s.step count a b .one = some t → s.t1 = .locking →
      t.MUTEX.flag = true ∧ (t.t1.holds = true ↔ s.MUTEX.flag = false) ∧
      (s.MUTEX.flag = true → t = s)) ∧
    (∀ t, s.step count a b .two = some t → s.t2 = .locking →
      t.MUTEX.flag = true ∧ (t.t2.holds = true ↔ s.MUTEX.flag = false) ∧
      (s.MUTEX.flag = true → t = s)) ∧
    s.SHARED_DATA = d0 + a * (s.t1.added count) + b * (s.t2.added count) ∧
    (s.t1 = .done → s.t2 = .done → s.SHARED_DATA = d0 + count * (a + b)) ∧
    ((∀ j : Nat, 1 ≤ j → j ≤ count → INT_MIN ≤ d0 + j * a ∧ d0 + j * a ≤ INT_MAX) →
      (∀ j : Nat, 1 ≤ j → j ≤ count →
        INT_MIN ≤ d0 + count * a + j * b ∧ d0 + count * a + j * b ≤ INT_MAX) →
      ∃ is t, (System.init d0).run count a b is = some t ∧ t.t1 = .done ∧ t.t2 = .done) ∧
    (∀ (is : List Tid) (t : System), (System.init 60).run 10 3 (-3) is = some t →
      t.t1 = .done → t.t2 = .done → t.SHARED_DATA = 60) := by
  have hi := System.spin_reach_inv h
  refine ⟨hi.exclusive, hi.flag, ?_, ?_, hi.data, ?_, ?_, ?_⟩
  · intro t ht hl
    obtain ⟨⟨flag⟩, data, t1, t2⟩ := s
    simp only at hl
    subst hl
    cases flag <;>
      simp only [System.step, Thread.step, test_and_set, Option.bind_eq_bind, if_true,
        Bool.false_eq_true, if_false, Option.some_bind, Option.pure_def,
        Option.some.injEq] at ht <;>
      subst ht <;> simp [Thread.holds]
  · intro t ht hl
    obtain ⟨⟨flag⟩, data, t1, t2⟩ := s
    simp only at hl
    subst hl
    cases flag <;>
      simp only [System.step, Thread.step, test_and_set, Option.bind_eq_bind, if_true,
        Bool.false_eq_true, if_false, Option.some_bind, Option.pure_def,
        Option.some.injEq] at ht <;>
      subst ht <;> simp [Thread.holds]
  · intro e1 e2
    rw [hi.data, e1, e2]
    simp only [Thread.added]
    ring
  · intro r1 r2
    exact ⟨_, _, System.run_in_turn count a b d0 r1 r2, rfl, rfl⟩
  · intro is t ht e1 e2
    have hit := System.spin_reach_inv ht
    rw [hit.data, e1, e2]
    rfl

/-- C19, evaluated on an interleaving of the test in which thread two spins while
thread one holds the lock. -/
theorem spinlock_mutual_exclusion_witness :
    ∃ s : System,
      (System.init 60).run 10 3 (-3)
        ([.one, .two, .two] ++ List.replicate 21 .one ++ List.replicate 22 .two) = some s ∧
      s.t1 = .done ∧ s.t2 = .done ∧ s.SHARED_DATA = 60 ∧
      (¬ (s.t1.holds = true ∧ s.t2.holds = true) ∧
      s.MUTEX.flag = (s.t1.holds || s.t2.holds) ∧
      (∀ t, s.step 10 3 (-3) .one = some t → s.t1 = .locking →
        t.MUTEX.flag = true ∧ (t.t1.holds = true ↔ s.MUTEX.flag = false) ∧
        (s.MUTEX.flag = true → t = s)) ∧
      (∀ t, s.step 10 3 (-3) .two = some t → s.t2 = .locking →
        t.MUTEX.flag = true ∧ (t.t2.holds = true ↔ s.MUTEX.flag = false) ∧
        (s.MUTEX.flag = true → t = s)) ∧
      s.SHARED_DATA = 60 + 3 * (s.t1.added 10) + (-3) * (s.t2.added 10) ∧
      (s.t1 = .done → s.t2 = .done → s.SHARED_DATA = 60 + (10 : Nat) * (3 + (-3))) ∧
      ((∀ j : Nat, 1 ≤ j → j ≤ 10 → INT_MIN ≤ 60 + j * 3 ∧ 60 + j * 3 ≤ INT_MAX) →
        (∀ j : Nat, 1 ≤ j → j ≤ 10 →
          INT_MIN ≤ 60 + (10 : Nat) * 3 + j * (-3) ∧ 60 + (10 : Nat) * 3 + j * (-3) ≤ INT_MAX) →
        ∃ is t, (System.init 60).run 10 3 (-3) is = some t ∧ t.t1 = .done ∧ t.t2 = .done) ∧
      (∀ (is : List Tid) (t : System), (System.init 60).run 10 3 (-3) is = some t →
        t.t1 = .done → t.t2 = .done → t.SHARED_DATA = 60)) :=
  ⟨⟨⟨false⟩, 60, .done, .done⟩, by rfl, rfl, rfl, rfl,
    spinlock_mutual_exclusion 10 3 (-3) 60
      ([.one, .two, .two] ++ List.replicate 21 .one ++ List.replicate 22 .two) _ (by rfl)⟩

end SpinlockMutex

/-! ## `DataMutex`: lemmas and the claim -/

namespace DataMutex

theorem lock_eq {T : Type} (m : DataMutex T) :
    m.lock = if m.mutex then none else some ({ owner := true }, { m with mutex := true }) := by
  cases hm : m.mutex <;>
    simp [lock, guard, assert, hm, MutexGuard.move, MutexGuard.drop]

theorem System.cell_init_inv (count : Nat) (a b d0 : Int) :
    System.Inv count a b d0 (System.init d0) := by
  constructor <;> simp [System.init, new, Thread.live, Thread.ok, Thread.added]

theorem System.cell_step_inv {count : Nat} {a b d0 : Int} {s t : System} {i : Tid}
    (hi : System.Inv count a b d0 s) (h : s.step count a b i = some t) :
    System.Inv count a b d0 t := by
  obtain ⟨hex, hmutex, ok1, ok2, hdata⟩ := hi
  obtain ⟨⟨mutex, data⟩, t1, t2⟩ := s
  simp only at hex hmutex ok1 ok2 hdata
  cases i with
  | one =>
    cases t1 with
    | acquiring =>
      simp only [System.step, Thread.step, lock_eq, Option.bind_eq_bind] at h
      cases mutex with
      | true => simp at h
      | false =>
        simp only [Bool.false_eq_true, if_false, Option.some_bind, Option.pure_def,
          Option.some.injEq] at h
        subst h
        have h2 : t2.live = false := by simpa [Thread.live] using hmutex.symm
        exact ⟨by simp [h2], by simp [Thread.live], by simp [Thread.ok], ok2,
          by simpa [Thread.added] using hdata⟩
    | loop g k =>
      obtain ⟨hg, hkc⟩ := ok1
      obtain ⟨_ | _⟩ := g <;> simp only at hg <;> try cases hg
      simp only [System.step, Thread.step, MutexGuard.data, MutexGuard.drop,
        Option.bind_eq_bind] at h
      have h2 : t2.live = false := by simpa [Thread.live] using hex
      by_cases hk : k < count
      · simp only [hk, if_true, Option.some_bind, Option.pure_def, Option.some.injEq] at h
        subst h
        exact ⟨by simp [h2], by simpa [Thread.live] using hmutex, by simp [Thread.ok, hk], ok2,
          by simpa [Thread.added] using hdata⟩
      · simp only [hk, if_false, if_true, Option.some_bind, Option.pure_def,
          Option.some.injEq] at h
        subst h
        have hk' : k = count := by omega
        exact ⟨by simp [Thread.live], by rw [h2]; rfl, by simp [Thread.ok],
          ok2, by simpa [Thread.added, hk'] using hdata⟩
    | store g k v =>
      obtain ⟨hg, hk, rfl⟩ := ok1
      obtain ⟨_ | _⟩ := g <;> simp only at hg <;> try cases hg
      simp only [System.step, Thread.step, MutexGuard.data, int_add, ↓reduceIte,
        Option.bind_eq_bind, Option.some_bind] at h
      have h2 : t2.live = false := by simpa [Thread.live] using hex
      by_cases hr : INT_MIN ≤ v + a ∧ v + a ≤ INT_MAX
      · rw [if_pos hr] at h
        simp only [Option.some_bind, Option.pure_def, Option.some.injEq] at h
        subst h
        refine ⟨by simp [h2], by simpa [Thread.live] using hmutex,
          by simp [Thread.ok]; omega, ?_, ?_⟩
        · cases t2 with
          | acquiring => trivial
          | done => trivial
          | loop g j =>
            have := ok2.1
            simp only [Thread.live] at h2
            rw [h2] at this
            cases this
          | store g j w =>
            have := ok2.1
            simp only [Thread.live] at h2
            rw [h2] at this
            cases this
        · simp only [Thread.added] at hdata ⊢
          rw [hdata]
          push_cast
          ring
      · rw [if_neg hr] at h
        simp at h
    | done =>
      simp [System.step, Thread.step] at h
  | two =>
    cases t2 with
    | acquiring =>
      simp only [System.step, Thread.step, lock_eq, Option.bind_eq_bind] at h
      cases mutex with
      | true => simp at h
      | false =>
        simp only [Bool.false_eq_true, if_false, Option.some_bind, Option.pure_def,
          Option.some.injEq] at h
        subst h
        have h1 : t1.live = false := by simpa [Thread.live] using hmutex.symm
        exact ⟨by simp [h1], by simp [Thread.live], ok1, by simp [Thread.ok],
          by simpa [Thread.added] using hdata⟩
    | loop g k =>
      obtain ⟨hg, hkc⟩ := ok2
      obtain ⟨_ | _⟩ := g <;> simp only at hg <;> try cases hg
      simp only [System.step, Thread.step, MutexGuard.data, MutexGuard.drop,
        Option.bind_eq_bind] at h
      have h1 : t1.live = false := by simpa [Thread.live] using hex
      by_cases hk : k < count
      · simp only [hk, if_true, Option.some_bind, Option.pure_def, Option.some.injEq] at h
        subst h
        exact ⟨by simp [h1], by simpa [Thread.live] using hmutex, ok1, by simp [Thread.ok, hk],
          by simpa [Thread.added] using hdata⟩
      · simp only [hk, if_false, if_true, Option.some_bind, Option.pure_def,
          Option.some.injEq] at h
        subst h
        have hk' : k = count := by omega
        exact ⟨by simp [Thread.live], by rw [h1]; rfl, ok1, by simp [Thread.ok],
          by simpa [Thread.added, hk'] using hdata⟩
    | store g k v =>
      obtain ⟨hg, hk, rfl⟩ := ok2
      obtain ⟨_ | _⟩ := g <;> simp only at hg <;> try cases hg
      simp only [System.step, Thread.step, MutexGuard.data, int_add, ↓reduceIte,
        Option.bind_eq_bind, Option.some_bind] at h
      have h1 : t1.live = false := by simpa [Thread.live] using hex
      by_cases hr : INT_MIN ≤ v + b ∧ v + b ≤ INT_MAX
      · rw [if_pos hr] at h
        simp only [Option.some_bind, Option.pure_def, Option.some.injEq] at h
        subst h
        refine ⟨by simp [h1], by simpa [Thread.live] using hmutex, ?_,
          by simp [Thread.ok]; omega, ?_⟩
        · cases t1 with
          | acquiring => trivial
          | done => trivial
          | loop g j =>
            have := ok1.1
            simp only [Thread.live] at h1
            rw [h1] at this
            cases this
          | store g j w =>
            have := ok1.1
            simp only [Thread.live] at h1
            rw [h1] at this
            cases this
        · simp only [Thread.added] at hdata ⊢
          rw [hdata]
          push_cast
          ring
      · rw [if_neg hr] at h
        simp at h
    | done =>
      simp [System.step, Thread.step] at h

theorem System.cell_run_inv {count : Nat} {a b d0 : Int} (is : List Tid) :
    ∀ {s t : System}, System.Inv count a b d0 s → s.run count a b is = some t →
      System.Inv count a b d0 t := by
  induction is with
  | nil => intro s t hi h; cases h; exact hi
  | cons i is ih =>
    intro s t hi h
    simp only [System.run] at h
    cases h1 : s.step count a b i with
    | none => rw [h1] at h; cases h
    | some s1 =>
      rw [h1] at h
      exact ih (System.cell_step_inv hi h1) h

theorem System.cell_run_append (count : Nat) (a b : Int) (is js : List Tid) :
    ∀ s : System, s.run count a b (is ++ js) =
      (s.run count a b is).bind fun t => t.run count a b js := by
  induction is with
  | nil => intro s; rfl
  | cons i is ih =>
    intro s
    simp only [List.cons_append, System.run]
    cases s.step count a b i with
    | none => rfl
    | some s1 => exact ih s1

/-- Thread one alone with the token: `k` rounds of `data += a`. -/
theorem System.alone_one (count : Nat) (a b : Int) (t2 : Thread) :
    ∀ (k i : Nat) (d : Int), i + k = count →
      (∀ j : Nat, 1 ≤ j → j ≤ k → INT_MIN ≤ d + j * a ∧ d + j * a ≤ INT_MAX) →
      System.run count a b ⟨⟨true, d⟩, .loop ⟨true⟩ i, t2⟩ (List.replicate (2 * k) .one) =
        some ⟨⟨true, d + k * a⟩, .loop ⟨true⟩ count, t2⟩ := by
  intro k
  induction k with
  | zero =>
    intro i d hi _
    have : i = count := by omega
    subst this
    simp [System.run]
  | succ k ih =>
    intro i d hi hr
    have hlt : i < count := by omega
    have h1 := hr 1 (le_refl 1) (by omega)
    simp only [Nat.cast_one, one_mul] at h1
    rw [show 2 * (k + 1) = (2 * k + 1) + 1 by ring, List.replicate_succ, List.replicate_succ]
    have s1 : System.step count a b ⟨⟨true, d⟩, .loop ⟨true⟩ i, t2⟩ .one
        = some ⟨⟨true, d⟩, .store ⟨true⟩ i d, t2⟩ := by
      simp [System.step, Thread.step, MutexGuard.data, hlt]
    have s2 : System.step count a b ⟨⟨true, d⟩, .store ⟨true⟩ i d, t2⟩ .one
        = some ⟨⟨true, d + a⟩, .loop ⟨true⟩ (i + 1), t2⟩ := by
      simp [System.step, Thread.step, MutexGuard.data, int_add, h1]
    simp only [System.run, s1, s2, Option.some_bind]
    rw [ih (i + 1) (d + a) (by omega)]
    · congr 3
      push_cast
      ring
    · intro j hj1 hjk
      have := hr (j + 1) (by omega) (by omega)
      push_cast at this
      constructor <;> linarith [this.1, this.2]

/-- Thread two alone with the token: `k` rounds of `data += b`. -/
theorem System.alone_two (count : Nat) (a b : Int) (t1 : Thread) :
    ∀ (k i : Nat) (d : Int), i + k = count →
      (∀ j : Nat, 1 ≤ j → j ≤ k → INT_MIN ≤ d + j * b ∧ d + j * b ≤ INT_MAX) →
      System.run count a b ⟨⟨true, d⟩, t1, .loop ⟨true⟩ i⟩ (List.replicate (2 * k) .two) =
        some ⟨⟨true, d + k * b⟩, t1, .loop ⟨true⟩ count⟩ := by
  intro k
  induction k with
  | zero =>
    intro i d hi _
    have : i = count := by omega
    subst this
    simp [System.run]
  | succ k ih =>
    intro i d hi hr
    have hlt : i < count := by omega
    have h1 := hr 1 (le_refl 1) (by omega)
    simp only [Nat.cast_one, one_mul] at h1
    rw [show 2 * (k + 1) = (2 * k + 1) + 1 by ring, List.replicate_succ, List.replicate_succ]
    have s1 : System.step count a b ⟨⟨true, d⟩, t1, .loop ⟨true⟩ i⟩ .two
        = some ⟨⟨true, d⟩, t1, .store ⟨true⟩ i d⟩ := by
      simp [System.step, Thread.step, MutexGuard.data, hlt]
    have s2 : System.step count a b ⟨⟨true, d⟩, t1, .store ⟨true⟩ i d⟩ .two
        = some ⟨⟨true, d + b⟩, t1, .loop ⟨true⟩ (i + 1)⟩ := by
      simp [System.step, Thread.step, MutexGuard.data, int_add, h1]
    simp only [System.run, s1, s2, Option.some_bind]
    rw [ih (i + 1) (d + b) (by omega)]
    · congr 3
      push_cast
      ring
    · intro j hj1 hjk
      have := hr (j + 1) (by omega) (by omega)
      push_cast at this
      constructor <;> linarith [this.1, this.2]

/-- The interleaving in which thread one runs to its end and then thread two does. -/
theorem System.cell_run_in_turn (count : Nat) (a b d0 : Int)
    (h1 : ∀ j : Nat, 1 ≤ j → j ≤ count → INT_MIN ≤ d0 + j * a ∧ d0 + j * a ≤ INT_MAX)
    (h2 : ∀ j : Nat, 1 ≤ j → j ≤ count →
      INT_MIN ≤ d0 + count * a + j * b ∧ d0 + count * a + j * b ≤ INT_MAX) :
    (System.init d0).run count a b
        ([.one] ++ List.replicate (2 * count) .one ++ [.one] ++ [.two] ++
          List.replicate (2 * count) .two ++ [.two]) =
      some ⟨⟨false, d0 + count * a + count * b⟩, .done, .done⟩ := by
  have e1 : (System.init d0).run count a b [.one]
      = some ⟨⟨true, d0⟩, .loop ⟨true⟩ 0, .acquiring⟩ := by
    simp [System.run, System.init, System.step, Thread.step, lock_eq, new]
  have e2 : System.run count a b ⟨⟨true, d0 + count * a⟩, .loop ⟨true⟩ count, .acquiring⟩
      [.one] = some ⟨⟨false, d0 + count * a⟩, .done, .acquiring⟩ := by
    simp [System.run, System.step, Thread.step, MutexGuard.drop]
  have e3 : System.run count a b ⟨⟨false, d0 + count * a⟩, .done, .acquiring⟩ [.two]
      = some ⟨⟨true, d0 + count * a⟩, .done, .loop ⟨true⟩ 0⟩ := by
    simp [System.run, System.step, Thread.step, lock_eq]
  have e4 : System.run count a b
      ⟨⟨true, d0 + count * a + count * b⟩, .done, .loop ⟨true⟩ count⟩ [.two]
      = some ⟨⟨false, d0 + count * a + count * b⟩, .done, .done⟩ := by
    simp [System.run, System.step, Thread.step, MutexGuard.drop]
  simp only [System.cell_run_append]
  rw [e1, Option.some_bind, System.alone_one count a b .acquiring count 0 d0 (by omega) h1,
    Option.some_bind, e2, Option.some_bind, e3, Option.some_bind,
    System.alone_two count a b .done count 0 (d0 + count * a) (by omega) h2, Option.some_bind,
    e4]

theorem System.cell_reach_inv {count : Nat} {a b d0 : Int} {steps : List Tid} {s : System}
    (h : (System.init d0).run count a b steps = some s) : System.Inv count a b d0 s :=
  System.cell_run_inv steps (System.cell_init_inv count a b d0) h

/-- C20. Guarded cell mutual exclusion. In every state of every interleaving of the
two threads: at most one thread holds a live token (a guard whose `owner` is not
null), and the mutex is locked exactly when one does; `lock()` of a thread does not
return while the mutex is locked, and when it returns the other thread holds no live
token, the thread holds one and the mutex is locked; `data` is the initial value plus
each offset times the number of additions of its thread, so it is
`initial + K * (a + b)` when both threads are done. When no partial sum leaves the
range of `int`, an interleaving in which both threads get done exists. In the test
(60, offsets 3 and 5, `K = 10`) the value is 140. -/
theorem guarded_cell_mutual_exclusion (count : Nat) (a b d0 : Int) (steps : List Tid)
    (s : System) (h : (System.init d0).run count a b steps = some s) :
    ¬ (s.t1.live = true ∧ s.t2.live = true) ∧
    s.shared_data.mutex = (s.t1.live || s.t2.live) ∧
    (s.t1 = .acquiring →
      (s.shared_data.mutex = true → s.step count a b .one = none) ∧
      ∀ t, s.step count a b .one = some t →
        s.t2.live = false ∧ t.t1.live = true ∧ t.shared_data.mutex = true) ∧
    (s.t2 = .acquiring →
      (s.shared_data.mutex = true → s.step count a b .two = none) ∧
      ∀ t, s.step count a b .two = some t →
        s.t1.live = false ∧ t.t2.live = true ∧ t.shared_data.mutex = true) ∧
    s.shared_data.data = d0 + a * (s.t1.added count) + b * (s.t2.added count) ∧
    (s.t1 = .done → s.t2 = .done → s.shared_data.data = d0 + count * (a + b)) ∧
    ((∀ j : Nat, 1 ≤ j → j ≤ count → INT_MIN ≤ d0 + j * a ∧ d0 + j * a ≤ INT_MAX) →
      (∀ j : Nat, 1 ≤ j → j ≤ count →
        INT_MIN ≤ d0 + count * a + j * b ∧ d0 + count * a + j * b ≤ INT_MAX) →
      ∃ is t, (System.init d0).run count a b is = some t ∧ t.t1 = .done ∧ t.t2 = .done) ∧
    (∀ (is : List Tid) (t : System), (System.init 60).run 10 3 5 is = some t →
      t.t1 = .done → t.t2 = .done → t.shared_data.data = 140) := by
  have hi := System.cell_reach_inv h
  refine ⟨hi.exclusive, hi.mutex, ?_, ?_, hi.data, ?_, ?_, ?_⟩
  · intro hl
    have hm := hi.mutex
    obtain ⟨⟨mutex, data⟩, t1, t2⟩ := s
    simp only at hl hm
    subst hl
    cases mutex
    · refine ⟨fun hc => (by cases hc), fun t ht => ?_⟩
      simp only [System.step, Thread.step, lock_eq, Option.bind_eq_bind, Bool.false_eq_true,
        if_false, Option.some_bind, Option.pure_def, Option.some.injEq] at ht
      subst ht
      simp only [Thread.live, Bool.false_or] at hm
      exact ⟨hm.symm, rfl, rfl⟩
    · refine ⟨fun _ => by simp [System.step, Thread.step, lock_eq], fun t ht => ?_⟩
      simp [System.step, Thread.step, lock_eq] at ht
  · intro hl
    have hm := hi.mutex
    obtain ⟨⟨mutex, data⟩, t1, t2⟩ := s
    simp only at hl hm
    subst hl
    cases mutex
    · refine ⟨fun hc => (by cases hc), fun t ht => ?_⟩
      simp only [System.step, Thread.step, lock_eq, Option.bind_eq_bind, Bool.false_eq_true,
        if_false, Option.some_bind, Option.pure_def, Option.some.injEq] at ht
      subst ht
      simp only [Thread.live, Bool.or_false] at hm
      exact ⟨hm.symm, rfl, rfl⟩
    · refine ⟨fun _ => by simp [System.step, Thread.step, lock_eq], fun t ht => ?_⟩
      simp [System.step, Thread.step, lock_eq] at ht
  · intro e1 e2
    rw [hi.data, e1, e2]
    simp only [Thread.added]
    ring
  · intro r1 r2
    exact ⟨_, _, System.cell_run_in_turn count a b d0 r1 r2, rfl, rfl⟩
  · intro is t ht e1 e2
    have hit := System.cell_reach_inv ht
    rw [hit.data, e1, e2]
    rfl

/-- C20, evaluated on an interleaving of the test. -/
theorem guarded_cell_mutual_exclusion_witness :
    ∃ s : System,
      (System.init 60).run 10 3 5 (List.replicate 22 .one ++ List.replicate 22 .two)
        = some s ∧
      s.t1 = .done ∧ s.t2 = .done ∧ s.shared_data.data = 140 ∧
      (¬ (s.t1.live = true ∧ s.t2.live = true) ∧
      s.shared_data.mutex = (s.t1.live || s.t2.live) ∧
      (s.t1 = .acquiring →
        (s.shared_data.mutex = true → s.step 10 3 5 .one = none) ∧
        ∀ t, s.step 10 3 5 .one = some t →
          s.t2.live = false ∧ t.t1.live = true ∧ t.shared_data.mutex = true) ∧
      (s.t2 = .acquiring →
        (s.shared_data.mutex = true → s.step 10 3 5 .two = none) ∧
        ∀ t, s.step 10 3 5 .two = some t →
          s.t1.live = false ∧ t.t2.live = true ∧ t.shared_data.mutex = true) ∧
      s.shared_data.data = 60 + 3 * (s.t1.added 10) + 5 * (s.t2.added 10) ∧
      (s.t1 = .done → s.t2 = .done → s.shared_data.data = 60 + (10 : Nat) * (3 + 5)) ∧
      ((∀ j : Nat, 1 ≤ j → j ≤ 10 → INT_MIN ≤ 60 + j * 3 ∧ 60 + j * 3 ≤ INT_MAX) →
        (∀ j : Nat, 1 ≤ j → j ≤ 10 →
          INT_MIN ≤ 60 + (10 : Nat) * 3 + j * 5 ∧ 60 + (10 : Nat) * 3 + j * 5 ≤ INT_MAX) →
        ∃ is t, (System.init 60).run 10 3 5 is = some t ∧ t.t1 = .done ∧ t.t2 = .done) ∧
      (∀ (is : List Tid) (t : System), (System.init 60).run 10 3 5 is = some t →
        t.t1 = .done → t.t2 = .done → t.shared_data.data = 140)) :=
  ⟨⟨⟨false, 140⟩, .done, .done⟩, by rfl, rfl, rfl, rfl,
    guarded_cell_mutual_exclusion 10 3 5 60
      (List.replicate 22 .one ++ List.replicate 22 .two) _ (by rfl)⟩

end DataMutex

/-! ## The claims on the indices and the copies of `SPSCRingBuffer` -/

namespace SPSCRingBuffer

variable {α : Type}

/-- C26. Index invariant and assertion safety. For every capacity `N` with
`1 ≤ N < SIZE_MAX / 2` the constructor fails no assertion, and it returns when the
`N + 1` slots are within `max_size()`; and in every state reachable by
`write`, `write_all`, `read` and `read_all`: the array has `N + 1` slots and both indices
are at most `N`; `capacity()` returns `N` and `readable` returns a count that is at most
`N`; `is_full` returns, and past the full check the writable count is in `[1, N]`, the
advancement `min count availables` is at most `N`, `write_index` plus the advancement
does not overflow `size_t`, and `advance_index` returns an index that is at most `N`;
past the empty check the same holds of the readable count and `read_index`; and the
private `write` (with `count` elements behind its pointer), the private `read` and the
four public calls all return, so none of their assertions fails. -/
theorem index_assertion_safety [Inhabited α] [Sized α] (N : Nat) (h1 : 1 ≤ N)
    (h2 : N < SIZE_MAX / 2) :
    (∃ e, (new N : Option (Exit (SPSCRingBuffer α))) = some e ∧
      (N + 1 ≤ max_size α → ∃ b0, e = .returned b0 ∧ Reachable N b0)) ∧
    ∀ b : SPSCRingBuffer α, Reachable N b →
      b.buffer.length = N + 1 ∧ b.read_index ≤ N ∧ b.write_index ≤ N ∧
      b.capacity = some N ∧
      (∃ r, b.readable b.read_index b.write_index = some r ∧ r ≤ N) ∧
      (∃ full, b.is_full b.read_index b.write_index = some full ∧
        (full = false →
          ∃ availables, b.writable b.read_index b.write_index = some availables ∧
            1 ≤ availables ∧ availables ≤ N ∧
            ∀ count, min count availables ≤ N ∧
              b.write_index + min count availables ≤ SIZE_MAX ∧
              size_add b.write_index (min count availables)
                = b.write_index + min count availables ∧
              ∃ idx, b.advance_index b.write_index (min count availables) = some idx ∧
                idx ≤ N)) ∧
      (b.is_empty b.read_index b.write_index = false →
        ∃ availables, b.readable b.read_index b.write_index = some availables ∧
          1 ≤ availables ∧ availables ≤ N ∧
          ∀ count, min count availables ≤ N ∧
            b.read_index + min count availables ≤ SIZE_MAX ∧
            size_add b.read_index (min count availables)
              = b.read_index + min count availables ∧
            ∃ idx, b.advance_index b.read_index (min count availables) = some idx ∧
              idx ≤ N) ∧
      (∀ (data : List α) (count : Nat), count ≤ data.length →
        ∃ num b1, b.write_n data count = some (num, b1)) ∧
      (∀ count : Nat, ∃ values b1, b.read_n count = some (values, b1)) ∧
      (∀ x : α, ∃ num b1, b.write x = some (num, b1)) ∧
      (∀ xs : List α, ∃ num b1, b.write_all xs = some (num, b1)) ∧
      (∃ value b1, b.read = some (value, b1)) ∧
      (∃ values b1, b.read_all = some (values, b1)) := by
  refine ⟨?_, fun b hr => ?_⟩
  · by_cases h3 : N + 1 ≤ max_size α
    · exact ⟨_, new_some h1 h2 h3, fun _ => ⟨_, rfl, Reachable.init (new_some h1 h2 h3)⟩⟩
    · refine ⟨.length_error, ?_, fun h => absurd h h3⟩
      rw [new_eq, if_pos ⟨h1, h2⟩, if_neg h3]
  have hwf := hr.wf
  have hrd := hwf.rd
  have hwr := hwf.wr
  have hule := unread_length_le hwf
  have hs := h2
  simp only [SIZE_MAX] at hs
  have hadv : ∀ idx adv : Nat, idx ≤ N → adv ≤ N →
      idx + adv ≤ SIZE_MAX ∧ size_add idx adv = idx + adv ∧
      ∃ i, b.advance_index idx adv = some i ∧ i ≤ N := by
    intro idx adv hi ha
    have hle : idx + adv ≤ SIZE_MAX := by simp only [SIZE_MAX]; omega
    refine ⟨hle, size_add_eq hle, _, advance_index_eq hwf hi ha, ?_⟩
    have := Nat.mod_lt (idx + adv) (show N + 1 > 0 by omega)
    omega
  refine ⟨hwf.len, hrd, hwr, capacity_eq hwf, ⟨_, readable_eq hwf, hule⟩,
    ⟨_, is_full_eq hwf, fun hf => ?_⟩, fun he => ?_, fun data count hc => ?_, fun count => ?_,
    fun x => ?_, fun xs => ?_, ?_, ?_⟩
  · have hne : (unread b).length ≠ N := by simpa using hf
    refine ⟨_, writable_eq hwf, by omega, by omega, fun count => ?_⟩
    have hm : min count (N - (unread b).length) ≤ N := by omega
    exact ⟨hm, hadv _ _ hwr hm⟩
  · have hne : (unread b).length ≠ 0 := by
      intro h0
      have := (empty_iff hwf).mp (List.length_eq_zero.mp h0)
      simp [is_empty, this] at he
    refine ⟨_, readable_eq hwf, by omega, hule, fun count => ?_⟩
    have hm : min count (unread b).length ≤ N := by omega
    exact ⟨hm, hadv _ _ hrd hm⟩
  · obtain ⟨b1, h, -⟩ := write_n_spec hwf data count hc
    exact ⟨_, b1, h⟩
  · obtain ⟨b1, h, -⟩ := read_n_spec hwf count
    exact ⟨_, b1, h⟩
  · obtain ⟨b1, h, -⟩ := write_spec hwf x
    exact ⟨_, b1, h⟩
  · obtain ⟨b1, h, -⟩ := write_all_spec hwf xs
    exact ⟨_, b1, h⟩
  · obtain ⟨b1, h, -⟩ := read_spec hwf
    exact ⟨_, b1, h⟩
  · obtain ⟨b1, h, -⟩ := read_all_spec hwf
    exact ⟨_, b1, h⟩

/-- C26, evaluated: capacity 3, in the state with `read_index = 2` and
`write_index = 3` reached by `write_all [1, 2, 3, 4, 5], read, read`. -/
theorem index_assertion_safety_witness :
    (∃ e, (new 3 : Option (Exit (SPSCRingBuffer Nat))) = some e ∧
      (3 + 1 ≤ max_size Nat → ∃ b0, e = .returned b0 ∧ Reachable 3 b0)) ∧
    (2 ≤ 3 ∧ 3 ≤ 3 ∧ capacity (⟨[1, 2, 3, 0], 3, 2⟩ : SPSCRingBuffer Nat) = some 3 ∧
      (∃ full, is_full (⟨[1, 2, 3, 0], 3, 2⟩ : SPSCRingBuffer Nat) 2 3 = some full ∧
        (full = false →
          ∃ availables, writable (⟨[1, 2, 3, 0], 3, 2⟩ : SPSCRingBuffer Nat) 2 3
              = some availables ∧
            1 ≤ availables ∧ availables ≤ 3 ∧
            ∀ count, min count availables ≤ 3 ∧ 3 + min count availables ≤ SIZE_MAX ∧
              size_add 3 (min count availables) = 3 + min count availables ∧
              ∃ idx, advance_index (⟨[1, 2, 3, 0], 3, 2⟩ : SPSCRingBuffer Nat) 3
                  (min count availables) = some idx ∧ idx ≤ 3)) ∧
      (∀ x : Nat, ∃ num b1, write (⟨[1, 2, 3, 0], 3, 2⟩ : SPSCRingBuffer Nat) x
        = some (num, b1)) ∧
      (∃ values b1, read_all (⟨[1, 2, 3, 0], 3, 2⟩ : SPSCRingBuffer Nat)
        = some (values, b1))) :=
  have h := (index_assertion_safety (α := Nat) 3 (by decide) (by decide)).2 ⟨[1, 2, 3, 0], 3, 2⟩
    (Reachable.of_run [.write_all [1, 2, 3, 4, 5], .read, .read]
      (s := ⟨⟨[0, 0, 0, 0], 0, 0⟩, [], []⟩) (t := ⟨⟨[1, 2, 3, 0], 3, 2⟩, [1, 2, 3], [1, 2]⟩)
      (Reachable.init (by rfl)) (by rfl))
  ⟨(index_assertion_safety (α := Nat) 3 (by decide) (by decide)).1, h.2.1, h.2.2.1, h.2.2.2.1,
    h.2.2.2.2.2.1, h.2.2.2.2.2.2.2.2.2.1, h.2.2.2.2.2.2.2.2.2.2.2.2⟩

theorem capacity_of_length {N : Nat} {b : SPSCRingBuffer α} (hl : b.buffer.length = N + 1)
    (hmax : N < SIZE_MAX) : b.capacity = some N := by
  have e : size_sub (N + 1) 1 = N := by
    rw [size_sub_eq (by omega) (by omega)]; rfl
  simp [capacity, assert, hl, e]

theorem readable_of_length {N : Nat} {b : SPSCRingBuffer α} (hl : b.buffer.length = N + 1)
    (hmax : N < SIZE_MAX) {rd wr : Nat} (hrd : rd ≤ N) (hwr : wr ≤ N) :
    b.readable rd wr = some (if rd ≤ wr then wr - rd else N + 1 - rd + wr) := by
  have hs := hmax
  simp only [SIZE_MAX] at hs
  unfold readable
  simp only [assert, capacity_of_length hl hmax, hl]
  rw [if_pos (by omega), if_pos (by omega)]
  by_cases c : rd ≤ wr
  · have e : size_sub wr rd = wr - rd := size_sub_eq c (by simp only [SIZE_MAX]; omega)
    simp [c, e]
  · have e1 : size_sub rd wr = rd - wr :=
      size_sub_eq (by omega) (by simp only [SIZE_MAX]; omega)
    have e2 : size_sub (rd - wr) 1 = rd - wr - 1 :=
      size_sub_eq (by omega) (by simp only [SIZE_MAX]; omega)
    have e3 : size_sub N (rd - wr - 1) = N - (rd - wr - 1) :=
      size_sub_eq (by omega) (by simp only [SIZE_MAX]; omega)
    simp [c, e1, e2, e3]
    omega

theorem writable_of_length {N : Nat} {b : SPSCRingBuffer α} (hl : b.buffer.length = N + 1)
    (hmax : N < SIZE_MAX) {rd wr : Nat} (hrd : rd ≤ N) (hwr : wr ≤ N) :
    b.writable rd wr = some (N - (if rd ≤ wr then wr - rd else N + 1 - rd + wr)) := by
  have hs := hmax
  simp only [SIZE_MAX] at hs
  have e : size_sub N (if rd ≤ wr then wr - rd else N + 1 - rd + wr)
      = N - (if rd ≤ wr then wr - rd else N + 1 - rd + wr) :=
    size_sub_eq (by split <;> omega) (by simp only [SIZE_MAX]; omega)
  simp [writable, capacity_of_length hl hmax, readable_of_length hl hmax hrd hwr, e]

theorem is_full_of_length {N : Nat} {b : SPSCRingBuffer α} (hl : b.buffer.length = N + 1)
    (hN : 1 ≤ N) (hmax : N < SIZE_MAX) {rd wr : Nat} (hrd : rd ≤ N) (hwr : wr ≤ N) :
    b.is_full rd wr = some (decide ((if rd ≤ wr then wr - rd else N + 1 - rd + wr) = N)) := by
  have hs := hmax
  simp only [SIZE_MAX] at hs
  have e : size_add wr 1 = wr + 1 := size_add_eq (by simp only [SIZE_MAX]; omega)
  unfold is_full
  rw [if_neg (by omega), e, hl, mod_of_lt_two_mul (a := wr + 1) (m := N + 1) (by omega)]
  congr 1
  rw [Bool.eq_iff_iff]
  simp only [beq_iff_eq, decide_eq_true_eq]
  split_ifs <;> omega

theorem count_emod {N rd wr : Nat} (hrd : rd ≤ N) (hwr : wr ≤ N) :
    (((if rd ≤ wr then wr - rd else N + 1 - rd + wr : Nat)) : Int)
      = ((wr : Int) - (rd : Int)) % ((N : Int) + 1) := by
  by_cases c : rd ≤ wr
  · rw [if_pos c, Int.emod_eq_of_lt (by omega) (by omega)]
    omega
  · rw [if_neg c, ← Int.add_emod_self, Int.emod_eq_of_lt (by omega) (by omega)]
    omega

/-- C28. Empty and full are distinguishable and match the element count. For a
buffer of `N + 1` slots with `N ≥ 1` (and `N + 1` a `size_t` value) and all `rd_idx`,
`wr_idx` in `[0, N]`: `readable` returns a count `r ≤ N`, `writable` returns `N - r`,
`r` is `(wr_idx - rd_idx) mod (N + 1)`, `is_empty` holds iff `r = 0`, `is_full` holds
iff `r = N`, which is iff the writable count is 0, and `is_empty` and `is_full` never
hold together. In a reachable state, at its own indices, `r` is the number of unread
elements, and `write` returns 0 (leaving the buffer as it is) exactly when `r = N`. -/
theorem empty_full_distinguishable [Inhabited α] [Sized α] {N : Nat} (b : SPSCRingBuffer α)
    (hl : b.buffer.length = N + 1) (hN : 1 ≤ N) (hmax : N < SIZE_MAX) (rd wr : Nat)
    (hrd : rd ≤ N) (hwr : wr ≤ N) :
    ∃ r, b.readable rd wr = some r ∧ b.writable rd wr = some (N - r) ∧ r ≤ N ∧
      (r : Int) = ((wr : Int) - (rd : Int)) % ((N : Int) + 1) ∧
      b.is_empty rd wr = decide (r = 0) ∧
      b.is_full rd wr = some (decide (r = N)) ∧
      (r = N ↔ N - r = 0) ∧
      ¬ (b.is_empty rd wr = true ∧ b.is_full rd wr = some true) ∧
      (Reachable N b → rd = b.read_index → wr = b.write_index →
        r = (unread b).length ∧
        ∀ x, ∃ n b1, b.write x = some (n, b1) ∧ (n = 0 ↔ r = N) ∧ (n = 0 → b1 = b)) := by
  have hr := readable_of_length hl hmax hrd hwr
  have hw := writable_of_length hl hmax hrd hwr
  have hf := is_full_of_length hl hN hmax hrd hwr
  have hc := count_emod hrd hwr
  have hle : (if rd ≤ wr then wr - rd else N + 1 - rd + wr) ≤ N := by split <;> omega
  have h0 : (if rd ≤ wr then wr - rd else N + 1 - rd + wr) = 0 ↔ wr = rd := by
    split <;> omega
  refine ⟨_, hr, hw, hle, hc, ?_, hf, by omega, ?_, ?_⟩
  · unfold is_empty
    rw [Bool.eq_iff_iff]
    simp only [beq_iff_eq, decide_eq_true_eq]
    exact h0.symm
  · rintro ⟨he, hfu⟩
    rw [hf] at hfu
    simp only [is_empty, beq_iff_eq] at he
    simp only [Option.some.injEq, decide_eq_true_eq] at hfu
    rw [h0.mpr he] at hfu
    omega
  · intro hreach hrd' hwr'
    have hwf := hreach.wf
    have hu := unread_length hwf
    subst hrd' hwr'
    rw [← hu]
    refine ⟨rfl, fun x => ?_⟩
    obtain ⟨b1, h1, -, -, -, h5⟩ := write_spec hwf x
    refine ⟨_, b1, h1, ?_, h5⟩
    have := unread_length_le hwf
    omega

/-- C28, evaluated on a full buffer of capacity 2 (`read_index = 1`, `write_index = 0`). -/
theorem empty_full_distinguishable_witness :
    ∃ r, readable (⟨[1, 2, 3], 0, 1⟩ : SPSCRingBuffer Nat) 1 0 = some r ∧
      writable (⟨[1, 2, 3], 0, 1⟩ : SPSCRingBuffer Nat) 1 0 = some (2 - r) ∧ r ≤ 2 ∧
      (r : Int) = ((0 : Nat) - (1 : Nat) : Int) % ((2 : Nat) + 1 : Int) ∧
      is_empty (⟨[1, 2, 3], 0, 1⟩ : SPSCRingBuffer Nat) 1 0 = decide (r = 0) ∧
      is_full (⟨[1, 2, 3], 0, 1⟩ : SPSCRingBuffer Nat) 1 0 = some (decide (r = 2)) ∧
      (r = 2 ↔ 2 - r = 0) ∧
      ¬ (is_empty (⟨[1, 2, 3], 0, 1⟩ : SPSCRingBuffer Nat) 1 0 = true ∧
        is_full (⟨[1, 2, 3], 0, 1⟩ : SPSCRingBuffer Nat) 1 0 = some true) ∧
      (Reachable 2 (⟨[1, 2, 3], 0, 1⟩ : SPSCRingBuffer Nat) → 1 = 1 → 0 = 0 →
        r = (unread (⟨[1, 2, 3], 0, 1⟩ : SPSCRingBuffer Nat)).length ∧
        ∀ x, ∃ n b1, write (⟨[1, 2, 3], 0, 1⟩ : SPSCRingBuffer Nat) x = some (n, b1) ∧
          (n = 0 ↔ r = 2) ∧ (n = 0 → b1 = ⟨[1, 2, 3], 0, 1⟩)) :=
  empty_full_distinguishable (N := 2) ⟨[1, 2, 3], 0, 1⟩ (by rfl) (by decide) (by decide) 1 0
    (by decide) (by decide)

theorem elementwise_write_length (buffer : List α) (idx : Nat) (data : List α) (n : Nat) :
    (elementwise_write buffer idx data n).length = buffer.length := by
  induction n with
  | zero => rfl
  | succ n ih =>
    unfold elementwise_write
    cases data[n]? with
    | none => exact ih
    | some x => simp only [List.length_set]; exact ih

theorem elementwise_write_getElem? {buffer data : List α} {idx L : Nat}
    (hL : buffer.length = L) (hidx : idx < L) :
    ∀ n, n ≤ L → n ≤ data.length → ∀ p,
      (elementwise_write buffer idx data n)[p]? =
        if p < L ∧ (if idx ≤ p then p - idx else p + L - idx) < n then
          data[if idx ≤ p then p - idx else p + L - idx]?
        else buffer[p]? := by
  intro n
  induction n with
  | zero => intro _ _ p; simp [elementwise_write]
  | succ n ih =>
    intro hn hd p
    unfold elementwise_write
    obtain ⟨x, hdn⟩ : ∃ x, data[n]? = some x :=
      ⟨_, List.getElem?_eq_getElem (show n < data.length by omega)⟩
    rw [hdn]
    simp only
    rw [List.getElem?_set, ih (by omega) (by omega) p, elementwise_write_length, hL]
    have hq := mod_succ_cases (a := idx + n) (N := L - 1) (by omega)
    rw [show L - 1 + 1 = L by omega] at hq
    generalize (idx + n) % L = q at hq ⊢
    have ho : (idx ≤ p ∧ (if idx ≤ p then p - idx else p + L - idx) = p - idx) ∨
        (p < idx ∧ (if idx ≤ p then p - idx else p + L - idx) = p + L - idx) := by
      split
      · exact Or.inl ⟨‹_›, rfl⟩
      · exact Or.inr ⟨by omega, rfl⟩
    generalize (if idx ≤ p then p - idx else p + L - idx) = off at ho ⊢
    by_cases c : q = p
    · have hp : p < L := by omega
      have hoff : off = n := by omega
      subst hoff
      rw [if_pos c, if_pos (by omega), if_pos ⟨hp, by omega⟩, hdn]
    · rw [if_neg c]
      by_cases hp : p < L
      · have hoff : off ≠ n := by omega
        by_cases c2 : off < n
        · rw [if_pos ⟨hp, c2⟩, if_pos ⟨hp, by omega⟩]
        · rw [if_neg (fun h => c2 h.2), if_neg (fun h => by have := h.2; omega)]
      · rw [if_neg (fun h => hp h.1), if_neg (fun h => hp h.1)]

theorem elementwise_read_length (buffer : List α) (idx : Nat) (hb : buffer ≠ []) (n : Nat) :
    (elementwise_read buffer idx n).length = n := by
  have hpos : 0 < buffer.length := List.length_pos.mpr hb
  induction n with
  | zero => rfl
  | succ n ih =>
    unfold elementwise_read
    rw [List.length_append, ih,
      List.getElem?_eq_getElem (Nat.mod_lt _ hpos)]
    rfl

theorem take_eq_elementwise_read {N : Nat} {b : SPSCRingBuffer α} (h : WF N b) :
    ∀ n, n ≤ (unread b).length →
      (unread b).take n = elementwise_read b.buffer b.read_index n := by
  intro n
  induction n with
  | zero => intro _; rfl
  | succ n ih =>
    intro hn
    unfold elementwise_read
    rw [List.take_succ, ih (by omega), unread_getElem? h, if_pos (by omega), h.len]

/-- The two `copy` calls of the private `write` and its result. -/
theorem write_n_copies {N : Nat} {b : SPSCRingBuffer α} (h : WF N b) (data : List α)
    (count : Nat) (hc : count ≤ data.length) :
    ∃ buf1 buf2,
      copy b.buffer b.write_index data 0
        (min (N + 1 - b.write_index) (min count (N - (unread b).length))) = some buf1 ∧
      copy buf1 0 data (min (N + 1 - b.write_index) (min count (N - (unread b).length)))
        (min count (N - (unread b).length)
          - min (N + 1 - b.write_index) (min count (N - (unread b).length))) = some buf2 ∧
      b.write_n data count = some (min count (N - (unread b).length),
        ⟨buf2, (b.write_index + min count (N - (unread b).length)) % (N + 1),
          b.read_index⟩) := by
  have hl := h.len; have hs := h.small; have hrd := h.rd; have hwr := h.wr; have hp := h.pos
  have hule := unread_length_le h
  simp only [SIZE_MAX] at hs
  have hnum := min_cases count (N - (unread b).length)
  generalize hnumdef : min count (N - (unread b).length) = num at hnum ⊢
  have hfirst := min_cases (N + 1 - b.write_index) num
  generalize hfirstdef : min (N + 1 - b.write_index) num = first at hfirst ⊢
  obtain ⟨buf1, hb1⟩ := copy_some b.buffer data (d := b.write_index) (s := 0) (n := first)
    (by omega) (by omega)
  have hl1 := copy_length hb1
  obtain ⟨buf2, hb2⟩ := copy_some buf1 data (d := 0) (s := first) (n := num - first)
    (by omega) (by omega)
  have hl2 := copy_length hb2
  refine ⟨buf1, buf2, hb1, hb2, ?_⟩
  unfold write_n
  simp only [is_full_eq h, Option.bind_eq_bind, Option.some_bind]
  by_cases c : (unread b).length = N ∨ count = 0
  · have e : num = 0 := by omega
    have ef : first = 0 := by omega
    have c2 : (decide ((unread b).length = N) || count == 0) = true := by
      simpa using c
    rw [if_pos c2]
    subst e ef
    have e1 : buf1 = b.buffer := by
      unfold copy at hb1
      rw [if_pos (by omega)] at hb1
      simp only [List.take_zero, List.append_nil, Nat.add_zero, List.take_append_drop,
        Option.some.injEq] at hb1
      exact hb1.symm
    have e2 : buf2 = buf1 := by
      unfold copy at hb2
      rw [if_pos (by omega)] at hb2
      simp only [List.take_zero, List.append_nil, Nat.add_zero, List.drop_zero, Nat.sub_self,
        List.nil_append, Option.some.injEq] at hb2
      exact hb2.symm
    rw [e2, e1, Nat.add_zero, Nat.mod_eq_of_lt (by omega)]
    rfl
  · have c2 : ¬ (decide ((unread b).length = N) || count == 0) = true := by
      simpa using c
    rw [if_neg c2]
    simp only [writable_eq h, capacity_eq h, Option.some_bind, assert]
    rw [if_pos (by omega)]
    simp only [Option.some_bind, hl]
    have e1 : size_sub (N + 1) b.write_index = N + 1 - b.write_index :=
      size_sub_eq (by omega) (by simp only [SIZE_MAX]; omega)
    rw [e1, hnumdef, hfirstdef]
    have e2 : size_sub num first = num - first :=
      size_sub_eq (by omega) (by simp only [SIZE_MAX]; omega)
    rw [e2, hb1]
    simp only [Option.some_bind]
    rw [hb2]
    simp only [Option.some_bind]
    have wf1 : WF N ({ b with buffer := buf2 } : SPSCRingBuffer α) :=
      ⟨by simp only; omega, hp, h.small, hrd, hwr⟩
    rw [advance_index_eq wf1 hwr (by omega)]
    rfl

theorem copies_eq_elementwise {buf buf1 buf2 data : List α} {N wr num first : Nat}
    (hl : buf.length = N + 1) (hwr : wr ≤ N) (hnum : num ≤ N) (hd : num ≤ data.length)
    (hfirst : (first = N + 1 - wr ∧ N + 1 - wr ≤ num) ∨ (first = num ∧ num ≤ N + 1 - wr))
    (hb1 : copy buf wr data 0 first = some buf1)
    (hb2 : copy buf1 0 data first (num - first) = some buf2) :
    buf2 = elementwise_write buf wr data num := by
  apply List.ext_getElem?
  intro p
  rw [copy_getElem? hb2, copy_getElem? hb1,
    elementwise_write_getElem? hl (by omega) num (by omega) hd p]
  have ho : (wr ≤ p ∧ (if wr ≤ p then p - wr else p + (N + 1) - wr) = p - wr) ∨
      (p < wr ∧ (if wr ≤ p then p - wr else p + (N + 1) - wr) = p + (N + 1) - wr) := by
    split
    · exact Or.inl ⟨‹_›, rfl⟩
    · exact Or.inr ⟨by omega, rfl⟩
  generalize (if wr ≤ p then p - wr else p + (N + 1) - wr) = off at ho ⊢
  by_cases c3 : 0 ≤ p ∧ p < 0 + (num - first)
  · rw [if_pos c3, if_pos ⟨by omega, by omega⟩]
    congr 1; omega
  · rw [if_neg c3]
    by_cases c4 : wr ≤ p ∧ p < wr + first
    · rw [if_pos c4, if_pos ⟨by omega, by omega⟩]
      congr 1; omega
    · rw [if_neg c4]
      by_cases hp : p < N + 1
      · rw [if_neg (fun h => by have := h.2; omega)]
      · rw [if_neg (fun h => hp h.1)]

/-- C29. The two-segment copy is the element-wise modular copy. In every reachable
state, the private `write` of `count` elements returns the accepted count `num` and the
array afterwards is the one the element-wise copy gives: element `i` of the input, for
`i < num`, is in slot `(write_index + i) mod (N + 1)`, and every other slot is as
before. The private `read` returns, and its result is the one the element-wise copy
gives: element `i` is the content of slot `(read_index + i) mod (N + 1)`. In both,
`first_part + second_part` is the count, `first_part` is at most `(N + 1) - idx`, and
`second_part > 0` exactly when `idx` plus the count exceeds `N + 1`, that is when the
region wraps. -/
theorem two_segment_copy [Inhabited α] [Sized α] {N : Nat} {b : SPSCRingBuffer α}
    (hr : Reachable N b) (data : List α) (count : Nat) (hc : count ≤ data.length)
    (wanted : Nat) :
    (∃ num b1, b.write_n data count = some (num, b1) ∧ num ≤ count ∧
      b1.buffer = elementwise_write b.buffer b.write_index data num ∧
      (∀ i, i < num → b1.buffer[(b.write_index + i) % (N + 1)]? = data[i]?) ∧
      (∀ p, (∀ i, i < num → p ≠ (b.write_index + i) % (N + 1)) →
        b1.buffer[p]? = b.buffer[p]?) ∧
      min (size_sub b.buffer.length b.write_index) num
        + size_sub num (min (size_sub b.buffer.length b.write_index) num) = num ∧
      min (size_sub b.buffer.length b.write_index) num ≤ N + 1 - b.write_index ∧
      (0 < size_sub num (min (size_sub b.buffer.length b.write_index) num) ↔
        N + 1 < b.write_index + num)) ∧
    (∃ values b1, b.read_n wanted = some (values, b1) ∧ values.length ≤ wanted ∧
      values = elementwise_read b.buffer b.read_index values.length ∧
      (∀ i, i < values.length →
        values[i]? = b.buffer[(b.read_index + i) % (N + 1)]?) ∧
      min (size_sub b.buffer.length b.read_index) values.length
        + size_sub values.length (min (size_sub b.buffer.length b.read_index) values.length)
        = values.length ∧
      min (size_sub b.buffer.length b.read_index) values.length ≤ N + 1 - b.read_index ∧
      (0 < size_sub values.length
          (min (size_sub b.buffer.length b.read_index) values.length) ↔
        N + 1 < b.read_index + values.length)) := by
  have h := hr.wf
  have hl := h.len; have hs := h.small; have hrd := h.rd; have hwr := h.wr; have hp := h.pos
  have hule := unread_length_le h
  simp only [SIZE_MAX] at hs
  have hseg : ∀ idx num : Nat, idx ≤ N → num ≤ N →
      min (size_sub b.buffer.length idx) num
        + size_sub num (min (size_sub b.buffer.length idx) num) = num ∧
      min (size_sub b.buffer.length idx) num ≤ N + 1 - idx ∧
      (0 < size_sub num (min (size_sub b.buffer.length idx) num) ↔ N + 1 < idx + num) := by
    intro idx num hi hn
    have e1 : size_sub b.buffer.length idx = N + 1 - idx := by
      rw [hl]; exact size_sub_eq (by omega) (by simp only [SIZE_MAX]; omega)
    rw [e1]
    have hfirst := min_cases (N + 1 - idx) num
    generalize min (N + 1 - idx) num = first at hfirst ⊢
    have e2 : size_sub num first = num - first :=
      size_sub_eq (by omega) (by simp only [SIZE_MAX]; omega)
    rw [e2]
    omega
  constructor
  · obtain ⟨buf1, buf2, hb1, hb2, hw⟩ := write_n_copies h data count hc
    have hnum := min_cases count (N - (unread b).length)
    generalize min count (N - (unread b).length) = num at hnum hb1 hb2 hw
    have hfirst := min_cases (N + 1 - b.write_index) num
    generalize min (N + 1 - b.write_index) num = first at hfirst hb1 hb2
    have hew := copies_eq_elementwise hl hwr (show num ≤ N by omega) (by omega) hfirst hb1 hb2
    refine ⟨num, _, hw, by omega, hew, fun i hi => ?_, fun p hpne => ?_,
      hseg _ _ hwr (by omega)⟩
    · show buf2[(b.write_index + i) % (N + 1)]? = data[i]?
      rw [hew, elementwise_write_getElem? hl (by omega) num (by omega) (by omega)]
      have hq := mod_succ_cases (a := b.write_index + i) (N := N) (by omega)
      generalize (b.write_index + i) % (N + 1) = q at hq ⊢
      have ho : (if b.write_index ≤ q then q - b.write_index
          else q + (N + 1) - b.write_index) = i := by split <;> omega
      rw [ho, if_pos ⟨by omega, hi⟩]
    · show buf2[p]? = b.buffer[p]?
      rw [hew, elementwise_write_getElem? hl (by omega) num (by omega) (by omega)]
      by_cases c : p < N + 1 ∧ (if b.write_index ≤ p then p - b.write_index
          else p + (N + 1) - b.write_index) < num
      · exfalso
        apply hpne _ c.2
        have hq := mod_succ_cases (a := b.write_index + (if b.write_index ≤ p
          then p - b.write_index else p + (N + 1) - b.write_index)) (N := N)
          (by split <;> omega)
        obtain ⟨c1, c2⟩ := c
        have ho : (b.write_index ≤ p ∧ (if b.write_index ≤ p then p - b.write_index
            else p + (N + 1) - b.write_index) = p - b.write_index) ∨
            (p < b.write_index ∧ (if b.write_index ≤ p then p - b.write_index
            else p + (N + 1) - b.write_index) = p + (N + 1) - b.write_index) := by
          split
          · exact Or.inl ⟨‹_›, rfl⟩
          · exact Or.inr ⟨by omega, rfl⟩
        generalize (if b.write_index ≤ p then p - b.write_index
            else p + (N + 1) - b.write_index) = off at ho hq c2 ⊢
        omega
      · rw [if_neg c]
  · obtain ⟨b1, h1, -, -, -, -, -, -⟩ := read_n_spec h wanted
    have hlen : ((unread b).take wanted).length = min wanted (unread b).length :=
      List.length_take _ _
    refine ⟨_, b1, h1, by omega, ?_, fun i hi => ?_, hseg _ _ hrd (by omega)⟩
    · have := take_eq_elementwise_read h (min wanted (unread b).length) (by omega)
      rw [hlen, ← this]
      rcases min_cases wanted (unread b).length with ⟨e, _⟩ | ⟨e, hle⟩
      · rw [e]
      · rw [e, List.take_of_length_le hle, List.take_of_length_le (Nat.le_refl _)]
    · rw [List.getElem?_take, if_pos (by omega), unread_getElem? h, if_pos (by omega)]

/-- C29, evaluated: capacity 3 with `read_index = 2`, `write_index = 3` and one unread
element; a `write` of three elements accepts two, into slots 3 and 0, and a `read` of
two returns the unread element. -/
theorem two_segment_copy_witness :
    (∃ num b1, write_n (⟨[1, 2, 3, 0], 3, 2⟩ : SPSCRingBuffer Nat) [6, 7, 8] 3
        = some (num, b1) ∧ num ≤ 3 ∧
      b1.buffer = elementwise_write [1, 2, 3, 0] 3 [6, 7, 8] num ∧
      (∀ i, i < num → b1.buffer[(3 + i) % (3 + 1)]? = [6, 7, 8][i]?) ∧
      (∀ p, (∀ i, i < num → p ≠ (3 + i) % (3 + 1)) →
        b1.buffer[p]? = [1, 2, 3, 0][p]?) ∧
      min (size_sub [1, 2, 3, 0].length 3) num
        + size_sub num (min (size_sub [1, 2, 3, 0].length 3) num) = num ∧
      min (size_sub [1, 2, 3, 0].length 3) num ≤ 3 + 1 - 3 ∧
      (0 < size_sub num (min (size_sub [1, 2, 3, 0].length 3) num) ↔ 3 + 1 < 3 + num)) ∧
    (∃ values b1, read_n (⟨[1, 2, 3, 0], 3, 2⟩ : SPSCRingBuffer Nat) 2 = some (values, b1) ∧
      values.length ≤ 2 ∧
      values = elementwise_read [1, 2, 3, 0] 2 values.length ∧
      (∀ i, i < values.length → values[i]? = [1, 2, 3, 0][(2 + i) % (3 + 1)]?) ∧
      min (size_sub [1, 2, 3, 0].length 2) values.length
        + size_sub values.length (min (size_sub [1, 2, 3, 0].length 2) values.length)
        = values.length ∧
      min (size_sub [1, 2, 3, 0].length 2) values.length ≤ 3 + 1 - 2 ∧
      (0 < size_sub values.length (min (size_sub [1, 2, 3, 0].length 2) values.length) ↔
        3 + 1 < 2 + values.length)) :=
  two_segment_copy (N := 3)
    (Reachable.of_run [.write_all [1, 2, 3, 4, 5], .read, .read]
      (s := ⟨⟨[0, 0, 0, 0], 0, 0⟩, [], []⟩) (t := ⟨⟨[1, 2, 3, 0], 3, 2⟩, [1, 2, 3], [1, 2]⟩)
      (Reachable.init (by rfl)) (by rfl))
    [6, 7, 8] 3 (by decide) 2

/-- The unread sequence seen through an older write index, in a buffer whose slots a
later `write` has changed, is the old unread sequence. -/
theorem unread_stale {N : Nat} {b bp : SPSCRingBuffer α} (h : WF N b) (hp : WF N bp)
    (hrd : bp.read_index = b.read_index) {ys : List α} (hu : unread bp = unread b ++ ys) :
    unread (⟨bp.buffer, b.write_index, b.read_index⟩ : SPSCRingBuffer α) = unread b := by
  have wfs : WF N (⟨bp.buffer, b.write_index, b.read_index⟩ : SPSCRingBuffer α) :=
    ⟨hp.len, h.pos, h.small, h.rd, h.wr⟩
  have hlen : (unread (⟨bp.buffer, b.write_index, b.read_index⟩ : SPSCRingBuffer α)).length
      = (unread b).length := by
    rw [unread_length wfs, unread_length h]
  apply List.ext_getElem?
  intro i
  rw [unread_getElem? wfs, hlen]
  by_cases c : i < (unread b).length
  · rw [if_pos c]
    have h1 := unread_getElem? hp i
    rw [hu, List.getElem?_append_left c, List.length_append, if_pos (by omega), hrd] at h1
    exact h1.symm
  · rw [if_neg c]
    exact (List.getElem?_eq_none (by omega)).symm

/-- C27. Stale snapshots are safe. Let the array have `N + 1` slots,
`1 ≤ N < SIZE_MAX / 2`, both indices in `[0, N]`, `r` the readable and `a` the writable
count at these indices. If the consumer advances `read_index` by `k ≤ r`, the writable
count at the new index is `a + k`: the count `a` that the producer computes from the
older index is exactly `k` smaller, and the `a` slots from `write_index` on are
disjoint from the `r - k` slots that are readable now. If the producer advances
`write_index` by `m ≤ a`, the readable count at the new index is `r + m`. For a `write`
and a `read` that both start from this state, each with the older index of the other
thread: the write accepts `num ≤ a` elements, the read returns `values` of length at
most `r`; with both done, the unread sequence is what the read left followed by the
accepted elements; and the read run on the array as the write left it, with the older
`write_index`, returns the same `values`, which are an initial segment of the unread
sequence after the write. -/
theorem stale_snapshot_safe [Inhabited α] {N : Nat} {b : SPSCRingBuffer α}
    (hl : b.buffer.length = N + 1) (hN : 1 ≤ N) (hs : N < SIZE_MAX / 2)
    (hrd : b.read_index ≤ N) (hwr : b.write_index ≤ N)
    (data : List α) (count : Nat) (hc : count ≤ data.length) (wanted : Nat) :
    ∃ r a, b.readable b.read_index b.write_index = some r ∧
      b.writable b.read_index b.write_index = some a ∧ r + a = N ∧
      (∀ k, k ≤ r → ∃ rd, b.advance_index b.read_index k = some rd ∧ rd ≤ N ∧
        b.writable rd b.write_index = some (a + k) ∧
        b.readable rd b.write_index = some (r - k) ∧
        ∀ i j, i < a → j < r - k →
          (b.write_index + i) % (N + 1) ≠ (rd + j) % (N + 1)) ∧
      (∀ m, m ≤ a → ∃ wr, b.advance_index b.write_index m = some wr ∧ wr ≤ N ∧
        b.readable b.read_index wr = some (r + m) ∧
        b.writable b.read_index wr = some (a - m)) ∧
      ∃ num bp values bc,
        b.write_n data count = some (num, bp) ∧ b.read_n wanted = some (values, bc) ∧
        num ≤ a ∧ values.length ≤ r ∧
        bc.buffer = b.buffer ∧ bc.write_index = b.write_index ∧
        bp.read_index = b.read_index ∧
        b.advance_index b.read_index values.length = some bc.read_index ∧
        b.advance_index b.write_index num = some bp.write_index ∧
        unread (⟨bp.buffer, bp.write_index, bc.read_index⟩ : SPSCRingBuffer α)
          = unread bc ++ data.take num ∧
        read_n (⟨bp.buffer, b.write_index, b.read_index⟩ : SPSCRingBuffer α) wanted
          = some (values, ⟨bp.buffer, b.write_index, bc.read_index⟩) ∧
        values <+: unread bp ∧
        unread (⟨bp.buffer, bp.write_index, bc.read_index⟩ : SPSCRingBuffer α)
          = (unread bp).drop values.length := by
  have h : WF N b := ⟨hl, hN, hs, hrd, hwr⟩
  have hule := unread_length_le h
  have hcases := unread_length_cases h
  refine ⟨_, _, readable_eq h, writable_eq h, by omega, fun k hk => ?_, fun m hm => ?_, ?_⟩
  · obtain ⟨wf2, hlen⟩ := wf_advance_read h k hk
    have hm := mod_succ_cases (a := b.read_index + k) (N := N) (by omega)
    refine ⟨_, advance_index_eq h hrd (by omega), wf2.rd, ?_, ?_, fun i j hi hj => ?_⟩
    · have := writable_eq wf2
      rw [hlen] at this
      rw [show N - (unread b).length + k = N - ((unread b).length - k) by omega]
      exact this
    · have := readable_eq wf2
      rw [hlen] at this
      exact this
    · have h1 := mod_succ_cases (a := b.write_index + i) (N := N) (by omega)
      generalize (b.read_index + k) % (N + 1) = rd at hm ⊢
      have h2 := mod_succ_cases (a := rd + j) (N := N) (by omega)
      omega
  · obtain ⟨wf2, hlen⟩ := wf_advance_write h b.buffer hl (show m ≤ N - (unread b).length from hm)
    refine ⟨_, advance_index_eq h hwr (by omega), wf2.wr, ?_, ?_⟩
    · have := readable_eq wf2
      rw [hlen] at this
      exact this
    · have := writable_eq wf2
      rw [hlen] at this
      rw [show N - (unread b).length - m = N - ((unread b).length + m) by omega]
      exact this
  · obtain ⟨bp, p1, p2, p3, p4, p5, -⟩ := write_n_spec h data count hc
    obtain ⟨bc, c1, c2, c3, c4, c5, c6, -⟩ := read_n_spec h wanted
    have hvl : ((unread b).take wanted).length = min wanted (unread b).length :=
      List.length_take _ _
    have hstale := unread_stale h p2 p3 p5
    have wfs : WF N (⟨bp.buffer, b.write_index, b.read_index⟩ : SPSCRingBuffer α) :=
      ⟨p2.len, hN, hs, hrd, hwr⟩
    obtain ⟨bs, s1, -, s3, s4, s5, -, -⟩ := read_n_spec wfs wanted
    rw [hstale] at s1 s5
    have ebs : bs = ⟨bp.buffer, b.write_index, bc.read_index⟩ := by
      cases bs
      simp only at s3 s4 s5
      rw [c5]
      subst s3 s4 s5
      rfl
    obtain ⟨bq, q1, -, q3, q4, q5, q6, -⟩ := read_n_spec p2 ((unread b).take wanted).length
    have hmin : min ((unread b).take wanted).length (unread bp).length
        = min wanted (unread b).length := by
      rw [p5, List.length_append, hvl]; omega
    rw [hmin, p3] at q5
    have ebq : bq = ⟨bp.buffer, bp.write_index, bc.read_index⟩ := by
      cases bq
      simp only at q3 q4 q5
      rw [c5]
      subst q3 q4 q5
      rfl
    rw [ebq] at q6
    refine ⟨_, bp, _, bc, p1, c1, by omega, by rw [hvl]; omega, c4, c3, p3, ?_, ?_, ?_, ?_, ?_,
      q6⟩
    · rw [hvl, c5]
      exact advance_index_eq h hrd (by omega)
    · rw [p4]
      exact advance_index_eq h hwr (by omega)
    · rw [q6, p5, c6, List.drop_append_of_le_length (by rw [hvl]; omega), hvl]
      congr 1
      rcases min_cases wanted (unread b).length with ⟨e, _⟩ | ⟨e, hle⟩
      · rw [e]
      · rw [e, List.drop_of_length_le hle, List.drop_of_length_le (Nat.le_refl _)]
    · rw [s1, ebs]
    · rw [p5]
      exact (List.take_prefix _ _).trans (List.prefix_append _ _)

/-- C27, evaluated: capacity 3 with `read_index = 2`, `write_index = 3` and one unread
element; a `write` of three elements and a `read` of one, each unaware of the other. -/
theorem stale_snapshot_safe_witness :
    ∃ r a, readable (⟨[1, 2, 3, 0], 3, 2⟩ : SPSCRingBuffer Nat) 2 3 = some r ∧
      writable (⟨[1, 2, 3, 0], 3, 2⟩ : SPSCRingBuffer Nat) 2 3 = some a ∧ r + a = 3 ∧
      (∀ k, k ≤ r → ∃ rd, advance_index (⟨[1, 2, 3, 0], 3, 2⟩ : SPSCRingBuffer Nat) 2 k
          = some rd ∧ rd ≤ 3 ∧
        writable (⟨[1, 2, 3, 0], 3, 2⟩ : SPSCRingBuffer Nat) rd 3 = some (a + k) ∧
        readable (⟨[1, 2, 3, 0], 3, 2⟩ : SPSCRingBuffer Nat) rd 3 = some (r - k) ∧
        ∀ i j, i < a → j < r - k → (3 + i) % (3 + 1) ≠ (rd + j) % (3 + 1)) ∧
      (∀ m, m ≤ a → ∃ wr, advance_index (⟨[1, 2, 3, 0], 3, 2⟩ : SPSCRingBuffer Nat) 3 m
          = some wr ∧ wr ≤ 3 ∧
        readable (⟨[1, 2, 3, 0], 3, 2⟩ : SPSCRingBuffer Nat) 2 wr = some (r + m) ∧
        writable (⟨[1, 2, 3, 0], 3, 2⟩ : SPSCRingBuffer Nat) 2 wr = some (a - m)) ∧
      ∃ num bp values bc,
        write_n (⟨[1, 2, 3, 0], 3, 2⟩ : SPSCRingBuffer Nat) [6, 7, 8] 3 = some (num, bp) ∧
        read_n (⟨[1, 2, 3, 0], 3, 2⟩ : SPSCRingBuffer Nat) 1 = some (values, bc) ∧
        num ≤ a ∧ values.length ≤ r ∧
        bc.buffer = [1, 2, 3, 0] ∧ bc.write_index = 3 ∧ bp.read_index = 2 ∧
        advance_index (⟨[1, 2, 3, 0], 3, 2⟩ : SPSCRingBuffer Nat) 2 values.length
          = some bc.read_index ∧
        advance_index (⟨[1, 2, 3, 0], 3, 2⟩ : SPSCRingBuffer Nat) 3 num
          = some bp.write_index ∧
        unread (⟨bp.buffer, bp.write_index, bc.read_index⟩ : SPSCRingBuffer Nat)
          = unread bc ++ [6, 7, 8].take num ∧
        read_n (⟨bp.buffer, 3, 2⟩ : SPSCRingBuffer Nat) 1
          = some (values, ⟨bp.buffer, 3, bc.read_index⟩) ∧
        values <+: unread bp ∧
        unread (⟨bp.buffer, bp.write_index, bc.read_index⟩ : SPSCRingBuffer Nat)
          = (unread bp).drop values.length :=
  stale_snapshot_safe (N := 3) (b := ⟨[1, 2, 3, 0], 3, 2⟩) (by rfl) (by decide) (by decide)
    (by decide) (by decide) [6, 7, 8] 3 (by decide) 1

end SPSCRingBuffer

/-! ## The claims on the full buffer and the adaptive state of `DynamicRingBuffer` -/

namespace DynamicRingBuffer

variable {α : Type}

open SPSCRingBuffer (unread)

/-- C30. In every state that a run of `write`, `drain_writes` and `read_all` calls
with at least one `write` reaches from a fresh `DynamicRingBuffer(C)`: `C` is `2 ^ k`
with `k ≥ 1`; `batch_size` is a power of two `2 ^ j`, with `j ≤ 63`, and `threshold` is
`(C / 2) / 2 ^ j` rounded down; and an `onhold` batch, when present, is not empty and
has `batch_size` as its capacity. -/
theorem adaptive_state_invariant (C : Nat) (d0 : DynamicRingBuffer α)
    (h0 : new C = some (.returned d0)) (calls : List (Call α)) (s : Session α)
    (hrun : Session.run ⟨d0, [], []⟩ calls = some s) (hw : Call.written calls ≠ []) :
    (∃ k, 1 ≤ k ∧ C = 2 ^ k) ∧
    (∃ j, j ≤ 63 ∧ s.d.batch_size = 2 ^ j ∧ s.d.threshold = C / 2 / 2 ^ j) ∧
    (∀ b, s.d.onhold = some b → b.buf ≠ [] ∧ b.capacity = s.d.batch_size) := by
  obtain ⟨hwf0, -, -, hpow⟩ := dyn_new_spec h0
  obtain ⟨hwf, -, hfresh, -⟩ := Session.run_fresh h0 hrun
  refine ⟨?_, ?_, fun b hob => ?_⟩
  · rcases (and_pred_eq_zero_iff C).mp hpow with h | ⟨k, hk⟩
    · have := hwf0.two; omega
    · refine ⟨k, ?_, hk⟩
      by_contra hc
      have hk0 : k = 0 := by omega
      rw [hk0] at hk
      have := hwf0.two
      omega
  · rcases hfresh with ⟨-, -, h⟩ | h
    · exact absurd h hw
    · obtain ⟨j, hj, h1, h2, -⟩ := h
      exact ⟨j, hj, h1, h2⟩
  · obtain ⟨e1, -, e3⟩ := hwf.good.hold b hob
    exact ⟨e3, e1⟩

/-- C30, evaluated: capacity 4 after `write 1, write 2, write 3`, where `batch_size` is
2 and `threshold` is 1. -/
theorem adaptive_state_invariant_witness :
    (∃ k, 1 ≤ k ∧ 4 = 2 ^ k) ∧
    (∃ j, j ≤ 63 ∧ held.batch_size = 2 ^ j ∧ held.threshold = 4 / 2 / 2 ^ j) ∧
    (∀ b, held.onhold = some b → b.buf ≠ [] ∧ b.capacity = held.batch_size) :=
  adaptive_state_invariant 4 ⟨1, 0, none, 2, 0, ⟨[none, none, none, none, none], 0, 0⟩⟩ (by rfl)
    [.write 1, .write 2, .write 3] ⟨held, [1, 2, 3], []⟩ (by rfl) (by decide)

end DynamicRingBuffer

/-! ## The claim on repeated `wait()` of `SimpleSerialTaskQueue` -/

namespace SimpleSerialTaskQueue

variable {τ σ : Type}

/-- A `wait()` on an empty queue, the owner between two calls, changes nothing. -/
theorem System.step_wait_empty {exec : τ → σ → σ} {w0 : σ} {s : System τ σ}
    (hi : System.Inv exec w0 s) (ho : s.owner = .ready) (hq : s.q.queue = []) :
    s.step exec .wait = some s := by
  obtain ⟨hd, hw⟩ := hi.ready ho
  obtain ⟨⟨queue, destroyed, waiting⟩, owner, worker, world, dispatched, started, finished⟩ := s
  simp only at ho hq hd hw
  subst ho hq hd hw
  rfl

/-- C25. `wait()` is idempotent on an empty queue. In every state of every execution:
if the owner is between two calls and the queue is empty, a `wait()` returns without
blocking and changes nothing, so the queue is still empty and `waiting` is false, any
number of `wait()` calls in a row does the same, and a `dispatch` made afterwards passes
its assertions and stores its task; a `wait()` that returns, at once or after blocking,
leaves the queue empty and `waiting` false, so that the next `wait()` returns at once.
In the test, after `+1, +3, +5, +7, +9` the two `wait()` calls in a row return and
`number` is 25. -/
theorem wait_idempotent (exec : τ → σ → σ) (w0 : σ) (steps : List (Step τ))
    (s : System τ σ) (h : (System.init w0).run exec steps = some s) :
    (s.owner = .ready → s.q.queue = [] →
      s.step exec .wait = some s ∧ s.q.waiting = false ∧ s.q.destroyed = false ∧
      (∀ n, s.run exec (List.replicate n .wait) = some s) ∧
      ∀ f, ∃ t, s.step exec (.dispatch f) = some t ∧ t.q.queue = [some f] ∧
        t.dispatched = s.dispatched ++ [f]) ∧
    (∀ t, s.step exec .wait = some t → t.owner = .ready →
      t.q.queue = [] ∧ t.q.waiting = false ∧ t.step exec .wait = some t) ∧
    (∀ t, s.step exec .wait_wake = some t →
      t.owner = .ready ∧ t.q.queue = [] ∧ t.q.waiting = false ∧ t.step exec .wait = some t) ∧
    (∀ (as : List (Step Int)) (t : System Int Int),
      (System.init 0).run (fun f number => number + f) as = some t →
      t.dispatched = [1, 3, 5, 7, 9] → t.owner = .ready → t.q.queue = [] →
      t.run (fun f number => number + f) [.wait, .wait] = some t ∧ t.world = 25) := by
  have hi := System.reach_inv h
  have key : ∀ {ρ υ : Type} {ex : ρ → υ → υ} {v0 : υ} {u : System ρ υ},
      System.Inv ex v0 u → u.owner = .ready → u.q.queue = [] →
      ∀ n, u.run ex (List.replicate n .wait) = some u := by
    intro ρ υ ex v0 u hu ho hq n
    induction n with
    | zero => rfl
    | succ n ih =>
      rw [List.replicate_succ]
      simp only [System.run, System.step_wait_empty hu ho hq, Option.some_bind]
      exact ih
  refine ⟨fun ho hq => ⟨System.step_wait_empty hi ho hq, (hi.ready ho).2, (hi.ready ho).1,
    key hi ho hq, fun f => ?_⟩, fun t ht ho => ?_, fun t ht => ?_, fun as t ht hd ho hq => ?_⟩
  · obtain ⟨hd, hw⟩ := hi.ready ho
    obtain ⟨⟨queue, destroyed, waiting⟩, owner, worker, world, dispatched, started, finished⟩ := s
    simp only at ho hq hd hw
    subst ho hq hd hw
    exact ⟨_, rfl, rfl, rfl⟩
  · have hit := System.step_inv hi ht
    obtain ⟨w1, -, -, -⟩ := System.step_wait ht
    have hq : s.q.queue = [] := by
      rcases w1 rfl with ⟨-, b⟩ | ⟨c, -⟩
      · exact b
      · rw [ho] at c; cases c
    have hqt : t.q.queue = [] := by
      obtain ⟨⟨queue, destroyed, waiting⟩, owner, worker, world, dispatched, started,
        finished⟩ := s
      cases owner <;> simp only [System.step] at ht <;> try cases ht
      split_ifs at ht <;> cases ht <;> exact hq
    exact ⟨hqt, (hit.ready ho).2, System.step_wait_empty hit ho hqt⟩
  · have hit := System.step_inv hi ht
    obtain ⟨-, w2, -, -⟩ := System.step_wait ht
    obtain ⟨hq, hwo⟩ := w2 rfl
    have hto : t.owner = .ready ∧ t.q.queue = [] := by
      obtain ⟨⟨queue, destroyed, waiting⟩, owner, worker, world, dispatched, started,
        finished⟩ := s
      cases owner <;> simp only [System.step] at ht <;> try cases ht
      split_ifs at ht
      cases ht
      exact ⟨rfl, hq⟩
    exact ⟨hto.1, hto.2, (hit.ready hto.1).2, System.step_wait_empty hit hto.1 hto.2⟩
  · have hit := System.reach_inv ht
    refine ⟨key hit ho hq 2, ?_⟩
    rw [hit.world, (hit.empty hq).2.2, hd]
    rfl

/-- C25, evaluated right after a `wait()` that blocked until the one task was done. -/
theorem wait_idempotent_witness :
    ∃ s : System Int Int,
      (System.init 0).run (fun f number => number + f)
        [.dispatch 1, .wake, .wait, .run, .pop, .wait_wake] = some s ∧
      s.owner = .ready ∧ s.q.queue = [] ∧
      ((s.owner = .ready → s.q.queue = [] →
        s.step (fun f number => number + f) .wait = some s ∧ s.q.waiting = false ∧
        s.q.destroyed = false ∧
        (∀ n, s.run (fun f number => number + f) (List.replicate n .wait) = some s) ∧
        ∀ f, ∃ t, s.step (fun f number => number + f) (.dispatch f) = some t ∧
          t.q.queue = [some f] ∧ t.dispatched = s.dispatched ++ [f]) ∧
      (∀ t, s.step (fun f number => number + f) .wait = some t → t.owner = .ready →
        t.q.queue = [] ∧ t.q.waiting = false ∧
        t.step (fun f number => number + f) .wait = some t) ∧
      (∀ t, s.step (fun f number => number + f) .wait_wake = some t →
        t.owner = .ready ∧ t.q.queue = [] ∧ t.q.waiting = false ∧
        t.step (fun f number => number + f) .wait = some t) ∧
      (∀ (as : List (Step Int)) (t : System Int Int),
        (System.init 0).run (fun f number => number + f) as = some t →
        t.dispatched = [1, 3, 5, 7, 9] → t.owner = .ready → t.q.queue = [] →
        t.run (fun f number => number + f) [.wait, .wait] = some t ∧ t.world = 25)) :=
  ⟨⟨⟨[], false, false⟩, .ready, .notifying true, 1, [1], [1], [1]⟩, rfl, rfl, rfl,
    wait_idempotent (fun f number => number + f) 0
      [.dispatch 1, .wake, .wait, .run, .pop, .wait_wake] _ (by rfl)⟩

end SimpleSerialTaskQueue

/-! ## The claims on the order of tasks in `TaskQueue` -/

namespace TaskQueue

variable {τ σ : Type}

theorem enum_concat (l : List τ) (f : τ) : (l ++ [f]).enum = l.enum ++ [(l.length, f)] := by
  rw [List.enum_append]
  rfl

/-- One step of a queue with one worker keeps the executed tasks, the task in hand and
the queued tasks, in this order, equal to the dispatched tasks. -/
theorem System.serial_step_order {exec : τ → σ → σ} {w0 : σ} {s t : System τ σ} {a : Step τ}
    (hi : System.Inv exec w0 s) (hw : s.workers.length = 1)
    (ho : s.executed ++ s.inhand ++ s.q.queue = s.dispatched.enum)
    (h : s.step exec a = some t) :
    t.workers.length = 1 ∧ t.executed ++ t.inhand ++ t.q.queue = t.dispatched.enum := by
  have hlen := hi.futures_length
  obtain ⟨⟨queue, destroyed⟩, owner, workers, world, futures, dispatched, awaited, executed⟩ := s
  simp only at hw ho hlen
  match workers, hw with
  | [w], _ =>
    cases a with
    | dispatch f =>
      cases owner <;> simp only [System.step] at h <;> try cases h
      refine ⟨rfl, ?_⟩
      simp only [System.inhand, dispatch] at ho ⊢
      rw [enum_concat, ← ho, hlen]
      simp only [List.append_assoc]
    | await id =>
      cases owner <;> simp only [System.step] at h <;> try cases h
      split_ifs at h
      cases h
      exact ⟨rfl, ho⟩
    | destroy =>
      cases owner <;> simp only [System.step] at h <;> try cases h
      simp only [destroy, assert, Option.bind_eq_bind, Option.pure_def] at h
      split_ifs at h <;> simp at h
      subst h
      exact ⟨rfl, ho⟩
    | join =>
      cases owner <;> simp only [System.step] at h <;> try cases h
      split_ifs at h
      cases h
      exact ⟨rfl, ho⟩
    | wake i =>
      cases i with
      | succ i => simp [System.step] at h
      | zero =>
        cases w with
        | idle =>
          simp only [System.step, List.getElem?_cons_zero] at h
          split_ifs at h
          · cases h
            exact ⟨rfl, ho⟩
          · simp only [work_take, Option.bind_eq_bind, Option.pure_def] at h
            cases queue with
            | nil => simp at h
            | cons task rest =>
              simp only [Option.some_bind, Option.some.injEq] at h
              subst h
              refine ⟨rfl, ?_⟩
              simpa [System.inhand, Worker.hand] using ho
        | running task => simp [System.step] at h
        | exited => simp [System.step] at h
    | run i =>
      cases i with
      | succ i => simp [System.step] at h
      | zero =>
        cases w with
        | running task =>
          simp only [System.step, List.getElem?_cons_zero, Option.pure_def,
            Option.some.injEq] at h
          subst h
          refine ⟨rfl, ?_⟩
          simpa [System.inhand, Worker.hand] using ho
        | idle => simp [System.step] at h
        | exited => simp [System.step] at h

theorem System.serial_run_order {exec : τ → σ → σ} {w0 : σ} (as : List (Step τ)) :
    ∀ {s t : System τ σ}, System.Inv exec w0 s → s.workers.length = 1 →
      s.executed ++ s.inhand ++ s.q.queue = s.dispatched.enum → s.run exec as = some t →
      t.workers.length = 1 ∧ t.executed ++ t.inhand ++ t.q.queue = t.dispatched.enum := by
  induction as with
  | nil => intro s t _ hw ho h; cases h; exact ⟨hw, ho⟩
  | cons a as ih =>
    intro s t hi hw ho h
    simp only [System.run] at h
    cases h1 : s.step exec a with
    | none => rw [h1] at h; cases h
    | some s1 =>
      rw [h1] at h
      obtain ⟨hw1, ho1⟩ := System.serial_step_order hi hw ho h1
      exact ih (System.pool_step_inv hi h1) hw1 ho1 h

theorem System.serial_reach_order {exec : τ → σ → σ} {w0 : σ} {steps : List (Step τ)}
    {s : System τ σ} (h : (SerialTaskQueue.new w0).run exec steps = some s) :
    s.workers.length = 1 ∧ s.executed ++ s.inhand ++ s.q.queue = s.dispatched.enum :=
  System.serial_run_order steps (System.pool_init_inv exec 1 w0) rfl rfl h

theorem prefix_enum_getElem? {l : List τ} {e : List (Nat × τ)} (h : e <+: l.enum) (j : Nat) :
    e[j]? = if j < e.length then l[j]?.map (fun a => (j, a)) else none := by
  have he := List.prefix_iff_eq_take.mp h
  rw [he, List.getElem?_take, List.getElem?_enum, ← he]

theorem prefix_enum_mem_fst {l : List τ} {e : List (Nat × τ)} (h : e <+: l.enum) (k : Nat) :
    k ∈ e.map Prod.fst ↔ k < e.length := by
  have hle : e.length ≤ l.length := by
    have := h.length_le
    rw [List.enum_length] at this
    exact this
  constructor
  · intro hk
    obtain ⟨x, hx, rfl⟩ := List.mem_map.mp hk
    obtain ⟨n, hn⟩ := List.mem_iff_getElem?.mp hx
    rw [prefix_enum_getElem? h n] at hn
    split_ifs at hn with hlt
    cases hl : l[n]? with
    | none => rw [hl] at hn; cases hn
    | some a =>
      rw [hl] at hn
      simp only [Option.map_some', Option.some.injEq] at hn
      subst hn
      exact hlt
  · intro hk
    obtain ⟨a, hl⟩ : ∃ a, l[k]? = some a :=
      ⟨_, List.getElem?_eq_getElem (show k < l.length by omega)⟩
    have := prefix_enum_getElem? h k
    rw [if_pos hk, hl] at this
    exact List.mem_map.mpr ⟨_, List.mem_iff_getElem?.mpr ⟨k, this⟩, rfl⟩

theorem foldl_prefix_enum (exec : τ → σ → σ) {l : List τ} {e : List (Nat × τ)}
    (h : e <+: l.enum) (w0 : σ) :
    e.foldl (fun w task => exec task.2 w) w0
      = (l.take e.length).foldl (fun w f => exec f w) w0 := by
  have he := List.prefix_iff_eq_take.mp h
  have hm : e.map Prod.snd = l.take e.length := by
    conv_lhs => rw [he]
    rw [List.map_take, List.enum_map_snd]
  rw [← hm, List.foldl_map]

/-- C22. `SerialTaskQueue`, the `TaskQueue` with one worker, runs no two tasks at
once and completes them in dispatch order. In every state of every execution: there is
one worker, so at most one task is in hand; the executed tasks, the task in hand and
the queued tasks, in this order, are the dispatched tasks, each with the index of its
future; so the executed tasks are an initial segment of the dispatched ones and `world`
is the initial memory with that segment applied in dispatch order; when the future of
index `k` holds a result, so does the future of every `j ≤ k`, and the `j`-th executed
task is the `j`-th dispatched one; once `get()` has returned on the future of the last
dispatched task, every dispatched task is executed, none is in hand or queued, and
`world` is the initial memory with all of them applied in order. In the test, with the
seven tasks dispatched: when the worker holds the last task `number` is 0, so the task
sets it to 1 and returns 1; and once `futures.back().get()` has returned `number` is
1, which is `7 mod 2`. -/
theorem serial_queue_order (exec : τ → σ → σ) (w0 : σ) (steps : List (Step τ))
    (s : System τ σ) (h : (SerialTaskQueue.new w0).run exec steps = some s) :
    s.workers.length = 1 ∧ s.inhand.length ≤ 1 ∧
    s.executed ++ s.inhand ++ s.q.queue = s.dispatched.enum ∧
    s.executed <+: s.dispatched.enum ∧
    s.world = (s.dispatched.take s.executed.length).foldl (fun w f => exec f w) w0 ∧
    (∀ k : Nat, s.futures[k]? = some true → ∀ j : Nat, j ≤ k →
      s.futures[j]? = some true ∧
      ∃ f, s.dispatched[j]? = some f ∧ s.executed[j]? = some (j, f)) ∧
    (∀ k ∈ s.awaited, k + 1 = s.dispatched.length →
      s.executed = s.dispatched.enum ∧ s.inhand = [] ∧ s.q.queue = [] ∧
      s.world = s.dispatched.foldl (fun w f => exec f w) w0) ∧
    (∀ (as : List (Step Nat)) (t : System Nat Int),
      (SerialTaskQueue.new 0).run (fun id number => (serial_task id number).1) as = some t →
      t.dispatched = List.range 7 →
      (t.workers = [.running (6, 6)] → serial_task 6 t.world = (1, 1)) ∧
      (6 ∈ t.awaited → t.world = 1)) := by
  have key : ∀ {ρ υ : Type} (ex : ρ → υ → υ) (v0 : υ) (as : List (Step ρ)) (u : System ρ υ),
      (SerialTaskQueue.new v0).run ex as = some u →
      u.workers.length = 1 ∧ u.inhand.length ≤ 1 ∧
      u.executed ++ u.inhand ++ u.q.queue = u.dispatched.enum ∧
      u.executed <+: u.dispatched.enum ∧
      u.world = (u.dispatched.take u.executed.length).foldl (fun w f => ex f w) v0 ∧
      (∀ k : Nat, u.futures[k]? = some true → ∀ j : Nat, j ≤ k →
        u.futures[j]? = some true ∧
        ∃ f, u.dispatched[j]? = some f ∧ u.executed[j]? = some (j, f)) ∧
      (∀ k ∈ u.awaited, k + 1 = u.dispatched.length →
        u.executed = u.dispatched.enum ∧ u.inhand = [] ∧ u.q.queue = [] ∧
        u.world = u.dispatched.foldl (fun w f => ex f w) v0) := by
    intro ρ υ ex v0 as u hu
    have hi := System.pool_reach_inv hu
    obtain ⟨hw, ho⟩ := System.serial_reach_order hu
    have hpre : u.executed <+: u.dispatched.enum :=
      ⟨u.inhand ++ u.q.queue, by rw [← List.append_assoc]; exact ho⟩
    have hlen : u.executed.length ≤ u.dispatched.length := by
      have := hpre.length_le
      rw [List.enum_length] at this
      exact this
    have hworld : u.world
        = (u.dispatched.take u.executed.length).foldl (fun w f => ex f w) v0 := by
      rw [hi.world, foldl_prefix_enum ex hpre]
    have hin : u.inhand.length ≤ 1 := by
      unfold System.inhand
      match hws : u.workers, hw with
      | [w], _ => cases w <;> simp [Worker.hand]
    refine ⟨hw, hin, ho, hpre, hworld, fun k hk j hj => ?_, fun k hk hlast => ?_⟩
    · have hkl : k < u.executed.length :=
        (prefix_enum_mem_fst hpre k).mp ((hi.futures k).mp hk)
      have hjl : j < u.executed.length := by omega
      refine ⟨(hi.futures j).mpr ((prefix_enum_mem_fst hpre j).mpr hjl), ?_⟩
      obtain ⟨f, hl⟩ : ∃ f, u.dispatched[j]? = some f :=
        ⟨_, List.getElem?_eq_getElem (show j < u.dispatched.length by omega)⟩
      refine ⟨_, hl, ?_⟩
      rw [prefix_enum_getElem? hpre j, if_pos hjl, hl]
      rfl
    · have hkl : k < u.executed.length :=
        (prefix_enum_mem_fst hpre k).mp (hi.awaited k hk)
      have hfull : u.executed.length = u.dispatched.enum.length := by
        rw [List.enum_length]; omega
      have he : u.executed = u.dispatched.enum := hpre.eq_of_length hfull
      have hrest : u.inhand ++ u.q.queue = [] := by
        have := ho
        rw [List.append_assoc] at this
        conv_rhs at this => rw [← he, ← List.append_nil u.executed]
        exact List.append_cancel_left this
      obtain ⟨h1, h2⟩ := List.append_eq_nil.mp hrest
      refine ⟨he, h1, h2, ?_⟩
      rw [hworld, he, List.enum_length, List.take_length]
  obtain ⟨a1, a2, a3, a4, a5, a6, a7⟩ := key exec w0 steps s h
  refine ⟨a1, a2, a3, a4, a5, a6, a7, fun as t ht hd => ?_⟩
  obtain ⟨b1, b2, b3, b4, b5, b6, b7⟩ :=
    key (fun id number => (serial_task id number).1) 0 as t ht
  constructor
  · intro hws
    have hin : t.inhand = [(6, 6)] := by simp [System.inhand, hws, Worker.hand]
    rw [hin, hd] at b3
    have hlt : t.executed.length < 7 := by
      have := congrArg List.length b3
      simp only [List.length_append, List.length_singleton, List.enum_length,
        List.length_range] at this
      omega
    have hget : ((List.range 7).enum)[t.executed.length]? = some (6, 6) := by
      rw [← b3, List.append_assoc, List.getElem?_append_right (Nat.le_refl _)]
      simp
    rw [List.getElem?_enum, List.getElem?_range hlt] at hget
    simp only [Option.map_some', Option.some.injEq, Prod.mk.injEq] at hget
    rw [b5, hd, hget.1]
    rfl
  · intro h6
    obtain ⟨-, -, -, e⟩ := b7 6 h6 (by rw [hd]; rfl)
    rw [e, hd]
    rfl

/-- C22, evaluated on an execution of the test: seven tasks, the worker interleaved,
then `get()` on the last future. -/
theorem serial_queue_order_witness :
    ∃ s : System Nat Int,
      (SerialTaskQueue.new 0).run (fun id number => (serial_task id number).1)
        [.dispatch 0, .dispatch 1, .wake 0, .dispatch 2, .run 0, .wake 0, .dispatch 3,
         .dispatch 4, .run 0, .dispatch 5, .dispatch 6, .wake 0, .run 0, .wake 0, .run 0,
         .wake 0, .run 0, .wake 0, .run 0, .wake 0, .run 0, .await 6] = some s ∧
      s.world = 1 ∧ s.awaited = [6] ∧
      (s.workers.length = 1 ∧ s.inhand.length ≤ 1 ∧
      s.executed ++ s.inhand ++ s.q.queue = s.dispatched.enum ∧
      s.executed <+: s.dispatched.enum ∧
      s.world = (s.dispatched.take s.executed.length).foldl
        (fun w f => (serial_task f w).1) 0 ∧
      (∀ k : Nat, s.futures[k]? = some true → ∀ j : Nat, j ≤ k →
        s.futures[j]? = some true ∧
        ∃ f, s.dispatched[j]? = some f ∧ s.executed[j]? = some (j, f)) ∧
      (∀ k ∈ s.awaited, k + 1 = s.dispatched.length →
        s.executed = s.dispatched.enum ∧ s.inhand = [] ∧ s.q.queue = [] ∧
        s.world = s.dispatched.foldl (fun w f => (serial_task f w).1) 0) ∧
      (∀ (as : List (Step Nat)) (t : System Nat Int),
        (SerialTaskQueue.new 0).run (fun id number => (serial_task id number).1) as
          = some t →
        t.dispatched = List.range 7 →
        (t.workers = [.running (6, 6)] → serial_task 6 t.world = (1, 1)) ∧
        (6 ∈ t.awaited → t.world = 1))) :=
  ⟨⟨⟨[], false⟩, .ready, [.idle], 1, [true, true, true, true, true, true, true],
      [0, 1, 2, 3, 4, 5, 6], [6],
      [(0, 0), (1, 1), (2, 2), (3, 3), (4, 4), (5, 5), (6, 6)]⟩, rfl, rfl, rfl,
    serial_queue_order (fun id number => (serial_task id number).1) 0
      [.dispatch 0, .dispatch 1, .wake 0, .dispatch 2, .run 0, .wake 0, .dispatch 3,
       .dispatch 4, .run 0, .dispatch 5, .dispatch 6, .wake 0, .run 0, .wake 0, .run 0,
       .wake 0, .run 0, .wake 0, .run 0, .wake 0, .run 0, .await 6] _ (by rfl)⟩

/-- One step appends the task it takes off the queue to the tasks taken so far, and
these followed by the queue stay equal to the dispatched tasks. -/
theorem System.pool_step_taken {exec : τ → σ → σ} {w0 : σ} {s t : System τ σ} {a : Step τ}
    (hi : System.Inv exec w0 s) (T : List (Nat × τ))
    (ho : T ++ s.q.queue = s.dispatched.enum) (h : s.step exec a = some t) :
    (T ++ s.pulled exec a) ++ t.q.queue = t.dispatched.enum := by
  have hlen := hi.futures_length
  unfold System.pulled
  rw [h]
  obtain ⟨⟨queue, destroyed⟩, owner, workers, world, futures, dispatched, awaited, executed⟩ := s
  simp only at ho hlen
  cases a with
  | dispatch f =>
    cases owner <;> simp only [System.step] at h <;> try cases h
    simp only [dispatch, List.append_nil]
    rw [enum_concat, ← ho, hlen, List.append_assoc]
  | await id =>
    cases owner <;> simp only [System.step] at h <;> try cases h
    split_ifs at h
    cases h
    simpa using ho
  | destroy =>
    cases owner <;> simp only [System.step] at h <;> try cases h
    simp only [destroy, assert, Option.bind_eq_bind, Option.pure_def] at h
    split_ifs at h <;> simp at h
    subst h
    simpa using ho
  | join =>
    cases owner <;> simp only [System.step] at h <;> try cases h
    split_ifs at h
    cases h
    simpa using ho
  | wake i =>
    simp only [System.step] at h
    split at h
    · rename_i hw
      have hlt : i < workers.length := by
        by_contra hc
        rw [List.getElem?_eq_none (by omega)] at hw
        cases hw
      split_ifs at h with hp hd
      · cases h
        simp only [List.getElem?_set_self hlt, Option.toList, List.flatMap_cons,
          List.flatMap_nil, Worker.hand, List.append_nil]
        exact ho
      · simp only [work_take, Option.bind_eq_bind, Option.pure_def] at h
        cases queue with
        | nil => simp at h
        | cons task rest =>
          simp only [Option.some_bind, Option.some.injEq] at h
          subst h
          simp only [List.getElem?_set_self hlt, Option.toList, List.flatMap_cons,
            List.flatMap_nil, Worker.hand, List.append_nil]
          rw [← ho]
          simp
    · cases h
  | run i =>
    simp only [System.step] at h
    split at h
    · cases h
      simpa using ho
    · cases h

theorem System.pool_run_taken {exec : τ → σ → σ} {w0 : σ} (as : List (Step τ)) :
    ∀ {s t : System τ σ} (T : List (Nat × τ)), System.Inv exec w0 s →
      T ++ s.q.queue = s.dispatched.enum → s.run exec as = some t →
      (T ++ s.taken exec as) ++ t.q.queue = t.dispatched.enum := by
  induction as with
  | nil =>
    intro s t T _ ho h
    cases h
    simpa [System.taken] using ho
  | cons a as ih =>
    intro s t T hi ho h
    simp only [System.run] at h
    cases h1 : s.step exec a with
    | none => rw [h1] at h; cases h
    | some s1 =>
      rw [h1] at h
      have := ih (T ++ s.pulled exec a) (System.pool_step_inv hi h1)
        (System.pool_step_taken hi T ho h1) h
      simp only [System.taken, h1]
      rw [← List.append_assoc]
      exact this

/-- C23. FIFO pull. In every execution of a `TaskQueue` with any number of workers,
the tasks taken off the queue, in the order in which they were taken, followed by the
queued tasks, are the dispatched tasks in dispatch order, each with the index of its
future: the `i`-th task taken, by whichever worker, is the `i`-th task dispatched. The
tasks taken are, up to order, the executed tasks and those in the hands of workers.
Completions are not ordered: with two workers and two tasks taken in dispatch order,
there is an execution in which the second task completes first and one in which the
first does. -/
theorem fifo_pull (exec : τ → σ → σ) (w0 : σ) (threads : Nat) (steps : List (Step τ))
    (s : System τ σ) (h : (System.init threads w0).run exec steps = some s) :
    (System.init threads w0).taken exec steps ++ s.q.queue = s.dispatched.enum ∧
    (System.init threads w0).taken exec steps <+: s.dispatched.enum ∧
    (∀ (i : Nat) (task : Nat × τ),
      ((System.init threads w0).taken exec steps)[i]? = some task →
      task.1 = i ∧ s.dispatched[i]? = some task.2) ∧
    ((System.init threads w0).taken exec steps).Perm (s.executed ++ s.inhand) ∧
    (∀ f g : τ, ∃ t u : System τ σ,
      (System.init 2 w0).run exec
        [.dispatch f, .dispatch g, .wake 0, .wake 1, .run 1, .run 0] = some t ∧
      (System.init 2 w0).taken exec
        [.dispatch f, .dispatch g, .wake 0, .wake 1, .run 1, .run 0] = [(0, f), (1, g)] ∧
      t.executed = [(1, g), (0, f)] ∧
      (System.init 2 w0).run exec
        [.dispatch f, .dispatch g, .wake 0, .wake 1, .run 0, .run 1] = some u ∧
      (System.init 2 w0).taken exec
        [.dispatch f, .dispatch g, .wake 0, .wake 1, .run 0, .run 1] = [(0, f), (1, g)] ∧
      u.executed = [(0, f), (1, g)]) := by
  have hi := System.pool_reach_inv h
  have ht := System.pool_run_taken steps (s := System.init threads w0) []
    (System.pool_init_inv exec threads w0) rfl h
  rw [List.nil_append] at ht
  have hpre : (System.init threads w0).taken exec steps <+: s.dispatched.enum := ⟨_, ht⟩
  refine ⟨ht, hpre, fun i task hget => ?_, ?_, fun f g => ⟨_, _, rfl, rfl, rfl, rfl, rfl, rfl⟩⟩
  · have hlt : i < ((System.init threads w0).taken exec steps).length := by
      by_contra hc
      rw [List.getElem?_eq_none (by omega)] at hget
      cases hget
    rw [prefix_enum_getElem? hpre i, if_pos hlt] at hget
    cases hl : s.dispatched[i]? with
    | none => rw [hl] at hget; cases hget
    | some a =>
      rw [hl] at hget
      simp only [Option.map_some', Option.some.injEq] at hget
      subst hget
      exact ⟨rfl, rfl⟩
  · have hp := hi.perm
    rw [← ht] at hp
    exact ((List.perm_append_right_iff _).mp hp).symm

/-- C23, evaluated on an execution with two workers: the tasks are taken in dispatch
order and the second one completes first. -/
theorem fifo_pull_witness :
    ∃ s : System Int Int,
      (System.init 2 0).run (fun f number => number + f)
        [.dispatch 1, .dispatch (-1), .wake 1, .dispatch 1, .wake 0, .run 0, .wake 0, .run 1]
        = some s ∧
      (System.init 2 (0 : Int)).taken (fun f number => number + f)
        [.dispatch 1, .dispatch (-1), .wake 1, .dispatch 1, .wake 0, .run 0, .wake 0, .run 1]
        = [(0, 1), (1, -1), (2, 1)] ∧
      s.executed = [(1, -1), (0, 1)] ∧
      ((System.init 2 (0 : Int)).taken (fun f number => number + f)
          [.dispatch 1, .dispatch (-1), .wake 1, .dispatch 1, .wake 0, .run 0, .wake 0,
           .run 1] ++ s.q.queue = s.dispatched.enum ∧
      (System.init 2 (0 : Int)).taken (fun f number => number + f)
          [.dispatch 1, .dispatch (-1), .wake 1, .dispatch 1, .wake 0, .run 0, .wake 0,
           .run 1] <+: s.dispatched.enum ∧
      (∀ (i : Nat) (task : Nat × Int),
        ((System.init 2 (0 : Int)).taken (fun f number => number + f)
          [.dispatch 1, .dispatch (-1), .wake 1, .dispatch 1, .wake 0, .run 0, .wake 0,
           .run 1])[i]? = some task →
        task.1 = i ∧ s.dispatched[i]? = some task.2) ∧
      ((System.init 2 (0 : Int)).taken (fun f number => number + f)
          [.dispatch 1, .dispatch (-1), .wake 1, .dispatch 1, .wake 0, .run 0, .wake 0,
           .run 1]).Perm (s.executed ++ s.inhand) ∧
      (∀ f g : Int, ∃ t u : System Int Int,
        (System.init 2 0).run (fun f number => number + f)
          [.dispatch f, .dispatch g, .wake 0, .wake 1, .run 1, .run 0] = some t ∧
        (System.init 2 (0 : Int)).taken (fun f number => number + f)
          [.dispatch f, .dispatch g, .wake 0, .wake 1, .run 1, .run 0] = [(0, f), (1, g)] ∧
        t.executed = [(1, g), (0, f)] ∧
        (System.init 2 0).run (fun f number => number + f)
          [.dispatch f, .dispatch g, .wake 0, .wake 1, .run 0, .run 1] = some u ∧
        (System.init 2 (0 : Int)).taken (fun f number => number + f)
          [.dispatch f, .dispatch g, .wake 0, .wake 1, .run 0, .run 1] = [(0, f), (1, g)] ∧
        u.executed = [(0, f), (1, g)])) :=
  ⟨⟨⟨[], false⟩, .ready, [.running (2, 1), .idle], 0, [true, true, false], [1, -1, 1], [],
      [(1, -1), (0, 1)]⟩, rfl, rfl, rfl,
    fifo_pull (fun f number => number + f) 0 2
      [.dispatch 1, .dispatch (-1), .wake 1, .dispatch 1, .wake 0, .run 0, .wake 0, .run 1] _
      (by rfl)⟩

end TaskQueue

/-! ## The claim on the tokens of `DataMutex` -/

namespace DataMutex

variable {T : Type}

theorem unlocks_set (l : List MutexGuard) :
    ∀ (i : Nat) (g g1 : MutexGuard), l[i]? = some g →
      ((l.set i g1).map MutexGuard.unlocks).sum + g.unlocks
        = (l.map MutexGuard.unlocks).sum + g1.unlocks := by
  induction l with
  | nil => intro i g g1 h; simp at h
  | cons a l ih =>
    intro i g g1 h
    cases i with
    | zero =>
      simp only [List.getElem?_cons_zero, Option.some.injEq] at h
      subst h
      simp only [List.set_cons_zero, List.map_cons, List.sum_cons]
      omega
    | succ i =>
      simp only [List.getElem?_cons_succ] at h
      simp only [List.set_cons_succ, List.map_cons, List.sum_cons]
      have := ih i g g1 h
      omega

theorem unlocks_eraseIdx (l : List MutexGuard) :
    ∀ (i : Nat) (g : MutexGuard), l[i]? = some g →
      ((l.eraseIdx i).map MutexGuard.unlocks).sum + g.unlocks
        = (l.map MutexGuard.unlocks).sum := by
  induction l with
  | nil => intro i g h; simp at h
  | cons a l ih =>
    intro i g h
    cases i with
    | zero =>
      simp only [List.getElem?_cons_zero, Option.some.injEq] at h
      subst h
      simp only [List.eraseIdx_cons_zero, List.map_cons, List.sum_cons]
      omega
    | succ i =>
      simp only [List.getElem?_cons_succ] at h
      simp only [List.eraseIdx_cons_succ, List.map_cons, List.sum_cons]
      have := ih i g h
      omega

theorem Scope.token_step_inv {d : T} {s t : Scope T} {a : Op} (hi : Scope.Inv d s)
    (h : s.step a = some t) : Scope.Inv d t := by
  obtain ⟨h1, h2, h3⟩ := hi
  cases a with
  | move i =>
    simp only [Scope.step] at h
    split at h
    · rename_i other hg
      cases h
      have := unlocks_set s.guards i other ⟨false⟩ hg
      refine ⟨?_, h2, h3⟩
      simp only [MutexGuard.move, List.map_append, List.sum_append, List.map_cons,
        List.map_nil, List.sum_cons, List.sum_nil]
      simp only [MutexGuard.unlocks] at this ⊢
      simp only [Bool.false_eq_true, if_false] at this
      omega
    · cases h
  | drop i =>
    simp only [Scope.step] at h
    split at h
    · rename_i guard hg
      cases h
      have := unlocks_eraseIdx s.guards i guard hg
      refine ⟨by simp only; omega, ?_, ?_⟩
      · obtain ⟨owner⟩ := guard
        cases owner
        · simp [MutexGuard.drop, MutexGuard.unlocks, h2]
        · simp [MutexGuard.drop, MutexGuard.unlocks]
      · simp only [MutexGuard.drop]
        split <;> exact h3
    · cases h

theorem Scope.token_run_inv {d : T} (as : List Op) :
    ∀ {s t : Scope T}, Scope.Inv d s → s.run as = some t → Scope.Inv d t := by
  induction as with
  | nil => intro s t hi h; cases h; exact hi
  | cons a as ih =>
    intro s t hi h
    simp only [Scope.run] at h
    cases h1 : s.step a with
    | none => rw [h1] at h; cases h
    | some s1 =>
      rw [h1] at h
      exact ih (Scope.token_step_inv hi h1) h

theorem Scope.lock_free (m : DataMutex T) (h : m.mutex = false) :
    Scope.lock m = some ⟨{ m with mutex := true }, [⟨true⟩], 0⟩ ∧
    m.lock = some (⟨true⟩, { m with mutex := true }) := by
  constructor
  · simp [Scope.lock, guard, assert, h, Scope.run, Scope.step, MutexGuard.move,
      MutexGuard.drop, MutexGuard.unlocks]
  · rw [lock_eq, if_neg (by simp [h])]

/-- C24. A token releases exactly once. When the mutex is free, `lock()` returns a
token whose `owner` is set and leaves the mutex locked. After any sequence of moves and
destructions of tokens that follows: the `unlock()` calls made so far and those that
the destructors of the tokens still existing will make are exactly one in all; the
mutex is locked exactly when no `unlock()` was made, and that is exactly when a token
with `owner` set exists; once every token is destroyed the one `unlock()` has been made
and the mutex is free; the data is untouched. A move makes no `unlock()` and leaves the
mutex as it is, the new token takes the `owner` of the old one and the old one is left
with a null `owner`; destroying a token with a null `owner` makes no `unlock()` and
leaves the mutex as it is; destroying the token whose `owner` is set, the final holder,
makes the one `unlock()`, and every token left has a null `owner`. -/
theorem token_releases_once (m : DataMutex T) (hfree : m.mutex = false) (ops : List Op)
    (s : Scope T) (h : (Scope.lock m).bind (fun s0 => s0.run ops) = some s) :
    (∃ guard m1, m.lock = some (guard, m1) ∧ guard.owner = true ∧ m1.mutex = true ∧
      Scope.lock m = some ⟨m1, [guard], 0⟩) ∧
    s.unlocks + (s.guards.map MutexGuard.unlocks).sum = 1 ∧
    (s.cell.mutex = true ↔ s.unlocks = 0) ∧
    (s.unlocks = 0 ↔ ∃ guard ∈ s.guards, guard.owner = true) ∧
    (s.guards = [] → s.unlocks = 1 ∧ s.cell.mutex = false) ∧
    s.cell.data = m.data ∧
    (∀ i t, s.step (.move i) = some t →
      t.cell = s.cell ∧ t.unlocks = s.unlocks ∧
      ∃ other, s.guards[i]? = some other ∧ t.guards[i]? = some ⟨false⟩ ∧
        t.guards.getLast? = some other) ∧
    (∀ i t guard, s.step (.drop i) = some t → s.guards[i]? = some guard →
      (guard.owner = false → t.cell = s.cell ∧ t.unlocks = s.unlocks) ∧
      (guard.owner = true → s.cell.mutex = true ∧ s.unlocks = 0 ∧ t.cell.mutex = false ∧
        t.unlocks = 1 ∧ ∀ left ∈ t.guards, left.owner = false)) ∧
    (∀ (other : MutexGuard) (m1 : DataMutex T),
      (MutexGuard.move other).1.owner = other.owner ∧
      (MutexGuard.move other).2.owner = false ∧
      MutexGuard.drop (MutexGuard.move other).2 m1 = m1) := by
  obtain ⟨hl1, hl2⟩ := Scope.lock_free m hfree
  rw [hl1, Option.some_bind] at h
  have hi0 : Scope.Inv m.data (⟨{ m with mutex := true }, [⟨true⟩], 0⟩ : Scope T) :=
    ⟨by simp [MutexGuard.unlocks], by simp, rfl⟩
  have hi := Scope.token_run_inv ops hi0 h
  have hzero : ∀ {u : Scope T}, Scope.Inv m.data u →
      (u.unlocks = 0 ↔ ∃ guard ∈ u.guards, guard.owner = true) := by
    intro u hu
    have hsum : ∀ l : List MutexGuard,
        (l.map MutexGuard.unlocks).sum = 0 ↔ ∀ guard ∈ l, guard.owner = false := by
      intro l
      induction l with
      | nil => simp
      | cons a l ih =>
        obtain ⟨owner⟩ := a
        cases owner <;> simp [MutexGuard.unlocks, ih]
    have hle : ∀ l : List MutexGuard, (∀ guard ∈ l, guard.owner = false) ∨
        ∃ guard ∈ l, guard.owner = true := by
      intro l
      by_cases hc : ∃ guard ∈ l, guard.owner = true
      · exact Or.inr hc
      · left
        intro guard hg
        cases ho : guard.owner
        · rfl
        · exact absurd ⟨guard, hg, ho⟩ hc
    have h1 := hu.once
    constructor
    · intro h0
      rcases hle u.guards with hall | hex
      · have := (hsum u.guards).mpr hall
        omega
      · exact hex
    · rintro ⟨guard, hg, ho⟩
      by_contra hne
      have hs0 : (u.guards.map MutexGuard.unlocks).sum = 0 := by omega
      have := (hsum u.guards).mp hs0 guard hg
      rw [ho] at this
      cases this
  refine ⟨⟨_, _, hl2, rfl, rfl, hl1⟩, hi.once, ?_, hzero hi, fun hg => ?_, hi.data,
    fun i t ht => ?_, fun i t guard ht hg => ?_, fun other m1 => ⟨rfl, rfl, rfl⟩⟩
  · rw [hi.mutex]; simp
  · have h1 := hi.once
    rw [hg] at h1
    simp only [List.map_nil, List.sum_nil, Nat.add_zero] at h1
    refine ⟨h1, ?_⟩
    rw [hi.mutex, h1]
    rfl
  · simp only [Scope.step] at ht
    split at ht
    · rename_i other hg
      cases ht
      have hlt : i < s.guards.length := by
        by_contra hc
        rw [List.getElem?_eq_none (by omega)] at hg
        cases hg
      refine ⟨rfl, rfl, other, hg, ?_, ?_⟩
      · simp only [MutexGuard.move]
        rw [List.getElem?_append_left (by rw [List.length_set]; exact hlt),
          List.getElem?_set_self hlt]
      · simp [MutexGuard.move]
    · cases ht
  · have hit := Scope.token_step_inv hi ht
    simp only [Scope.step, hg, Option.some.injEq] at ht
    subst ht
    constructor
    · intro ho
      simp [MutexGuard.drop, MutexGuard.unlocks, ho]
    · intro ho
      have hs0 : s.unlocks = 0 := (hzero hi).mpr ⟨guard, List.mem_iff_getElem?.mpr ⟨i, hg⟩, ho⟩
      have hm : s.cell.mutex = true := by rw [hi.mutex, hs0]; rfl
      have ht1 : s.unlocks + guard.unlocks = 1 := by simp [hs0, MutexGuard.unlocks, ho]
      refine ⟨hm, hs0, by simp [MutexGuard.drop, ho], ht1, fun left hleft => ?_⟩
      cases hlo : left.owner
      · rfl
      · have := (hzero hit).mpr ⟨left, hleft, hlo⟩
        simp only at this
        omega

/-- C24, evaluated: the token is moved twice, the two moved-from tokens are destroyed,
then the final holder. -/
theorem token_releases_once_witness :
    ∃ s : Scope Int,
      (Scope.lock (new (5 : Int))).bind
        (fun s0 => s0.run [.move 0, .move 1, .drop 0, .drop 0, .drop 0]) = some s ∧
      s.guards = [] ∧ s.unlocks = 1 ∧ s.cell.mutex = false ∧
      ((∃ guard m1, (new (5 : Int)).lock = some (guard, m1) ∧ guard.owner = true ∧
        m1.mutex = true ∧ Scope.lock (new (5 : Int)) = some ⟨m1, [guard], 0⟩) ∧
      s.unlocks + (s.guards.map MutexGuard.unlocks).sum = 1 ∧
      (s.cell.mutex = true ↔ s.unlocks = 0) ∧
      (s.unlocks = 0 ↔ ∃ guard ∈ s.guards, guard.owner = true) ∧
      (s.guards = [] → s.unlocks = 1 ∧ s.cell.mutex = false) ∧
      s.cell.data = (new (5 : Int)).data ∧
      (∀ i t, s.step (.move i) = some t →
        t.cell = s.cell ∧ t.unlocks = s.unlocks ∧
        ∃ other, s.guards[i]? = some other ∧ t.guards[i]? = some ⟨false⟩ ∧
          t.guards.getLast? = some other) ∧
      (∀ i t guard, s.step (.drop i) = some t → s.guards[i]? = some guard →
        (guard.owner = false → t.cell = s.cell ∧ t.unlocks = s.unlocks) ∧
        (guard.owner = true → s.cell.mutex = true ∧ s.unlocks = 0 ∧ t.cell.mutex = false ∧
          t.unlocks = 1 ∧ ∀ left ∈ t.guards, left.owner = false)) ∧
      (∀ (other : MutexGuard) (m1 : DataMutex Int),
        (MutexGuard.move other).1.owner = other.owner ∧
        (MutexGuard.move other).2.owner = false ∧
        MutexGuard.drop (MutexGuard.move other).2 m1 = m1)) :=
  ⟨⟨⟨false, 5⟩, [], 1⟩, rfl, rfl, rfl, rfl,
    token_releases_once (new (5 : Int)) rfl [.move 0, .move 1, .drop 0, .drop 0, .drop 0] _
      (by rfl)⟩

end DataMutex

end Muzuka
